import Mathlib

/-!
# Instrumented sorting engines: a shallow embedding

The development embeds the "contemporary" sorting engines of the repository
(`src/contemporary/*.cpp`) together with the instrumentation counter of
`src/contemporary/sorting_algorithms.h`, the conventional insertion sort
(`src/conventional/insertion_sort.cpp`) and the Tim sort routine over
`(key, originalPos)` records that the stability test of `src/main.cpp` runs.

Modelling conventions, used throughout:

* a `std::vector<int>` is a `List Int`; a read `arr[i]` is `arr.getD i 0` and a
  write `arr[i] = v` is `arr.set i v`.  Every theorem that relies on a read or a
  write establishes that the index is in range;
* `int` values are mathematical integers: the engines only compare and copy them;
  the two engines that use a magic value (`INT_MAX`, `-1`) name it explicitly;
* the counters `comparisons` and `assignments` (`long long`) are integers, and
  `memoryUsage` (`size_t`) is a natural number.  The engines only count their own
  steps from zero, which stays far inside the range; `SortStats::merge`, which
  takes arbitrary counters, adds in 64-bit arithmetic (signed overflow has no
  defined behaviour in the source language; the model takes the two's complement
  wrap-around of the hardware addition);
* an ascending `for (i = a; i < b; i++)` loop is a left fold over
  `List.range' a (b - a)`; a descending loop is a fold over the reversed range;
* a `while` loop, or a recursion that is not structural, is a function that is
  structurally recursive in a fuel argument.  Where the source gives an evident
  bound the model passes that bound as fuel, and the section on fuel shows that
  the bound is never exhausted; the two engines whose outer loop has no evident
  bound (comb sort, cocktail sort) return an `Option` and take the fuel as a
  parameter, and their theorems exhibit a fuel that gives a result;
* a loop `for (x = 0; x < n; x += step)` is a fold over the `strideCount n step`
  multiples of `step`;
* library sort can write one slot past the end of its gapped array; its model
  returns `none` for such a run, which the source language leaves undefined;
* `static_cast<int>(std::log2(n))` and `std::ceil(std::log2(n))` are modelled by
  the exact integer logarithms `floorLog2` and `ceilLog2`, and `gap / 1.3` by the
  exact rational quotient, which the floating point computation agrees with on
  the `int` range (the section on the double-precision quotient proves it).
-/

/-! ## Instrumentation counter (`sorting_algorithms.h`) -/

/-- Performance counter of `sorting_algorithms.h`: `struct SortStats`. -/
structure SortStats where
  comparisons : Int
  assignments : Int
  memoryUsage : Nat
deriving DecidableEq, Repr

namespace SortStats

/-- Default constructor `SortStats()`: all three fields are zero. -/
def zero : SortStats := ⟨0, 0, 0⟩

/-- Method `reset()`. -/
def reset (_s : SortStats) : SortStats := ⟨0, 0, 0⟩

/-- Largest `long long` value. -/
def LLONG_MAX : Int := 9223372036854775807

/-- Smallest `long long` value. -/
def LLONG_MIN : Int := -9223372036854775808

/-- Value that a `long long` variable holds after a computation whose mathematical result
is `x`: `x` itself when it is in the range, and otherwise the 64-bit two's complement
representative of `x` (signed overflow has no defined behaviour in the source language; this
is the result of the hardware addition). -/
def wrapLongLong (x : Int) : Int := (x + 2 ^ 63) % 2 ^ 64 - 2 ^ 63

/-- Method `merge(other)`: `comparisons += other.comparisons`,
`assignments += other.assignments` on `long long` fields, and the larger memory figure. -/
def merge (s other : SortStats) : SortStats :=
  { comparisons := wrapLongLong (s.comparisons + other.comparisons)
    assignments := wrapLongLong (s.assignments + other.assignments)
    memoryUsage := if other.memoryUsage > s.memoryUsage then other.memoryUsage else s.memoryUsage }

/-- Statement `stats.comparisons += k`. -/
def addCmp (s : SortStats) (k : Int) : SortStats := { s with comparisons := s.comparisons + k }

/-- Statement `stats.assignments += k`. -/
def addAsg (s : SortStats) (k : Int) : SortStats := { s with assignments := s.assignments + k }

/-- Statement `stats.memoryUsage += k`. -/
def addMem (s : SortStats) (k : Nat) : SortStats := { s with memoryUsage := s.memoryUsage + k }

/-- Statement `stats.memoryUsage = k`. -/
def setMem (s : SortStats) (k : Nat) : SortStats := { s with memoryUsage := k }

end SortStats

/-! ## Shared primitives -/

/-- The pair an engine threads through its loops: the vector and the counter. -/
abbrev SortState := List Int × SortStats

/-- Read `arr[i]`. -/
def rd (arr : List Int) (i : Nat) : Int := arr.getD i 0

/-- Exchange `std::swap(arr[i], arr[j])` (also the manual three-assignment exchange). -/
def swapAt (arr : List Int) (i j : Nat) : List Int :=
  (arr.set i (rd arr j)).set j (rd arr i)

/-- Size in bytes of an `int` (`sizeof(int)`). -/
def sizeofInt : Nat := 4

/-- Search used by `floorLog2`: the largest `h` with `2 ^ h ≤ n`, counting up from `h`. -/
def floorLog2Aux (n : Nat) : Nat → Nat → Nat
  | 0, h => h
  | fuel + 1, h => if 2 ^ (h + 1) ≤ n then floorLog2Aux n fuel (h + 1) else h

/-- Value of `static_cast<int>(std::log2(n))` for `n ≥ 1`: the floor of the binary logarithm. -/
def floorLog2 (n : Nat) : Nat := floorLog2Aux n n 0

/-- Search used by `ceilLog2`: the least `h` with `n ≤ 2 ^ h`, counting up from `h`. -/
def ceilLog2Aux (n : Nat) : Nat → Nat → Nat
  | 0, h => h
  | fuel + 1, h => if 2 ^ h < n then ceilLog2Aux n fuel (h + 1) else h

/-- Value of `static_cast<int>(std::ceil(std::log2(n)))` for `n ≥ 1`. -/
def ceilLog2 (n : Nat) : Nat := ceilLog2Aux n n 0

/-- Utility `isSorted` of `sorting_algorithms.h`: no position `i ≥ 1` has `arr[i] < arr[i-1]`. -/
def isSorted (arr : List Int) : Bool :=
  (List.range' 1 (arr.length - 1)).all (fun i => !(decide (rd arr i < rd arr (i - 1))))

/-! ## Introsort (`intro_sort.cpp`) -/

namespace IntroSort

/-- Inner `while (j >= begin)` loop of `insertionSort`.  The recursion argument is
`j + 1` (so `0` stands for `j = -1`); the returned index is the final `j + 1`. -/
def insertionShift (begin : Nat) (key : Int) : Nat → List Int → SortStats → Nat × List Int × SortStats
  | 0, arr, stats => (0, arr, stats)
  | j + 1, arr, stats =>
    if begin ≤ j then
      if rd arr j > key then
        insertionShift begin key j (arr.set (j + 1) (rd arr j)) ((stats.addCmp 1).addAsg 1)
      else (j + 1, arr, stats.addCmp 1)
    else (j + 1, arr, stats)

/-- Body of the `for (i = begin + 1; i <= end; i++)` loop of `insertionSort`. -/
def insertionStep (begin : Nat) (s : SortState) (i : Nat) : SortState :=
  let key := rd s.1 i
  let r := insertionShift begin key i s.1 (s.2.addAsg 1)
  (r.2.1.set r.1 key, r.2.2.addAsg 1)

/-- Function `IntroSort::insertionSort(arr, begin, end, stats)`. -/
def insertionSort (arr : List Int) (begin end_ : Nat) (stats : SortStats) : SortState :=
  (List.range' (begin + 1) (end_ - begin)).foldl (insertionStep begin) (arr, stats)

/-- Function `IntroSort::heapify(arr, begin, end, i, stats)`; the recursion on `largest` is
bounded by the fuel. -/
def heapifyFuel : Nat → List Int → Nat → Nat → Nat → SortStats → SortState
  | 0, arr, _, _, _, stats => (arr, stats)
  | fuel + 1, arr, begin, end_, i, stats =>
    let left := 2 * (i - begin) + 1 + begin
    let right := 2 * (i - begin) + 2 + begin
    let l1 := if left ≤ end_ ∧ rd arr left > rd arr i then left else i
    let s1 := if left ≤ end_ then stats.addCmp 1 else stats
    let l2 := if right ≤ end_ ∧ rd arr right > rd arr l1 then right else l1
    let s2 := if right ≤ end_ then s1.addCmp 1 else s1
    if l2 ≠ i then heapifyFuel fuel (swapAt arr i l2) begin end_ l2 (s2.addAsg 3)
    else (arr, s2)

/-- Function `IntroSort::heapify`: every recursive call moves `i` strictly towards `end`, so
`end + 1 - i` calls suffice. -/
def heapify (arr : List Int) (begin end_ i : Nat) (stats : SortStats) : SortState :=
  heapifyFuel (end_ + 1 - i) arr begin end_ i stats

/-- Body of the extraction loop `for (i = end; i > begin; i--)` of `heapSort`. -/
def heapExtract (begin : Nat) (s : SortState) (i : Nat) : SortState :=
  heapify (swapAt s.1 begin i) begin (i - 1) begin (s.2.addAsg 3)

/-- Function `IntroSort::heapSort(arr, begin, end, stats)`. -/
def heapSort (arr : List Int) (begin end_ : Nat) (stats : SortStats) : SortState :=
  let size := end_ - begin + 1
  let built := (List.range' begin (size / 2)).reverse.foldl
    (fun s i => heapify s.1 begin end_ i s.2) (arr, stats)
  (List.range' (begin + 1) (end_ - begin)).reverse.foldl (heapExtract begin) built

/-- Function `IntroSort::medianOfThree(arr, begin, mid, end, stats)`: the index chosen by the
six-branch decision tree (the counter gets three comparisons at the call site). -/
def medianOfThree (arr : List Int) (begin mid end_ : Nat) : Nat :=
  if rd arr begin < rd arr mid then
    if rd arr mid < rd arr end_ then mid
    else if rd arr begin < rd arr end_ then end_
    else begin
  else
    if rd arr begin < rd arr end_ then begin
    else if rd arr mid < rd arr end_ then end_
    else mid

/-- Body of the `for (j = begin; j < end; j++)` loop of `partition`.  The first component of
the state is the source's `i + 1` (the source starts `i` at `begin - 1`). -/
def partitionStep (pivotValue : Int) (s : Nat × SortState) (j : Nat) : Nat × SortState :=
  if rd s.2.1 j ≤ pivotValue then
    (s.1 + 1, swapAt s.2.1 s.1 j, (s.2.2.addCmp 1).addAsg 3)
  else (s.1, s.2.1, s.2.2.addCmp 1)

/-- Function `IntroSort::partition(arr, begin, end, stats)`: returns the final pivot index
and the new state. -/
def partition (arr : List Int) (begin end_ : Nat) (stats : SortStats) : Nat × SortState :=
  let mid := begin + (end_ - begin) / 2
  let pivotIndex := medianOfThree arr begin mid end_
  let pivotValue := rd arr pivotIndex
  let arr1 := swapAt arr pivotIndex end_
  let r := (List.range' begin (end_ - begin)).foldl (partitionStep pivotValue)
    (begin, arr1, (stats.addCmp 3).addAsg 3)
  (r.1, swapAt r.2.1 r.1 end_, r.2.2.addAsg 3)

/-- Function `IntroSort::introSortUtil(arr, begin, end, depthLimit, stats)`; the recursion is
structural in `depthLimit`, which every recursive call decreases by one. -/
def introSortUtil : Nat → List Int → Nat → Nat → SortStats → SortState
  | depthLimit, arr, begin, end_, stats =>
    if end_ + 1 - begin < 16 then insertionSort arr begin end_ stats
    else
      match depthLimit with
      | 0 => heapSort arr begin end_ stats
      | d + 1 =>
        let p := partition arr begin end_ stats
        let s1 := if p.1 > begin then introSortUtil d p.2.1 begin (p.1 - 1) p.2.2 else p.2
        if p.1 < end_ then introSortUtil d s1.1 (p.1 + 1) end_ s1.2 else s1

/-- Function `IntroSort::sort(arr)`: the sorted vector and the returned counter. -/
def sort (arr : List Int) : SortState :=
  let n := arr.length
  if n ≤ 1 then (arr, SortStats.zero)
  else introSortUtil (2 * floorLog2 n) arr 0 (n - 1) SortStats.zero

end IntroSort

/-! ## Tim sort (`tim_sort.cpp`) -/

namespace TimSort

/-- Constant `TimSort::MIN_RUN` of `tim_sort.h`. -/
def MIN_RUN : Nat := 32

/-- Inner `while (j >= left)` loop of `insertionSort`.  The recursion argument is `j + 1`
(so `0` stands for `j = -1`); the returned index is the final `j + 1`. -/
def insertionShift (left : Nat) (key : Int) : Nat → List Int → SortStats → Nat × List Int × SortStats
  | 0, arr, stats => (0, arr, stats)
  | j + 1, arr, stats =>
    if left ≤ j then
      if rd arr j > key then
        insertionShift left key j (arr.set (j + 1) (rd arr j)) ((stats.addCmp 1).addAsg 1)
      else (j + 1, arr, stats.addCmp 1)
    else (j + 1, arr, stats)

/-- Body of the `for (i = left + 1; i <= right; i++)` loop of `insertionSort`. -/
def insertionStep (left : Nat) (s : SortState) (i : Nat) : SortState :=
  let key := rd s.1 i
  let r := insertionShift left key i s.1 (s.2.addAsg 1)
  (r.2.1.set r.1 key, r.2.2.addAsg 1)

/-- Function `TimSort::insertionSort(arr, left, right, stats)`. -/
def insertionSort (arr : List Int) (left right : Nat) (stats : SortStats) : SortState :=
  (List.range' (left + 1) (right - left)).foldl (insertionStep left) (arr, stats)

/-- Copy loop `for (i = 0; i < len; i++) tmp[i] = arr[off + i]` into a fresh vector
`std::vector<int> tmp(len)`. -/
def copyRun (arr : List Int) (off len : Nat) : List Int :=
  (List.range' 0 len).foldl (fun tmp i => tmp.set i (rd arr (off + i))) (List.replicate len 0)

/-- Main loop `while (i < len1 && j < len2)` of `merge`; the state is `(i, j, k)` and the
fuel bounds the number of iterations (each one advances `i` or `j`). -/
def mergeLoop (left right : List Int) :
    Nat → Nat → Nat → Nat → List Int → SortStats → Nat × Nat × Nat × List Int × SortStats
  | 0, i, j, k, arr, stats => (i, j, k, arr, stats)
  | fuel + 1, i, j, k, arr, stats =>
    if i < left.length ∧ j < right.length then
      if rd left i ≤ rd right j then
        mergeLoop left right fuel (i + 1) j (k + 1) (arr.set k (rd left i))
          ((stats.addCmp 1).addAsg 1)
      else
        mergeLoop left right fuel i (j + 1) (k + 1) (arr.set k (rd right j))
          ((stats.addCmp 1).addAsg 1)
    else (i, j, k, arr, stats)

/-- Drain loop `while (i < len) { arr[k] = src[i]; i++; k++; }` of `merge`: iteration `t`
copies `src[i + t]` to `arr[k + t]`. -/
def drain (src : List Int) (i k : Nat) (arr : List Int) (stats : SortStats) : SortState :=
  (List.range' 0 (src.length - i)).foldl
    (fun s t => (s.1.set (k + t) (rd src (i + t)), s.2.addAsg 1)) (arr, stats)

/-- Function `TimSort::merge(arr, l, m, r, stats)`. -/
def merge (arr : List Int) (l m r : Nat) (stats : SortStats) : SortState :=
  let len1 := m + 1 - l
  let len2 := r - m
  let left := copyRun arr l len1
  let right := copyRun arr (m + 1) len2
  let stats1 := ((stats.addMem ((len1 + len2) * sizeofInt)).addAsg len1).addAsg len2
  let s := mergeLoop left right (len1 + len2) 0 0 l arr stats1
  let d1 := drain left s.1 s.2.2.1 s.2.2.2.1 s.2.2.2.2
  drain right s.2.1 (s.2.2.1 + (left.length - s.1)) d1.1 d1.2

/-- Loop `while (n >= MIN_RUN) { r |= (n & 1); n >>= 1; }` of `calcMinRun`; the state is
`(n, r)`. -/
def calcMinRunLoop : Nat → Nat → Nat → Nat × Nat
  | 0, n, r => (n, r)
  | fuel + 1, n, r =>
    if MIN_RUN ≤ n then calcMinRunLoop fuel (n >>> 1) (r ||| (n &&& 1)) else (n, r)

/-- Function `TimSort::calcMinRun(n)`. -/
def calcMinRun (n : Nat) : Nat :=
  let s := calcMinRunLoop n n 0
  s.1 + s.2

/-- Number of iterations of `for (x = 0; x < n; x += step)`. -/
def strideCount (n step : Nat) : Nat := (n + step - 1) / step

/-- Body of the inner loop `for (left = 0; left < n; left += 2 * size)` of `sort`. -/
def mergePassStep (n size : Nat) (s : SortState) (left : Nat) : SortState :=
  let mid := left + size - 1
  let right := min (left + 2 * size - 1) (n - 1)
  if mid < right then merge s.1 left mid right s.2 else s

/-- Outer loop `for (size = minRun; size < n; size = 2 * size)` of `sort`; the fuel bounds
the number of doublings. -/
def mergePasses (n : Nat) : Nat → Nat → SortState → SortState
  | 0, _, s => s
  | fuel + 1, size, s =>
    if size < n then
      mergePasses n fuel (2 * size)
        ((List.range' 0 (strideCount n (2 * size)) (2 * size)).foldl (mergePassStep n size) s)
    else s

/-- Function `TimSort::sort(arr)`. -/
def sort (arr : List Int) : SortState :=
  let n := arr.length
  if n ≤ 1 then (arr, SortStats.zero)
  else
    let minRun := calcMinRun n
    let runs := (List.range' 0 (strideCount n minRun) minRun).foldl
      (fun s i => insertionSort s.1 i (min (i + minRun - 1) (n - 1)) s.2) (arr, SortStats.zero)
    mergePasses n n minRun runs

/-- Scan `while (i < n - 1 && arr[i] <= arr[i + 1]) i++` of `findNextRun` (ascending case);
returns the final `i` and the number of iterations. -/
def scanAscending (arr : List Int) (n : Nat) : Nat → Nat → Nat × Nat
  | 0, i => (i, 0)
  | fuel + 1, i =>
    if i + 1 < n ∧ rd arr i ≤ rd arr (i + 1) then
      let r := scanAscending arr n fuel (i + 1)
      (r.1, r.2 + 1)
    else (i, 0)

/-- Scan `while (i < n - 1 && arr[i] > arr[i + 1]) i++` of `findNextRun` (descending case). -/
def scanDescending (arr : List Int) (n : Nat) : Nat → Nat → Nat × Nat
  | 0, i => (i, 0)
  | fuel + 1, i =>
    if i + 1 < n ∧ rd arr i > rd arr (i + 1) then
      let r := scanDescending arr n fuel (i + 1)
      (r.1, r.2 + 1)
    else (i, 0)

/-- Function `TimSort::reverseRun(arr, start, end, stats)`. -/
def reverseRun : Nat → List Int → Nat → Nat → SortStats → SortState
  | 0, arr, _, _, stats => (arr, stats)
  | fuel + 1, arr, start, end_, stats =>
    if start < end_ then reverseRun fuel (swapAt arr start end_) (start + 1) (end_ - 1) (stats.addAsg 3)
    else (arr, stats)

/-- Function `TimSort::findNextRun(arr, start, n, stats)`: the end index of the run and the
new state. -/
def findNextRun (arr : List Int) (start n : Nat) (stats : SortStats) : Nat × SortState :=
  if n ≤ start + 1 then (start, arr, stats)
  else if rd arr start ≤ rd arr (start + 1) then
    let r := scanAscending arr n n (start + 1)
    (r.1, arr, stats.addCmp (1 + r.2))
  else
    let r := scanDescending arr n n (start + 1)
    let s := reverseRun n arr start r.1 (stats.addCmp (1 + r.2))
    (r.1, s)

end TimSort

/-! ## Tournament sort (`tournament_sort.cpp`) -/

namespace TournamentSort

/-- Value `std::numeric_limits<int>::max()`. -/
def INT_MAX : Int := 2147483647

/-- Tree node `struct Node` of `tournament_sort.h`. -/
structure Node where
  value : Int
  index : Int
  isValid : Bool
deriving DecidableEq, Repr

/-- Constructor `Node()`. -/
def Node.default : Node := ⟨0, -1, false⟩

/-- Constructor `Node(v, i)`. -/
def Node.mk2 (v : Int) (i : Int) : Node := ⟨v, i, true⟩

/-- Size in bytes of a `Node` (two `int` fields and a padded `bool`). -/
def sizeofNode : Nat := 12

/-- Read `tree[i]`. -/
def nd (tree : List Node) (i : Nat) : Node := tree.getD i Node.default

/-- Statements `tree[i].isValid = false; tree[i].value = INT_MAX;`. -/
def invalidate (tree : List Node) (i : Nat) : List Node :=
  tree.set i { nd tree i with isValid := false, value := INT_MAX }

/-- Function `TournamentSort::rebuildTree(tree, nodeIndex, stats)`; every call moves to the
parent, so `nodeIndex` calls suffice as fuel. -/
def rebuildTreeFuel : Nat → List Node → Nat → SortStats → List Node × SortStats
  | 0, tree, _, stats => (tree, stats)
  | fuel + 1, tree, nodeIndex, stats =>
    if nodeIndex = 0 then (tree, stats)
    else
      let parent := (nodeIndex - 1) / 2
      let sibling := if nodeIndex % 2 = 0 then nodeIndex - 1 else nodeIndex + 1
      let winner := if (nd tree nodeIndex).value ≤ (nd tree sibling).value then nd tree nodeIndex
        else nd tree sibling
      rebuildTreeFuel fuel (tree.set parent winner) parent ((stats.addCmp 1).addAsg 1)

/-- Function `TournamentSort::rebuildTree`. -/
def rebuildTree (tree : List Node) (nodeIndex : Nat) (stats : SortStats) : List Node × SortStats :=
  rebuildTreeFuel nodeIndex tree nodeIndex stats

/-- Function `TournamentSort::buildTournamentTree(arr, tree, stats)`. -/
def buildTournamentTree (arr : List Int) (tree : List Node) (stats : SortStats) :
    List Node × SortStats :=
  let n := arr.length
  let treeSize := tree.length
  let height := floorLog2 (treeSize + 1) - 1
  let leafStart := 2 ^ height - 1
  let s1 := (List.range' 0 n).foldl
    (fun (s : List Node × SortStats) i =>
      (s.1.set (leafStart + i) (Node.mk2 (rd arr i) i), s.2.addAsg 1)) (tree, stats)
  let s2 := (List.range' (leafStart + n) (treeSize - (leafStart + n))).foldl
    (fun (s : List Node × SortStats) i => (invalidate s.1 i, s.2.addAsg 2)) s1
  (List.range' 0 leafStart).reverse.foldl
    (fun (s : List Node × SortStats) i =>
      let winner := if (nd s.1 (2 * i + 1)).value ≤ (nd s.1 (2 * i + 2)).value
        then nd s.1 (2 * i + 1) else nd s.1 (2 * i + 2)
      (s.1.set i winner, (s.2.addCmp 1).addAsg 1)) s2

/-- Body of the extraction loop `for (i = 0; i < n; i++)` of `sort`; the state is the
result vector, the tree and the counter. -/
def extractStep (leafStart : Nat) (s : List Int × List Node × SortStats) (i : Nat) :
    List Int × List Node × SortStats :=
  let result := s.1.set i (nd s.2.1 0).value
  let leafIndex := ((leafStart : Int) + (nd s.2.1 0).index).toNat
  let tree1 := invalidate s.2.1 leafIndex
  let r := rebuildTree tree1 leafIndex (s.2.2.addAsg 3)
  (result, r.1, r.2)

/-- Function `TournamentSort::sort(arr)`. -/
def sort (arr : List Int) : SortState :=
  let n := arr.length
  if n ≤ 1 then (arr, SortStats.zero)
  else
    let height := ceilLog2 n
    let treeSize := 2 ^ (height + 1) - 1
    let leafStart := 2 ^ height - 1
    let tree := List.replicate treeSize Node.default
    let stats := (SortStats.zero.addMem (treeSize * sizeofNode)).addMem (n * sizeofInt)
    let built := buildTournamentTree arr tree stats
    let ex := (List.range' 0 n).foldl (extractStep leafStart)
      (List.replicate n 0, built.1, built.2)
    (List.range' 0 n).foldl
      (fun (s : SortState) i => (s.1.set i (rd ex.1 i), s.2.addAsg 1)) (arr, ex.2.2)

end TournamentSort

/-! ## Library sort (`library_sort.cpp`) -/

namespace LibrarySort

/-- Scan `while (x < high && gapped[x] == -1) x++` (used for `mid` and for `low`). -/
def skipUp (gapped : List Int) (high : Int) : Nat → Int → Int
  | 0, x => x
  | fuel + 1, x =>
    if x < high ∧ rd gapped x.toNat = -1 then skipUp gapped high fuel (x + 1) else x

/-- Scan `while (x > low && gapped[x] == -1) x--` (used for `mid` and for `high`). -/
def skipDown (gapped : List Int) (low : Int) : Nat → Int → Int
  | 0, x => x
  | fuel + 1, x =>
    if x > low ∧ rd gapped x.toNat = -1 then skipDown gapped low fuel (x - 1) else x

/-- Binary search loop `while (low <= high)` of `findPosition`.  The boolean of the result
tells whether the loop left through `return static_cast<size_t>(low)`; the integer is `low`. -/
def searchLoop (gapped : List Int) (key : Int) : Nat → Int → Int → SortStats → Bool × Int × SortStats
  | 0, low, _, stats => (false, low, stats)
  | fuel + 1, low, high, stats =>
    if low ≤ high then
      let mid0 := low + (high - low) / 2
      let mid1 := skipUp gapped high gapped.length mid0
      let mid := skipDown gapped low gapped.length mid1
      if rd gapped mid.toNat = -1 then (true, low, stats)
      else if rd gapped mid.toNat < key then
        searchLoop gapped key fuel (skipUp gapped high gapped.length (mid + 1)) high
          (stats.addCmp 1)
      else
        searchLoop gapped key fuel low (skipDown gapped low gapped.length (mid - 1))
          (stats.addCmp 1)
    else (false, low, stats)

/-- Final scan `while (pos < gapped.size() && gapped[pos] != -1 && gapped[pos] < key)` of
`findPosition`. -/
def scanPos (gapped : List Int) (key : Int) : Nat → Nat → SortStats → Nat × SortStats
  | 0, pos, stats => (pos, stats)
  | fuel + 1, pos, stats =>
    if pos < gapped.length ∧ rd gapped pos ≠ -1 ∧ rd gapped pos < key then
      scanPos gapped key fuel (pos + 1) (stats.addCmp 1)
    else (pos, stats)

/-- Function `LibrarySort::findPosition(gapped, key, stats)`. -/
def findPosition (gapped : List Int) (key : Int) (stats : SortStats) : Nat × SortStats :=
  let r := searchLoop gapped key (gapped.length + 1) 0 ((gapped.length : Int) - 1) stats
  if r.1 then (r.2.1.toNat, r.2.2)
  else scanPos gapped key gapped.length r.2.1.toNat r.2.2

/-- Scan `while (nextEmpty < gapped.size() && gapped[nextEmpty] != -1) nextEmpty++` of
`makeRoom`. -/
def nextEmptyFrom (gapped : List Int) : Nat → Nat → Nat
  | 0, x => x
  | fuel + 1, x =>
    if x < gapped.length ∧ rd gapped x ≠ -1 then nextEmptyFrom gapped fuel (x + 1) else x

/-- Function `LibrarySort::makeRoom(gapped, pos, stats)`.  The result is `none` when the
final write `gapped[pos] = -1` is out of range (`pos = gapped.size()`), which the source
language leaves undefined. -/
def makeRoom (gapped : List Int) (pos : Nat) (stats : SortStats) : Option SortState :=
  if pos < gapped.length ∧ rd gapped pos = -1 then some (gapped, stats)
  else
    let found := nextEmptyFrom gapped gapped.length pos
    let nextEmpty := if found ≥ gapped.length then gapped.length - 1 else found
    let s := (List.range' (pos + 1) (nextEmpty - pos)).reverse.foldl
      (fun (s : SortState) i => (s.1.set i (rd s.1 (i - 1)), s.2.addAsg 1)) (gapped, stats)
    if pos < gapped.length then some (s.1.set pos (-1), s.2) else none

/-- Function `LibrarySort::rebalance(gapped, elements, epsilon, stats)` at `epsilon = 1.0`,
the only value it is called with.  The result is `none` when `elements` is zero (division
by zero) or exceeds the number of occupied slots (read past the end of `temp`). -/
def rebalance (gapped : List Int) (elements : Nat) (stats : SortStats) : Option SortState :=
  let temp := gapped.filter (fun x => x ≠ -1)
  let newCapacity := (elements * 2) * 2
  let gap := newCapacity / elements
  if 0 < elements ∧ elements ≤ temp.length then
    some ((List.range' 0 elements).foldl
      (fun (s : SortState) i => (s.1.set (i * gap) (rd temp i), s.2.addAsg 1))
      (List.replicate newCapacity (-1), stats.setMem (newCapacity * sizeofInt)))
  else none

/-- State of the insertion loop of `sort`: the gapped array, `capacity`, `elements` and
the counter. -/
abbrev InsertState := List Int × Nat × Nat × SortStats

/-- Body of the loop `for (i = 1; i < arr.size(); i++)` of `sort`.  The result is `none`
when a write is out of range. -/
def insertStep (arr : List Int) (s : InsertState) (i : Nat) : Option InsertState :=
  let balanced : Option InsertState :=
    if s.2.2.1 ≥ s.2.1 / 2 then
      (rebalance s.1 s.2.2.1 s.2.2.2).map (fun r => (r.1, r.1.length, s.2.2.1, r.2))
    else some s
  balanced.bind (fun b =>
    let key := rd arr i
    let f := findPosition b.1 key b.2.2.2
    (makeRoom b.1 f.1 f.2).bind (fun m =>
      if f.1 < m.1.length then some (m.1.set f.1 key, b.2.1, b.2.2.1 + 1, m.2.addAsg 1)
      else none))

/-- Copy-back loop `for (i = 0; i < gapped.size(); i++)` of `sort`; the state is the
caller's vector, `index` and the counter. -/
def compact (gapped : List Int) (arr : List Int) (stats : SortStats) : List Int × Nat × SortStats :=
  (List.range' 0 gapped.length).foldl
    (fun (s : List Int × Nat × SortStats) i =>
      if rd gapped i ≠ -1 then (s.1.set s.2.1 (rd gapped i), s.2.1 + 1, s.2.2.addAsg 1) else s)
    (arr, 0, stats)

/-- Function `LibrarySort::sort(arr)`: `none` when the run performs an out-of-range write. -/
def sort (arr : List Int) : Option SortState :=
  if arr.isEmpty then some (arr, SortStats.zero)
  else
    let capacity := arr.length * 2
    let gapped := List.replicate capacity (-1 : Int)
    let stats := SortStats.zero.addMem (gapped.length * sizeofInt)
    let start : InsertState := (gapped.set 0 (rd arr 0), capacity, 1, stats.addAsg 1)
    ((List.range' 1 (arr.length - 1)).foldlM (insertStep arr) start).map (fun s =>
      let c := compact s.1 arr s.2.2.2
      (c.1, c.2.2))

end LibrarySort

/-! ## Comb sort (`comb_sort.cpp`) -/

namespace CombSort

/-- Function `CombSort::getNextGap(gap)`: `static_cast<int>(gap / 1.3)`, at least `1`. -/
def getNextGap (gap : Nat) : Nat :=
  let g := gap * 10 / 13
  if g < 1 then 1 else g

/-- Body of the loop `for (i = 0; i < n - gap; i++)`; the boolean is `swapped`. -/
def passStep (gap : Nat) (s : Bool × SortState) (i : Nat) : Bool × SortState :=
  if rd s.2.1 i > rd s.2.1 (i + gap) then
    (true, swapAt s.2.1 i (i + gap), (s.2.2.addCmp 1).addAsg 3)
  else (s.1, s.2.1, s.2.2.addCmp 1)

/-- One iteration of `while (gap > 1 || swapped)` for the already shrunk gap. -/
def pass (n gap : Nat) (s : SortState) : Bool × SortState :=
  (List.range' 0 (n - gap)).foldl (passStep gap) (false, s)

/-- Loop `while (gap > 1 || swapped)` of `sort`; `none` when the fuel runs out before the
loop exits. -/
def sortLoop (n : Nat) : Nat → Nat → Bool → SortState → Option SortState
  | 0, _, _, _ => none
  | fuel + 1, gap, swapped, s =>
    if gap > 1 ∨ swapped = true then
      let r := pass n (getNextGap gap) s
      sortLoop n fuel (getNextGap gap) r.1 r.2
    else some s

/-- Function `CombSort::sort(arr)`, run for at most `fuel` loop tests. -/
def sort (fuel : Nat) (arr : List Int) : Option SortState :=
  let n := arr.length
  if n ≤ 1 then some (arr, SortStats.zero)
  else sortLoop n fuel n true (arr, SortStats.zero)

end CombSort

/-! ## Cocktail sort (`cocktail_sort.cpp`) -/

namespace CocktailSort

/-- Body of both bubble passes: compare `arr[i]` with `arr[i + 1]` and exchange them when
out of order; the boolean is `swapped`. -/
def bubbleStep (s : Bool × SortState) (i : Nat) : Bool × SortState :=
  if rd s.2.1 i > rd s.2.1 (i + 1) then
    (true, swapAt s.2.1 i (i + 1), (s.2.2.addCmp 1).addAsg 3)
  else (s.1, s.2.1, s.2.2.addCmp 1)

/-- Forward pass `for (i = start; i < end; i++)`. -/
def forwardPass (start end_ : Nat) (s : SortState) : Bool × SortState :=
  (List.range' start (end_ - start)).foldl bubbleStep (false, s)

/-- Backward pass `for (i = end - 1; i >= start; i--)`. -/
def backwardPass (start end_ : Nat) (s : SortState) : Bool × SortState :=
  (List.range' start (end_ - start)).reverse.foldl bubbleStep (false, s)

/-- Loop `while (swapped)` of `sort`, entered with `swapped = true`; `none` when the fuel
runs out before the loop exits. -/
def sortLoop : Nat → Nat → Nat → SortState → Option SortState
  | 0, _, _, _ => none
  | fuel + 1, start, end_, s =>
    let f := forwardPass start end_ s
    if f.1 = false then some f.2
    else
      let b := backwardPass start (end_ - 1) f.2
      if b.1 = true then sortLoop fuel (start + 1) (end_ - 1) b.2 else some b.2

/-- Function `CocktailSort::sort(arr)`, run for at most `fuel` iterations of the loop. -/
def sort (fuel : Nat) (arr : List Int) : Option SortState :=
  let n := arr.length
  if n ≤ 1 then some (arr, SortStats.zero)
  else sortLoop fuel 0 (n - 1) (arr, SortStats.zero)

end CocktailSort

/-! ## Insertion sort (`conventional/insertion_sort.cpp`) -/

namespace InsertionSort

/-- Loop `while (j >= 0 && arr[j] > key)` of `InsertionSort::sort`.  The recursion argument
is `j + 1` (so `0` stands for `j = -1`); the returned index is the final `j + 1`. -/
def shiftLoop (key : Int) : Nat → List Int → SortStats → Nat × List Int × SortStats
  | 0, arr, stats => (0, arr, stats)
  | j + 1, arr, stats =>
    if rd arr j > key then
      shiftLoop key j (arr.set (j + 1) (rd arr j)) ((stats.addCmp 1).addAsg 1)
    else (j + 1, arr, stats)

/-- Body of the loop `for (i = 1; i < n; i++)` of `InsertionSort::sort`, with the extra
comparison counted by `if (j >= 0)` after the inner loop. -/
def sortStep (s : SortState) (i : Nat) : SortState :=
  let key := rd s.1 i
  let r := shiftLoop key i s.1 (s.2.addAsg 1)
  let stats := if 0 < r.1 then r.2.2.addCmp 1 else r.2.2
  (r.2.1.set r.1 key, stats.addAsg 1)

/-- Function `InsertionSort::sort(arr)`. -/
def sort (arr : List Int) : SortState :=
  (List.range' 1 (arr.length - 1)).foldl sortStep (arr, SortStats.zero.setMem (sizeofInt * 2))

end InsertionSort

/-! ## Stability harness: Tim sort over records (`main.cpp`, `testStability`) -/

/-- Record `StabilityTestItem` of `main.cpp`: the sort key and the original position. -/
structure StabilityTestItem where
  key : Int
  originalPos : Int
deriving DecidableEq, Repr

namespace TimSortWrapper

/-- Value-initialised record, the content of a fresh `vector<StabilityTestItem>(len)`. -/
def blank : StabilityTestItem := ⟨0, 0⟩

/-- Read `items[i]`. -/
def rdItem (items : List StabilityTestItem) (i : Nat) : StabilityTestItem :=
  items.getD i blank

/-- Constant `MIN_RUN` of `timSortWrapper`. -/
def MIN_RUN : Nat := 32

/-- Loop `while (n >= MIN_RUN) { r |= (n & 1); n >>= 1; }` of the lambda `calcMinRun`; the
state is `(n, r)`. -/
def calcMinRunLoop : Nat → Nat → Nat → Nat × Nat
  | 0, n, r => (n, r)
  | fuel + 1, n, r =>
    if MIN_RUN ≤ n then calcMinRunLoop fuel (n >>> 1) (r ||| (n &&& 1)) else (n, r)

/-- Lambda `calcMinRun(n)` of `timSortWrapper`. -/
def calcMinRun (n : Nat) : Nat :=
  let s := calcMinRunLoop n n 0
  s.1 + s.2

/-- Inner loop `while (j >= left && items[j].key > key.key)` of the lambda `insertionSort`.
The recursion argument is `j + 1` (so `0` stands for `j = -1`); the returned index is the
final `j + 1`. -/
def insertionShift (left : Nat) (key : StabilityTestItem) :
    Nat → List StabilityTestItem → Nat × List StabilityTestItem
  | 0, items => (0, items)
  | j + 1, items =>
    if left ≤ j ∧ (rdItem items j).key > key.key then
      insertionShift left key j (items.set (j + 1) (rdItem items j))
    else (j + 1, items)

/-- Body of the loop `for (i = left + 1; i <= right; i++)` of the lambda `insertionSort`. -/
def insertionStep (left : Nat) (items : List StabilityTestItem) (i : Nat) :
    List StabilityTestItem :=
  let key := rdItem items i
  let r := insertionShift left key i items
  r.2.set r.1 key

/-- Lambda `insertionSort(items, left, right)` of `timSortWrapper`. -/
def insertionSort (items : List StabilityTestItem) (left right : Nat) :
    List StabilityTestItem :=
  (List.range' (left + 1) (right - left)).foldl (insertionStep left) items

/-- Copy loop `for (i = 0; i < len; i++) tmp[i] = items[off + i]` into a fresh vector
`vector<StabilityTestItem> tmp(len)`. -/
def copyRun (items : List StabilityTestItem) (off len : Nat) : List StabilityTestItem :=
  (List.range' 0 len).foldl (fun tmp i => tmp.set i (rdItem items (off + i)))
    (List.replicate len blank)

/-- Loop `while (i < len1 && j < len2)` of the lambda `merge`, which takes the left record
when `left[i].key <= right[j].key`; the state is `(i, j, k)` and the fuel bounds the number
of iterations. -/
def mergeLoop (left right : List StabilityTestItem) :
    Nat → Nat → Nat → Nat → List StabilityTestItem →
      Nat × Nat × Nat × List StabilityTestItem
  | 0, i, j, k, items => (i, j, k, items)
  | fuel + 1, i, j, k, items =>
    if i < left.length ∧ j < right.length then
      if (rdItem left i).key ≤ (rdItem right j).key then
        mergeLoop left right fuel (i + 1) j (k + 1) (items.set k (rdItem left i))
      else
        mergeLoop left right fuel i (j + 1) (k + 1) (items.set k (rdItem right j))
    else (i, j, k, items)

/-- Drain loop `while (i < len) { items[k] = src[i]; i++; k++; }` of the lambda `merge`. -/
def drain (src : List StabilityTestItem) (i k : Nat) (items : List StabilityTestItem) :
    List StabilityTestItem :=
  (List.range' 0 (src.length - i)).foldl
    (fun s t => s.set (k + t) (rdItem src (i + t))) items

/-- Lambda `merge(items, l, m, r)` of `timSortWrapper`. -/
def merge (items : List StabilityTestItem) (l m r : Nat) : List StabilityTestItem :=
  let len1 := m + 1 - l
  let len2 := r - m
  let left := copyRun items l len1
  let right := copyRun items (m + 1) len2
  let s := mergeLoop left right (len1 + len2) 0 0 l items
  let d1 := drain left s.1 s.2.2.1 s.2.2.2
  drain right s.2.1 (s.2.2.1 + (left.length - s.1)) d1

/-- Body of the inner loop `for (left = 0; left < n; left += 2 * size)` of
`timSortWrapper`. -/
def mergePassStep (n size : Nat) (items : List StabilityTestItem) (left : Nat) :
    List StabilityTestItem :=
  let mid := left + size - 1
  let right := min (left + 2 * size - 1) (n - 1)
  if mid < right then merge items left mid right else items

/-- Outer loop `for (size = minRun; size < n; size = 2 * size)` of `timSortWrapper`; the
fuel bounds the number of doublings. -/
def mergePasses (n : Nat) : Nat → Nat → List StabilityTestItem → List StabilityTestItem
  | 0, _, items => items
  | fuel + 1, size, items =>
    if size < n then
      mergePasses n fuel (2 * size)
        ((List.range' 0 (TimSort.strideCount n (2 * size)) (2 * size)).foldl
          (mergePassStep n size) items)
    else items

/-- Lambda `timSortWrapper(items)` of `testStability`: the Tim sort routine over records,
which looks at the keys only. -/
def timSortWrapper (items : List StabilityTestItem) : List StabilityTestItem :=
  let n := items.length
  let minRun := calcMinRun n
  let runs := (List.range' 0 (TimSort.strideCount n minRun) minRun).foldl
    (fun s i => insertionSort s i (min (i + minRun - 1) (n - 1))) items
  mergePasses n n minRun runs

end TimSortWrapper

/-! ## Introsort recursion with the source's `int` depth limit -/

/-- Function `IntroSort::introSortUtil` with `depthLimit` an `int` that is only tested by
`depthLimit == 0`, as in the source; the fuel bounds the nesting of the recursive calls, and
the result is `none` when it does not suffice. -/
def IntroSort.introSortUtilFuel :
    Nat → List Int → Nat → Nat → Int → SortStats → Option SortState
  | 0, _, _, _, _, _ => none
  | fuel + 1, arr, begin, end_, depthLimit, stats =>
    if end_ + 1 - begin < 16 then some (IntroSort.insertionSort arr begin end_ stats)
    else if depthLimit = 0 then some (IntroSort.heapSort arr begin end_ stats)
    else
      let p := IntroSort.partition arr begin end_ stats
      let s1 :=
        if p.1 > begin then
          IntroSort.introSortUtilFuel fuel p.2.1 begin (p.1 - 1) (depthLimit - 1) p.2.2
        else some p.2
      s1.bind (fun s =>
        if p.1 < end_ then
          IntroSort.introSortUtilFuel fuel s.1 (p.1 + 1) end_ (depthLimit - 1) s.2
        else some s)

/-! ## Shift count of `calcMinRun` -/

/-- Number of iterations of the loop `while (n >= MIN_RUN)` of `calcMinRun`, that is, the
number of right-shifts `n >>= 1` it performs; the fuel is the one of `calcMinRunLoop`. -/
def TimSort.calcMinRunShifts : Nat → Nat → Nat
  | 0, _ => 0
  | fuel + 1, n =>
    if TimSort.MIN_RUN ≤ n then TimSort.calcMinRunShifts fuel (n >>> 1) + 1 else 0

/-! ## The quotient `gap / shrink` of comb sort in double precision -/

/-- Integer nearest to the positive rational `num / den`, ties going to the even integer
(the rounding mode of IEEE-754 arithmetic). -/
def roundNearestEven (num den : Nat) : Nat :=
  let q := num / den
  let r := num % den
  if 2 * r < den then q
  else if den < 2 * r then q + 1
  else if q % 2 = 0 then q else q + 1

/-- Number of halvings that bring `m` below `2 ^ 53`: the number of binary digits of `m`
beyond the 53 digits of a `double` significand. -/
def excessBits : Nat → Nat → Nat
  | 0, _ => 0
  | fuel + 1, m => if m < 2 ^ 53 then 0 else excessBits fuel (m / 2) + 1

namespace CombSort

/-- Significand of the constant `const double shrink = 1.3`: the `double` nearest to `1.3` is
`shrinkSig / 2 ^ 52` (hexadecimal `0x1.4cccccccccccdp+0`). -/
def shrinkSig : Nat := 5854679515581645

/-- Expression `static_cast<int>(gap / shrink)` for `gap ≥ 0`, with the division done in
IEEE-754 double precision.  The exact quotient is `gap * 2 ^ 105 / shrinkSig` in units of
`2 ^ -53`; its integer part has `53 + s` binary digits (at most 64 halvings are tried, an
`int` needs at most 31), so the quotient is rounded to a multiple of `2 ^ s` of that unit, to
the nearest one with ties to even, and the cast drops the fraction. -/
def divShrink (gap : Nat) : Nat :=
  let num := gap * 2 ^ 105
  let s := excessBits 64 (num / shrinkSig)
  let sig := roundNearestEven num (shrinkSig * 2 ^ s)
  sig * 2 ^ s / 2 ^ 53

/-- Function `CombSort::getNextGap(gap)` with the division done in double precision. -/
def getNextGapDouble (gap : Nat) : Nat :=
  let g := divShrink gap
  if g < 1 then 1 else g

end CombSort

/-! ## Tournament sort with every index checked -/

namespace TournamentSort

/-- Function `TournamentSort::rebuildTree` with the accesses `tree[nodeIndex]`,
`tree[sibling]` and `tree[parent]` checked: `none` when one of them is out of range. -/
def rebuildTreeChecked : Nat → List Node → Nat → SortStats → Option (List Node × SortStats)
  | 0, tree, _, stats => some (tree, stats)
  | fuel + 1, tree, nodeIndex, stats =>
    if nodeIndex = 0 then some (tree, stats)
    else
      let parent := (nodeIndex - 1) / 2
      let sibling := if nodeIndex % 2 = 0 then nodeIndex - 1 else nodeIndex + 1
      if nodeIndex < tree.length ∧ sibling < tree.length ∧ parent < tree.length then
        let winner := if (nd tree nodeIndex).value ≤ (nd tree sibling).value then nd tree nodeIndex
          else nd tree sibling
        rebuildTreeChecked fuel (tree.set parent winner) parent ((stats.addCmp 1).addAsg 1)
      else none

/-- Function `TournamentSort::buildTournamentTree` with the accesses `arr[i]`,
`tree[leafStart + i]`, `tree[i]`, `tree[leftChild]` and `tree[rightChild]` checked. -/
def buildTournamentTreeChecked (arr : List Int) (tree : List Node) (stats : SortStats) :
    Option (List Node × SortStats) :=
  let n := arr.length
  let treeSize := tree.length
  let height := floorLog2 (treeSize + 1) - 1
  let leafStart := 2 ^ height - 1
  ((List.range' 0 n).foldlM
    (fun (s : List Node × SortStats) i =>
      if i < arr.length ∧ leafStart + i < s.1.length then
        some (s.1.set (leafStart + i) (Node.mk2 (rd arr i) i), s.2.addAsg 1)
      else none) (tree, stats)).bind (fun s1 =>
  ((List.range' (leafStart + n) (treeSize - (leafStart + n))).foldlM
    (fun (s : List Node × SortStats) i =>
      if i < s.1.length then some (invalidate s.1 i, s.2.addAsg 2) else none) s1).bind (fun s2 =>
  (List.range' 0 leafStart).reverse.foldlM
    (fun (s : List Node × SortStats) i =>
      if i < s.1.length ∧ 2 * i + 1 < s.1.length ∧ 2 * i + 2 < s.1.length then
        let winner := if (nd s.1 (2 * i + 1)).value ≤ (nd s.1 (2 * i + 2)).value
          then nd s.1 (2 * i + 1) else nd s.1 (2 * i + 2)
        some (s.1.set i winner, (s.2.addCmp 1).addAsg 1)
      else none) s2))

/-- Body of the extraction loop of `sort` with the accesses `result[i]`, `tree[0]` and
`tree[leafIndex]` checked, `leafIndex = leafStart + tree[0].index` being an `int`. -/
def extractStepChecked (leafStart : Nat) (s : List Int × List Node × SortStats) (i : Nat) :
    Option (List Int × List Node × SortStats) :=
  if i < s.1.length ∧ 0 < s.2.1.length ∧ 0 ≤ (leafStart : Int) + (nd s.2.1 0).index ∧
      (leafStart : Int) + (nd s.2.1 0).index < (s.2.1.length : Int) then
    let result := s.1.set i (nd s.2.1 0).value
    let leafIndex := ((leafStart : Int) + (nd s.2.1 0).index).toNat
    let tree1 := invalidate s.2.1 leafIndex
    (rebuildTreeChecked leafIndex tree1 leafIndex (s.2.2.addAsg 3)).map (fun r =>
      (result, r.1, r.2))
  else none

/-- Function `TournamentSort::sort(arr)` with every vector access checked: `none` when an
access is out of range. -/
def sortChecked (arr : List Int) : Option SortState :=
  let n := arr.length
  if n ≤ 1 then some (arr, SortStats.zero)
  else
    let height := ceilLog2 n
    let treeSize := 2 ^ (height + 1) - 1
    let leafStart := 2 ^ height - 1
    let tree := List.replicate treeSize Node.default
    let stats := (SortStats.zero.addMem (treeSize * sizeofNode)).addMem (n * sizeofInt)
    (buildTournamentTreeChecked arr tree stats).bind (fun built =>
    ((List.range' 0 n).foldlM (extractStepChecked leafStart)
      (List.replicate n 0, built.1, built.2)).bind (fun ex =>
    (List.range' 0 n).foldlM
      (fun (s : SortState) i =>
        if i < s.1.length ∧ i < ex.1.length then some (s.1.set i (rd ex.1 i), s.2.addAsg 1)
        else none) (arr, ex.2.2)))

end TournamentSort

/-! ## Insertion sort of introsort and merge of Tim sort over elements with a key

The two routines are repeated here with the element type left open: the vector holds elements
of a type `α`, every comparison `x > y` or `x <= y` of the source compares the keys of the
two elements, and a fresh buffer holds the default element.  At the element type `int` with
the identity key these are the routines of `intro_sort.cpp` and `tim_sort.cpp` themselves;
over elements that carry a tag they show which element each write moves. -/

namespace IntroSort

/-- Inner `while (j >= begin && arr[j] > key)` loop of `insertionSort`, on elements compared
by `key`; as `insertionShift`. -/
def insertionShiftOn {α : Type} (key : α → Int) (dflt : α) (begin : Nat) (k : α) :
    Nat → List α → SortStats → Nat × List α × SortStats
  | 0, arr, stats => (0, arr, stats)
  | j + 1, arr, stats =>
    if begin ≤ j then
      if key (arr.getD j dflt) > key k then
        insertionShiftOn key dflt begin k j (arr.set (j + 1) (arr.getD j dflt))
          ((stats.addCmp 1).addAsg 1)
      else (j + 1, arr, stats.addCmp 1)
    else (j + 1, arr, stats)

/-- Body of the `for (i = begin + 1; i <= end; i++)` loop of `insertionSort`, on elements
compared by `key`; as `insertionStep`. -/
def insertionStepOn {α : Type} (key : α → Int) (dflt : α) (begin : Nat)
    (s : List α × SortStats) (i : Nat) : List α × SortStats :=
  let k := s.1.getD i dflt
  let r := insertionShiftOn key dflt begin k i s.1 (s.2.addAsg 1)
  (r.2.1.set r.1 k, r.2.2.addAsg 1)

/-- Function `IntroSort::insertionSort(arr, begin, end, stats)` on elements compared by
`key`; as `insertionSort`. -/
def insertionSortOn {α : Type} (key : α → Int) (dflt : α) (arr : List α) (begin end_ : Nat)
    (stats : SortStats) : List α × SortStats :=
  (List.range' (begin + 1) (end_ - begin)).foldl (insertionStepOn key dflt begin) (arr, stats)

end IntroSort

namespace TimSort

/-- Copy loop `for (i = 0; i < len; i++) tmp[i] = arr[off + i]` of `merge` into a fresh
vector, on elements of any type; as `copyRun`. -/
def copyRunOn {α : Type} (dflt : α) (arr : List α) (off len : Nat) : List α :=
  (List.range' 0 len).foldl (fun tmp i => tmp.set i (arr.getD (off + i) dflt))
    (List.replicate len dflt)

/-- Main loop `while (i < len1 && j < len2)` of `merge` with its test
`left[i] <= right[j]`, on elements compared by `key`; as `mergeLoop`. -/
def mergeLoopOn {α : Type} (key : α → Int) (dflt : α) (left right : List α) :
    Nat → Nat → Nat → Nat → List α → SortStats → Nat × Nat × Nat × List α × SortStats
  | 0, i, j, k, arr, stats => (i, j, k, arr, stats)
  | fuel + 1, i, j, k, arr, stats =>
    if i < left.length ∧ j < right.length then
      if key (left.getD i dflt) ≤ key (right.getD j dflt) then
        mergeLoopOn key dflt left right fuel (i + 1) j (k + 1) (arr.set k (left.getD i dflt))
          ((stats.addCmp 1).addAsg 1)
      else
        mergeLoopOn key dflt left right fuel i (j + 1) (k + 1) (arr.set k (right.getD j dflt))
          ((stats.addCmp 1).addAsg 1)
    else (i, j, k, arr, stats)

/-- Drain loop `while (i < len) { arr[k] = src[i]; i++; k++; }` of `merge`, on elements of
any type; as `drain`. -/
def drainOn {α : Type} (dflt : α) (src : List α) (i k : Nat) (arr : List α)
    (stats : SortStats) : List α × SortStats :=
  (List.range' 0 (src.length - i)).foldl
    (fun s t => (s.1.set (k + t) (src.getD (i + t) dflt), s.2.addAsg 1)) (arr, stats)

/-- Function `TimSort::merge(arr, l, m, r, stats)` on elements compared by `key`; as
`merge`. -/
def mergeOn {α : Type} (key : α → Int) (dflt : α) (arr : List α) (l m r : Nat)
    (stats : SortStats) : List α × SortStats :=
  let len1 := m + 1 - l
  let len2 := r - m
  let left := copyRunOn dflt arr l len1
  let right := copyRunOn dflt arr (m + 1) len2
  let stats1 := ((stats.addMem ((len1 + len2) * sizeofInt)).addAsg len1).addAsg len2
  let s := mergeLoopOn key dflt left right (len1 + len2) 0 0 l arr stats1
  let d1 := drainOn dflt left s.1 s.2.2.1 s.2.2.2.1 s.2.2.2.2
  drainOn dflt right s.2.1 (s.2.2.1 + (left.length - s.1)) d1.1 d1.2

end TimSort

/-! ## Specification vocabulary -/

/-- Range `arr[b..e]` (both ends included) is non-decreasing. -/
def SortedOn (a : List Int) (b e : Nat) : Prop :=
  ∀ i j, b ≤ i → i < j → j ≤ e → rd a i ≤ rd a j

/-- Vector `a'` has the length of `a` and agrees with it outside `arr[b..e]`. -/
def SameOutside (a a' : List Int) (b e : Nat) : Prop :=
  a'.length = a.length ∧ ∀ i, (i < b ∨ e < i) → rd a' i = rd a i

/-- Segment `arr[b..e)` as a list. -/
def seg (a : List Int) (b e : Nat) : List Int := (a.take e).drop b

/-- Node `k` of the heap stored in `arr[b..e]` dominates its children that lie in the range. -/
def HeapAt (a : List Int) (b e k : Nat) : Prop :=
  (2 * (k - b) + 1 + b ≤ e → rd a (2 * (k - b) + 1 + b) ≤ rd a k) ∧
  (2 * (k - b) + 2 + b ≤ e → rd a (2 * (k - b) + 2 + b) ≤ rd a k)

/-- Weighted sum `k * arr[0] + (k + 1) * arr[1] + ...`: every exchange of an out-of-order
pair `arr[i] > arr[j]`, `i < j`, increases it. -/
def weightedSum : Nat → List Int → Int
  | _, [] => 0
  | k, x :: xs => (k : Int) * x + weightedSum (k + 1) xs

/-- Sum of the absolute values of the elements. -/
def absSum (a : List Int) : Int := (a.map (fun x => |x|)).sum

/-- Invariant of `TimSort::merge` while it writes `arr[k]`: `a0` is the vector on entry,
`L` and `R` are the temporary runs, `i` and `j` the read positions and `k` the write
position; `arr[l..k)` is a sorted arrangement of the elements consumed so far, none
larger than what is still to be read. -/
def MergeInv (a0 L R : List Int) (l i j k : Nat) (a : List Int) : Prop :=
  k = l + i + j ∧ i ≤ L.length ∧ j ≤ R.length ∧ a.length = a0.length ∧
  (∀ t, (t < l ∨ k ≤ t) → rd a t = rd a0 t) ∧
  (seg a l k).Perm (L.take i ++ R.take j) ∧
  (∀ x y, l ≤ x → x < y → y < k → rd a x ≤ rd a y) ∧
  (∀ x, l ≤ x → x < k → (i < L.length → rd a x ≤ rd L i) ∧ (j < R.length → rd a x ≤ rd R j))

/-- Every aligned block of `size` elements of the vector is non-decreasing (the last block
may be shorter). -/
def RunsSorted (a : List Int) (size : Nat) : Prop :=
  ∀ c, SortedOn a (c * size) (min (c * size + size - 1) (a.length - 1))

/-- Tree position `p` is `x` or an ancestor of `x` (the parent of `x` is `(x - 1) / 2`). -/
def Anc (p x : Nat) : Prop := ∃ d, (x + 1) / 2 ^ d = p + 1

/-- Tree position `p` is a proper ancestor of `x`. -/
def SAnc (p x : Nat) : Prop := ∃ d, 1 ≤ d ∧ (x + 1) / 2 ^ d = p + 1

namespace TournamentSort

/-- Winner property at the internal node `i`: the node is a copy of one of its two
children and its value is not larger than either child's value. -/
def WinnerAt (t : List Node) (i : Nat) : Prop :=
  (nd t i = nd t (2 * i + 1) ∨ nd t i = nd t (2 * i + 2)) ∧
  (nd t i).value ≤ (nd t (2 * i + 1)).value ∧ (nd t i).value ≤ (nd t (2 * i + 2)).value

/-- A node whose value is below `INT_MAX` carries the index `j` of a leaf below it that
holds the same value. -/
def Tracked (n leafStart : Nat) (t : List Node) (p : Nat) : Prop :=
  (nd t p).value < INT_MAX →
    ∃ j, j < n ∧ (nd t p).index = (j : Int) ∧
      (nd t (leafStart + j)).value = (nd t p).value ∧ Anc p (leafStart + j)

/-- Invariant of the tournament tree with `n` real leaves from position `leafStart`; the
positions satisfying `exempt` (the part of a leaf-to-root path not yet rebuilt) are not
required to be winners. -/
structure TreeInv (n leafStart : Nat) (t : List Node) (exempt : Nat → Prop) : Prop where
  len : t.length = 2 * leafStart + 1
  bound : ∀ p, p < 2 * leafStart + 1 → (nd t p).value ≤ INT_MAX
  leafIdx : ∀ j, j < n → (nd t (leafStart + j)).index = (j : Int)
  pad : ∀ p, leafStart + n ≤ p → p < 2 * leafStart + 1 → (nd t p).value = INT_MAX
  win : ∀ i, i < leafStart → ¬ exempt i → WinnerAt t i
  tracked : ∀ p, p < 2 * leafStart + 1 → ¬ exempt p → Tracked n leafStart t p

/-- Values held by the `n` real leaves, in leaf order. -/
def leafVals (n leafStart : Nat) (t : List Node) : List Int :=
  (List.range n).map (fun j => (nd t (leafStart + j)).value)

end TournamentSort

/-- Integer that orders records of original position below `N` by key first and by original
position second: `key * N + originalPos`. -/
def TimSortWrapper.code (N : Nat) (r : StabilityTestItem) : Int :=
  r.key * (N : Int) + r.originalPos

/-- The original position of record `r` is one of `0, ..., N - 1`. -/
def TimSortWrapper.ValidItem (N : Nat) (r : StabilityTestItem) : Prop :=
  0 ≤ r.originalPos ∧ r.originalPos < (N : Int)

/-- Every record of the block of `size` positions that holds position `x` came from that
block: its original position lies in the block. -/
def TimSortWrapper.RunsLocal (a : List StabilityTestItem) (size : Nat) : Prop :=
  ∀ c x, c * size ≤ x → x < c * size + size → x < a.length →
    ((c * size : Nat) : Int) ≤ (TimSortWrapper.rdItem a x).originalPos ∧
    (TimSortWrapper.rdItem a x).originalPos < ((c * size + size : Nat) : Int)

/-- State of `TournamentSort::sort(arr)` (result vector, tree, counter) after the tree is
built and `k` iterations of the extraction loop are done. -/
def TournamentSort.extractState (arr : List Int) (k : Nat) :
    List Int × List TournamentSort.Node × SortStats :=
  let n := arr.length
  let height := ceilLog2 n
  let treeSize := 2 ^ (height + 1) - 1
  let leafStart := 2 ^ height - 1
  let tree := List.replicate treeSize TournamentSort.Node.default
  let stats := (SortStats.zero.addMem (treeSize * TournamentSort.sizeofNode)).addMem
    (n * sizeofInt)
  let built := TournamentSort.buildTournamentTree arr tree stats
  (List.range' 0 k).foldl (TournamentSort.extractStep leafStart)
    (List.replicate n 0, built.1, built.2)

/-- The vector `arr` with every element tagged by its index: record `i` has key `arr[i]` and
original position `i`. -/
def TimSortWrapper.tagged (arr : List Int) : List StabilityTestItem :=
  (List.range arr.length).map (fun i => (⟨rd arr i, (i : Int)⟩ : StabilityTestItem))

/-- The stored (non-sentinel) elements of the gapped array are non-decreasing from left to
right. -/
def LibrarySort.GapSorted (g : List Int) : Prop :=
  ∀ i j, i < j → j < g.length → rd g i ≠ -1 → rd g j ≠ -1 → rd g i ≤ rd g j

/-- State of `LibrarySort::sort(arr)` after the first element is placed and `k` more
insertion steps are done; `none` when one of these steps writes out of range. -/
def LibrarySort.stateAfter (arr : List Int) (k : Nat) : Option LibrarySort.InsertState :=
  let capacity := arr.length * 2
  let gapped := List.replicate capacity (-1 : Int)
  let stats := SortStats.zero.addMem (gapped.length * sizeofInt)
  let start : LibrarySort.InsertState := (gapped.set 0 (rd arr 0), capacity, 1, stats.addAsg 1)
  (List.range' 1 k).foldlM (LibrarySort.insertStep arr) start

/-- Number of inversions of `a`, the pairs of positions `i < j` with `a[i] > a[j]`: every
element contributes the number of smaller elements that stand after it. -/
def inversions : List Int → Nat
  | [] => 0
  | x :: xs => xs.countP (fun y => decide (y < x)) + inversions xs

/-- The value the documentation gives for `CombSort::getNextGap(gap)`: the floor of
`gap / 1.3`, but at least `1`. -/
def CombSort.nextGapSpec (gap : Nat) : Nat := max 1 ⌊(gap : ℚ) / 1.3⌋₊

/-- Counter that `TournamentSort::sort` returns on a vector of `n` machine integers, as a
function of `n` alone: with `h = ceil(log2 n)`, one comparison for each of the `2^h - 1`
internal nodes and `h` for each extraction; one assignment for each leaf, two for each
padding leaf, one for each internal node, `3 + h` for each extraction and one for each
element copied back; the memory of the tree and of the result vector. -/
def TournamentSort.counterOfLength (n : Nat) : SortStats :=
  if n ≤ 1 then SortStats.zero
  else
    { comparisons := ((2 ^ ceilLog2 n - 1 : Nat) : Int) + (n : Int) * (ceilLog2 n : Int)
      assignments := (n : Int) + 2 * ((2 ^ ceilLog2 n - n : Nat) : Int)
        + ((2 ^ ceilLog2 n - 1 : Nat) : Int) + (n : Int) * (3 + (ceilLog2 n : Int)) + (n : Int)
      memoryUsage := (2 ^ (ceilLog2 n + 1) - 1) * TournamentSort.sizeofNode + n * sizeofInt }

/-- The counter is a value of the C++ type: `comparisons` and `assignments` are `long long`
values and `memoryUsage` is a 64-bit `size_t` value. -/
def SortStats.InRange (s : SortStats) : Prop :=
  SortStats.LLONG_MIN ≤ s.comparisons ∧ s.comparisons ≤ SortStats.LLONG_MAX ∧
  SortStats.LLONG_MIN ≤ s.assignments ∧ s.assignments ≤ SortStats.LLONG_MAX ∧
  s.memoryUsage < 2 ^ 64

/-! ## Basic facts about reads, writes and loops -/

theorem rd_of_lt (a : List Int) {i : Nat} (h : i < a.length) : rd a i = a[i] := by
  simp [rd, List.getD_eq_getElem, h]

theorem rd_of_ge (a : List Int) {i : Nat} (h : a.length ≤ i) : rd a i = 0 := by
  have : a[i]? = none := List.getElem?_eq_none h
  simp [rd, this]

theorem rd_set (a : List Int) (i j : Nat) (v : Int) :
    rd (a.set i v) j = if i = j ∧ i < a.length then v else rd a j := by
  unfold rd
  simp only [List.getD_eq_getElem?_getD, List.getElem?_set]
  by_cases h : i = j
  · subst h
    by_cases h2 : i < a.length
    · simp [h2]
    · have : a[i]? = none := List.getElem?_eq_none (by omega)
      simp [h2, this]
  · simp [h]

theorem rd_set_eq (a : List Int) {i : Nat} (v : Int) (h : i < a.length) :
    rd (a.set i v) i = v := by
  simp [rd_set, h]

theorem rd_set_ne (a : List Int) {i j : Nat} (v : Int) (h : i ≠ j) :
    rd (a.set i v) j = rd a j := by
  simp [rd_set, h]

theorem set_rd_self (a : List Int) (i : Nat) : a.set i (rd a i) = a := by
  apply List.ext_getElem?
  intro n
  rw [List.getElem?_set]
  by_cases h : i = n
  · subst h
    by_cases h2 : i < a.length
    · simp [h2, rd_of_lt a h2]
    · simp [h2]
      omega
  · simp [h]

theorem length_swapAt (a : List Int) (i j : Nat) : (swapAt a i j).length = a.length := by
  simp [swapAt]

theorem rd_swapAt (a : List Int) {i j : Nat} (t : Nat) (hi : i < a.length) (hj : j < a.length) :
    rd (swapAt a i j) t = if t = j then rd a i else if t = i then rd a j else rd a t := by
  unfold swapAt
  rw [rd_set, rd_set]
  simp only [List.length_set]
  by_cases h1 : t = j
  · subst h1; simp [hj]
  · by_cases h2 : t = i
    · subst h2
      have h3 : ¬ j = t := fun h => h1 h.symm
      simp [hi, h1, h3]
    · simp [h1, h2, Ne.symm h1, Ne.symm h2]

theorem set_perm_count (a : List Int) {i : Nat} (v x : Int) (hi : i < a.length) :
    (List.count x (a.set i v) : Int) =
      List.count x a - (if rd a i = x then 1 else 0) + (if v = x then 1 else 0) := by
  rw [List.count_set _ _ _ _ hi]
  have hpos : rd a i = x → 0 < List.count x a := by
    intro h
    rw [List.count_pos_iff]
    rw [← h, rd_of_lt a hi]
    exact List.getElem_mem _
  simp only [beq_iff_eq, ← rd_of_lt a hi]
  by_cases h1 : rd a i = x <;> by_cases h2 : v = x <;> simp [h1, h2]
  · have := hpos h1; omega
  · have := hpos h1; omega

theorem swapAt_perm (a : List Int) {i j : Nat} (hi : i < a.length) (hj : j < a.length) :
    (swapAt a i j).Perm a := by
  rw [List.perm_iff_count]
  intro x
  have h1 := set_perm_count (a.set i (rd a j)) (rd a i) x (by simpa using hj)
  have h2 := set_perm_count a (rd a j) x hi
  have h3 : (List.count x (swapAt a i j) : Int) = List.count x a := by
    unfold swapAt
    rw [h1, h2, rd_set]
    by_cases hij : i = j
    · subst hij; simp [hi]
    · simp only [hij, false_and, if_false]
      omega
  exact_mod_cast h3

/-- Loop rule for an ascending `for` loop with stride `step`. -/
theorem foldl_range'_step_inv {σ : Type} (P : Nat → σ → Prop) (f : σ → Nat → σ)
    (start step : Nat) :
    ∀ (n : Nat) (s0 : σ), P 0 s0 →
      (∀ t s, t < n → P t s → P (t + 1) (f s (start + step * t))) →
      P n ((List.range' start n step).foldl f s0) := by
  intro n
  induction n with
  | zero => intro s0 h0 _; simpa using h0
  | succ n ih =>
    intro s0 h0 hstep
    rw [List.range'_concat, List.foldl_append]
    simp only [List.foldl_cons, List.foldl_nil]
    apply hstep n _ (Nat.lt_succ_self n)
    exact ih s0 h0 (fun t s ht hp => hstep t s (Nat.lt_succ_of_lt ht) hp)

/-- Loop rule for `for (i = start; i < start + n; i++)`. -/
theorem foldl_range'_inv {σ : Type} (P : Nat → σ → Prop) (f : σ → Nat → σ)
    (start n : Nat) (s0 : σ) (h0 : P start s0)
    (hstep : ∀ i s, start ≤ i → i < start + n → P i s → P (i + 1) (f s i)) :
    P (start + n) ((List.range' start n).foldl f s0) := by
  have := foldl_range'_step_inv (fun t s => P (start + t) s) f start 1 n s0 (by simpa using h0)
    (by
      intro t s ht hp
      have := hstep (start + t) s (by omega) (by omega) hp
      simpa [Nat.add_assoc] using this)
  simpa using this

/-- Loop rule for the descending loop `for (i = start + n - 1; i >= start; i--)`:
the invariant is indexed by the next value of `i` plus one. -/
theorem foldl_range'_rev_inv {σ : Type} (P : Nat → σ → Prop) (f : σ → Nat → σ)
    (start : Nat) :
    ∀ (n : Nat) (s0 : σ), P (start + n) s0 →
      (∀ i s, start ≤ i → i < start + n → P (i + 1) s → P i (f s i)) →
      P start ((List.range' start n).reverse.foldl f s0) := by
  intro n
  induction n with
  | zero => intro s0 h0 _; simpa using h0
  | succ n ih =>
    intro s0 h0 hstep
    rw [List.range'_concat, List.reverse_append]
    simp only [List.reverse_cons, List.reverse_nil, List.nil_append, List.singleton_append,
      List.foldl_cons, Nat.one_mul]
    apply ih
    · exact hstep (start + n) s0 (by omega) (by omega) (by simpa [Nat.add_assoc] using h0)
    · intro i s h1 h2 hp
      exact hstep i s h1 (by omega) hp

theorem sorted_of_sortedOn (a : List Int) (h : SortedOn a 0 (a.length - 1)) :
    a.Sorted (fun x y => x ≤ y) := by
  unfold List.Sorted
  rw [List.pairwise_iff_getElem]
  intro i j hi hj hij
  have := h i j (Nat.zero_le _) hij (by omega)
  rwa [rd_of_lt a hi, rd_of_lt a hj] at this

theorem take_eq_of_rd (a a' : List Int) (b : Nat) (hl : a'.length = a.length)
    (h : ∀ i, i < b → rd a' i = rd a i) : a'.take b = a.take b := by
  apply List.ext_getElem
  · simp [hl]
  · intro n h1 h2
    simp only [List.length_take] at h1 h2
    have := h n (by omega)
    rw [rd_of_lt a' (by omega), rd_of_lt a (by omega)] at this
    simpa [List.getElem_take] using this

theorem drop_eq_of_rd (a a' : List Int) (e : Nat) (hl : a'.length = a.length)
    (h : ∀ i, e ≤ i → rd a' i = rd a i) : a'.drop e = a.drop e := by
  apply List.ext_getElem
  · simp [hl]
  · intro n h1 h2
    simp only [List.length_drop] at h1 h2
    have := h (e + n) (by omega)
    rw [rd_of_lt a' (by omega), rd_of_lt a (by omega)] at this
    simpa [List.getElem_drop] using this

theorem split_seg (a : List Int) (b e : Nat) (hbe : b ≤ e) :
    a = a.take b ++ seg a b e ++ a.drop e := by
  unfold seg
  have h1 : a.take b = (a.take e).take b := by
    rw [List.take_take, Nat.min_eq_left hbe]
  rw [h1, List.take_append_drop, List.take_append_drop]

theorem seg_perm_of_sameOutside (a a' : List Int) (b e : Nat) (hbe : b ≤ e + 1)
    (hp : a'.Perm a) (ho : SameOutside a a' b e) : (seg a' b (e + 1)).Perm (seg a b (e + 1)) := by
  have h1 := split_seg a b (e + 1) hbe
  have h2 := split_seg a' b (e + 1) hbe
  have ht : a'.take b = a.take b := take_eq_of_rd a a' b ho.1 (fun i hi => ho.2 i (Or.inl hi))
  have hd : a'.drop (e + 1) = a.drop (e + 1) :=
    drop_eq_of_rd a a' (e + 1) ho.1 (fun i hi => ho.2 i (Or.inr (by omega)))
  rw [h1, h2, ht, hd] at hp
  rw [List.perm_append_right_iff, List.perm_append_left_iff] at hp
  exact hp

theorem mem_seg_iff (a : List Int) (b e : Nat) (he : e ≤ a.length) (x : Int) :
    x ∈ seg a b e ↔ ∃ i, b ≤ i ∧ i < e ∧ rd a i = x := by
  unfold seg
  rw [List.mem_iff_getElem]
  constructor
  · rintro ⟨n, hn, rfl⟩
    simp only [List.length_drop, List.length_take] at hn
    refine ⟨b + n, by omega, by omega, ?_⟩
    rw [rd_of_lt a (by omega)]
    simp [List.getElem_drop, List.getElem_take]
  · rintro ⟨i, h1, h2, rfl⟩
    refine ⟨i - b, by simp; omega, ?_⟩
    rw [rd_of_lt a (by omega)]
    simp only [List.getElem_drop, List.getElem_take]
    congr 1
    omega

/-- A sorting step on `arr[b..e]` that is a permutation and leaves the rest alone maps
every element of the range to an element of the range. -/
theorem range_mem_of_perm (a a' : List Int) (b e : Nat) (he : e < a.length)
    (hp : a'.Perm a) (ho : SameOutside a a' b e) (i : Nat) (h1 : b ≤ i) (h2 : i ≤ e) :
    ∃ j, b ≤ j ∧ j ≤ e ∧ rd a' i = rd a j := by
  have hs := seg_perm_of_sameOutside a a' b e (by omega) hp ho
  have hm : rd a' i ∈ seg a' b (e + 1) :=
    (mem_seg_iff a' b (e + 1) (by rw [ho.1]; omega) _).2 ⟨i, h1, by omega, rfl⟩
  have hm2 := hs.mem_iff.1 hm
  obtain ⟨j, hj1, hj2, hj3⟩ := (mem_seg_iff a b (e + 1) (by omega) _).1 hm2
  exact ⟨j, hj1, by omega, hj3.symm⟩


theorem ext_rd (a b : List Int) (hl : a.length = b.length) (h : ∀ t, t < a.length → rd a t = rd b t) :
    a = b := by
  apply List.ext_getElem hl
  intro n h1 h2
  have := h n h1
  rwa [rd_of_lt a h1, rd_of_lt b h2] at this

theorem SortedOn.le {a : List Int} {b e : Nat} (h : SortedOn a b e) {i j : Nat}
    (h1 : b ≤ i) (h2 : i ≤ j) (h3 : j ≤ e) : rd a i ≤ rd a j := by
  rcases Nat.eq_or_lt_of_le h2 with h4 | h4
  · subst h4; exact le_refl _
  · exact h i j h1 h4 h3

theorem SameOutside.refl (a : List Int) (b e : Nat) : SameOutside a a b e :=
  ⟨rfl, fun _ _ => rfl⟩

theorem SameOutside.trans {a a1 a2 : List Int} {b e b' e' : Nat}
    (h1 : SameOutside a a1 b e) (h2 : SameOutside a1 a2 b' e') (hb : b ≤ b') (he : e' ≤ e) :
    SameOutside a a2 b e := by
  refine ⟨h2.1.trans h1.1, fun i hi => ?_⟩
  rw [h2.2 i (by omega), h1.2 i hi]

theorem SameOutside.mono {a a1 : List Int} {b e b' e' : Nat}
    (h1 : SameOutside a a1 b' e') (hb : b ≤ b') (he : e' ≤ e) :
    SameOutside a a1 b e :=
  ⟨h1.1, fun i hi => h1.2 i (by omega)⟩

namespace IntroSort

theorem shift_swap (a : List Int) (j : Nat) (key : Int) (hj : j + 1 < a.length) :
    (a.set (j + 1) (rd a j)).set j key = swapAt (a.set (j + 1) key) j (j + 1) := by
  apply ext_rd
  · simp [length_swapAt]
  · intro t _
    rw [rd_swapAt _ t (by simp; omega) (by simpa using hj)]
    simp only [rd_set, List.length_set]
    by_cases h1 : t = j + 1
    · subst h1; simp [hj]
    · by_cases h2 : t = j
      · subst h2; simp [hj]; omega
      · have h3 : ¬ j = t := fun h => h2 h.symm
        have h4 : ¬ j + 1 = t := fun h => h1 h.symm
        simp [h1, h2, h3, h4]

theorem insertionShift_spec (begin : Nat) (key : Int) :
    ∀ (k : Nat) (a : List Int) (st : SortStats), begin ≤ k → k < a.length →
      begin ≤ (insertionShift begin key k a st).1 ∧
      (insertionShift begin key k a st).1 ≤ k ∧
      (insertionShift begin key k a st).2.1.length = a.length ∧
      (∀ t, (t ≤ (insertionShift begin key k a st).1 ∨ k < t) →
        rd (insertionShift begin key k a st).2.1 t = rd a t) ∧
      (∀ t, (insertionShift begin key k a st).1 < t → t ≤ k →
        rd (insertionShift begin key k a st).2.1 t = rd a (t - 1) ∧ key < rd a (t - 1)) ∧
      (begin < (insertionShift begin key k a st).1 →
        rd a ((insertionShift begin key k a st).1 - 1) ≤ key) ∧
      ((insertionShift begin key k a st).2.1.set (insertionShift begin key k a st).1 key).Perm
        (a.set k key) := by
  intro k
  induction k with
  | zero =>
    intro a st hb hk
    have hb0 : begin = 0 := by omega
    subst hb0
    simp [insertionShift]
    intro t h1 h2
    omega
  | succ j ih =>
    intro a st hb hk
    unfold insertionShift
    by_cases h1 : begin ≤ j
    · by_cases h2 : rd a j > key
      · rw [if_pos h1, if_pos h2]
        obtain ⟨i1, i2, i3, i4, i5, i6, i7⟩ :=
          ih (a.set (j + 1) (rd a j)) ((st.addCmp 1).addAsg 1) h1 (by simp; omega)
        generalize insertionShift begin key j (a.set (j + 1) (rd a j)) ((st.addCmp 1).addAsg 1) = r
          at i1 i2 i3 i4 i5 i6 i7
        refine ⟨i1, by omega, by simpa using i3, ?_, ?_, ?_, ?_⟩
        · intro t ht
          rw [i4 t (by omega), rd_set_ne]
          omega
        · intro t ht1 ht2
          by_cases h3 : t = j + 1
          · subst h3
            rw [i4 (j + 1) (by omega), rd_set_eq _ _ hk]
            exact ⟨rfl, h2⟩
          · obtain ⟨e1, e2⟩ := i5 t ht1 (by omega)
            rw [rd_set_ne _ _ (by omega)] at e1 e2
            exact ⟨e1, e2⟩
        · intro hlt
          have := i6 hlt
          rwa [rd_set_ne _ _ (by omega)] at this
        · refine i7.trans ?_
          rw [shift_swap a j key hk]
          exact swapAt_perm _ (by simp; omega) (by simpa using hk)
      · rw [if_pos h1, if_neg h2]
        refine ⟨by omega, le_refl _, rfl, fun _ _ => rfl, ?_, ?_, List.Perm.refl _⟩
        · intro t ht1 ht2; omega
        · intro _; simpa using not_lt.1 h2
    · rw [if_neg h1]
      refine ⟨by omega, le_refl _, rfl, fun _ _ => rfl, ?_, ?_, List.Perm.refl _⟩
      · intro t ht1 ht2; omega
      · intro h; omega

theorem insertionStep_spec (begin i : Nat) (a : List Int) (st : SortStats)
    (hb : begin < i) (hi : i < a.length) (hs : SortedOn a begin (i - 1)) :
    (insertionStep begin (a, st) i).1.Perm a ∧
    SameOutside a (insertionStep begin (a, st) i).1 begin i ∧
    SortedOn (insertionStep begin (a, st) i).1 begin i := by
  unfold insertionStep
  simp only
  obtain ⟨i1, i2, i3, i4, i5, i6, i7⟩ :=
    insertionShift_spec begin (rd a i) i a (st.addAsg 1) (by omega) hi
  generalize insertionShift begin (rd a i) i a (st.addAsg 1) = r at i1 i2 i3 i4 i5 i6 i7
  have hrl : r.1 < r.2.1.length := by omega
  have hv : ∀ t, rd (r.2.1.set r.1 (rd a i)) t =
      if t = r.1 then rd a i else rd r.2.1 t := by
    intro t
    rw [rd_set]
    by_cases h : r.1 = t
    · subst h; simp [hrl]
    · have h' : ¬ t = r.1 := fun e => h e.symm
      simp [h, h']
  refine ⟨?_, ⟨by simpa using i3, ?_⟩, ?_⟩
  · rw [set_rd_self] at i7
    exact i7
  · intro t ht
    rw [hv, if_neg (by omega), i4 t (by omega)]
  · intro x y hx hxy hy
    rw [hv, hv]
    by_cases hyk : y = r.1
    · subst hyk
      rw [if_neg (by omega), if_pos rfl, i4 x (by omega)]
      have h6 := i6 (by omega)
      exact le_trans (hs.le hx (by omega) (by omega)) h6
    · rw [if_neg hyk]
      by_cases hy2 : y < r.1
      · rw [if_neg (by omega), i4 x (by omega), i4 y (by omega)]
        exact hs x y hx hxy (by omega)
      · obtain ⟨e1, e2⟩ := i5 y (by omega) hy
        rw [e1]
        by_cases hxk : x = r.1
        · rw [if_pos hxk]; exact le_of_lt e2
        · rw [if_neg hxk]
          by_cases hx2 : x < r.1
          · rw [i4 x (by omega)]
            exact hs.le hx (by omega) (by omega)
          · obtain ⟨e3, _⟩ := i5 x (by omega) (by omega)
            rw [e3]
            exact hs.le (by omega) (by omega) (by omega)

/-- Insertion sort on `arr[begin..end]`: a permutation that leaves the rest of the vector
alone and makes the range non-decreasing. -/
theorem insertionSort_spec (a : List Int) (begin e : Nat) (st : SortStats)
    (hbe : begin ≤ e) (he : e < a.length) :
    (insertionSort a begin e st).1.Perm a ∧
    SameOutside a (insertionSort a begin e st).1 begin e ∧
    SortedOn (insertionSort a begin e st).1 begin e := by
  unfold insertionSort
  have key := foldl_range'_inv
    (fun i (s : SortState) => s.1.Perm a ∧ SameOutside a s.1 begin e ∧ SortedOn s.1 begin (i - 1))
    (insertionStep begin) (begin + 1) (e - begin) (a, st)
    ⟨List.Perm.refl _, SameOutside.refl _ _ _, by
      intro x y hx hxy hy
      simp at hy; omega⟩
    (by
      intro i s h1 h2 ⟨p1, p2, p3⟩
      obtain ⟨q1, q2, q3⟩ := insertionStep_spec begin i s.1 s.2 (by omega) (by rw [p2.1]; omega) p3
      exact ⟨q1.trans p1, p2.trans q2 (le_refl _) (by omega), by simpa using q3⟩)
  obtain ⟨k1, k2, k3⟩ := key
  refine ⟨k1, k2, ?_⟩
  have : begin + 1 + (e - begin) - 1 = e := by omega
  rwa [this] at k3

end IntroSort

namespace TimSort

theorem insertionShift_eq (left : Nat) (key : Int) :
    ∀ (k : Nat) (a : List Int) (st : SortStats),
      insertionShift left key k a st = IntroSort.insertionShift left key k a st := by
  intro k
  induction k with
  | zero => intro a st; rfl
  | succ j ih =>
    intro a st
    unfold insertionShift IntroSort.insertionShift
    rw [ih]

theorem insertionSort_eq (a : List Int) (left right : Nat) (st : SortStats) :
    insertionSort a left right st = IntroSort.insertionSort a left right st := by
  unfold insertionSort IntroSort.insertionSort
  congr 1
  funext s i
  unfold insertionStep IntroSort.insertionStep
  simp only [insertionShift_eq]

end TimSort


namespace IntroSort

theorem medianOfThree_mem (a : List Int) (b m e : Nat) :
    medianOfThree a b m e = b ∨ medianOfThree a b m e = m ∨ medianOfThree a b m e = e := by
  unfold medianOfThree
  split_ifs <;> simp

theorem partitionStep_inv (a : List Int) (b e : Nat) (pv : Int) (j : Nat)
    (s : Nat × SortState) (hj1 : b ≤ j) (hj2 : j < e) (he : e < a.length)
    (h : b ≤ s.1 ∧ s.1 ≤ j ∧ s.2.1.Perm a ∧ s.2.1.length = a.length ∧ rd s.2.1 e = pv ∧
      (∀ t, (t < b ∨ e < t) → rd s.2.1 t = rd a t) ∧
      (∀ t, b ≤ t → t < s.1 → rd s.2.1 t ≤ pv) ∧
      (∀ t, s.1 ≤ t → t < j → pv < rd s.2.1 t)) :
    b ≤ (partitionStep pv s j).1 ∧ (partitionStep pv s j).1 ≤ j + 1 ∧
      (partitionStep pv s j).2.1.Perm a ∧ (partitionStep pv s j).2.1.length = a.length ∧
      rd (partitionStep pv s j).2.1 e = pv ∧
      (∀ t, (t < b ∨ e < t) → rd (partitionStep pv s j).2.1 t = rd a t) ∧
      (∀ t, b ≤ t → t < (partitionStep pv s j).1 → rd (partitionStep pv s j).2.1 t ≤ pv) ∧
      (∀ t, (partitionStep pv s j).1 ≤ t → t < j + 1 → pv < rd (partitionStep pv s j).2.1 t) := by
  obtain ⟨h1, h2, h3, h4, h5, h6, h7, h8⟩ := h
  unfold partitionStep
  by_cases hc : rd s.2.1 j ≤ pv
  · rw [if_pos hc]
    simp only
    have hi : s.1 < s.2.1.length := by omega
    have hjl : j < s.2.1.length := by omega
    have hv := fun t => rd_swapAt s.2.1 t hi hjl
    refine ⟨by omega, by omega, (swapAt_perm _ hi hjl).trans h3, by rw [length_swapAt]; exact h4,
      ?_, ?_, ?_, ?_⟩
    · rw [hv, if_neg (by omega), if_neg (by omega)]; exact h5
    · intro t ht
      rw [hv, if_neg (by omega), if_neg (by omega)]; exact h6 t ht
    · intro t ht1 ht2
      rw [hv]
      by_cases e1 : t = j
      · rw [if_pos e1]
        have : s.1 = j := by omega
        rw [this]; exact hc
      · rw [if_neg e1]
        by_cases e2 : t = s.1
        · rw [if_pos e2]; exact hc
        · rw [if_neg e2]; exact h7 t ht1 (by omega)
    · intro t ht1 ht2
      rw [hv]
      by_cases e1 : t = j
      · rw [if_pos e1]
        exact h8 s.1 (le_refl _) (by omega)
      · rw [if_neg e1, if_neg (by omega)]
        exact h8 t (by omega) (by omega)
  · rw [if_neg hc]
    simp only
    refine ⟨h1, by omega, h3, h4, h5, h6, h7, ?_⟩
    intro t ht1 ht2
    by_cases e1 : t = j
    · subst e1; exact not_le.1 hc
    · exact h8 t ht1 (by omega)

/-- Lomuto partition of `arr[begin..end]` around the median-of-three pivot. -/
theorem partition_spec (a : List Int) (b e : Nat) (st : SortStats) (hbe : b ≤ e)
    (he : e < a.length) :
    b ≤ (partition a b e st).1 ∧ (partition a b e st).1 ≤ e ∧
    (partition a b e st).2.1.Perm a ∧
    SameOutside a (partition a b e st).2.1 b e ∧
    rd (partition a b e st).2.1 (partition a b e st).1 =
      rd a (medianOfThree a b (b + (e - b) / 2) e) ∧
    (∀ t, b ≤ t → t < (partition a b e st).1 →
      rd (partition a b e st).2.1 t ≤ rd (partition a b e st).2.1 (partition a b e st).1) ∧
    (∀ t, (partition a b e st).1 < t → t ≤ e →
      rd (partition a b e st).2.1 (partition a b e st).1 < rd (partition a b e st).2.1 t) := by
  unfold partition
  simp only
  generalize hpi : medianOfThree a b (b + (e - b) / 2) e = pi
  have hpi1 : b ≤ pi ∧ pi ≤ e := by
    have := medianOfThree_mem a b (b + (e - b) / 2) e
    rw [hpi] at this
    omega
  have hpl : pi < a.length := by omega
  have hv0 := fun t => rd_swapAt a t hpl he
  have key := foldl_range'_inv
    (fun j (s : Nat × SortState) => b ≤ s.1 ∧ s.1 ≤ j ∧ s.2.1.Perm a ∧ s.2.1.length = a.length ∧
      rd s.2.1 e = rd a pi ∧
      (∀ t, (t < b ∨ e < t) → rd s.2.1 t = rd a t) ∧
      (∀ t, b ≤ t → t < s.1 → rd s.2.1 t ≤ rd a pi) ∧
      (∀ t, s.1 ≤ t → t < j → rd a pi < rd s.2.1 t))
    (partitionStep (rd a pi)) b (e - b) (b, swapAt a pi e, (st.addCmp 3).addAsg 3)
    ⟨le_refl _, le_refl _, swapAt_perm _ hpl he, length_swapAt _ _ _, by
        rw [hv0, if_pos rfl], by
        intro t ht
        rw [hv0, if_neg (by omega), if_neg (by omega)], by
        intro t h1 h2; omega, by
        intro t h1 h2; omega⟩
    (by
      intro j s h1 h2 hp
      exact partitionStep_inv a b e (rd a pi) j s h1 (by omega) he hp)
  generalize (List.range' b (e - b)).foldl (partitionStep (rd a pi))
    (b, swapAt a pi e, (st.addCmp 3).addAsg 3) = r at key
  have hbe' : b + (e - b) = e := by omega
  rw [hbe'] at key
  obtain ⟨h1, h2, h3, h4, h5, h6, h7, h8⟩ := key
  have hi : r.1 < r.2.1.length := by omega
  have hel : e < r.2.1.length := by omega
  have hv := fun t => rd_swapAt r.2.1 t hi hel
  have hp : rd (swapAt r.2.1 r.1 e) r.1 = rd a pi := by
    rw [hv]
    by_cases e1 : r.1 = e
    · rw [if_pos e1, e1]; exact h5
    · rw [if_neg e1, if_pos rfl]; exact h5
  refine ⟨h1, h2, (swapAt_perm _ hi hel).trans h3, ⟨by rw [length_swapAt]; exact h4, ?_⟩,
    hp, ?_, ?_⟩
  · intro t ht
    rw [hv, if_neg (by omega), if_neg (by omega)]; exact h6 t ht
  · intro t ht1 ht2
    rw [hp, hv, if_neg (by omega), if_neg (by omega)]
    exact h7 t ht1 ht2
  · intro t ht1 ht2
    rw [hp, hv]
    by_cases e1 : t = e
    · rw [if_pos e1]; exact h8 r.1 (le_refl _) (by omega)
    · rw [if_neg e1, if_neg (by omega)]
      exact h8 t (by omega) (by omega)

end IntroSort


namespace IntroSort

theorem largest_facts (a : List Int) (b e i : Nat) :
    ∀ l1 l2 : Nat,
      l1 = (if 2 * (i - b) + 1 + b ≤ e ∧ rd a (2 * (i - b) + 1 + b) > rd a i
        then 2 * (i - b) + 1 + b else i) →
      l2 = (if 2 * (i - b) + 2 + b ≤ e ∧ rd a (2 * (i - b) + 2 + b) > rd a l1
        then 2 * (i - b) + 2 + b else l1) →
      (l2 = i ∨ (l2 = 2 * (i - b) + 1 + b ∧ l2 ≤ e) ∨ (l2 = 2 * (i - b) + 2 + b ∧ l2 ≤ e)) ∧
      rd a i ≤ rd a l2 ∧ (l2 ≠ i → rd a i < rd a l2) ∧
      (2 * (i - b) + 1 + b ≤ e → rd a (2 * (i - b) + 1 + b) ≤ rd a l2) ∧
      (2 * (i - b) + 2 + b ≤ e → rd a (2 * (i - b) + 2 + b) ≤ rd a l2) := by
  intro l1 l2 h1 h2
  by_cases c1 : 2 * (i - b) + 1 + b ≤ e ∧ rd a (2 * (i - b) + 1 + b) > rd a i
  · rw [if_pos c1] at h1
    by_cases c2 : 2 * (i - b) + 2 + b ≤ e ∧ rd a (2 * (i - b) + 2 + b) > rd a l1
    · rw [if_pos c2] at h2
      subst h1
      subst h2
      refine ⟨Or.inr (Or.inr ⟨rfl, c2.1⟩), ?_, ?_, ?_, ?_⟩
      · exact le_of_lt (lt_trans c1.2 c2.2)
      · intro _; exact lt_trans c1.2 c2.2
      · intro _; exact le_of_lt c2.2
      · intro _; exact le_refl _
    · rw [if_neg c2] at h2
      subst h1
      subst h2
      refine ⟨Or.inr (Or.inl ⟨rfl, c1.1⟩), le_of_lt c1.2, fun _ => c1.2, fun _ => le_refl _, ?_⟩
      intro h
      by_contra hc
      exact c2 ⟨h, not_le.1 hc⟩
  · rw [if_neg c1] at h1
    rw [h1] at h2
    by_cases c2 : 2 * (i - b) + 2 + b ≤ e ∧ rd a (2 * (i - b) + 2 + b) > rd a i
    · rw [if_pos c2] at h2
      subst h2
      refine ⟨Or.inr (Or.inr ⟨rfl, c2.1⟩), le_of_lt c2.2, fun _ => c2.2, ?_, fun _ => le_refl _⟩
      intro h
      have : rd a (2 * (i - b) + 1 + b) ≤ rd a i := by
        by_contra hc
        exact c1 ⟨h, not_le.1 hc⟩
      exact le_trans this (le_of_lt c2.2)
    · rw [if_neg c2] at h2
      subst h2
      refine ⟨Or.inl rfl, le_refl _, fun h => absurd rfl h, ?_, ?_⟩
      · intro h
        by_contra hc
        exact c1 ⟨h, not_le.1 hc⟩
      · intro h
        by_contra hc
        exact c2 ⟨h, not_le.1 hc⟩

theorem heapifyFuel_spec (b e s : Nat) (hbs : b ≤ s) :
    ∀ (fuel : Nat) (a : List Int) (i : Nat) (st : SortStats),
      s ≤ i → i ≤ e → e < a.length → e + 1 - i ≤ fuel →
      (∀ k, s ≤ k → k ≤ e → k ≠ i → HeapAt a b e k) →
      (∀ k, s ≤ k → k ≤ e → (2 * (k - b) + 1 + b = i ∨ 2 * (k - b) + 2 + b = i) →
        (2 * (i - b) + 1 + b ≤ e → rd a (2 * (i - b) + 1 + b) ≤ rd a k) ∧
        (2 * (i - b) + 2 + b ≤ e → rd a (2 * (i - b) + 2 + b) ≤ rd a k)) →
      (heapifyFuel fuel a b e i st).1.Perm a ∧
      (heapifyFuel fuel a b e i st).1.length = a.length ∧
      (∀ t, (t < i ∨ e < t) → rd (heapifyFuel fuel a b e i st).1 t = rd a t) ∧
      (∀ k, s ≤ k → k ≤ e → HeapAt (heapifyFuel fuel a b e i st).1 b e k) := by
  intro fuel
  induction fuel with
  | zero => intro a i st h1 h2 h3 h4; omega
  | succ fuel ih =>
    intro a i st hsi hie hel hfuel H1 H2
    unfold heapifyFuel
    simp only
    obtain ⟨F1, F2, F3, F4, F5⟩ := largest_facts a b e i _ _ rfl rfl
    generalize (if 2 * (i - b) + 2 + b ≤ e ∧
        rd a (2 * (i - b) + 2 + b) >
          rd a (if 2 * (i - b) + 1 + b ≤ e ∧ rd a (2 * (i - b) + 1 + b) > rd a i
            then 2 * (i - b) + 1 + b else i)
      then 2 * (i - b) + 2 + b
      else if 2 * (i - b) + 1 + b ≤ e ∧ rd a (2 * (i - b) + 1 + b) > rd a i
        then 2 * (i - b) + 1 + b else i) = l2 at F1 F2 F3 F4 F5 ⊢
    by_cases hl : l2 = i
    · rw [if_neg (by simpa using hl)]
      refine ⟨List.Perm.refl _, rfl, fun _ _ => rfl, ?_⟩
      intro k hk1 hk2
      by_cases hki : k = i
      · subst hki
        subst hl
        exact ⟨F4, F5⟩
      · exact H1 k hk1 hk2 hki
    · rw [if_pos (by simpa using hl)]
      have hl2e : l2 ≤ e := by omega
      have hl2i : i < l2 := by omega
      have hil : i < a.length := by omega
      have hll : l2 < a.length := by omega
      have hv := fun t => rd_swapAt a t hil hll
      have hlt := F3 hl
      obtain ⟨p1, p2, p3, p4⟩ := ih (swapAt a i l2) l2 _ (by omega) hl2e
        (by rw [length_swapAt]; exact hel) (by omega)
        (by
          intro k hk1 hk2 hkl
          by_cases hki : k = i
          · subst hki
            constructor
            · intro hc
              rw [hv, hv k, if_neg hkl, if_pos rfl]
              by_cases e1 : 2 * (k - b) + 1 + b = l2
              · rw [if_pos e1]; exact le_of_lt hlt
              · rw [if_neg e1, if_neg (by omega)]; exact F4 hc
            · intro hc
              rw [hv, hv k, if_neg hkl, if_pos rfl]
              by_cases e1 : 2 * (k - b) + 2 + b = l2
              · rw [if_pos e1]; exact le_of_lt hlt
              · rw [if_neg e1, if_neg (by omega)]; exact F5 hc
          · have hk := H1 k hk1 hk2 hki
            constructor
            · intro hc
              rw [hv, hv k, if_neg hkl, if_neg hki, if_neg (by omega)]
              by_cases e1 : 2 * (k - b) + 1 + b = i
              · rw [if_pos e1]
                have h2 := H2 k hk1 hk2 (Or.inl e1)
                rcases F1 with f | f | f
                · exact absurd f hl
                · rw [f.1]; exact h2.1 (by omega)
                · rw [f.1]; exact h2.2 (by omega)
              · rw [if_neg e1]; exact hk.1 hc
            · intro hc
              rw [hv, hv k, if_neg hkl, if_neg hki, if_neg (by omega)]
              by_cases e1 : 2 * (k - b) + 2 + b = i
              · rw [if_pos e1]
                have h2 := H2 k hk1 hk2 (Or.inr e1)
                rcases F1 with f | f | f
                · exact absurd f hl
                · rw [f.1]; exact h2.1 (by omega)
                · rw [f.1]; exact h2.2 (by omega)
              · rw [if_neg e1]; exact hk.2 hc)
        (by
          intro k hk1 hk2 hkc
          have hki : k = i := by omega
          subst hki
          have hh := H1 l2 (by omega) hl2e hl
          constructor
          · intro hc
            rw [hv, hv k, if_neg (by omega), if_neg (by omega), if_neg (by omega), if_pos rfl]
            exact hh.1 hc
          · intro hc
            rw [hv, hv k, if_neg (by omega), if_neg (by omega), if_neg (by omega), if_pos rfl]
            exact hh.2 hc)
      refine ⟨p1.trans (swapAt_perm a hil hll), by rw [p2, length_swapAt], ?_, p4⟩
      intro t ht
      rw [p3 t (by omega), hv, if_neg (by omega), if_neg (by omega)]

theorem heapify_spec (b e s : Nat) (hbs : b ≤ s) (a : List Int) (i : Nat) (st : SortStats)
    (hsi : s ≤ i) (hie : i ≤ e) (hel : e < a.length)
    (H1 : ∀ k, s ≤ k → k ≤ e → k ≠ i → HeapAt a b e k)
    (H2 : ∀ k, s ≤ k → k ≤ e → (2 * (k - b) + 1 + b = i ∨ 2 * (k - b) + 2 + b = i) →
        (2 * (i - b) + 1 + b ≤ e → rd a (2 * (i - b) + 1 + b) ≤ rd a k) ∧
        (2 * (i - b) + 2 + b ≤ e → rd a (2 * (i - b) + 2 + b) ≤ rd a k)) :
    (heapify a b e i st).1.Perm a ∧
    (heapify a b e i st).1.length = a.length ∧
    (∀ t, (t < i ∨ e < t) → rd (heapify a b e i st).1 t = rd a t) ∧
    (∀ k, s ≤ k → k ≤ e → HeapAt (heapify a b e i st).1 b e k) :=
  heapifyFuel_spec b e s hbs (e + 1 - i) a i st hsi hie hel (le_refl _) H1 H2

end IntroSort


namespace IntroSort

theorem heap_root_max (a : List Int) (b m : Nat)
    (h : ∀ k, b ≤ k → k ≤ m → HeapAt a b m k) :
    ∀ k, b ≤ k → k ≤ m → rd a k ≤ rd a b := by
  intro k
  induction k using Nat.strong_induction_on with
  | _ k ih =>
    intro hk1 hk2
    by_cases hkb : k = b
    · subst hkb; exact le_refl _
    · have hp := h (b + (k - b - 1) / 2) (by omega) (by omega)
      have ihp := ih (b + (k - b - 1) / 2) (by omega) (by omega) (by omega)
      rcases Nat.mod_two_eq_zero_or_one (k - b - 1) with hm | hm
      · have e1 : 2 * (b + (k - b - 1) / 2 - b) + 1 + b = k := by omega
        have := hp.1 (by omega)
        rw [e1] at this
        exact le_trans this ihp
      · have e1 : 2 * (b + (k - b - 1) / 2 - b) + 2 + b = k := by omega
        have := hp.2 (by omega)
        rw [e1] at this
        exact le_trans this ihp

theorem heapBuild_spec (a : List Int) (b e : Nat) (st : SortStats) (hbe : b ≤ e)
    (hel : e < a.length) :
    ((List.range' b ((e - b + 1) / 2)).reverse.foldl
        (fun (s : SortState) i => heapify s.1 b e i s.2) (a, st)).1.Perm a ∧
    SameOutside a ((List.range' b ((e - b + 1) / 2)).reverse.foldl
        (fun (s : SortState) i => heapify s.1 b e i s.2) (a, st)).1 b e ∧
    (∀ k, b ≤ k → k ≤ e → HeapAt ((List.range' b ((e - b + 1) / 2)).reverse.foldl
        (fun (s : SortState) i => heapify s.1 b e i s.2) (a, st)).1 b e k) := by
  have key := foldl_range'_rev_inv
    (fun i (s : SortState) => s.1.Perm a ∧ SameOutside a s.1 b e ∧
      ∀ k, i ≤ k → k ≤ e → HeapAt s.1 b e k)
    (fun (s : SortState) i => heapify s.1 b e i s.2) b ((e - b + 1) / 2) (a, st)
    ⟨List.Perm.refl _, SameOutside.refl _ _ _, by
      intro k hk1 hk2
      constructor
      · intro hc; omega
      · intro hc; omega⟩
    (by
      intro i s h1 h2 ⟨p1, p2, p3⟩
      obtain ⟨q1, q2, q3, q4⟩ := heapify_spec b e i h1 s.1 i s.2 (le_refl _) (by omega)
        (by rw [p2.1]; exact hel)
        (fun k hk1 hk2 hk3 => p3 k (by omega) hk2)
        (fun k hk1 hk2 hk3 => by omega)
      exact ⟨q1.trans p1, p2.trans ⟨q2, fun t ht => q3 t (by omega)⟩ (le_refl _) (le_refl _), q4⟩)
  exact key

theorem heapExtract_inv (a : List Int) (b e i : Nat) (s : SortState)
    (hbi : b < i) (hie : i ≤ e) (hel : e < a.length)
    (h : s.1.Perm a ∧ SameOutside a s.1 b e ∧
      (∀ k, b ≤ k → k ≤ i → HeapAt s.1 b i k) ∧ SortedOn s.1 (i + 1) e ∧
      (∀ x y, b ≤ x → x < i + 1 → i + 1 ≤ y → y ≤ e → rd s.1 x ≤ rd s.1 y)) :
    (heapExtract b s i).1.Perm a ∧ SameOutside a (heapExtract b s i).1 b e ∧
      (∀ k, b ≤ k → k ≤ i - 1 → HeapAt (heapExtract b s i).1 b (i - 1) k) ∧
      SortedOn (heapExtract b s i).1 i e ∧
      (∀ x y, b ≤ x → x < i → i ≤ y → y ≤ e →
        rd (heapExtract b s i).1 x ≤ rd (heapExtract b s i).1 y) := by
  obtain ⟨p1, p2, p3, p4, p5⟩ := h
  have hmax := heap_root_max s.1 b i p3
  have hbl : b < s.1.length := by rw [p2.1]; omega
  have hil : i < s.1.length := by rw [p2.1]; omega
  have hv := fun t => rd_swapAt s.1 t hbl hil
  unfold heapExtract
  obtain ⟨q1, q2, q3, q4⟩ := heapify_spec b (i - 1) b (le_refl _) (swapAt s.1 b i) b
    (s.2.addAsg 3) (le_refl _) (by omega) (by rw [length_swapAt]; omega)
    (by
      intro k hk1 hk2 hk3
      have hk := p3 k hk1 (by omega)
      constructor
      · intro hc
        rw [hv, hv k, if_neg (by omega), if_neg (by omega), if_neg (by omega), if_neg hk3]
        exact hk.1 (by omega)
      · intro hc
        rw [hv, hv k, if_neg (by omega), if_neg (by omega), if_neg (by omega), if_neg hk3]
        exact hk.2 (by omega))
    (fun k hk1 hk2 hk3 => by omega)
  generalize heapify (swapAt s.1 b i) b (i - 1) b (s.2.addAsg 3) = r at q1 q2 q3 q4
  have hso : SameOutside (swapAt s.1 b i) r.1 b (i - 1) := ⟨q2, fun t ht => q3 t (by omega)⟩
  have hri : rd r.1 i = rd s.1 b := by
    rw [q3 i (by omega), hv, if_pos rfl]
  have hrange : ∀ x, b ≤ x → x < i → ∃ x', b ≤ x' ∧ x' ≤ i ∧ rd r.1 x = rd s.1 x' := by
    intro x hx1 hx2
    obtain ⟨j, hj1, hj2, hj3⟩ := range_mem_of_perm (swapAt s.1 b i) r.1 b (i - 1)
      (by rw [length_swapAt]; omega) q1 hso x hx1 (by omega)
    rw [hv] at hj3
    by_cases e1 : j = b
    · rw [if_neg (by omega), if_pos e1] at hj3
      exact ⟨i, by omega, le_refl _, hj3⟩
    · rw [if_neg (by omega), if_neg e1] at hj3
      exact ⟨j, hj1, by omega, hj3⟩
  have hout : ∀ y, i < y → rd r.1 y = rd s.1 y := by
    intro y hy
    rw [q3 y (by omega), hv, if_neg (by omega), if_neg (by omega)]
  refine ⟨q1.trans ((swapAt_perm _ hbl hil).trans p1), ?_, q4, ?_, ?_⟩
  · refine p2.trans ⟨by rw [q2, length_swapAt], ?_⟩ (le_refl _) (le_refl _)
    intro t ht
    rw [q3 t (by omega), hv, if_neg (by omega), if_neg (by omega)]
  · intro x y hx hxy hy
    rw [hout y (by omega)]
    by_cases e1 : x = i
    · subst e1
      rw [hri]
      exact p5 b y (le_refl _) (by omega) (by omega) hy
    · rw [hout x (by omega)]
      exact p4 x y (by omega) hxy hy
  · intro x y hx1 hx2 hy1 hy2
    obtain ⟨x', h1, h2, h3⟩ := hrange x hx1 hx2
    rw [h3]
    by_cases e1 : y = i
    · subst e1
      rw [hri]
      exact hmax x' h1 h2
    · rw [hout y (by omega)]
      exact p5 x' y h1 (by omega) (by omega) hy2

/-- Heap sort on `arr[begin..end]`: a permutation that leaves the rest of the vector alone
and makes the range non-decreasing. -/
theorem heapSort_spec (a : List Int) (b e : Nat) (st : SortStats) (hbe : b ≤ e)
    (hel : e < a.length) :
    (heapSort a b e st).1.Perm a ∧ SameOutside a (heapSort a b e st).1 b e ∧
    SortedOn (heapSort a b e st).1 b e := by
  unfold heapSort
  simp only
  obtain ⟨b1, b2, b3⟩ := heapBuild_spec a b e st hbe hel
  generalize (List.range' b ((e - b + 1) / 2)).reverse.foldl
        (fun (s : SortState) i => heapify s.1 b e i s.2) (a, st) = built at b1 b2 b3
  have key := foldl_range'_rev_inv
    (fun m (s : SortState) => s.1.Perm a ∧ SameOutside a s.1 b e ∧
      (∀ k, b ≤ k → k ≤ m - 1 → HeapAt s.1 b (m - 1) k) ∧ SortedOn s.1 m e ∧
      (∀ x y, b ≤ x → x < m → m ≤ y → y ≤ e → rd s.1 x ≤ rd s.1 y))
    (heapExtract b) (b + 1) (e - b) built
    ⟨b1, b2, by
      have : b + 1 + (e - b) - 1 = e := by omega
      rw [this]; exact b3, by
      intro x y hx hxy hy; omega, by
      intro x y h1 h2 h3 h4; omega⟩
    (by
      intro i s h1 h2 ⟨p1, p2, p3, p4, p5⟩
      exact heapExtract_inv a b e i s (by omega) (by omega) hel
        ⟨p1, p2, by simpa using p3, p4, p5⟩)
  obtain ⟨k1, k2, _, k4, k5⟩ := key
  refine ⟨k1, k2, ?_⟩
  intro x y hx hxy hy
  by_cases e1 : x = b
  · subst e1
    exact k5 x y (le_refl _) (by omega) (by omega) hy
  · exact k4 x y (by omega) hxy hy

end IntroSort


namespace IntroSort

/-- Every call `introSortUtil(arr, begin, end, depthLimit)` on a range inside the vector
returns a permutation that leaves the rest of the vector alone and makes the range
non-decreasing. -/
theorem introSortUtil_spec :
    ∀ (d : Nat) (a : List Int) (b e : Nat) (st : SortStats), b ≤ e → e < a.length →
      (introSortUtil d a b e st).1.Perm a ∧ SameOutside a (introSortUtil d a b e st).1 b e ∧
      SortedOn (introSortUtil d a b e st).1 b e := by
  intro d
  induction d with
  | zero =>
    intro a b e st hbe hel
    unfold introSortUtil
    by_cases hs : e + 1 - b < 16
    · rw [if_pos hs]; exact insertionSort_spec a b e st hbe hel
    · rw [if_neg hs]; exact heapSort_spec a b e st hbe hel
  | succ d ih =>
    intro a b e st hbe hel
    unfold introSortUtil
    by_cases hs : e + 1 - b < 16
    · rw [if_pos hs]; exact insertionSort_spec a b e st hbe hel
    · rw [if_neg hs]
      simp only
      obtain ⟨P1, P2, P3, P4, _, P6, P7⟩ := partition_spec a b e st hbe hel
      generalize partition a b e st = p at P1 P2 P3 P4 P6 P7
      -- left recursive call
      have hL : ∀ s1 : SortState,
          s1 = (if p.1 > b then introSortUtil d p.2.1 b (p.1 - 1) p.2.2 else p.2) →
          s1.1.Perm p.2.1 ∧ s1.1.length = p.2.1.length ∧
          (∀ t, (t < b ∨ p.1 ≤ t) → rd s1.1 t = rd p.2.1 t) ∧
          (∀ x y, b ≤ x → x < y → y < p.1 → rd s1.1 x ≤ rd s1.1 y) ∧
          (∀ x, b ≤ x → x < p.1 → rd s1.1 x ≤ rd p.2.1 p.1) := by
        intro s1 hs1
        by_cases hc : p.1 > b
        · rw [if_pos hc] at hs1
          obtain ⟨q1, q2, q3⟩ := ih p.2.1 b (p.1 - 1) p.2.2 (by omega) (by rw [P4.1]; omega)
          rw [← hs1] at q1 q2 q3
          refine ⟨q1, q2.1, fun t ht => q2.2 t (by omega), ?_, ?_⟩
          · intro x y hx hxy hy
            exact q3 x y hx hxy (by omega)
          · intro x hx1 hx2
            obtain ⟨j, hj1, hj2, hj3⟩ := range_mem_of_perm p.2.1 s1.1 b (p.1 - 1)
              (by rw [P4.1]; omega) q1 q2 x hx1 (by omega)
            rw [hj3]
            exact P6 j hj1 (by omega)
        · rw [if_neg hc] at hs1
          subst hs1
          refine ⟨List.Perm.refl _, rfl, fun _ _ => rfl, ?_, ?_⟩
          · intro x y hx hxy hy; omega
          · intro x hx1 hx2; omega
      obtain ⟨L1, L2, L3, L4, L5⟩ := hL _ rfl
      generalize (if p.1 > b then introSortUtil d p.2.1 b (p.1 - 1) p.2.2 else p.2) = s1
        at L1 L2 L3 L4 L5 ⊢
      have hpv : rd s1.1 p.1 = rd p.2.1 p.1 := L3 p.1 (Or.inr (le_refl _))
      -- right recursive call
      have hR : ∀ s2 : SortState,
          s2 = (if p.1 < e then introSortUtil d s1.1 (p.1 + 1) e s1.2 else s1) →
          s2.1.Perm s1.1 ∧ s2.1.length = s1.1.length ∧
          (∀ t, (t ≤ p.1 ∨ e < t) → rd s2.1 t = rd s1.1 t) ∧
          (∀ x y, p.1 < x → x < y → y ≤ e → rd s2.1 x ≤ rd s2.1 y) ∧
          (∀ y, p.1 < y → y ≤ e → rd p.2.1 p.1 < rd s2.1 y) := by
        intro s2 hs2
        by_cases hc : p.1 < e
        · rw [if_pos hc] at hs2
          obtain ⟨q1, q2, q3⟩ := ih s1.1 (p.1 + 1) e s1.2 (by omega)
            (by rw [L2, P4.1]; omega)
          rw [← hs2] at q1 q2 q3
          refine ⟨q1, q2.1, fun t ht => q2.2 t (by omega), ?_, ?_⟩
          · intro x y hx hxy hy
            exact q3 x y (by omega) hxy hy
          · intro y hy1 hy2
            obtain ⟨j, hj1, hj2, hj3⟩ := range_mem_of_perm s1.1 s2.1 (p.1 + 1) e
              (by rw [L2, P4.1]; omega) q1 q2 y (by omega) hy2
            rw [hj3, L3 j (by omega)]
            exact P7 j (by omega) hj2
        · rw [if_neg hc] at hs2
          subst hs2
          refine ⟨List.Perm.refl _, rfl, fun _ _ => rfl, ?_, ?_⟩
          · intro x y hx hxy hy; omega
          · intro y hy1 hy2; omega
      obtain ⟨R1, R2, R3, R4, R5⟩ := hR _ rfl
      generalize (if p.1 < e then introSortUtil d s1.1 (p.1 + 1) e s1.2 else s1) = s2
        at R1 R2 R3 R4 R5 ⊢
      refine ⟨R1.trans (L1.trans P3), ⟨by rw [R2, L2, P4.1], ?_⟩, ?_⟩
      · intro t ht
        rw [R3 t (by omega), L3 t (by omega), P4.2 t ht]
      · intro x y hx hxy hy
        by_cases hy1 : y < p.1
        · rw [R3 x (by omega), R3 y (by omega)]
          exact L4 x y hx hxy hy1
        · by_cases hy2 : y = p.1
          · rw [R3 x (by omega), R3 y (by omega), hy2, hpv]
            exact L5 x hx (by omega)
          · have hyv := R5 y (by omega) hy
            by_cases hx1 : x < p.1
            · rw [R3 x (by omega)]
              exact le_trans (L5 x hx hx1) (le_of_lt hyv)
            · by_cases hx2 : x = p.1
              · rw [R3 x (by omega), hx2, hpv]
                exact le_of_lt hyv
              · exact R4 x y (by omega) hxy hy

/-- Introsort returns a non-decreasing permutation of its input. -/
theorem introSort_spec (arr : List Int) :
    (sort arr).1.Sorted (fun x y => x ≤ y) ∧ (sort arr).1.Perm arr := by
  unfold sort
  simp only
  by_cases hn : arr.length ≤ 1
  · rw [if_pos hn]
    refine ⟨?_, List.Perm.refl _⟩
    apply sorted_of_sortedOn
    intro i j _ hij hj
    simp only at hj
    omega
  · rw [if_neg hn]
    obtain ⟨h1, h2, h3⟩ := introSortUtil_spec (2 * floorLog2 arr.length) arr 0
      (arr.length - 1) SortStats.zero (Nat.zero_le _) (by omega)
    refine ⟨?_, h1⟩
    apply sorted_of_sortedOn
    rw [h2.1]
    exact h3

end IntroSort

/-- C1: for every integer vector, `IntroSort::sort` leaves the vector non-decreasing and a
permutation of the input. -/
theorem introSort_sorts (arr : List Int) :
    (IntroSort.sort arr).1.Sorted (fun x y => x ≤ y) ∧ (IntroSort.sort arr).1.Perm arr :=
  IntroSort.introSort_spec arr


theorem sortedOn_of_adjacent (a : List Int) (b e : Nat)
    (h : ∀ t, b ≤ t → t < e → rd a t ≤ rd a (t + 1)) : SortedOn a b e := by
  intro x y hx hxy hy
  obtain ⟨d, rfl⟩ : ∃ d, y = x + 1 + d := ⟨y - x - 1, by omega⟩
  induction d with
  | zero => exact h x hx (by omega)
  | succ d ih =>
    exact le_trans (ih (by omega) (by omega)) (h (x + 1 + d) (by omega) (by omega))

namespace CocktailSort

theorem bubbleStep_basic (s : Bool × SortState) (i : Nat) (hi : i + 1 < s.2.1.length) :
    (bubbleStep s i).2.1.Perm s.2.1 ∧ (bubbleStep s i).2.1.length = s.2.1.length ∧
    (∀ t, t ≠ i → t ≠ i + 1 → rd (bubbleStep s i).2.1 t = rd s.2.1 t) ∧
    rd (bubbleStep s i).2.1 i ≤ rd (bubbleStep s i).2.1 (i + 1) ∧
    (rd (bubbleStep s i).2.1 i = rd s.2.1 i ∨ rd (bubbleStep s i).2.1 i = rd s.2.1 (i + 1)) ∧
    (rd (bubbleStep s i).2.1 (i + 1) = rd s.2.1 i ∨
      rd (bubbleStep s i).2.1 (i + 1) = rd s.2.1 (i + 1)) ∧
    rd s.2.1 i ≤ rd (bubbleStep s i).2.1 (i + 1) ∧
    rd s.2.1 (i + 1) ≤ rd (bubbleStep s i).2.1 (i + 1) ∧
    rd (bubbleStep s i).2.1 i ≤ rd s.2.1 i ∧
    rd (bubbleStep s i).2.1 i ≤ rd s.2.1 (i + 1) ∧
    ((bubbleStep s i).1 = false → s.1 = false ∧ (bubbleStep s i).2.1 = s.2.1 ∧
      rd s.2.1 i ≤ rd s.2.1 (i + 1)) := by
  unfold bubbleStep
  have hv := fun t => rd_swapAt s.2.1 t (show i < s.2.1.length by omega) hi
  by_cases hc : rd s.2.1 i > rd s.2.1 (i + 1)
  · rw [if_pos hc]
    simp only
    refine ⟨swapAt_perm _ (by omega) hi, length_swapAt _ _ _, ?_, ?_, ?_, ?_, ?_, ?_, ?_, ?_, ?_⟩
    · intro t h1 h2; rw [hv, if_neg h2, if_neg h1]
    · rw [hv, hv (i + 1), if_neg (by omega), if_pos rfl, if_pos rfl]; exact le_of_lt hc
    · right; rw [hv, if_neg (by omega), if_pos rfl]
    · left; rw [hv, if_pos rfl]
    · rw [hv, if_pos rfl]
    · rw [hv, if_pos rfl]; exact le_of_lt hc
    · rw [hv, if_neg (by omega), if_pos rfl]; exact le_of_lt hc
    · rw [hv, if_neg (by omega), if_pos rfl]
    · intro h; simp at h
  · rw [if_neg hc]
    dsimp only
    have hc' := not_lt.1 hc
    exact ⟨List.Perm.refl _, rfl, fun _ _ _ => rfl, hc', Or.inl rfl, Or.inr rfl, hc', le_refl _,
      le_refl _, hc', fun h => ⟨h, rfl, hc'⟩⟩

theorem forwardPass_spec (start e : Nat) (s : SortState) (hse : start ≤ e)
    (hel : e < s.1.length) :
    (forwardPass start e s).2.1.Perm s.1 ∧ SameOutside s.1 (forwardPass start e s).2.1 start e ∧
    (∀ t, start ≤ t → t ≤ e → rd (forwardPass start e s).2.1 t ≤ rd (forwardPass start e s).2.1 e) ∧
    ((forwardPass start e s).1 = false → (forwardPass start e s).2.1 = s.1 ∧
      ∀ t, start ≤ t → t < e → rd s.1 t ≤ rd s.1 (t + 1)) := by
  unfold forwardPass
  have key := foldl_range'_inv
    (fun i (r : Bool × SortState) => r.2.1.Perm s.1 ∧ SameOutside s.1 r.2.1 start e ∧
      (∀ t, start ≤ t → t ≤ i → rd r.2.1 t ≤ rd r.2.1 i) ∧
      (r.1 = false → r.2.1 = s.1 ∧ ∀ t, start ≤ t → t < i → rd s.1 t ≤ rd s.1 (t + 1)))
    bubbleStep start (e - start) (false, s)
    ⟨List.Perm.refl _, SameOutside.refl _ _ _, by
      intro t h1 h2
      have : t = start := by omega
      subst this; exact le_refl _, by
      intro _
      exact ⟨rfl, fun t h1 h2 => by omega⟩⟩
    (by
      intro i r h1 h2 ⟨p1, p2, p3, p4⟩
      obtain ⟨q1, q2, q3, q4, q5, q6, q7, q8, q9, q10, q11⟩ :=
        bubbleStep_basic r i (by rw [p2.1]; omega)
      refine ⟨q1.trans p1, p2.trans ⟨q2, fun t ht => q3 t (by omega) (by omega)⟩ (le_refl _)
        (le_refl _), ?_, ?_⟩
      · intro t ht1 ht2
        by_cases e1 : t = i + 1
        · subst e1; exact le_refl _
        · by_cases e2 : t = i
          · subst e2; exact q4
          · rw [q3 t e2 e1]
            exact le_trans (p3 t ht1 (by omega)) q7
      · intro hf
        obtain ⟨f1, f2, f3⟩ := q11 hf
        obtain ⟨g1, g2⟩ := p4 f1
        refine ⟨f2.trans g1, ?_⟩
        intro t ht1 ht2
        by_cases e2 : t = i
        · subst e2; rw [g1] at f3; exact f3
        · exact g2 t ht1 (by omega))
  have hbe' : start + (e - start) = e := by omega
  rw [hbe'] at key
  exact key

theorem backwardPass_spec (start e : Nat) (s : SortState) (hse : start ≤ e)
    (hel : e < s.1.length) :
    (backwardPass start e s).2.1.Perm s.1 ∧
    SameOutside s.1 (backwardPass start e s).2.1 start e ∧
    (∀ t, start ≤ t → t ≤ e →
      rd (backwardPass start e s).2.1 start ≤ rd (backwardPass start e s).2.1 t) ∧
    ((backwardPass start e s).1 = false → (backwardPass start e s).2.1 = s.1 ∧
      ∀ t, start ≤ t → t < e → rd s.1 t ≤ rd s.1 (t + 1)) := by
  unfold backwardPass
  have key := foldl_range'_rev_inv
    (fun m (r : Bool × SortState) => r.2.1.Perm s.1 ∧ SameOutside s.1 r.2.1 start e ∧
      (∀ t, m ≤ t → t ≤ e → rd r.2.1 m ≤ rd r.2.1 t) ∧
      (r.1 = false → r.2.1 = s.1 ∧ ∀ t, m ≤ t → t < e → rd s.1 t ≤ rd s.1 (t + 1)))
    bubbleStep start (e - start) (false, s)
    ⟨List.Perm.refl _, SameOutside.refl _ _ _, by
      intro t h1 h2
      have : t = start + (e - start) := by omega
      subst this; exact le_refl _, by
      intro _
      exact ⟨rfl, fun t h1 h2 => by omega⟩⟩
    (by
      intro i r h1 h2 ⟨p1, p2, p3, p4⟩
      obtain ⟨q1, q2, q3, q4, q5, q6, q7, q8, q9, q10, q11⟩ :=
        bubbleStep_basic r i (by rw [p2.1]; omega)
      refine ⟨q1.trans p1, p2.trans ⟨q2, fun t ht => q3 t (by omega) (by omega)⟩ (le_refl _)
        (le_refl _), ?_, ?_⟩
      · intro t ht1 ht2
        by_cases e1 : t = i
        · subst e1; exact le_refl _
        · by_cases e2 : t = i + 1
          · subst e2; exact q4
          · rw [q3 t e1 e2]
            exact le_trans q10 (p3 t (by omega) ht2)
      · intro hf
        obtain ⟨f1, f2, f3⟩ := q11 hf
        obtain ⟨g1, g2⟩ := p4 f1
        refine ⟨f2.trans g1, ?_⟩
        intro t ht1 ht2
        by_cases e2 : t = i
        · subst e2; rw [g1] at f3; exact f3
        · exact g2 t (by omega) ht2)
  exact key

theorem cocktailLoop_spec :
    ∀ (fuel start e : Nat) (s : SortState), e - start < fuel → e < s.1.length →
      (∀ x y, x < y → e < y → y < s.1.length → rd s.1 x ≤ rd s.1 y) →
      (∀ x y, x < y → x < start → y < s.1.length → rd s.1 x ≤ rd s.1 y) →
      ∃ r, sortLoop fuel start e s = some r ∧ r.1.Perm s.1 ∧
        SortedOn r.1 0 (s.1.length - 1) := by
  intro fuel
  induction fuel with
  | zero => intro start e s h1 h2; omega
  | succ fuel ih =>
    intro start e s hfuel hel Hi Lo
    unfold sortLoop
    simp only
    by_cases hse : e ≤ start
    · have hf : forwardPass start e s = (false, s) := by
        unfold forwardPass
        have : e - start = 0 := by omega
        rw [this]; rfl
      rw [hf]
      refine ⟨s, by simp, List.Perm.refl _, ?_⟩
      intro x y _ hxy hy
      by_cases e1 : e < y
      · exact Hi x y hxy e1 (by omega)
      · exact Lo x y hxy (by omega) (by omega)
    · have hse' : start < e := by omega
      obtain ⟨f1, f2, f3, f4⟩ := forwardPass_spec start e s (by omega) hel
      generalize forwardPass start e s = f at f1 f2 f3 f4
      have hfm : ∀ t, start ≤ t → t ≤ e → ∃ j, start ≤ j ∧ j ≤ e ∧ rd f.2.1 t = rd s.1 j :=
        fun t h1 h2 => range_mem_of_perm s.1 f.2.1 start e hel f1 f2 t h1 h2
      by_cases hfs : f.1 = false
      · rw [if_pos hfs]
        obtain ⟨g1, g2⟩ := f4 hfs
        refine ⟨f.2, rfl, f1, ?_⟩
        rw [g1]
        intro x y _ hxy hy
        by_cases e1 : e < y
        · exact Hi x y hxy e1 (by omega)
        · by_cases e2 : x < start
          · exact Lo x y hxy e2 (by omega)
          · exact sortedOn_of_adjacent s.1 start e g2 x y (by omega) hxy (by omega)
      · rw [if_neg hfs]
        have Hi1 : ∀ x y, x < y → e - 1 < y → y < f.2.1.length → rd f.2.1 x ≤ rd f.2.1 y := by
          intro x y hxy hy1 hy2
          rw [f2.1] at hy2
          by_cases e1 : y = e
          · subst e1
            by_cases e2 : x < start
            · obtain ⟨j, hj1, hj2, hj3⟩ := hfm y (by omega) (le_refl _)
              rw [f2.2 x (Or.inl e2), hj3]
              exact Lo x j (by omega) e2 (by omega)
            · exact f3 x (by omega) (by omega)
          · rw [f2.2 y (Or.inr (by omega))]
            by_cases e2 : x < start ∨ e < x
            · rw [f2.2 x e2]
              exact Hi x y hxy (by omega) hy2
            · obtain ⟨j, hj1, hj2, hj3⟩ := hfm x (by omega) (by omega)
              rw [hj3]
              exact Hi j y (by omega) (by omega) hy2
        have Lo1 : ∀ x y, x < y → x < start → y < f.2.1.length → rd f.2.1 x ≤ rd f.2.1 y := by
          intro x y hxy hx hy2
          rw [f2.1] at hy2
          rw [f2.2 x (Or.inl hx)]
          by_cases e2 : y < start ∨ e < y
          · rw [f2.2 y e2]
            exact Lo x y hxy hx hy2
          · obtain ⟨j, hj1, hj2, hj3⟩ := hfm y (by omega) (by omega)
            rw [hj3]
            exact Lo x j (by omega) hx (by omega)
        obtain ⟨b1, b2, b3, b4⟩ := backwardPass_spec start (e - 1) f.2 (by omega)
          (by rw [f2.1]; omega)
        generalize backwardPass start (e - 1) f.2 = bk at b1 b2 b3 b4
        have hbm : ∀ t, start ≤ t → t ≤ e - 1 →
            ∃ j, start ≤ j ∧ j ≤ e - 1 ∧ rd bk.2.1 t = rd f.2.1 j :=
          fun t h1 h2 => range_mem_of_perm f.2.1 bk.2.1 start (e - 1) (by rw [f2.1]; omega)
            b1 b2 t h1 h2
        have hlen : s.1.length = bk.2.1.length := by rw [b2.1, f2.1]
        by_cases hbs : bk.1 = true
        · rw [if_pos hbs]
          obtain ⟨r, r1, r2, r3⟩ := ih (start + 1) (e - 1) bk.2 (by omega)
            (by rw [b2.1, f2.1]; omega)
            (by
              intro x y hxy hy1 hy2
              rw [b2.1] at hy2
              rw [b2.2 y (Or.inr hy1)]
              by_cases e2 : x < start ∨ e - 1 < x
              · rw [b2.2 x e2]
                exact Hi1 x y hxy hy1 hy2
              · obtain ⟨j, hj1, hj2, hj3⟩ := hbm x (by omega) (by omega)
                rw [hj3]
                exact Hi1 j y (by omega) hy1 hy2)
            (by
              intro x y hxy hx hy2
              rw [b2.1] at hy2
              by_cases e1 : x = start
              · subst e1
                by_cases e2 : e - 1 < y
                · obtain ⟨j, hj1, hj2, hj3⟩ := hbm x (le_refl _) (by omega)
                  rw [b2.2 y (Or.inr e2), hj3]
                  exact Hi1 j y (by omega) e2 hy2
                · exact b3 y (by omega) (by omega)
              · rw [b2.2 x (Or.inl (by omega))]
                by_cases e2 : y < start ∨ e - 1 < y
                · rw [b2.2 y e2]
                  exact Lo1 x y hxy (by omega) hy2
                · obtain ⟨j, hj1, hj2, hj3⟩ := hbm y (by omega) (by omega)
                  rw [hj3]
                  exact Lo1 x j (by omega) (by omega) (by rw [f2.1]; omega))
          refine ⟨r, r1, r2.trans (b1.trans f1), ?_⟩
          rw [hlen]; exact r3
        · rw [if_neg hbs]
          have hbf : bk.1 = false := by simpa using hbs
          obtain ⟨g1, g2⟩ := b4 hbf
          refine ⟨bk.2, rfl, b1.trans f1, ?_⟩
          rw [g1, f2.1.symm]
          intro x y _ hxy hy
          by_cases e1 : e - 1 < y
          · exact Hi1 x y hxy e1 (by omega)
          · by_cases e2 : x < start
            · exact Lo1 x y hxy e2 (by omega)
            · exact sortedOn_of_adjacent f.2.1 start (e - 1) g2 x y (by omega) hxy (by omega)

theorem cocktailLoop_unique :
    ∀ (f1 f2 start e : Nat) (s r1 r2 : SortState),
      sortLoop f1 start e s = some r1 → sortLoop f2 start e s = some r2 → r1 = r2 := by
  intro f1
  induction f1 with
  | zero => intro f2 start e s r1 r2 h1; simp [sortLoop] at h1
  | succ f1 ih =>
    intro f2 start e s r1 r2 h1 h2
    cases f2 with
    | zero => simp [sortLoop] at h2
    | succ f2 =>
      unfold sortLoop at h1 h2
      simp only at h1 h2
      by_cases c1 : (forwardPass start e s).1 = false
      · rw [if_pos c1] at h1 h2
        rw [Option.some.injEq] at h1 h2
        rw [← h1, ← h2]
      · rw [if_neg c1] at h1 h2
        by_cases c2 : (backwardPass start (e - 1) (forwardPass start e s).2).1 = true
        · rw [if_pos c2] at h1 h2
          exact ih _ _ _ _ _ _ h1 h2
        · rw [if_neg c2] at h1 h2
          rw [Option.some.injEq] at h1 h2
          rw [← h1, ← h2]

/-- Cocktail sort stops within `n` iterations of its loop and returns a non-decreasing
permutation of its input. -/
theorem cocktailSort_spec (arr : List Int) :
    ∃ r, sort arr.length arr = some r ∧ (∀ fuel r', sort fuel arr = some r' → r' = r) ∧
      r.1.Sorted (fun x y => x ≤ y) ∧ r.1.Perm arr := by
  by_cases hn : arr.length ≤ 1
  · refine ⟨(arr, SortStats.zero), by simp [sort, hn], ?_, ?_, List.Perm.refl _⟩
    · intro fuel r' h
      simp [sort, hn] at h
      exact h.symm
    · apply sorted_of_sortedOn
      intro i j _ hij hj
      simp only at hj
      omega
  · obtain ⟨r, r1, r2, r3⟩ := cocktailLoop_spec arr.length 0 (arr.length - 1) (arr, SortStats.zero)
      (by omega) (by simp; omega) (by intro x y _ h1 h2; simp at h2; omega)
      (by intro x y _ h1 _; omega)
    have hs : ∀ fuel, sort fuel arr = sortLoop fuel 0 (arr.length - 1) (arr, SortStats.zero) := by
      intro fuel; simp [sort, hn]
    refine ⟨r, by rw [hs]; exact r1, ?_, ?_, r2⟩
    · intro fuel r' h
      rw [hs] at h
      exact cocktailLoop_unique _ _ _ _ _ _ _ h r1
    · apply sorted_of_sortedOn
      have : r.1.length = arr.length := r2.length_eq
      rw [this]
      exact r3

end CocktailSort

/-- C6: for every integer vector, `CocktailSort::sort` terminates (within `n` iterations of
its `while (swapped)` loop, whatever larger bound is allowed giving the same result) and
leaves the vector non-decreasing and a permutation of the input. -/
theorem cocktailSort_terminates_and_sorts (arr : List Int) :
    ∃ r, CocktailSort.sort arr.length arr = some r ∧
      (∀ fuel r', CocktailSort.sort fuel arr = some r' → r' = r) ∧
      r.1.Sorted (fun x y => x ≤ y) ∧ r.1.Perm arr :=
  CocktailSort.cocktailSort_spec arr


theorem SortStats.wrapLongLong_of_inRange (x : Int) (h1 : SortStats.LLONG_MIN ≤ x)
    (h2 : x ≤ SortStats.LLONG_MAX) : SortStats.wrapLongLong x = x := by
  unfold SortStats.wrapLongLong
  unfold SortStats.LLONG_MIN at h1
  unfold SortStats.LLONG_MAX at h2
  omega

theorem SortStats.wrapLongLong_range (x : Int) :
    SortStats.LLONG_MIN ≤ SortStats.wrapLongLong x ∧
    SortStats.wrapLongLong x ≤ SortStats.LLONG_MAX := by
  unfold SortStats.wrapLongLong SortStats.LLONG_MIN SortStats.LLONG_MAX
  omega

theorem SortStats.merge_memory (a other : SortStats) :
    (a.merge other).memoryUsage = max a.memoryUsage other.memoryUsage := by
  show (if other.memoryUsage > a.memoryUsage then other.memoryUsage else a.memoryUsage) = _
  split
  · omega
  · omega

theorem SortStats.merge_inRange (a other : SortStats) (ha : a.InRange) (ho : other.InRange) :
    (a.merge other).InRange := by
  obtain ⟨_, _, _, _, a5⟩ := ha
  obtain ⟨_, _, _, _, o5⟩ := ho
  refine ⟨(SortStats.wrapLongLong_range _).1, (SortStats.wrapLongLong_range _).2,
    (SortStats.wrapLongLong_range _).1, (SortStats.wrapLongLong_range _).2, ?_⟩
  rw [SortStats.merge_memory]
  exact max_lt a5 o5

/-- C9: `SortStats::merge` sums the comparison and assignment counts and keeps the maximum
of the two memory figures, for all counters: for all values `a` and `other` of the counter
type, the merged `comparisons` and `assignments` are the `long long` sums of the two counts,
which are the exact sums whenever these are `long long` values, the merged `memoryUsage` is
the maximum of the two memory figures, and the result is again a value of the counter
type. -/
theorem SortStats.merge_sums_and_max (a other : SortStats) (ha : a.InRange)
    (ho : other.InRange) :
    (a.merge other).comparisons = SortStats.wrapLongLong (a.comparisons + other.comparisons) ∧
    (a.merge other).assignments = SortStats.wrapLongLong (a.assignments + other.assignments) ∧
    (a.merge other).memoryUsage = max a.memoryUsage other.memoryUsage ∧
    (SortStats.LLONG_MIN ≤ a.comparisons + other.comparisons →
      a.comparisons + other.comparisons ≤ SortStats.LLONG_MAX →
      (a.merge other).comparisons = a.comparisons + other.comparisons) ∧
    (SortStats.LLONG_MIN ≤ a.assignments + other.assignments →
      a.assignments + other.assignments ≤ SortStats.LLONG_MAX →
      (a.merge other).assignments = a.assignments + other.assignments) ∧
    (a.merge other).InRange :=
  ⟨rfl, rfl, SortStats.merge_memory a other,
   fun h1 h2 => SortStats.wrapLongLong_of_inRange _ h1 h2,
   fun h1 h2 => SortStats.wrapLongLong_of_inRange _ h1 h2,
   SortStats.merge_inRange a other ha ho⟩

/-- Instance of C9: counts that stay in the range are added exactly, also up to the largest
`long long` value; one step further the 64-bit addition wraps to the smallest value. -/
theorem SortStats.merge_sums_and_max_witness :
    (SortStats.merge ⟨SortStats.LLONG_MAX - 1, 5, 100⟩ ⟨1, 7, 40⟩)
      = ⟨SortStats.LLONG_MAX, 12, 100⟩ ∧
    (SortStats.merge ⟨SortStats.LLONG_MAX, 0, 0⟩ ⟨1, 0, 0⟩).comparisons
      = SortStats.LLONG_MIN ∧
    (SortStats.merge ⟨SortStats.LLONG_MAX - 1, 5, 100⟩ ⟨1, 7, 40⟩).comparisons
      = (SortStats.LLONG_MAX - 1) + 1 :=
  ⟨by decide, by decide,
   (SortStats.merge_sums_and_max ⟨SortStats.LLONG_MAX - 1, 5, 100⟩ ⟨1, 7, 40⟩
     (by unfold SortStats.InRange; decide) (by unfold SortStats.InRange; decide)).2.2.2.1
     (by decide) (by decide)⟩

/-- C7: on the empty vector each of the six contemporary engines leaves the vector empty
and returns the zero counter (all three fields are `0`). -/
theorem empty_vector_zero_counter :
    IntroSort.sort [] = ([], SortStats.zero) ∧
    TimSort.sort [] = ([], SortStats.zero) ∧
    LibrarySort.sort [] = some ([], SortStats.zero) ∧
    TournamentSort.sort [] = ([], SortStats.zero) ∧
    (∀ fuel, CombSort.sort fuel [] = some ([], SortStats.zero)) ∧
    (∀ fuel, CocktailSort.sort fuel [] = some ([], SortStats.zero)) ∧
    SortStats.zero.comparisons = 0 ∧ SortStats.zero.assignments = 0 ∧
    SortStats.zero.memoryUsage = 0 :=
  ⟨rfl, rfl, rfl, rfl, fun _ => rfl, fun _ => rfl, rfl, rfl, rfl⟩

/-- C8 (as stated, refuted): on the one-element vector `[7]` Library Sort returns the
counter with `assignments = 2` and `memoryUsage = 8`, not the zero counter. -/
theorem singleton_library_counter_nonzero :
    LibrarySort.sort [7] = some ([7], ⟨0, 2, 8⟩) ∧
    LibrarySort.sort [7] ≠ some ([7], SortStats.zero) := by
  decide

/-- C8 (amended): on every one-element vector `[x]` the five engines guarded by `n <= 1`
leave the vector as it is and return the zero counter; Library Sort, guarded by
`arr.empty()` only, also leaves the vector `[x]` but returns a counter with no comparison,
eight bytes of memory and two assignments (one when `x` is the sentinel `-1`). -/
theorem singleton_vector_counters (x : Int) :
    IntroSort.sort [x] = ([x], SortStats.zero) ∧
    TimSort.sort [x] = ([x], SortStats.zero) ∧
    TournamentSort.sort [x] = ([x], SortStats.zero) ∧
    (∀ fuel, CombSort.sort fuel [x] = some ([x], SortStats.zero)) ∧
    (∀ fuel, CocktailSort.sort fuel [x] = some ([x], SortStats.zero)) ∧
    LibrarySort.sort [x] = some ([x], ⟨0, if x = -1 then 1 else 2, 8⟩) := by
  refine ⟨rfl, rfl, rfl, fun _ => rfl, fun _ => rfl, ?_⟩
  by_cases h : x = -1
  · subst h; decide
  · simp [LibrarySort.sort, LibrarySort.compact, rd, h, SortStats.zero, SortStats.addMem,
      SortStats.addAsg, sizeofInt, List.range']

/-- C10: Tournament Sort on `[5,3,8,1]` gives `[1,3,5,8]`; the tree has height `2`,
`7` nodes and leaves from index `3`; after `buildTournamentTree` the root holds value `1`
with originating index `3`, and the first extraction writes `1` to the result and
invalidates the leaf of that element (tree slot `3 + 3`). -/
theorem tournament_scenario :
    (TournamentSort.sort [5, 3, 8, 1]).1 = [1, 3, 5, 8] ∧
    ceilLog2 4 = 2 ∧ 2 ^ (ceilLog2 4 + 1) - 1 = 7 ∧ 2 ^ ceilLog2 4 - 1 = 3 ∧
    (TournamentSort.buildTournamentTree [5, 3, 8, 1]
        (List.replicate 7 TournamentSort.Node.default) SortStats.zero).1
      = [⟨1, 3, true⟩, ⟨3, 1, true⟩, ⟨1, 3, true⟩,
         ⟨5, 0, true⟩, ⟨3, 1, true⟩, ⟨8, 2, true⟩, ⟨1, 3, true⟩] ∧
    (TournamentSort.extractStep 3
        ([0, 0, 0, 0],
         TournamentSort.buildTournamentTree [5, 3, 8, 1]
           (List.replicate 7 TournamentSort.Node.default) SortStats.zero) 0).1 = [1, 0, 0, 0] ∧
    TournamentSort.nd (TournamentSort.extractStep 3
        ([0, 0, 0, 0],
         TournamentSort.buildTournamentTree [5, 3, 8, 1]
           (List.replicate 7 TournamentSort.Node.default) SortStats.zero) 0).2.1 6
      = ⟨TournamentSort.INT_MAX, 3, false⟩ := by
  decide


theorem weightedSum_set (v : Int) :
    ∀ (l : List Int) (k i : Nat), i < l.length →
      weightedSum k (l.set i v) = weightedSum k l + ((k : Int) + i) * (v - rd l i) := by
  intro l
  induction l with
  | nil => intro k i h; simp at h
  | cons x xs ih =>
    intro k i h
    cases i with
    | zero =>
      simp [weightedSum, rd]
      ring
    | succ i =>
      simp only [List.set_cons_succ, weightedSum]
      rw [ih (k + 1) i (by simpa using h)]
      have : rd (x :: xs) (i + 1) = rd xs i := by simp [rd]
      rw [this]
      push_cast
      ring

theorem weightedSum_swapAt (a : List Int) (i g : Nat) (h : i + g < a.length) :
    weightedSum 0 (swapAt a i (i + g)) = weightedSum 0 a + (g : Int) * (rd a i - rd a (i + g)) := by
  unfold swapAt
  rw [weightedSum_set _ _ _ _ (by simpa using h), weightedSum_set _ _ _ _ (by omega), rd_set]
  by_cases hg : g = 0
  · subst hg; simp
  · rw [if_neg (by omega)]
    push_cast
    ring

theorem absSum_nonneg (l : List Int) : 0 ≤ absSum l := by
  unfold absSum
  apply List.sum_nonneg
  intro x hx
  simp only [List.mem_map] at hx
  obtain ⟨y, _, rfl⟩ := hx
  exact abs_nonneg y

theorem absSum_perm {a b : List Int} (h : a.Perm b) : absSum a = absSum b := by
  unfold absSum
  exact (h.map _).sum_eq

theorem weightedSum_le :
    ∀ (l : List Int) (k : Nat), weightedSum k l ≤ ((k : Int) + l.length) * absSum l := by
  intro l
  induction l with
  | nil => intro k; simp [weightedSum, absSum]
  | cons x xs ih =>
    intro k
    have h1 := ih (k + 1)
    have h2 := absSum_nonneg xs
    have h3 : absSum (x :: xs) = |x| + absSum xs := by simp [absSum]
    have h4 : x ≤ |x| := le_abs_self x
    have h5 : 0 ≤ |x| := abs_nonneg x
    simp only [weightedSum, List.length_cons]
    rw [h3]
    push_cast at h1 ⊢
    nlinarith [mul_nonneg (Nat.cast_nonneg k : (0 : Int) ≤ k) (sub_nonneg.2 h4),
      mul_nonneg (Nat.cast_nonneg xs.length : (0 : Int) ≤ xs.length) h5,
      mul_nonneg (Nat.cast_nonneg k : (0 : Int) ≤ k) h2]

namespace CombSort

theorem getNextGap_pos (gap : Nat) : 1 ≤ getNextGap gap := by
  unfold getNextGap
  simp only
  split <;> omega

theorem getNextGap_lt (gap : Nat) (h : 2 ≤ gap) : getNextGap gap < gap := by
  unfold getNextGap
  simp only
  split <;> omega

theorem getNextGap_one : getNextGap 1 = 1 := by decide

theorem passStep_inv (gap : Nat) (hg : 1 ≤ gap) (a0 : List Int) (i : Nat) (r : Bool × SortState)
    (hi : i + gap < a0.length)
    (h : r.2.1.Perm a0 ∧
      weightedSum 0 a0 + (if r.1 = true then 1 else 0) ≤ weightedSum 0 r.2.1 ∧
      (r.1 = false → r.2.1 = a0 ∧ ∀ t, t < i → rd a0 t ≤ rd a0 (t + gap))) :
    (passStep gap r i).2.1.Perm a0 ∧
      weightedSum 0 a0 + (if (passStep gap r i).1 = true then 1 else 0)
        ≤ weightedSum 0 (passStep gap r i).2.1 ∧
      ((passStep gap r i).1 = false → (passStep gap r i).2.1 = a0 ∧
        ∀ t, t < i + 1 → rd a0 t ≤ rd a0 (t + gap)) := by
  obtain ⟨p1, p2, p3⟩ := h
  have hl : r.2.1.length = a0.length := p1.length_eq
  unfold passStep
  by_cases hc : rd r.2.1 i > rd r.2.1 (i + gap)
  · rw [if_pos hc]
    dsimp only
    refine ⟨(swapAt_perm _ (by omega) (by omega)).trans p1, ?_, ?_⟩
    · rw [weightedSum_swapAt _ _ _ (by omega), if_pos rfl]
      have h1 : (1 : Int) ≤ gap := by exact_mod_cast hg
      have h2 : 1 ≤ rd r.2.1 i - rd r.2.1 (i + gap) := by omega
      have h3 : (1 : Int) ≤ (gap : Int) * (rd r.2.1 i - rd r.2.1 (i + gap)) := by nlinarith
      split at p2 <;> omega
    · intro hf; simp at hf
  · rw [if_neg hc]
    dsimp only
    refine ⟨p1, p2, ?_⟩
    intro hf
    obtain ⟨g1, g2⟩ := p3 hf
    refine ⟨g1, ?_⟩
    intro t ht
    by_cases e1 : t = i
    · subst e1; rw [g1] at hc; exact not_lt.1 hc
    · exact g2 t (by omega)

theorem pass_spec (gap : Nat) (hg : 1 ≤ gap) (s : SortState) :
    (pass s.1.length gap s).2.1.Perm s.1 ∧
    weightedSum 0 s.1 + (if (pass s.1.length gap s).1 = true then 1 else 0)
      ≤ weightedSum 0 (pass s.1.length gap s).2.1 ∧
    ((pass s.1.length gap s).1 = false → (pass s.1.length gap s).2.1 = s.1 ∧
      ∀ t, t + gap < s.1.length → rd s.1 t ≤ rd s.1 (t + gap)) := by
  unfold pass
  have key := foldl_range'_inv
    (fun i (r : Bool × SortState) => r.2.1.Perm s.1 ∧
      weightedSum 0 s.1 + (if r.1 = true then 1 else 0) ≤ weightedSum 0 r.2.1 ∧
      (r.1 = false → r.2.1 = s.1 ∧ ∀ t, t < i → rd s.1 t ≤ rd s.1 (t + gap)))
    (passStep gap) 0 (s.1.length - gap) (false, s)
    ⟨List.Perm.refl _, by simp, fun _ => ⟨rfl, fun t ht => by omega⟩⟩
    (by
      intro i r h1 h2 hp
      exact passStep_inv gap hg s.1 i r (by omega) hp)
  obtain ⟨k1, k2, k3⟩ := key
  refine ⟨k1, k2, ?_⟩
  intro hf
  obtain ⟨g1, g2⟩ := k3 hf
  exact ⟨g1, fun t ht => g2 t (by omega)⟩

theorem combLoop_spec (arr : List Int) :
    ∀ (fuel gap : Nat) (swapped : Bool) (s : SortState),
      s.1.Perm arr → 1 ≤ gap →
      (swapped = false → ∀ t, t + gap < arr.length → rd s.1 t ≤ rd s.1 (t + gap)) →
      gap + ((arr.length : Int) * absSum arr - weightedSum 0 s.1).toNat
        + (if swapped = true then 2 else 1) ≤ fuel →
      ∃ r, sortLoop arr.length fuel gap swapped s = some r ∧ r.1.Perm arr ∧
        SortedOn r.1 0 (arr.length - 1) := by
  intro fuel
  induction fuel with
  | zero =>
    intro gap swapped s _ _ _ hf
    split at hf <;> omega
  | succ fuel ih =>
    intro gap swapped s hp hg hinv hf
    unfold sortLoop
    by_cases hc : gap > 1 ∨ swapped = true
    · rw [if_pos hc]
      dsimp only
      have hl : s.1.length = arr.length := hp.length_eq
      obtain ⟨q1, q2, q3⟩ := pass_spec (getNextGap gap) (getNextGap_pos gap) s
      rw [hl] at q1 q2 q3
      generalize pass arr.length (getNextGap gap) s = r at q1 q2 q3
      have hub : weightedSum 0 r.2.1 ≤ (arr.length : Int) * absSum arr := by
        have := weightedSum_le r.2.1 0
        rw [absSum_perm (q1.trans hp), (q1.trans hp).length_eq] at this
        simpa using this
      have hgap : getNextGap gap ≤ gap ∧ (gap > 1 → getNextGap gap < gap) := by
        constructor
        · by_cases h2 : 2 ≤ gap
          · exact le_of_lt (getNextGap_lt gap h2)
          · have : gap = 1 := by omega
            subst this; decide
        · intro h; exact getNextGap_lt gap h
      apply ih (getNextGap gap) r.1 r.2 (q1.trans hp) (getNextGap_pos gap)
      · intro hf2
        obtain ⟨g1, g2⟩ := q3 hf2
        rw [g1]
        exact g2
      · generalize (arr.length : Int) * absSum arr = A at hf hub ⊢
        generalize weightedSum 0 r.2.1 = w1 at q2 hub ⊢
        generalize weightedSum 0 s.1 = w0 at q2 hf
        have hrs : r.1 = true ∨ r.1 = false := by cases r.1 <;> simp
        have hss : swapped = true ∨ swapped = false := by cases swapped <;> simp
        rcases hss with hsw | hsw
        · rw [hsw] at hf
          simp only [if_true] at hf
          rcases hrs with hr | hr
          · rw [hr]; rw [hr] at q2
            simp only [if_true] at q2 ⊢
            omega
          · rw [hr]; rw [hr] at q2
            simp only [Bool.false_eq_true, if_false] at q2 ⊢
            omega
        · have hg2 : gap > 1 := by
            rcases hc with hc | hc
            · exact hc
            · rw [hsw] at hc; simp at hc
          have := hgap.2 hg2
          rw [hsw] at hf
          simp only [Bool.false_eq_true, if_false] at hf
          rcases hrs with hr | hr
          · rw [hr]; rw [hr] at q2
            simp only [if_true] at q2 ⊢
            omega
          · rw [hr]; rw [hr] at q2
            simp only [Bool.false_eq_true, if_false] at q2 ⊢
            omega
    · rw [if_neg hc]
      refine ⟨s, rfl, hp, ?_⟩
      have hg1 : gap = 1 := by omega
      have hsw : swapped = false := by
        cases swapped
        · rfl
        · exact absurd (Or.inr rfl) hc
      subst hg1
      apply sortedOn_of_adjacent
      intro t _ ht
      exact hinv hsw t (by omega)

theorem combLoop_unique (n : Nat) :
    ∀ (f1 f2 gap : Nat) (swapped : Bool) (s r1 r2 : SortState),
      sortLoop n f1 gap swapped s = some r1 → sortLoop n f2 gap swapped s = some r2 →
      r1 = r2 := by
  intro f1
  induction f1 with
  | zero => intro f2 gap swapped s r1 r2 h1; simp [sortLoop] at h1
  | succ f1 ih =>
    intro f2 gap swapped s r1 r2 h1 h2
    cases f2 with
    | zero => simp [sortLoop] at h2
    | succ f2 =>
      unfold sortLoop at h1 h2
      by_cases hc : gap > 1 ∨ swapped = true
      · rw [if_pos hc] at h1 h2
        exact ih _ _ _ _ _ _ h1 h2
      · rw [if_neg hc] at h1 h2
        rw [Option.some.injEq] at h1 h2
        rw [← h1, ← h2]

/-- Comb sort leaves its loop after finitely many passes and returns a non-decreasing
permutation of its input. -/
theorem combSort_spec (arr : List Int) :
    ∃ fuel r, sort fuel arr = some r ∧ (∀ fuel' r', sort fuel' arr = some r' → r' = r) ∧
      r.1.Sorted (fun x y => x ≤ y) ∧ r.1.Perm arr := by
  by_cases hn : arr.length ≤ 1
  · refine ⟨0, (arr, SortStats.zero), by simp [sort, hn], ?_, ?_, List.Perm.refl _⟩
    · intro fuel r' h
      simp [sort, hn] at h
      exact h.symm
    · apply sorted_of_sortedOn
      intro i j _ hij hj
      simp only at hj
      omega
  · obtain ⟨r, r1, r2, r3⟩ := combLoop_spec arr
      (arr.length + ((arr.length : Int) * absSum arr - weightedSum 0 arr).toNat + 2)
      arr.length true (arr, SortStats.zero) (List.Perm.refl _) (by omega)
      (by intro h; simp at h) (by simp)
    have hs : ∀ fuel, sort fuel arr = sortLoop arr.length fuel arr.length true
        (arr, SortStats.zero) := by
      intro fuel; simp [sort, hn]
    refine ⟨_, r, by rw [hs]; exact r1, ?_, ?_, r2⟩
    · intro fuel r' h
      rw [hs] at h
      exact combLoop_unique _ _ _ _ _ _ _ _ h r1
    · apply sorted_of_sortedOn
      have : r.1.length = arr.length := r2.length_eq
      rw [this]
      exact r3

end CombSort

/-- C5: for every integer vector, `CombSort::sort` terminates (its loop
`while (gap > 1 || swapped)` exits after finitely many passes, and the result does not
depend on the bound allowed) and leaves the vector non-decreasing and a permutation of
the input. -/
theorem combSort_terminates_and_sorts (arr : List Int) :
    ∃ fuel r, CombSort.sort fuel arr = some r ∧
      (∀ fuel' r', CombSort.sort fuel' arr = some r' → r' = r) ∧
      r.1.Sorted (fun x y => x ≤ y) ∧ r.1.Perm arr :=
  CombSort.combSort_spec arr


theorem seg_set_snoc (a : List Int) (l k : Nat) (v : Int) (hlk : l ≤ k) (hk : k < a.length) :
    seg (a.set k v) l (k + 1) = seg a l k ++ [v] := by
  unfold seg
  have h1 : (a.set k v).take (k + 1) = a.take k ++ [v] := by
    apply ext_rd
    · simp; omega
    · intro t ht
      simp only [List.length_take, List.length_set] at ht
      rw [rd_of_lt _ (by simp; omega), rd_of_lt _ (by simp; omega)]
      simp only [List.getElem_take, List.getElem_set, List.getElem_append]
      by_cases e1 : k = t
      · subst e1; simp
      · have h3 : t < k := by omega
        have h4 : t < a.length := by omega
        simp [e1, h3, h4]
  rw [h1, List.drop_append_of_le_length (by simp; omega)]

theorem rd_seg (a : List Int) (b e t : Nat) (he : e ≤ a.length) (ht : b + t < e) :
    rd (seg a b e) t = rd a (b + t) := by
  unfold seg
  rw [rd_of_lt _ (by simp; omega), rd_of_lt a (by omega)]
  simp [List.getElem_drop, List.getElem_take]

theorem length_seg (a : List Int) (b e : Nat) (he : e ≤ a.length) :
    (seg a b e).length = e - b := by
  unfold seg
  simp
  omega

theorem seg_append (a : List Int) (l m r : Nat) (hlm : l ≤ m) (hmr : m ≤ r)
    (hr : r ≤ a.length) : seg a l m ++ seg a m r = seg a l r := by
  apply ext_rd
  · rw [List.length_append, length_seg _ _ _ (by omega), length_seg _ _ _ hr,
      length_seg _ _ _ hr]
    omega
  · intro t ht
    rw [List.length_append, length_seg _ _ _ (by omega), length_seg _ _ _ hr] at ht
    rw [rd_seg a l r t hr (by omega)]
    by_cases e1 : t < m - l
    · have : rd (seg a l m ++ seg a m r) t = rd (seg a l m) t := by
        unfold rd
        rw [List.getD_append _ _ _ _ (by rw [length_seg _ _ _ (by omega)]; exact e1)]
      rw [this, rd_seg a l m t (by omega) (by omega)]
    · have : rd (seg a l m ++ seg a m r) t = rd (seg a m r) (t - (m - l)) := by
        unfold rd
        rw [List.getD_append_right _ _ _ _ (by rw [length_seg _ _ _ (by omega)]; omega),
          length_seg _ _ _ (by omega)]
      rw [this, rd_seg a m r _ hr (by omega)]
      congr 1
      omega

theorem perm_of_seg_perm (a a' : List Int) (b e : Nat) (hbe : b ≤ e)
    (ho : a'.length = a.length ∧ ∀ i, (i < b ∨ e ≤ i) → rd a' i = rd a i)
    (hp : (seg a' b e).Perm (seg a b e)) : a'.Perm a := by
  have h1 := split_seg a b e hbe
  have h2 := split_seg a' b e hbe
  have ht : a'.take b = a.take b := take_eq_of_rd a a' b ho.1 (fun i hi => ho.2 i (Or.inl hi))
  have hd : a'.drop e = a.drop e :=
    drop_eq_of_rd a a' e ho.1 (fun i hi => ho.2 i (Or.inr hi))
  rw [h1, h2, ht, hd]
  exact (List.Perm.append_left _ hp).append_right _

theorem SortedOn.congr {a a' : List Int} {b e : Nat} (h : SortedOn a b e)
    (hc : ∀ x, b ≤ x → x ≤ e → rd a' x = rd a x) : SortedOn a' b e := by
  intro x y hx hxy hy
  rw [hc x hx (by omega), hc y (by omega) hy]
  exact h x y hx hxy hy

namespace TimSort

theorem copyRun_spec (a : List Int) (off len : Nat) :
    (copyRun a off len).length = len ∧ ∀ t, t < len → rd (copyRun a off len) t = rd a (off + t) := by
  unfold copyRun
  have key := foldl_range'_inv
    (fun i (tmp : List Int) => tmp.length = len ∧ ∀ t, t < i → rd tmp t = rd a (off + t))
    (fun tmp i => tmp.set i (rd a (off + i))) 0 len (List.replicate len 0)
    ⟨by simp, fun t ht => by omega⟩
    (by
      intro i tmp h1 h2 ⟨p1, p2⟩
      refine ⟨by simpa using p1, ?_⟩
      intro t ht
      by_cases e1 : t = i
      · subst e1; rw [rd_set_eq _ _ (by omega)]
      · rw [rd_set_ne _ _ (fun h => e1 h.symm)]
        exact p2 t (by omega))
  simpa using key

theorem copyRun_eq_seg (a : List Int) (off len : Nat) (h : off + len ≤ a.length) :
    copyRun a off len = seg a off (off + len) := by
  obtain ⟨h1, h2⟩ := copyRun_spec a off len
  apply ext_rd
  · rw [h1, length_seg _ _ _ h]; omega
  · intro t ht
    rw [h1] at ht
    rw [h2 t ht, rd_seg _ _ _ _ h (by omega)]

theorem take_succ_rd (L : List Int) (i : Nat) (h : i < L.length) :
    L.take (i + 1) = L.take i ++ [rd L i] := by
  rw [rd_of_lt L h, List.take_succ, List.getElem?_eq_getElem h]
  rfl

theorem mergeInv_stepL (a0 L R : List Int) (l i j k : Nat) (a : List Int)
    (hL : SortedOn L 0 (L.length - 1)) (hlen : l + L.length + R.length ≤ a0.length)
    (h : MergeInv a0 L R l i j k a) (hi : i < L.length)
    (hle : j < R.length → rd L i ≤ rd R j) :
    MergeInv a0 L R l (i + 1) j (k + 1) (a.set k (rd L i)) := by
  obtain ⟨h1, h2, h3, h4, h5, h6, h7, h8⟩ := h
  have hk : k < a.length := by omega
  refine ⟨by omega, by omega, h3, by simpa using h4, ?_, ?_, ?_, ?_⟩
  · intro t ht
    rw [rd_set_ne _ _ (by omega)]
    exact h5 t (by omega)
  · rw [seg_set_snoc a l k _ (by omega) hk, take_succ_rd L i hi]
    rw [List.perm_iff_count] at h6 ⊢
    intro x
    have := h6 x
    simp only [List.count_append] at this ⊢
    omega
  · intro x y hx hxy hy
    by_cases e1 : y = k
    · subst e1
      rw [rd_set_eq _ _ hk, rd_set_ne _ _ (by omega)]
      exact (h8 x hx (by omega)).1 hi
    · rw [rd_set_ne _ _ (by omega), rd_set_ne _ _ (by omega)]
      exact h7 x y hx hxy (by omega)
  · intro x hx1 hx2
    by_cases e1 : x = k
    · subst e1
      rw [rd_set_eq _ _ hk]
      exact ⟨fun hi2 => hL i (i + 1) (Nat.zero_le _) (by omega) (by omega), hle⟩
    · rw [rd_set_ne _ _ (fun h => e1 h.symm)]
      obtain ⟨g1, g2⟩ := h8 x hx1 (by omega)
      exact ⟨fun hi2 => le_trans (g1 hi)
        (hL i (i + 1) (Nat.zero_le _) (by omega) (by omega)), g2⟩

theorem mergeInv_stepR (a0 L R : List Int) (l i j k : Nat) (a : List Int)
    (hR : SortedOn R 0 (R.length - 1)) (hlen : l + L.length + R.length ≤ a0.length)
    (h : MergeInv a0 L R l i j k a) (hj : j < R.length)
    (hle : i < L.length → rd R j ≤ rd L i) :
    MergeInv a0 L R l i (j + 1) (k + 1) (a.set k (rd R j)) := by
  obtain ⟨h1, h2, h3, h4, h5, h6, h7, h8⟩ := h
  have hk : k < a.length := by omega
  refine ⟨by omega, h2, by omega, by simpa using h4, ?_, ?_, ?_, ?_⟩
  · intro t ht
    rw [rd_set_ne _ _ (by omega)]
    exact h5 t (by omega)
  · rw [seg_set_snoc a l k _ (by omega) hk, take_succ_rd R j hj]
    rw [List.perm_iff_count] at h6 ⊢
    intro x
    have := h6 x
    simp only [List.count_append] at this ⊢
    omega
  · intro x y hx hxy hy
    by_cases e1 : y = k
    · subst e1
      rw [rd_set_eq _ _ hk, rd_set_ne _ _ (by omega)]
      exact (h8 x hx (by omega)).2 hj
    · rw [rd_set_ne _ _ (by omega), rd_set_ne _ _ (by omega)]
      exact h7 x y hx hxy (by omega)
  · intro x hx1 hx2
    by_cases e1 : x = k
    · subst e1
      rw [rd_set_eq _ _ hk]
      exact ⟨hle, fun hj2 => hR j (j + 1) (Nat.zero_le _) (by omega) (by omega)⟩
    · rw [rd_set_ne _ _ (fun h => e1 h.symm)]
      obtain ⟨g1, g2⟩ := h8 x hx1 (by omega)
      exact ⟨g1, fun hj2 => le_trans (g2 hj)
        (hR j (j + 1) (Nat.zero_le _) (by omega) (by omega))⟩

theorem mergeLoop_spec (a0 L R : List Int) (l : Nat)
    (hL : SortedOn L 0 (L.length - 1)) (hR : SortedOn R 0 (R.length - 1))
    (hlen : l + L.length + R.length ≤ a0.length) :
    ∀ (fuel i j k : Nat) (a : List Int) (st : SortStats),
      MergeInv a0 L R l i j k a → (L.length - i) + (R.length - j) ≤ fuel →
      MergeInv a0 L R l (mergeLoop L R fuel i j k a st).1 (mergeLoop L R fuel i j k a st).2.1
        (mergeLoop L R fuel i j k a st).2.2.1 (mergeLoop L R fuel i j k a st).2.2.2.1 ∧
      ¬ ((mergeLoop L R fuel i j k a st).1 < L.length ∧
          (mergeLoop L R fuel i j k a st).2.1 < R.length) := by
  intro fuel
  induction fuel with
  | zero =>
    intro i j k a st h hf
    unfold mergeLoop
    exact ⟨h, by omega⟩
  | succ fuel ih =>
    intro i j k a st h hf
    unfold mergeLoop
    by_cases hc : i < L.length ∧ j < R.length
    · rw [if_pos hc]
      by_cases hc2 : rd L i ≤ rd R j
      · rw [if_pos hc2]
        exact ih _ _ _ _ _ (mergeInv_stepL a0 L R l i j k a hL hlen h hc.1 (fun _ => hc2))
          (by omega)
      · rw [if_neg hc2]
        exact ih _ _ _ _ _ (mergeInv_stepR a0 L R l i j k a hR hlen h hc.2
          (fun _ => le_of_lt (not_le.1 hc2))) (by omega)
    · rw [if_neg hc]
      exact ⟨h, hc⟩

theorem drainL_spec (a0 L R : List Int) (l i j k : Nat) (a : List Int) (st : SortStats)
    (hL : SortedOn L 0 (L.length - 1)) (hlen : l + L.length + R.length ≤ a0.length)
    (h : MergeInv a0 L R l i j k a) (hx : ¬ (i < L.length ∧ j < R.length)) :
    MergeInv a0 L R l L.length j (k + (L.length - i)) (drain L i k a st).1 := by
  unfold drain
  have key := foldl_range'_inv
    (fun t (s : SortState) => MergeInv a0 L R l (i + t) j (k + t) s.1)
    (fun (s : SortState) t => (s.1.set (k + t) (rd L (i + t)), s.2.addAsg 1))
    0 (L.length - i) (a, st) (by simpa using h)
    (by
      intro t s h1 h2 hp
      have := mergeInv_stepL a0 L R l (i + t) j (k + t) s.1 hL hlen hp (by omega)
        (fun hj => by omega)
      simpa [Nat.add_assoc] using this)
  have e1 : i + (0 + (L.length - i)) = L.length := by have := h.2.1; omega
  dsimp only at key
  rw [e1] at key
  simpa using key

theorem drainR_spec (a0 L R : List Int) (l j k : Nat) (a : List Int) (st : SortStats)
    (hR : SortedOn R 0 (R.length - 1)) (hlen : l + L.length + R.length ≤ a0.length)
    (h : MergeInv a0 L R l L.length j k a) :
    MergeInv a0 L R l L.length R.length (k + (R.length - j)) (drain R j k a st).1 := by
  unfold drain
  have key := foldl_range'_inv
    (fun t (s : SortState) => MergeInv a0 L R l L.length (j + t) (k + t) s.1)
    (fun (s : SortState) t => (s.1.set (k + t) (rd R (j + t)), s.2.addAsg 1))
    0 (R.length - j) (a, st) (by simpa using h)
    (by
      intro t s h1 h2 hp
      have := mergeInv_stepR a0 L R l L.length (j + t) (k + t) s.1 hR hlen hp (by omega)
        (fun hi => by omega)
      simpa [Nat.add_assoc] using this)
  have e1 : j + (0 + (R.length - j)) = R.length := by have := h.2.2.1; omega
  dsimp only at key
  rw [e1] at key
  simpa using key

end TimSort


namespace TimSort

/-- Merging two adjacent non-decreasing runs `arr[l..m]` and `arr[m+1..r]`: a permutation
that leaves the rest of the vector alone and makes `arr[l..r]` non-decreasing. -/
theorem merge_spec (a : List Int) (l m r : Nat) (st : SortStats) (hlm : l ≤ m) (hmr : m < r)
    (hr : r < a.length) (h1 : SortedOn a l m) (h2 : SortedOn a (m + 1) r) :
    (merge a l m r st).1.Perm a ∧ SameOutside a (merge a l m r st).1 l r ∧
    SortedOn (merge a l m r st).1 l r := by
  unfold merge
  dsimp only
  have eL : copyRun a l (m + 1 - l) = seg a l (m + 1) := by
    have := copyRun_eq_seg a l (m + 1 - l) (by omega)
    rwa [show l + (m + 1 - l) = m + 1 by omega] at this
  have eR : copyRun a (m + 1) (r - m) = seg a (m + 1) (r + 1) := by
    have := copyRun_eq_seg a (m + 1) (r - m) (by omega)
    rwa [show m + 1 + (r - m) = r + 1 by omega] at this
  have lL : (copyRun a l (m + 1 - l)).length = m + 1 - l := (copyRun_spec a l _).1
  have lR : (copyRun a (m + 1) (r - m)).length = r - m := (copyRun_spec a (m + 1) _).1
  have hL : SortedOn (copyRun a l (m + 1 - l)) 0 ((copyRun a l (m + 1 - l)).length - 1) := by
    intro x y hx hxy hy
    rw [lL] at hy
    rw [(copyRun_spec a l _).2 x (by omega), (copyRun_spec a l _).2 y (by omega)]
    exact h1 _ _ (by omega) (by omega) (by omega)
  have hR : SortedOn (copyRun a (m + 1) (r - m)) 0
      ((copyRun a (m + 1) (r - m)).length - 1) := by
    intro x y hx hxy hy
    rw [lR] at hy
    rw [(copyRun_spec a (m + 1) _).2 x (by omega), (copyRun_spec a (m + 1) _).2 y (by omega)]
    exact h2 _ _ (by omega) (by omega) (by omega)
  generalize copyRun a l (m + 1 - l) = L at eL lL hL ⊢
  generalize copyRun a (m + 1) (r - m) = R at eR lR hR ⊢
  have hlen : l + L.length + R.length ≤ a.length := by omega
  have h0 : MergeInv a L R l 0 0 l a := by
    refine ⟨rfl, Nat.zero_le _, Nat.zero_le _, rfl, fun _ _ => rfl, ?_, ?_, ?_⟩
    · simp [seg]
    · intro x y hx hxy hy; omega
    · intro x hx1 hx2; omega
  obtain ⟨g1, g2⟩ := mergeLoop_spec a L R l hL hR hlen (m + 1 - l + (r - m)) 0 0 l a
    (((st.addMem ((m + 1 - l + (r - m)) * sizeofInt)).addAsg ↑(m + 1 - l)).addAsg ↑(r - m))
    h0 (by omega)
  generalize mergeLoop L R (m + 1 - l + (r - m)) 0 0 l a
    (((st.addMem ((m + 1 - l + (r - m)) * sizeofInt)).addAsg ↑(m + 1 - l)).addAsg ↑(r - m)) = s
    at g1 g2 ⊢
  have d1 := drainL_spec a L R l s.1 s.2.1 s.2.2.1 s.2.2.2.1 s.2.2.2.2 hL hlen g1 g2
  generalize drain L s.1 s.2.2.1 s.2.2.2.1 s.2.2.2.2 = dl at d1 ⊢
  have d2 := drainR_spec a L R l s.2.1 (s.2.2.1 + (L.length - s.1)) dl.1 dl.2 hR hlen d1
  generalize drain R s.2.1 (s.2.2.1 + (L.length - s.1)) dl.1 dl.2 = dr at d2 ⊢
  obtain ⟨k1, k2, k3, k4, k5, k6, k7, k8⟩ := d2
  have hk : s.2.2.1 + (L.length - s.1) + (R.length - s.2.1) = r + 1 := by omega
  rw [hk] at k5 k6 k7
  rw [List.take_length, List.take_length, eL, eR, seg_append a l (m + 1) (r + 1) (by omega)
    (by omega) (by omega)] at k6
  refine ⟨perm_of_seg_perm a dr.1 l (r + 1) (by omega) ⟨k4, k5⟩ k6,
    ⟨k4, fun t ht => k5 t (by omega)⟩, ?_⟩
  intro x y hx hxy hy
  exact k7 x y hx hxy (by omega)

theorem strideCount_lt (n step t : Nat) (hs : 1 ≤ step) (ht : t < strideCount n step) :
    step * t < n := by
  unfold strideCount at ht
  have h1 : t + 1 ≤ (n + step - 1) / step := ht
  rw [Nat.le_div_iff_mul_le (by omega)] at h1
  have h2 : (t + 1) * step = step * t + step := by ring
  omega

theorem strideCount_ge (n step c : Nat) (hs : 1 ≤ step) (hc : strideCount n step ≤ c) :
    n ≤ c * step := by
  unfold strideCount at hc
  by_contra hlt
  have h1 : c + 1 ≤ (n + step - 1) / step := by
    rw [Nat.le_div_iff_mul_le (by omega)]
    have h2 : (c + 1) * step = c * step + step := by ring
    omega
  omega

theorem runs_spec (arr : List Int) (minRun : Nat) (hm : 1 ≤ minRun) (hn : 1 ≤ arr.length) :
    ((List.range' 0 (strideCount arr.length minRun) minRun).foldl
      (fun (s : SortState) i =>
        insertionSort s.1 i (min (i + minRun - 1) (arr.length - 1)) s.2)
      (arr, SortStats.zero)).1.Perm arr ∧
    RunsSorted ((List.range' 0 (strideCount arr.length minRun) minRun).foldl
      (fun (s : SortState) i =>
        insertionSort s.1 i (min (i + minRun - 1) (arr.length - 1)) s.2)
      (arr, SortStats.zero)).1 minRun := by
  have key := foldl_range'_step_inv
    (fun t (s : SortState) => s.1.Perm arr ∧
      ∀ c, c < t → SortedOn s.1 (c * minRun) (min (c * minRun + minRun - 1) (arr.length - 1)))
    (fun (s : SortState) i =>
        insertionSort s.1 i (min (i + minRun - 1) (arr.length - 1)) s.2)
    0 minRun (strideCount arr.length minRun) (arr, SortStats.zero)
    ⟨List.Perm.refl _, fun c hc => by omega⟩
    (by
      intro t s ht ⟨p1, p2⟩
      have hlt := strideCount_lt arr.length minRun t hm ht
      have hl : s.1.length = arr.length := p1.length_eq
      dsimp only
      rw [insertionSort_eq]
      obtain ⟨q1, q2, q3⟩ := IntroSort.insertionSort_spec s.1 (0 + minRun * t)
        (min (0 + minRun * t + minRun - 1) (arr.length - 1)) s.2 (by omega) (by omega)
      refine ⟨q1.trans p1, ?_⟩
      intro c hc
      by_cases e1 : c = t
      · subst e1
        have e2 : c * minRun = 0 + minRun * c := by ring
        rw [e2]; exact q3
      · have h3 : c * minRun + minRun ≤ minRun * t := by
          have : (c + 1) * minRun ≤ t * minRun := Nat.mul_le_mul_right _ (by omega)
          have e3 : (c + 1) * minRun = c * minRun + minRun := by ring
          have e4 : t * minRun = minRun * t := by ring
          omega
        exact (p2 c (by omega)).congr (fun x hx1 hx2 => q2.2 x (Or.inl (by omega))))
  obtain ⟨k1, k2⟩ := key
  refine ⟨k1, ?_⟩
  intro c
  by_cases hc : c < strideCount arr.length minRun
  · have := k2 c hc
    rwa [k1.length_eq]
  · have := strideCount_ge arr.length minRun c hm (by omega)
    intro x y hx hxy hy
    rw [k1.length_eq] at hy
    omega

theorem mergePass_spec (arr : List Int) (size : Nat) (s : SortState) (hs : 1 ≤ size)
    (hn : 1 ≤ arr.length) (hp : s.1.Perm arr) (hr : RunsSorted s.1 size) :
    ((List.range' 0 (strideCount arr.length (2 * size)) (2 * size)).foldl
      (mergePassStep arr.length size) s).1.Perm arr ∧
    RunsSorted ((List.range' 0 (strideCount arr.length (2 * size)) (2 * size)).foldl
      (mergePassStep arr.length size) s).1 (2 * size) := by
  have hl0 : s.1.length = arr.length := hp.length_eq
  have key := foldl_range'_step_inv
    (fun t (q : SortState) => q.1.Perm arr ∧
      (∀ c, c < t → SortedOn q.1 (c * (2 * size))
        (min (c * (2 * size) + 2 * size - 1) (arr.length - 1))) ∧
      (∀ c, 2 * t ≤ c → SortedOn q.1 (c * size) (min (c * size + size - 1) (arr.length - 1))))
    (mergePassStep arr.length size) 0 (2 * size) (strideCount arr.length (2 * size)) s
    ⟨hp, fun c hc => by omega, fun c _ => by
      have := hr c
      rwa [hl0] at this⟩
    (by
      intro t q ht ⟨p1, p2, p3⟩
      have hlt := strideCount_lt arr.length (2 * size) t (by omega) ht
      have hl : q.1.length = arr.length := p1.length_eq
      have eA : (2 * t) * size = 2 * size * t := by ring
      have eB : (2 * t + 1) * size = 2 * size * t + size := by ring
      have hA := p3 (2 * t) (le_refl _)
      have hB := p3 (2 * t + 1) (by omega)
      rw [eA] at hA
      rw [eB] at hB
      have hprev : ∀ c, c < t → c * (2 * size) + 2 * size ≤ 2 * size * t := by
        intro c hc
        have : (c + 1) * (2 * size) ≤ t * (2 * size) := Nat.mul_le_mul_right _ (by omega)
        have e3 : (c + 1) * (2 * size) = c * (2 * size) + 2 * size := by ring
        have e4 : t * (2 * size) = 2 * size * t := by ring
        omega
      have hnext : ∀ c, 2 * (t + 1) ≤ c → 2 * size * t + 2 * size ≤ c * size := by
        intro c hc
        have : (2 * (t + 1)) * size ≤ c * size := Nat.mul_le_mul_right _ hc
        have e3 : (2 * (t + 1)) * size = 2 * size * t + 2 * size := by ring
        omega
      unfold mergePassStep
      dsimp only
      generalize hw : 2 * size * t = w at hlt hA hB hprev hnext ⊢
      simp only [Nat.zero_add]
      by_cases hc : w + size - 1 < min (w + 2 * size - 1) (arr.length - 1)
      · rw [if_pos hc]
        obtain ⟨q1, q2, q3⟩ := merge_spec q.1 w (w + size - 1)
          (min (w + 2 * size - 1) (arr.length - 1)) q.2 (by omega) hc (by omega)
          (by
            have e5 : min (w + size - 1) (arr.length - 1) = w + size - 1 := by omega
            rwa [e5] at hA)
          (by
            have e5 : w + size - 1 + 1 = w + size := by omega
            have e6 : min (w + size + size - 1) (arr.length - 1)
              = min (w + 2 * size - 1) (arr.length - 1) := by
              congr 1; omega
            rwa [e5, ← e6])
        refine ⟨q1.trans p1, ?_, ?_⟩
        · intro c hc2
          by_cases e1 : c = t
          · subst e1
            have e2 : c * (2 * size) = w := by rw [← hw]; ring
            rw [e2]; exact q3
          · have := hprev c (by omega)
            exact (p2 c (by omega)).congr (fun x hx1 hx2 => q2.2 x (Or.inl (by omega)))
        · intro c hc2
          have := hnext c hc2
          exact (p3 c (by omega)).congr (fun x hx1 hx2 => q2.2 x (Or.inr (by omega)))
      · rw [if_neg hc]
        refine ⟨p1, ?_, fun c hc2 => p3 c (by omega)⟩
        intro c hc2
        by_cases e1 : c = t
        · subst e1
          have e2 : c * (2 * size) = w := by rw [← hw]; ring
          rw [e2]
          intro x y hx hxy hy
          exact hA x y hx hxy (by omega)
        · exact p2 c (by omega))
  obtain ⟨k1, k2, _⟩ := key
  refine ⟨k1, ?_⟩
  intro c
  by_cases hc : c < strideCount arr.length (2 * size)
  · have := k2 c hc
    rwa [k1.length_eq]
  · have := strideCount_ge arr.length (2 * size) c (by omega) (by omega)
    intro x y hx hxy hy
    rw [k1.length_eq] at hy
    omega

theorem mergePasses_spec (arr : List Int) (hn : 1 ≤ arr.length) :
    ∀ (fuel size : Nat) (s : SortState), 1 ≤ size → arr.length ≤ size + fuel →
      s.1.Perm arr → RunsSorted s.1 size →
      (mergePasses arr.length fuel size s).1.Perm arr ∧
      SortedOn (mergePasses arr.length fuel size s).1 0 (arr.length - 1) := by
  intro fuel
  induction fuel with
  | zero =>
    intro size s hs hf hp hr
    unfold mergePasses
    refine ⟨hp, ?_⟩
    have := hr 0
    rw [hp.length_eq] at this
    intro x y hx hxy hy
    exact this x y (by omega) hxy (by omega)
  | succ fuel ih =>
    intro size s hs hf hp hr
    unfold mergePasses
    by_cases hc : size < arr.length
    · rw [if_pos hc]
      obtain ⟨q1, q2⟩ := mergePass_spec arr size s hs hn hp hr
      exact ih (2 * size) _ (by omega) (by omega) q1 q2
    · rw [if_neg hc]
      refine ⟨hp, ?_⟩
      have := hr 0
      rw [hp.length_eq] at this
      intro x y hx hxy hy
      exact this x y (by omega) hxy (by omega)

theorem calcMinRunLoop_pos :
    ∀ (fuel n r : Nat), 1 ≤ n → 1 ≤ (calcMinRunLoop fuel n r).1 := by
  intro fuel
  induction fuel with
  | zero => intro n r hn; exact hn
  | succ fuel ih =>
    intro n r hn
    unfold calcMinRunLoop
    by_cases hc : MIN_RUN ≤ n
    · rw [if_pos hc]
      apply ih
      have : 32 ≤ n := hc
      rw [Nat.shiftRight_eq_div_pow]
      omega
    · rw [if_neg hc]; exact hn

theorem calcMinRun_pos (n : Nat) (hn : 1 ≤ n) : 1 ≤ calcMinRun n := by
  unfold calcMinRun
  dsimp only
  have := calcMinRunLoop_pos n n 0 hn
  omega

/-- Tim sort returns a non-decreasing permutation of its input. -/
theorem timSort_spec (arr : List Int) :
    (sort arr).1.Sorted (fun x y => x ≤ y) ∧ (sort arr).1.Perm arr := by
  unfold sort
  dsimp only
  by_cases hn : arr.length ≤ 1
  · rw [if_pos hn]
    refine ⟨?_, List.Perm.refl _⟩
    apply sorted_of_sortedOn
    intro i j _ hij hj
    simp only at hj
    omega
  · rw [if_neg hn]
    have hm := calcMinRun_pos arr.length (by omega)
    obtain ⟨r1, r2⟩ := runs_spec arr (calcMinRun arr.length) hm (by omega)
    obtain ⟨m1, m2⟩ := mergePasses_spec arr (by omega) arr.length (calcMinRun arr.length) _ hm
      (by omega) r1 r2
    refine ⟨?_, m1⟩
    apply sorted_of_sortedOn
    rw [m1.length_eq]
    exact m2

end TimSort

/-- C2: for every integer vector, `TimSort::sort` (blocks of `calcMinRun(n)` elements
insertion-sorted, then merged bottom-up with doubling width) leaves the vector
non-decreasing and a permutation of the input. -/
theorem timSort_sorts (arr : List Int) :
    (TimSort.sort arr).1.Sorted (fun x y => x ≤ y) ∧ (TimSort.sort arr).1.Perm arr :=
  TimSort.timSort_spec arr


theorem floorLog2Aux_pow (k : Nat) :
    ∀ (fuel h : Nat), h ≤ k → k - h ≤ fuel → floorLog2Aux (2 ^ k) fuel h = k := by
  intro fuel
  induction fuel with
  | zero => intro h h1 h2; unfold floorLog2Aux; omega
  | succ fuel ih =>
    intro h h1 h2
    unfold floorLog2Aux
    by_cases hc : 2 ^ (h + 1) ≤ 2 ^ k
    · rw [if_pos hc]
      have : h + 1 ≤ k := (Nat.pow_le_pow_iff_right (by omega)).1 hc
      exact ih (h + 1) this (by omega)
    · rw [if_neg hc]
      have : ¬ h + 1 ≤ k := fun h3 => hc (Nat.pow_le_pow_right (by omega) h3)
      omega

theorem floorLog2_pow (k : Nat) : floorLog2 (2 ^ k) = k := by
  unfold floorLog2
  exact floorLog2Aux_pow k (2 ^ k) 0 (Nat.zero_le _) (by
    have := Nat.lt_two_pow k
    omega)

theorem le_pow_ceilLog2Aux (n : Nat) :
    ∀ (fuel h : Nat), n ≤ 2 ^ (h + fuel) → n ≤ 2 ^ ceilLog2Aux n fuel h := by
  intro fuel
  induction fuel with
  | zero => intro h hn; simpa [ceilLog2Aux] using hn
  | succ fuel ih =>
    intro h hn
    unfold ceilLog2Aux
    by_cases hc : 2 ^ h < n
    · rw [if_pos hc]
      apply ih
      have : h + 1 + fuel = h + (fuel + 1) := by omega
      rw [this]; exact hn
    · rw [if_neg hc]; omega

theorem le_pow_ceilLog2 (n : Nat) : n ≤ 2 ^ ceilLog2 n := by
  unfold ceilLog2
  apply le_pow_ceilLog2Aux
  have := Nat.lt_two_pow n
  simp only [Nat.zero_add]
  omega

theorem Anc.self_anc (x : Nat) : Anc x x := ⟨0, by simp⟩

theorem Anc.parent {c p x : Nat} (h : Anc c x) (hc : c = 2 * p + 1 ∨ c = 2 * p + 2) :
    Anc p x := by
  obtain ⟨d, hd⟩ := h
  refine ⟨d + 1, ?_⟩
  rw [pow_succ, ← Nat.div_div_eq_div_mul, hd]
  omega

theorem SAnc.of_parent {i x : Nat} (hx : 1 ≤ x) (h : SAnc i ((x - 1) / 2)) : SAnc i x := by
  obtain ⟨d, hd1, hd⟩ := h
  refine ⟨d + 1, by omega, ?_⟩
  have e1 : (x - 1) / 2 + 1 = (x + 1) / 2 := by omega
  rw [e1] at hd
  rw [pow_succ, Nat.mul_comm, ← Nat.div_div_eq_div_mul]
  exact hd

theorem SAnc.cases {i x : Nat} (hx : 1 ≤ x) (h : SAnc i x) :
    i = (x - 1) / 2 ∨ SAnc i ((x - 1) / 2) := by
  obtain ⟨d, hd1, hd⟩ := h
  have e1 : (x - 1) / 2 + 1 = (x + 1) / 2 := by omega
  obtain ⟨d', rfl⟩ : ∃ d', d = d' + 1 := ⟨d - 1, by omega⟩
  rw [pow_succ, Nat.mul_comm, ← Nat.div_div_eq_div_mul] at hd
  by_cases h0 : d' = 0
  · subst h0
    left
    simp at hd
    omega
  · right
    exact ⟨d', by omega, by rw [e1]; exact hd⟩

theorem SAnc.lt {i x : Nat} (h : SAnc i x) : i < x := by
  obtain ⟨d, hd1, hd⟩ := h
  have h1 : (x + 1) / 2 ^ d ≤ (x + 1) / 2 := by
    apply Nat.div_le_div_left
    · calc 2 = 2 ^ 1 := by norm_num
        _ ≤ 2 ^ d := Nat.pow_le_pow_right (by omega) hd1
    · omega
  omega

theorem SAnc.zero_false {i : Nat} (h : SAnc i 0) : False := by
  have := h.lt
  omega

theorem Anc.sanc_of_ne {p x : Nat} (h : Anc p x) (hne : p ≠ x) : SAnc p x := by
  obtain ⟨d, hd⟩ := h
  refine ⟨d, ?_, hd⟩
  by_contra h0
  have : d = 0 := by omega
  subst this
  simp at hd
  omega

theorem SAnc.sibling_false {x s : Nat} (hx : 1 ≤ x)
    (hs : s = if x % 2 = 0 then x - 1 else x + 1) (h : SAnc s x) : False := by
  have hlt := h.lt
  obtain ⟨d, hd1, hd⟩ := h
  have h1 : (x + 1) / 2 ^ d ≤ (x + 1) / 2 := by
    apply Nat.div_le_div_left
    · calc 2 = 2 ^ 1 := by norm_num
        _ ≤ 2 ^ d := Nat.pow_le_pow_right (by omega) hd1
    · omega
  split at hs <;> omega

namespace TournamentSort

theorem nd_set (t : List Node) (i j : Nat) (v : Node) :
    nd (t.set i v) j = if i = j ∧ i < t.length then v else nd t j := by
  unfold nd
  simp only [List.getD_eq_getElem?_getD, List.getElem?_set]
  by_cases h : i = j
  · subst h
    by_cases h2 : i < t.length
    · simp [h2]
    · have : t[i]? = none := List.getElem?_eq_none (by omega)
      simp [h2, this]
  · simp [h]

theorem nd_set_eq (t : List Node) {i : Nat} (v : Node) (h : i < t.length) :
    nd (t.set i v) i = v := by
  simp [nd_set, h]

theorem nd_set_ne (t : List Node) {i j : Nat} (v : Node) (h : i ≠ j) :
    nd (t.set i v) j = nd t j := by
  simp [nd_set, h]

theorem length_invalidate (t : List Node) (q : Nat) : (invalidate t q).length = t.length := by
  simp [invalidate]

theorem nd_invalidate_eq (t : List Node) {q : Nat} (h : q < t.length) :
    nd (invalidate t q) q = { nd t q with isValid := false, value := INT_MAX } := by
  unfold invalidate
  rw [nd_set_eq _ _ h]

theorem nd_invalidate_ne (t : List Node) {q p : Nat} (h : q ≠ p) :
    nd (invalidate t q) p = nd t p := by
  unfold invalidate
  rw [nd_set_ne _ _ h]

end TournamentSort


namespace TournamentSort

theorem TreeInv.weaken {n ls : Nat} {t : List Node} {e1 e2 : Nat → Prop}
    (h : TreeInv n ls t e1) (he : ∀ i, e1 i → e2 i) : TreeInv n ls t e2 :=
  ⟨h.len, h.bound, h.leafIdx, h.pad, fun i hi hne => h.win i hi (fun h1 => hne (he i h1)),
    fun p hp hne => h.tracked p hp (fun h1 => hne (he p h1))⟩

theorem rebuild_step (n ls : Nat) (T : List Node) (x : Nat) (hx1 : 1 ≤ x)
    (hx2 : x < 2 * ls + 1) (hinv : TreeInv n ls T (fun i => SAnc i x))
    (hidx : ∃ j, j < n ∧ (nd T x).index = (j : Int)) :
    TreeInv n ls
      (T.set ((x - 1) / 2)
        (if (nd T x).value ≤ (nd T (if x % 2 = 0 then x - 1 else x + 1)).value then nd T x
          else nd T (if x % 2 = 0 then x - 1 else x + 1)))
      (fun i => SAnc i ((x - 1) / 2)) ∧
    (∃ j, j < n ∧ (nd (T.set ((x - 1) / 2)
        (if (nd T x).value ≤ (nd T (if x % 2 = 0 then x - 1 else x + 1)).value then nd T x
          else nd T (if x % 2 = 0 then x - 1 else x + 1))) ((x - 1) / 2)).index = (j : Int)) ∧
    (∀ p, ls ≤ p → nd (T.set ((x - 1) / 2)
        (if (nd T x).value ≤ (nd T (if x % 2 = 0 then x - 1 else x + 1)).value then nd T x
          else nd T (if x % 2 = 0 then x - 1 else x + 1))) p = nd T p) := by
  generalize hS : (if x % 2 = 0 then x - 1 else x + 1) = S
  generalize hP : (x - 1) / 2 = P
  have hPls : P < ls := by omega
  have hPl : P < T.length := by rw [hinv.len]; omega
  have hSb : S < 2 * ls + 1 := by split at hS <;> omega
  have hch : (x = 2 * P + 1 ∧ S = 2 * P + 2) ∨ (x = 2 * P + 2 ∧ S = 2 * P + 1) := by
    split at hS <;> omega
  have hxx : ¬ SAnc x x := fun h => by have := h.lt; omega
  have hSx : ¬ SAnc S x := fun h => SAnc.sibling_false hx1 hS.symm h
  have hTx := hinv.tracked x hx2 hxx
  have hTS := hinv.tracked S hSb hSx
  generalize hw : (if (nd T x).value ≤ (nd T S).value then nd T x else nd T S) = w
  have hwc : (w = nd T x ∨ w = nd T S) ∧ w.value ≤ (nd T x).value ∧ w.value ≤ (nd T S).value := by
    by_cases hc : (nd T x).value ≤ (nd T S).value
    · rw [if_pos hc] at hw
      subst hw
      exact ⟨Or.inl rfl, le_refl _, hc⟩
    · rw [if_neg hc] at hw
      subst hw
      exact ⟨Or.inr rfl, le_of_lt (not_le.1 hc), le_refl _⟩
  have hnotanc : ∀ i, i ≠ P → ¬ SAnc i P → ¬ SAnc i x := by
    intro i h1 h2 h3
    rcases SAnc.cases hx1 h3 with h4 | h4
    · rw [hP] at h4; exact h1 h4
    · rw [hP] at h4; exact h2 h4
  have hchild : ∀ i, ¬ SAnc i P → 2 * i + 1 ≠ P ∧ 2 * i + 2 ≠ P := by
    intro i h1
    constructor
    · intro h2
      apply h1
      exact ⟨1, le_refl _, by rw [← h2]; simp; omega⟩
    · intro h2
      apply h1
      exact ⟨1, le_refl _, by rw [← h2]; simp; omega⟩
  refine ⟨⟨by simpa using hinv.len, ?_, ?_, ?_, ?_, ?_⟩, ?_, ?_⟩
  · intro p hp
    by_cases e1 : p = P
    · subst e1
      rw [nd_set_eq _ _ hPl]
      exact le_trans hwc.2.1 (hinv.bound x hx2)
    · rw [nd_set_ne _ _ (fun h => e1 h.symm)]
      exact hinv.bound p hp
  · intro j hj
    rw [nd_set_ne _ _ (by omega)]
    exact hinv.leafIdx j hj
  · intro p hp1 hp2
    rw [nd_set_ne _ _ (by omega)]
    exact hinv.pad p hp1 hp2
  · intro i hi hne
    by_cases e1 : i = P
    · subst e1
      unfold WinnerAt
      rw [nd_set_eq _ _ hPl, nd_set_ne _ _ (by omega), nd_set_ne _ _ (by omega)]
      rcases hch with ⟨c1, c2⟩ | ⟨c1, c2⟩
      · rw [← c1, ← c2]
        exact ⟨hwc.1, hwc.2.1, hwc.2.2⟩
      · rw [← c1, ← c2]
        exact ⟨hwc.1.symm, hwc.2.2, hwc.2.1⟩
    · have hW := hinv.win i hi (hnotanc i e1 hne)
      obtain ⟨c1, c2⟩ := hchild i hne
      unfold WinnerAt at hW ⊢
      rw [nd_set_ne _ _ (fun h => e1 h.symm), nd_set_ne _ _ (fun h => c1 h.symm),
        nd_set_ne _ _ (fun h => c2 h.symm)]
      exact hW
  · intro p hp hne
    by_cases e1 : p = P
    · subst e1
      unfold Tracked
      rw [nd_set_eq _ _ hPl]
      intro hv
      rcases hwc.1 with e2 | e2
      · rw [e2] at hv ⊢
        obtain ⟨j, hj1, hj2, hj3, hj4⟩ := hTx hv
        refine ⟨j, hj1, hj2, ?_, hj4.parent (by omega)⟩
        rw [nd_set_ne _ _ (by omega)]
        exact hj3
      · rw [e2] at hv ⊢
        obtain ⟨j, hj1, hj2, hj3, hj4⟩ := hTS hv
        refine ⟨j, hj1, hj2, ?_, hj4.parent (by omega)⟩
        rw [nd_set_ne _ _ (by omega)]
        exact hj3
    · have hT := hinv.tracked p hp (hnotanc p e1 hne)
      unfold Tracked at hT ⊢
      rw [nd_set_ne _ _ (fun h => e1 h.symm)]
      intro hv
      obtain ⟨j, hj1, hj2, hj3, hj4⟩ := hT hv
      refine ⟨j, hj1, hj2, ?_, hj4⟩
      rw [nd_set_ne _ _ (by omega)]
      exact hj3
  · rw [nd_set_eq _ _ hPl]
    by_cases hc : (nd T x).value ≤ (nd T S).value
    · rw [if_pos hc] at hw
      subst hw
      exact hidx
    · rw [if_neg hc] at hw
      subst hw
      have hv : (nd T S).value < INT_MAX :=
        lt_of_lt_of_le (not_le.1 hc) (hinv.bound x hx2)
      obtain ⟨j, hj1, hj2, _, _⟩ := hTS hv
      exact ⟨j, hj1, hj2⟩
  · intro p hp
    rw [nd_set_ne _ _ (by omega)]

theorem rebuildTreeFuel_spec (n ls : Nat) :
    ∀ (fuel : Nat) (T : List Node) (x : Nat) (st : SortStats), x ≤ fuel → x < 2 * ls + 1 →
      TreeInv n ls T (fun i => SAnc i x) → (∃ j, j < n ∧ (nd T x).index = (j : Int)) →
      TreeInv n ls (rebuildTreeFuel fuel T x st).1 (fun _ => False) ∧
      (∃ j, j < n ∧ (nd (rebuildTreeFuel fuel T x st).1 0).index = (j : Int)) ∧
      (∀ p, ls ≤ p → nd (rebuildTreeFuel fuel T x st).1 p = nd T p) := by
  intro fuel
  induction fuel with
  | zero =>
    intro T x st h1 h2 hinv hidx
    have : x = 0 := by omega
    subst this
    unfold rebuildTreeFuel
    exact ⟨hinv.weaken (fun i h => h.zero_false), hidx, fun _ _ => rfl⟩
  | succ fuel ih =>
    intro T x st h1 h2 hinv hidx
    unfold rebuildTreeFuel
    by_cases hx : x = 0
    · rw [if_pos hx]
      subst hx
      exact ⟨hinv.weaken (fun i h => h.zero_false), hidx, fun _ _ => rfl⟩
    · rw [if_neg hx]
      dsimp only
      obtain ⟨s1, s2, s3⟩ := rebuild_step n ls T x (by omega) h2 hinv hidx
      obtain ⟨r1, r2, r3⟩ := ih _ ((x - 1) / 2) ((st.addCmp 1).addAsg 1) (by omega) (by omega)
        s1 s2
      exact ⟨r1, r2, fun p hp => by rw [r3 p hp, s3 p hp]⟩

theorem root_le (n ls : Nat) (t : List Node) (h : TreeInv n ls t (fun _ => False)) :
    ∀ x, x < 2 * ls + 1 → (nd t 0).value ≤ (nd t x).value := by
  intro x
  induction x using Nat.strong_induction_on with
  | _ x ih =>
    intro hx
    by_cases h0 : x = 0
    · subst h0; exact le_refl _
    · have hW := h.win ((x - 1) / 2) (by omega) (fun hf => hf)
      have hp := ih ((x - 1) / 2) (by omega) (by omega)
      have hc : x = 2 * ((x - 1) / 2) + 1 ∨ x = 2 * ((x - 1) / 2) + 2 := by omega
      unfold WinnerAt at hW
      rcases hc with hc | hc
      · rw [← hc] at hW
        exact le_trans hp hW.2.1
      · rw [← hc] at hW
        exact le_trans hp hW.2.2

theorem root_leaf_value (n ls : Nat) (t : List Node) (h : TreeInv n ls t (fun _ => False))
    (hn : n ≤ ls + 1) (j : Nat) (hj : j < n) (hidx : (nd t 0).index = (j : Int)) :
    (nd t (ls + j)).value = (nd t 0).value := by
  by_cases hv : (nd t 0).value < INT_MAX
  · obtain ⟨j', hj1, hj2, hj3, _⟩ := h.tracked 0 (by omega) (fun hf => hf) hv
    have : j' = j := by
      have : (j' : Int) = (j : Int) := by rw [← hj2, hidx]
      exact_mod_cast this
    subst this
    exact hj3
  · have h1 := root_le n ls t h (ls + j) (by omega)
    have h2 := h.bound (ls + j) (by omega)
    have h3 := not_lt.1 hv
    omega

theorem invalidate_inv (n ls : Nat) (t : List Node) (h : TreeInv n ls t (fun _ => False))
    (hn : n ≤ ls + 1) (j : Nat) (hj : j < n) :
    TreeInv n ls (invalidate t (ls + j)) (fun i => SAnc i (ls + j)) ∧
    (∃ j', j' < n ∧ (nd (invalidate t (ls + j)) (ls + j)).index = (j' : Int)) := by
  have hql : ls + j < t.length := by rw [h.len]; omega
  refine ⟨⟨by rw [length_invalidate]; exact h.len, ?_, ?_, ?_, ?_, ?_⟩, ?_⟩
  · intro p hp
    by_cases e1 : p = ls + j
    · subst e1
      rw [nd_invalidate_eq _ hql]
    · rw [nd_invalidate_ne _ (fun h => e1 h.symm)]
      exact h.bound p hp
  · intro j' hj'
    by_cases e1 : j' = j
    · subst e1
      rw [nd_invalidate_eq _ hql]
      exact h.leafIdx j' hj'
    · rw [nd_invalidate_ne _ (by omega)]
      exact h.leafIdx j' hj'
  · intro p hp1 hp2
    rw [nd_invalidate_ne _ (by omega)]
    exact h.pad p hp1 hp2
  · intro i hi hne
    have c1 : 2 * i + 1 ≠ ls + j := by
      intro h2
      apply hne
      exact ⟨1, le_refl _, by rw [← h2]; simp; omega⟩
    have c2 : 2 * i + 2 ≠ ls + j := by
      intro h2
      apply hne
      exact ⟨1, le_refl _, by rw [← h2]; simp; omega⟩
    have hW := h.win i hi (fun hf => hf)
    unfold WinnerAt at hW ⊢
    rw [nd_invalidate_ne _ (by omega), nd_invalidate_ne _ (fun h => c1 h.symm),
      nd_invalidate_ne _ (fun h => c2 h.symm)]
    exact hW
  · intro p hp hne
    unfold Tracked
    by_cases e1 : p = ls + j
    · subst e1
      rw [nd_invalidate_eq _ hql]
      intro hv
      exact absurd hv (lt_irrefl _)
    · rw [nd_invalidate_ne _ (fun h => e1 h.symm)]
      intro hv
      obtain ⟨j', hj1, hj2, hj3, hj4⟩ := h.tracked p hp (fun hf => hf) hv
      refine ⟨j', hj1, hj2, ?_, hj4⟩
      by_cases e2 : j' = j
      · subst e2
        exact absurd (hj4.sanc_of_ne e1) hne
      · rw [nd_invalidate_ne _ (by omega)]
        exact hj3
  · refine ⟨j, hj, ?_⟩
    rw [nd_invalidate_eq _ hql]
    exact h.leafIdx j hj

end TournamentSort


namespace TournamentSort

theorem nd_replicate (k p : Nat) : nd (List.replicate k Node.default) p = Node.default := by
  unfold nd
  by_cases h : p < k
  · rw [List.getD_eq_getElem _ _ (by simpa using h)]
    simp
  · rw [List.getD_eq_default _ _ (by simpa using h)]

theorem build_leaves (arr : List Int) (ls k : Nat) (st : SortStats) (t0 : List Node)
    (hl : t0.length = k) (hk : ls + arr.length ≤ k) :
    ((List.range' 0 arr.length).foldl
      (fun (s : List Node × SortStats) i =>
        (s.1.set (ls + i) (Node.mk2 (rd arr i) i), s.2.addAsg 1)) (t0, st)).1.length = k ∧
    (∀ j, j < arr.length → nd ((List.range' 0 arr.length).foldl
      (fun (s : List Node × SortStats) i =>
        (s.1.set (ls + i) (Node.mk2 (rd arr i) i), s.2.addAsg 1)) (t0, st)).1 (ls + j)
        = Node.mk2 (rd arr j) j) ∧
    (∀ p, (p < ls ∨ ls + arr.length ≤ p) → nd ((List.range' 0 arr.length).foldl
      (fun (s : List Node × SortStats) i =>
        (s.1.set (ls + i) (Node.mk2 (rd arr i) i), s.2.addAsg 1)) (t0, st)).1 p = nd t0 p) := by
  have key := foldl_range'_inv
    (fun i (s : List Node × SortStats) => s.1.length = k ∧
      (∀ j, j < i → nd s.1 (ls + j) = Node.mk2 (rd arr j) j) ∧
      (∀ p, (p < ls ∨ ls + arr.length ≤ p) → nd s.1 p = nd t0 p))
    (fun (s : List Node × SortStats) i =>
        (s.1.set (ls + i) (Node.mk2 (rd arr i) i), s.2.addAsg 1)) 0 arr.length (t0, st)
    ⟨hl, fun j hj => by omega, fun _ _ => rfl⟩
    (by
      intro i s h1 h2 ⟨p1, p2, p3⟩
      refine ⟨by simpa using p1, ?_, ?_⟩
      · intro j hj
        by_cases e1 : j = i
        · subst e1
          rw [nd_set_eq _ _ (by omega)]
        · rw [nd_set_ne _ _ (by omega)]
          exact p2 j (by omega)
      · intro p hp
        rw [nd_set_ne _ _ (by omega)]
        exact p3 p hp)
  simpa using key

theorem build_padding (n ls k : Nat) (s1 : List Node × SortStats)
    (hl : s1.1.length = k) (hk : ls + n ≤ k) :
    ((List.range' (ls + n) (k - (ls + n))).foldl
      (fun (s : List Node × SortStats) i => (invalidate s.1 i, s.2.addAsg 2)) s1).1.length = k ∧
    (∀ p, p < ls + n → nd ((List.range' (ls + n) (k - (ls + n))).foldl
      (fun (s : List Node × SortStats) i => (invalidate s.1 i, s.2.addAsg 2)) s1).1 p
        = nd s1.1 p) ∧
    (∀ p, ls + n ≤ p → p < k → (nd ((List.range' (ls + n) (k - (ls + n))).foldl
      (fun (s : List Node × SortStats) i => (invalidate s.1 i, s.2.addAsg 2)) s1).1 p).value
        = INT_MAX) := by
  have key := foldl_range'_inv
    (fun i (s : List Node × SortStats) => s.1.length = k ∧
      (∀ p, p < ls + n → nd s.1 p = nd s1.1 p) ∧
      (∀ p, ls + n ≤ p → p < i → (nd s.1 p).value = INT_MAX))
    (fun (s : List Node × SortStats) i => (invalidate s.1 i, s.2.addAsg 2))
    (ls + n) (k - (ls + n)) s1
    ⟨hl, fun _ _ => rfl, fun p h1 h2 => by omega⟩
    (by
      intro i s h1 h2 ⟨p1, p2, p3⟩
      refine ⟨by rw [length_invalidate]; exact p1, ?_, ?_⟩
      · intro p hp
        rw [nd_invalidate_ne _ (by omega)]
        exact p2 p hp
      · intro p hp1 hp2
        by_cases e1 : p = i
        · subst e1
          rw [nd_invalidate_eq _ (by omega)]
        · rw [nd_invalidate_ne _ (fun h => e1 h.symm)]
          exact p3 p hp1 (by omega))
  have e : ls + n + (k - (ls + n)) = k := by omega
  rw [e] at key
  exact key

theorem build_internal (ls : Nat) (s2 : List Node × SortStats)
    (hl : s2.1.length = 2 * ls + 1) :
    ((List.range' 0 ls).reverse.foldl
      (fun (s : List Node × SortStats) i =>
        (s.1.set i (if (nd s.1 (2 * i + 1)).value ≤ (nd s.1 (2 * i + 2)).value
            then nd s.1 (2 * i + 1) else nd s.1 (2 * i + 2)),
          (s.2.addCmp 1).addAsg 1)) s2).1.length = 2 * ls + 1 ∧
    (∀ p, ls ≤ p → nd ((List.range' 0 ls).reverse.foldl
      (fun (s : List Node × SortStats) i =>
        (s.1.set i (if (nd s.1 (2 * i + 1)).value ≤ (nd s.1 (2 * i + 2)).value
            then nd s.1 (2 * i + 1) else nd s.1 (2 * i + 2)),
          (s.2.addCmp 1).addAsg 1)) s2).1 p = nd s2.1 p) ∧
    (∀ i, i < ls → nd ((List.range' 0 ls).reverse.foldl
      (fun (s : List Node × SortStats) i =>
        (s.1.set i (if (nd s.1 (2 * i + 1)).value ≤ (nd s.1 (2 * i + 2)).value
            then nd s.1 (2 * i + 1) else nd s.1 (2 * i + 2)),
          (s.2.addCmp 1).addAsg 1)) s2).1 i =
      (if (nd ((List.range' 0 ls).reverse.foldl
      (fun (s : List Node × SortStats) i =>
        (s.1.set i (if (nd s.1 (2 * i + 1)).value ≤ (nd s.1 (2 * i + 2)).value
            then nd s.1 (2 * i + 1) else nd s.1 (2 * i + 2)),
          (s.2.addCmp 1).addAsg 1)) s2).1 (2 * i + 1)).value ≤
          (nd ((List.range' 0 ls).reverse.foldl
      (fun (s : List Node × SortStats) i =>
        (s.1.set i (if (nd s.1 (2 * i + 1)).value ≤ (nd s.1 (2 * i + 2)).value
            then nd s.1 (2 * i + 1) else nd s.1 (2 * i + 2)),
          (s.2.addCmp 1).addAsg 1)) s2).1 (2 * i + 2)).value
        then nd ((List.range' 0 ls).reverse.foldl
      (fun (s : List Node × SortStats) i =>
        (s.1.set i (if (nd s.1 (2 * i + 1)).value ≤ (nd s.1 (2 * i + 2)).value
            then nd s.1 (2 * i + 1) else nd s.1 (2 * i + 2)),
          (s.2.addCmp 1).addAsg 1)) s2).1 (2 * i + 1)
        else nd ((List.range' 0 ls).reverse.foldl
      (fun (s : List Node × SortStats) i =>
        (s.1.set i (if (nd s.1 (2 * i + 1)).value ≤ (nd s.1 (2 * i + 2)).value
            then nd s.1 (2 * i + 1) else nd s.1 (2 * i + 2)),
          (s.2.addCmp 1).addAsg 1)) s2).1 (2 * i + 2))) := by
  have key := foldl_range'_rev_inv
    (fun m (s : List Node × SortStats) => s.1.length = 2 * ls + 1 ∧
      (∀ p, ls ≤ p → nd s.1 p = nd s2.1 p) ∧
      (∀ i, m ≤ i → i < ls → nd s.1 i =
        (if (nd s.1 (2 * i + 1)).value ≤ (nd s.1 (2 * i + 2)).value
          then nd s.1 (2 * i + 1) else nd s.1 (2 * i + 2))))
    (fun (s : List Node × SortStats) i =>
        (s.1.set i (if (nd s.1 (2 * i + 1)).value ≤ (nd s.1 (2 * i + 2)).value
            then nd s.1 (2 * i + 1) else nd s.1 (2 * i + 2)),
          (s.2.addCmp 1).addAsg 1)) 0 ls s2
    ⟨hl, fun _ _ => rfl, fun i h1 h2 => by omega⟩
    (by
      intro i s h1 h2 ⟨p1, p2, p3⟩
      refine ⟨by simpa using p1, ?_, ?_⟩
      · intro p hp
        rw [nd_set_ne _ _ (by omega)]
        exact p2 p hp
      · intro i' hi1 hi2
        dsimp only
        rw [nd_set_ne _ _ (show i ≠ 2 * i' + 1 by omega),
          nd_set_ne _ _ (show i ≠ 2 * i' + 2 by omega)]
        by_cases e1 : i' = i
        · subst e1
          rw [nd_set_eq _ _ (by omega)]
        · rw [nd_set_ne _ _ (fun h => e1 h.symm)]
          exact p3 i' (by omega) hi2)
  obtain ⟨k1, k2, k3⟩ := key
  exact ⟨k1, k2, fun i hi => k3 i (Nat.zero_le _) hi⟩

end TournamentSort


theorem desc_induction (ls : Nat) (Q : Nat → Prop)
    (hleaf : ∀ p, ls ≤ p → p < 2 * ls + 1 → Q p)
    (hint : ∀ i, i < ls → Q (2 * i + 1) → Q (2 * i + 2) → Q i) :
    ∀ p, p < 2 * ls + 1 → Q p := by
  have key : ∀ d p, p + d = 2 * ls → Q p := by
    intro d
    induction d using Nat.strong_induction_on with
    | _ d ih =>
      intro p hp
      by_cases h1 : ls ≤ p
      · exact hleaf p h1 (by omega)
      · exact hint p (by omega) (ih (2 * ls - (2 * p + 1)) (by omega) _ (by omega))
          (ih (2 * ls - (2 * p + 2)) (by omega) _ (by omega))
  intro p hp
  exact key (2 * ls - p) p (by omega)

theorem rd_mem (a : List Int) (j : Nat) (h : j < a.length) : rd a j ∈ a := by
  rw [rd_of_lt a h]
  exact List.getElem_mem _

namespace TournamentSort

theorem built_inv (n ls : Nat) (t : List Node)
    (hl : t.length = 2 * ls + 1)
    (hleaf : ∀ j, j < n → (nd t (ls + j)).index = (j : Int) ∧ (nd t (ls + j)).value ≤ INT_MAX)
    (hpad : ∀ p, ls + n ≤ p → p < 2 * ls + 1 → (nd t p).value = INT_MAX)
    (hb : ∀ i, i < ls → nd t i =
      (if (nd t (2 * i + 1)).value ≤ (nd t (2 * i + 2)).value
        then nd t (2 * i + 1) else nd t (2 * i + 2))) :
    TreeInv n ls t (fun _ => False) := by
  have hwin : ∀ i, i < ls → WinnerAt t i := by
    intro i hi
    have := hb i hi
    unfold WinnerAt
    by_cases hc : (nd t (2 * i + 1)).value ≤ (nd t (2 * i + 2)).value
    · rw [if_pos hc] at this
      rw [this]
      exact ⟨Or.inl rfl, le_refl _, hc⟩
    · rw [if_neg hc] at this
      rw [this]
      exact ⟨Or.inr rfl, le_of_lt (not_le.1 hc), le_refl _⟩
  refine ⟨hl, ?_, fun j hj => (hleaf j hj).1, hpad, fun i hi _ => hwin i hi, ?_⟩
  · apply desc_induction ls (fun p => (nd t p).value ≤ INT_MAX)
    · intro p h1 h2
      by_cases e1 : p < ls + n
      · have := (hleaf (p - ls) (by omega)).2
        rwa [show ls + (p - ls) = p by omega] at this
      · exact le_of_eq (hpad p (by omega) h2)
    · intro i hi q1 q2
      rcases (hwin i hi).1 with e | e
      · show (nd t i).value ≤ INT_MAX
        rw [e]; exact q1
      · show (nd t i).value ≤ INT_MAX
        rw [e]; exact q2
  · intro p hp _
    revert p
    apply desc_induction ls (fun p => Tracked n ls t p)
    · intro p h1 h2
      unfold Tracked
      intro hv
      by_cases e1 : p < ls + n
      · refine ⟨p - ls, by omega, ?_, ?_, ?_⟩
        · have := (hleaf (p - ls) (by omega)).1
          rwa [show ls + (p - ls) = p by omega] at this
        · rw [show ls + (p - ls) = p by omega]
        · rw [show ls + (p - ls) = p by omega]
          exact Anc.self_anc p
      · have := hpad p (by omega) h2
        omega
    · intro i hi q1 q2
      unfold Tracked at q1 q2 ⊢
      rcases (hwin i hi).1 with e | e
      · rw [e]
        intro hv
        obtain ⟨j, hj1, hj2, hj3, hj4⟩ := q1 hv
        exact ⟨j, hj1, hj2, hj3, hj4.parent (Or.inl rfl)⟩
      · rw [e]
        intro hv
        obtain ⟨j, hj1, hj2, hj3, hj4⟩ := q2 hv
        exact ⟨j, hj1, hj2, hj3, hj4.parent (Or.inr rfl)⟩

theorem built_root_index (n h : Nat) (t : List Node) (hn1 : 1 ≤ n)
    (hinv : TreeInv n (2 ^ h - 1) t (fun _ => False))
    (hb : ∀ i, i < 2 ^ h - 1 → nd t i =
      (if (nd t (2 * i + 1)).value ≤ (nd t (2 * i + 2)).value
        then nd t (2 * i + 1) else nd t (2 * i + 2))) :
    ∃ j, j < n ∧ (nd t 0).index = (j : Int) := by
  have key : ∀ e, e ≤ h → ∃ j, j < n ∧ (nd t (2 ^ (h - e) - 1)).index = (j : Int) := by
    intro e
    induction e with
    | zero =>
      intro _
      refine ⟨0, hn1, ?_⟩
      have := hinv.leafIdx 0 hn1
      simpa using this
    | succ e ih =>
      intro he
      obtain ⟨j, hj1, hj2⟩ := ih (by omega)
      have e1 : 2 ^ (h - e) = 2 * 2 ^ (h - (e + 1)) := by
        rw [show h - e = (h - (e + 1)) + 1 by omega, pow_succ]
        ring
      have hpos : 1 ≤ 2 ^ (h - (e + 1)) := Nat.one_le_two_pow
      have hlt : 2 ^ (h - (e + 1)) < 2 ^ h :=
        Nat.pow_lt_pow_right (by omega) (by omega)
      have e2 : 2 * (2 ^ (h - (e + 1)) - 1) + 1 = 2 ^ (h - e) - 1 := by omega
      have hbi := hb (2 ^ (h - (e + 1)) - 1) (by omega)
      rw [e2] at hbi
      by_cases hc : (nd t (2 ^ (h - e) - 1)).value ≤
          (nd t (2 * (2 ^ (h - (e + 1)) - 1) + 2)).value
      · rw [if_pos hc] at hbi
        rw [hbi]
        exact ⟨j, hj1, hj2⟩
      · rw [if_neg hc] at hbi
        rw [hbi]
        have hv : (nd t (2 * (2 ^ (h - (e + 1)) - 1) + 2)).value < INT_MAX :=
          lt_of_lt_of_le (not_le.1 hc) (hinv.bound _ (by omega))
        obtain ⟨j', h1, h2, _, _⟩ := hinv.tracked _ (by omega) (fun hf => hf) hv
        exact ⟨j', h1, h2⟩
  have := key h (le_refl _)
  simpa using this

/-- Tree produced by `buildTournamentTree` on a fresh tree of `2^(h+1) - 1` nodes. -/
theorem build_spec (arr : List Int) (h : Nat) (st : SortStats) (hn1 : 1 ≤ arr.length)
    (hn : arr.length ≤ 2 ^ h) (hbnd : ∀ x ∈ arr, x ≤ INT_MAX) :
    TreeInv arr.length (2 ^ h - 1)
      (buildTournamentTree arr (List.replicate (2 ^ (h + 1) - 1) Node.default) st).1
      (fun _ => False) ∧
    (∃ j, j < arr.length ∧
      (nd (buildTournamentTree arr (List.replicate (2 ^ (h + 1) - 1) Node.default) st).1 0).index
        = (j : Int)) ∧
    (∀ j, j < arr.length →
      (nd (buildTournamentTree arr (List.replicate (2 ^ (h + 1) - 1) Node.default) st).1
        (2 ^ h - 1 + j)).value = rd arr j) := by
  have hpos : 1 ≤ 2 ^ h := Nat.one_le_two_pow
  have e0 : 2 ^ (h + 1) = 2 * 2 ^ h := by rw [pow_succ]; ring
  have e1 : 2 ^ (h + 1) - 1 + 1 = 2 ^ (h + 1) := by omega
  have e2 : 2 ^ (h + 1) - 1 = 2 * (2 ^ h - 1) + 1 := by omega
  unfold buildTournamentTree
  dsimp only
  rw [List.length_replicate, e1, floorLog2_pow, Nat.add_sub_cancel, e2]
  generalize hls : 2 ^ h - 1 = ls at *
  obtain ⟨a1, a2, a3⟩ := build_leaves arr ls (2 * ls + 1) st
    (List.replicate (2 * ls + 1) Node.default) (by simp) (by omega)
  generalize (List.range' 0 arr.length).foldl
      (fun (s : List Node × SortStats) i =>
        (s.1.set (ls + i) (Node.mk2 (rd arr i) i), s.2.addAsg 1))
      (List.replicate (2 * ls + 1) Node.default, st) = s1 at a1 a2 a3 ⊢
  obtain ⟨b1, b2, b3⟩ := build_padding arr.length ls (2 * ls + 1) s1 a1 (by omega)
  generalize (List.range' (ls + arr.length) (2 * ls + 1 - (ls + arr.length))).foldl
      (fun (s : List Node × SortStats) i => (invalidate s.1 i, s.2.addAsg 2)) s1 = s2
      at b1 b2 b3 ⊢
  obtain ⟨c1, c2, c3⟩ := build_internal ls s2 b1
  generalize (List.range' 0 ls).reverse.foldl
      (fun (s : List Node × SortStats) i =>
        (s.1.set i (if (nd s.1 (2 * i + 1)).value ≤ (nd s.1 (2 * i + 2)).value
            then nd s.1 (2 * i + 1) else nd s.1 (2 * i + 2)),
          (s.2.addCmp 1).addAsg 1)) s2 = s3 at c1 c2 c3 ⊢
  have hleafnode : ∀ j, j < arr.length → nd s3.1 (ls + j) = Node.mk2 (rd arr j) j := by
    intro j hj
    rw [c2 _ (by omega), b2 _ (by omega), a2 j hj]
  have hinv : TreeInv arr.length ls s3.1 (fun _ => False) := by
    apply built_inv arr.length ls s3.1 c1
    · intro j hj
      rw [hleafnode j hj]
      exact ⟨rfl, hbnd _ (rd_mem arr j hj)⟩
    · intro p hp1 hp2
      rw [c2 p (by omega)]
      exact b3 p hp1 hp2
    · exact c3
  refine ⟨hinv, ?_, ?_⟩
  · subst hls
    exact built_root_index arr.length h s3.1 hn1 hinv c3
  · intro j hj
    rw [hleafnode j hj]
    rfl

end TournamentSort


theorem copyBack_eq (arr res : List Int) (st : SortStats) (hl : res.length = arr.length) :
    ((List.range' 0 arr.length).foldl
      (fun (s : SortState) i => (s.1.set i (rd res i), s.2.addAsg 1)) (arr, st)).1 = res := by
  have key := foldl_range'_inv
    (fun i (s : SortState) => s.1.length = arr.length ∧ ∀ t, t < i → rd s.1 t = rd res t)
    (fun (s : SortState) i => (s.1.set i (rd res i), s.2.addAsg 1)) 0 arr.length (arr, st)
    ⟨rfl, fun t ht => by omega⟩
    (by
      intro i s h1 h2 ⟨p1, p2⟩
      refine ⟨by simpa using p1, ?_⟩
      intro t ht
      by_cases e1 : t = i
      · subst e1; rw [rd_set_eq _ _ (by omega)]
      · rw [rd_set_ne _ _ (fun h => e1 h.symm)]
        exact p2 t (by omega))
  obtain ⟨k1, k2⟩ := key
  apply ext_rd
  · rw [k1, hl]
  · intro t ht
    exact k2 t (by omega)

namespace TournamentSort

theorem length_leafVals (n ls : Nat) (t : List Node) : (leafVals n ls t).length = n := by
  simp [leafVals]

theorem rd_leafVals (n ls : Nat) (t : List Node) (j : Nat) (hj : j < n) :
    rd (leafVals n ls t) j = (nd t (ls + j)).value := by
  rw [rd_of_lt _ (by rw [length_leafVals]; exact hj)]
  simp [leafVals]

theorem leafVals_built (arr : List Int) (ls : Nat) (t : List Node)
    (h : ∀ j, j < arr.length → (nd t (ls + j)).value = rd arr j) :
    leafVals arr.length ls t = arr := by
  apply ext_rd
  · rw [length_leafVals]
  · intro j hj
    rw [length_leafVals] at hj
    rw [rd_leafVals _ _ _ _ hj, h j hj]

/-- State reached after `k` extractions: the tree invariant holds, the values extracted so
far and the leaf values account for the input, and what was extracted is sorted and below
every remaining leaf. -/
theorem extractStep_inv (arr : List Int) (ls k : Nat) (s : List Int × List Node × SortStats)
    (hn : arr.length ≤ ls + 1) (hk : k < arr.length)
    (h : s.1.length = arr.length ∧ TreeInv arr.length ls s.2.1 (fun _ => False) ∧
      (∃ j, j < arr.length ∧ (nd s.2.1 0).index = (j : Int)) ∧
      (∀ x, (List.count x (leafVals arr.length ls s.2.1) : Int) + List.count x (s.1.take k)
        = List.count x arr + (if x = INT_MAX then (k : Int) else 0)) ∧
      k ≤ List.count INT_MAX (leafVals arr.length ls s.2.1) ∧
      (∀ a b, a < b → b < k → rd s.1 a ≤ rd s.1 b) ∧
      (∀ a, a < k → ∀ j, j < arr.length → rd s.1 a ≤ (nd s.2.1 (ls + j)).value)) :
    (extractStep ls s k).1.length = arr.length ∧
      TreeInv arr.length ls (extractStep ls s k).2.1 (fun _ => False) ∧
      (∃ j, j < arr.length ∧ (nd (extractStep ls s k).2.1 0).index = (j : Int)) ∧
      (∀ x, (List.count x (leafVals arr.length ls (extractStep ls s k).2.1) : Int)
          + List.count x ((extractStep ls s k).1.take (k + 1))
        = List.count x arr + (if x = INT_MAX then ((k + 1 : Nat) : Int) else 0)) ∧
      k + 1 ≤ List.count INT_MAX (leafVals arr.length ls (extractStep ls s k).2.1) ∧
      (∀ a b, a < b → b < k + 1 → rd (extractStep ls s k).1 a ≤ rd (extractStep ls s k).1 b) ∧
      (∀ a, a < k + 1 → ∀ j, j < arr.length →
        rd (extractStep ls s k).1 a ≤ (nd (extractStep ls s k).2.1 (ls + j)).value) := by
  obtain ⟨h1, h2, ⟨j, hj, hidx⟩, h4, h5, h6, h7⟩ := h
  have hv := root_leaf_value arr.length ls s.2.1 h2 hn j hj hidx
  have hq : ((ls : Int) + (nd s.2.1 0).index).toNat = ls + j := by
    rw [hidx]; omega
  obtain ⟨i1, i2⟩ := invalidate_inv arr.length ls s.2.1 h2 hn j hj
  obtain ⟨r1, r2, r3⟩ := rebuildTreeFuel_spec arr.length ls (ls + j)
    (invalidate s.2.1 (ls + j)) (ls + j) (s.2.2.addAsg 3) (le_refl _) (by omega) i1 i2
  unfold extractStep
  dsimp only
  rw [hq]
  unfold rebuildTree
  generalize rebuildTreeFuel (ls + j) (invalidate s.2.1 (ls + j)) (ls + j) (s.2.2.addAsg 3) = r
    at r1 r2 r3 ⊢
  have hql : ls + j < s.2.1.length := by rw [h2.len]; omega
  have hleaf : ∀ j', j' < arr.length →
      (nd r.1 (ls + j')).value = if j' = j then INT_MAX else (nd s.2.1 (ls + j')).value := by
    intro j' hj'
    rw [r3 _ (by omega)]
    by_cases e1 : j' = j
    · subst e1
      rw [if_pos rfl, nd_invalidate_eq _ hql]
    · rw [if_neg e1, nd_invalidate_ne _ (by omega)]
  have hlv : leafVals arr.length ls r.1 = (leafVals arr.length ls s.2.1).set j INT_MAX := by
    apply ext_rd
    · simp [length_leafVals]
    · intro t ht
      rw [length_leafVals] at ht
      rw [rd_leafVals _ _ _ _ ht, hleaf t ht, rd_set, length_leafVals]
      by_cases e1 : t = j
      · subst e1; simp [ht]
      · have e2 : ¬ j = t := fun h => e1 h.symm
        rw [if_neg e1, if_neg (fun h => e2 h.1), rd_leafVals _ _ _ _ ht]
  have hcount : ∀ x, (List.count x (leafVals arr.length ls r.1) : Int) =
      List.count x (leafVals arr.length ls s.2.1)
        - (if (nd s.2.1 0).value = x then 1 else 0) + (if INT_MAX = x then 1 else 0) := by
    intro x
    rw [hlv, set_perm_count _ _ _ (by rw [length_leafVals]; exact hj),
      rd_leafVals _ _ _ _ hj, hv]
  have htake : (s.1.set k (nd s.2.1 0).value).take (k + 1) = s.1.take k ++ [(nd s.2.1 0).value] := by
    have := seg_set_snoc s.1 0 k (nd s.2.1 0).value (Nat.zero_le _) (by omega)
    simpa [seg] using this
  have hrootle : ∀ j', j' < arr.length → (nd s.2.1 0).value ≤ (nd s.2.1 (ls + j')).value :=
    fun j' hj' => root_le arr.length ls s.2.1 h2 _ (by omega)
  have hbnd : ∀ j', j' < arr.length → (nd s.2.1 (ls + j')).value ≤ INT_MAX :=
    fun j' hj' => h2.bound _ (by omega)
  refine ⟨by simpa using h1, r1, r2, ?_, ?_, ?_, ?_⟩
  · intro x
    rw [hcount x, htake, List.count_append]
    have := h4 x
    have e3 : (List.count x [(nd s.2.1 0).value] : Int)
        = if (nd s.2.1 0).value = x then 1 else 0 := by
      by_cases e : (nd s.2.1 0).value = x
      · simp [e]
      · simp [e, List.count_singleton]
    push_cast
    rw [e3]
    by_cases e4 : x = INT_MAX
    · have e5 : INT_MAX = x := e4.symm
      rw [if_pos e4] at this ⊢
      rw [if_pos e5]
      omega
    · have e5 : ¬ INT_MAX = x := fun h => e4 h.symm
      rw [if_neg e4] at this ⊢
      rw [if_neg e5]
      omega
  · have hc := hcount INT_MAX
    rw [if_pos rfl] at hc
    by_cases e : (nd s.2.1 0).value = INT_MAX
    · have hall : ∀ y ∈ leafVals arr.length ls s.2.1, INT_MAX = y := by
        intro y hy
        obtain ⟨t, ht, rfl⟩ := List.mem_iff_getElem.1 hy
        rw [length_leafVals] at ht
        have e2 := rd_leafVals arr.length ls s.2.1 t ht
        rw [rd_of_lt _ (by rw [length_leafVals]; exact ht)] at e2
        rw [e2]
        have := hrootle t ht
        have := hbnd t ht
        omega
      have hcl := List.count_eq_length.2 hall
      rw [length_leafVals] at hcl
      rw [if_pos e] at hc
      omega
    · rw [if_neg e] at hc
      omega
  · intro a b hab hb
    by_cases e1 : b = k
    · subst e1
      rw [rd_set_eq _ _ (by omega), rd_set_ne _ _ (by omega), ← hv]
      exact h7 a hab j hj
    · rw [rd_set_ne _ _ (fun h => e1 h.symm), rd_set_ne _ _ (by omega)]
      exact h6 a b hab (by omega)
  · intro a ha j' hj'
    rw [hleaf j' hj']
    by_cases e1 : a = k
    · subst e1
      rw [rd_set_eq _ _ (by omega)]
      split
      · have := hrootle j hj
        have := hbnd j hj
        omega
      · exact hrootle j' hj'
    · rw [rd_set_ne _ _ (fun h => e1 h.symm)]
      split
      · exact le_trans (h7 a (by omega) j hj) (hbnd j hj)
      · exact h7 a (by omega) j' hj'

/-- Tournament sort returns a non-decreasing permutation of an input of machine integers. -/
theorem tournamentSort_spec (arr : List Int) (hbnd : ∀ x ∈ arr, x ≤ INT_MAX) :
    (sort arr).1.Sorted (fun x y => x ≤ y) ∧ (sort arr).1.Perm arr := by
  unfold sort
  dsimp only
  by_cases hn : arr.length ≤ 1
  · rw [if_pos hn]
    refine ⟨?_, List.Perm.refl _⟩
    apply sorted_of_sortedOn
    intro i j _ hij hj
    simp only at hj
    omega
  · rw [if_neg hn]
    have hle := le_pow_ceilLog2 arr.length
    generalize ceilLog2 arr.length = h at hle
    have hpos : 1 ≤ 2 ^ h := Nat.one_le_two_pow
    obtain ⟨b1, b2, b3⟩ := build_spec arr h
      ((SortStats.zero.addMem ((2 ^ (h + 1) - 1) * sizeofNode)).addMem (arr.length * sizeofInt))
      (by omega) hle hbnd
    generalize buildTournamentTree arr (List.replicate (2 ^ (h + 1) - 1) Node.default)
      ((SortStats.zero.addMem ((2 ^ (h + 1) - 1) * sizeofNode)).addMem (arr.length * sizeofInt))
      = built at b1 b2 b3 ⊢
    have key := foldl_range'_inv
      (fun k (s : List Int × List Node × SortStats) =>
        s.1.length = arr.length ∧ TreeInv arr.length (2 ^ h - 1) s.2.1 (fun _ => False) ∧
        (∃ j, j < arr.length ∧ (nd s.2.1 0).index = (j : Int)) ∧
        (∀ x, (List.count x (leafVals arr.length (2 ^ h - 1) s.2.1) : Int)
            + List.count x (s.1.take k)
          = List.count x arr + (if x = INT_MAX then (k : Int) else 0)) ∧
        k ≤ List.count INT_MAX (leafVals arr.length (2 ^ h - 1) s.2.1) ∧
        (∀ a b, a < b → b < k → rd s.1 a ≤ rd s.1 b) ∧
        (∀ a, a < k → ∀ j, j < arr.length → rd s.1 a ≤ (nd s.2.1 (2 ^ h - 1 + j)).value))
      (extractStep (2 ^ h - 1)) 0 arr.length (List.replicate arr.length 0, built.1, built.2)
      ⟨by simp, b1, b2, by
          intro x
          rw [leafVals_built arr _ _ b3]
          simp, Nat.zero_le _, fun a b _ hb => by omega, fun a ha => by omega⟩
      (by
        intro k s h1 h2 hp
        exact extractStep_inv arr (2 ^ h - 1) k s (by omega) (by omega) hp)
    generalize (List.range' 0 arr.length).foldl (extractStep (2 ^ h - 1))
      (List.replicate arr.length 0, built.1, built.2) = ex at key ⊢
    simp only [Nat.zero_add] at key
    obtain ⟨k1, k2, _, k4, k5, k6, _⟩ := key
    rw [copyBack_eq arr ex.1 ex.2.2 k1]
    have hall : ∀ y ∈ leafVals arr.length (2 ^ h - 1) ex.2.1, INT_MAX = y := by
      apply List.count_eq_length.1
      have := List.count_le_length INT_MAX (leafVals arr.length (2 ^ h - 1) ex.2.1)
      rw [length_leafVals] at this ⊢
      omega
    constructor
    · apply sorted_of_sortedOn
      intro a b _ hab hb
      exact k6 a b hab (by omega)
    · rw [List.perm_iff_count]
      intro x
      have h4 := k4 x
      rw [List.take_of_length_le (by omega)] at h4
      by_cases e : x = INT_MAX
      · rw [if_pos e] at h4
        have hc := List.count_eq_length.2 hall
        rw [length_leafVals] at hc
        rw [e] at h4 ⊢
        omega
      · rw [if_neg e] at h4
        have hc : List.count x (leafVals arr.length (2 ^ h - 1) ex.2.1) = 0 := by
          rw [List.count_eq_zero]
          intro hm
          exact e (hall x hm).symm
        rw [hc] at h4
        simpa using h4

end TournamentSort

/-- C3: for every vector of machine integers (values up to `INT_MAX`, the padding value
included), `TournamentSort::sort` leaves the vector non-decreasing and a permutation of the
input. -/
theorem tournamentSort_sorts (arr : List Int) (h : ∀ x ∈ arr, x ≤ TournamentSort.INT_MAX) :
    (TournamentSort.sort arr).1.Sorted (fun x y => x ≤ y) ∧
    (TournamentSort.sort arr).1.Perm arr :=
  TournamentSort.tournamentSort_spec arr h

/-- Witness for C3 on a vector that contains the padding value twice. -/
theorem tournamentSort_sorts_witness :
    (∀ x ∈ [5, 2147483647, -3, 2147483647, 5], x ≤ TournamentSort.INT_MAX) ∧
    (TournamentSort.sort [5, 2147483647, -3, 2147483647, 5]).1.Sorted (fun x y => x ≤ y) ∧
    (TournamentSort.sort [5, 2147483647, -3, 2147483647, 5]).1.Perm
      [5, 2147483647, -3, 2147483647, 5] :=
  ⟨by decide, tournamentSort_sorts [5, 2147483647, -3, 2147483647, 5] (by decide)⟩


/-- C4 (code bug): `LibrarySort::sort` does not sort every vector.  On `[-1, 5]` the stored
`-1` is taken for an empty slot, `5` overwrites it and the vector comes back as `[5, 5]`,
which is not a permutation of the input.  Independently, on the sentinel-free input
`[1, 2, 4, 3]` `findPosition` returns `8 = gapped.size()` for the key `4`, so `makeRoom`
and `sort` write past the end of the gapped array and the run has no defined result. -/
theorem librarySort_not_sorting :
    LibrarySort.sort [-1, 5] = some ([5, 5], ⟨0, 3, 16⟩) ∧
    ¬ ([5, 5] : List Int).Perm [-1, 5] ∧
    (LibrarySort.findPosition [1, -1, -1, -1, -1, -1, -1, 2] 4 SortStats.zero).1 = 8 ∧
    LibrarySort.makeRoom [1, -1, -1, -1, -1, -1, -1, 2] 8 SortStats.zero = none ∧
    LibrarySort.sort [1, 2, 4, 3] = none := by
  refine ⟨by decide, ?_, by decide, by decide, by decide⟩
  intro h
  have := h.count_eq 5
  simp at this


/-! ## The fuel passed by the engines is never exhausted -/

namespace IntroSort

/-- Once the fuel covers `end + 1 - i`, one more unit of fuel does not change `heapify`. -/
theorem heapifyFuel_stable (b e : Nat) :
    ∀ (fuel : Nat) (a : List Int) (i : Nat) (st : SortStats), b ≤ i → e + 1 - i ≤ fuel →
      heapifyFuel (fuel + 1) a b e i st = heapifyFuel fuel a b e i st := by
  intro fuel
  induction fuel with
  | zero =>
    intro a i st hb hf
    unfold heapifyFuel
    dsimp only
    have h1 : ¬ (2 * (i - b) + 1 + b ≤ e) := by omega
    have h2 : ¬ (2 * (i - b) + 2 + b ≤ e) := by omega
    simp [h1, h2, heapifyFuel]
  | succ fuel ih =>
    intro a i st hb hf
    rw [heapifyFuel]
    conv => rhs; rw [heapifyFuel]
    obtain ⟨F1, _, _, _, _⟩ := largest_facts a b e i _ _ rfl rfl
    generalize (if 2 * (i - b) + 2 + b ≤ e ∧
        rd a (2 * (i - b) + 2 + b) >
          rd a (if 2 * (i - b) + 1 + b ≤ e ∧ rd a (2 * (i - b) + 1 + b) > rd a i
            then 2 * (i - b) + 1 + b else i)
      then 2 * (i - b) + 2 + b
      else if 2 * (i - b) + 1 + b ≤ e ∧ rd a (2 * (i - b) + 1 + b) > rd a i
        then 2 * (i - b) + 1 + b else i) = l2 at F1 ⊢
    by_cases hl : l2 = i
    · simp only [ne_eq, hl, not_true_eq_false, if_false]
    · simp only [ne_eq, hl, not_false_eq_true, if_true]
      apply ih
      · omega
      · omega

end IntroSort

namespace TournamentSort

/-- Once the fuel covers `nodeIndex`, one more unit of fuel does not change `rebuildTree`. -/
theorem rebuildTreeFuel_stable :
    ∀ (fuel : Nat) (t : List Node) (x : Nat) (st : SortStats), x ≤ fuel →
      rebuildTreeFuel (fuel + 1) t x st = rebuildTreeFuel fuel t x st := by
  intro fuel
  induction fuel with
  | zero =>
    intro t x st hx
    have : x = 0 := by omega
    subst this
    simp [rebuildTreeFuel]
  | succ fuel ih =>
    intro t x st hx
    rw [rebuildTreeFuel]
    conv => rhs; rw [rebuildTreeFuel]
    split
    · rfl
    · dsimp only
      apply ih
      omega

end TournamentSort

namespace TimSort

/-- Once the fuel covers what is left of the two runs, one more unit of fuel does not
change the merge loop. -/
theorem mergeLoop_stable (L R : List Int) :
    ∀ (fuel i j k : Nat) (a : List Int) (st : SortStats),
      (L.length - i) + (R.length - j) ≤ fuel →
      mergeLoop L R (fuel + 1) i j k a st = mergeLoop L R fuel i j k a st := by
  intro fuel
  induction fuel with
  | zero =>
    intro i j k a st hf
    have hc : ¬ (i < L.length ∧ j < R.length) := by omega
    simp [mergeLoop, hc]
  | succ fuel ih =>
    intro i j k a st hf
    rw [mergeLoop]
    conv => rhs; rw [mergeLoop]
    split
    · split
      · apply ih; omega
      · apply ih; omega
    · rfl

/-- Once `size + fuel` reaches `n`, one more unit of fuel does not change the merge passes. -/
theorem mergePasses_stable (n : Nat) :
    ∀ (fuel size : Nat) (s : SortState), 1 ≤ size → n ≤ size + fuel →
      mergePasses n (fuel + 1) size s = mergePasses n fuel size s := by
  intro fuel
  induction fuel with
  | zero =>
    intro size s hs hf
    have hc : ¬ size < n := by omega
    simp [mergePasses, hc]
  | succ fuel ih =>
    intro size s hs hf
    rw [mergePasses]
    conv => rhs; rw [mergePasses]
    split
    · apply ih <;> omega
    · rfl

/-- Once the fuel covers `n`, one more unit of fuel does not change the `calcMinRun` loop. -/
theorem calcMinRunLoop_stable :
    ∀ (fuel n r : Nat), n ≤ fuel →
      calcMinRunLoop (fuel + 1) n r = calcMinRunLoop fuel n r := by
  intro fuel
  induction fuel with
  | zero =>
    intro n r hn
    have : n = 0 := by omega
    subst this
    simp [calcMinRunLoop, MIN_RUN]
  | succ fuel ih =>
    intro n r hn
    rw [calcMinRunLoop]
    conv => rhs; rw [calcMinRunLoop]
    split
    · rename_i hc
      apply ih
      have : 32 ≤ n := hc
      rw [Nat.shiftRight_eq_div_pow]
      omega
    · rfl

end TimSort


/-- C11: `LibrarySort::sort` on `[4,2,2,3]` produces `[2,2,3,4]`. -/
theorem librarySort_scenario :
    (LibrarySort.sort [4, 2, 2, 3]).map Prod.fst = some [2, 2, 3, 4] := by
  decide

/-- C12 (code bug): Library Sort puts an equal key to the left of the equal element that
is already stored.  On `[4,2,2,3]`, after `4` and the first `2` are inserted the gapped
array is `[2,4,-1,...]`; for the second `2` `findPosition` returns slot `0`, the slot that
holds the first `2`, and `makeRoom` moves the first `2` one slot to the right. -/
theorem librarySort_equal_key_goes_left :
    (List.range' 1 1).foldlM (LibrarySort.insertStep [4, 2, 2, 3])
        ((List.replicate 8 (-1 : Int)).set 0 4, 8, 1, ⟨0, 1, 32⟩)
      = some ([2, 4, -1, -1, -1, -1, -1, -1], 8, 2, ⟨1, 3, 32⟩) ∧
    rd [4, 2, 2, 3] 2 = 2 ∧ rd [2, 4, -1, -1, -1, -1, -1, -1] 0 = 2 ∧
    (LibrarySort.findPosition [2, 4, -1, -1, -1, -1, -1, -1] 2 ⟨1, 3, 32⟩).1 = 0 ∧
    (LibrarySort.makeRoom [2, 4, -1, -1, -1, -1, -1, -1] 0 ⟨3, 3, 32⟩).map Prod.fst
      = some [-1, 2, 4, -1, -1, -1, -1, -1] := by
  decide

/-- C13 (as stated, refuted): on `[3,1,2]` the counter returned by `InsertionSort::sort`
has `assignments = 6`, not `5`. -/
theorem insertionSort_assignments_not_five :
    (InsertionSort.sort [3, 1, 2]).2.assignments = 6 ∧
    (InsertionSort.sort [3, 1, 2]).2.assignments ≠ 5 := by
  decide

/-- C13 (amended): `InsertionSort::sort` on `[3,1,2]` leaves the vector `[1,2,3]` and
returns `comparisons = 3` and `assignments = 6` (two reads of the key, two shifts and two
final writes), with `memoryUsage = 8`. -/
theorem insertionSort_scenario :
    InsertionSort.sort [3, 1, 2] = ([1, 2, 3], ⟨3, 6, 8⟩) := by
  decide

set_option maxRecDepth 1000000 in
/-- C14 (code bug): on the 64-element vector `0, 1, ..., 63` `TimSort::sort` returns
`memoryUsage = 512`, the sum over its three merge calls (`128 + 128 + 256` bytes), whereas
the largest pair of merge buffers is `64 * sizeof(int) = 256` bytes. -/
theorem timSort_memory_is_cumulative :
    (TimSort.sort ((List.range 64).map (fun i => (i : Int)))).2.memoryUsage = 512 ∧
    TimSort.calcMinRun 64 = 16 ∧
    (TimSort.merge ((List.range 64).map (fun i => (i : Int))) 0 15 31 SortStats.zero).2.memoryUsage
      = 128 ∧
    (TimSort.merge ((List.range 64).map (fun i => (i : Int))) 0 31 63 SortStats.zero).2.memoryUsage
      = 256 ∧
    64 * sizeofInt = 256 := by
  decide

/-- C16 (code bug): on the sentinel-free input `[1,2,3]` the position that `findPosition`
returns for the key `3` is `6 = gapped.size()`, so the writes `gapped[pos] = -1` of
`makeRoom` and `gapped[j] = key` of `sort` are out of range. -/
theorem librarySort_position_out_of_range :
    (-1 : Int) ∉ [1, 2, 3] ∧
    (List.range' 1 1).foldlM (LibrarySort.insertStep [1, 2, 3])
        ((List.replicate 6 (-1 : Int)).set 0 1, 6, 1, ⟨0, 1, 24⟩)
      = some ([1, -1, -1, -1, -1, 2], 6, 2, ⟨1, 2, 24⟩) ∧
    (LibrarySort.findPosition [1, -1, -1, -1, -1, 2] 3 ⟨1, 2, 24⟩).1 = 6 ∧
    ([1, -1, -1, -1, -1, 2] : List Int).length = 6 ∧
    LibrarySort.makeRoom [1, -1, -1, -1, -1, 2] 6 ⟨2, 2, 24⟩ = none ∧
    LibrarySort.sort [1, 2, 3] = none := by
  decide

/-- C17: the sentinel `-1` of Library Sort collides with real data.  On `[-1, 5]` the slot
that holds the real `-1` is taken for an empty one (`findPosition` returns it and `makeRoom`
leaves it alone), `5` overwrites it, and the vector after `sort` is `[5, 5]`, which is not a
permutation of the input. -/
theorem librarySort_sentinel_collision :
    (-1 : Int) ∈ [-1, 5] ∧
    (LibrarySort.findPosition [-1, -1, -1, -1] 5 ⟨0, 1, 16⟩).1 = 0 ∧
    (LibrarySort.makeRoom [-1, -1, -1, -1] 0 ⟨0, 1, 16⟩).map Prod.fst = some [-1, -1, -1, -1] ∧
    (LibrarySort.sort [-1, 5]).map Prod.fst = some [5, 5] ∧
    ¬ ([5, 5] : List Int).Perm [-1, 5] := by
  refine ⟨by decide, by decide, by decide, by decide, ?_⟩
  intro h
  have := h.count_eq 5
  simp at this


/-! ## Operation counts of cocktail sort -/

namespace CocktailSort

theorem bubbleStep_cmp (s : Bool × SortState) (i : Nat) :
    (bubbleStep s i).2.2.comparisons = s.2.2.comparisons + 1 := by
  unfold bubbleStep
  split <;> rfl

theorem forwardPass_cmp (start e : Nat) (s : SortState) :
    (forwardPass start e s).2.2.comparisons = s.2.comparisons + ((e - start : Nat) : Int) := by
  unfold forwardPass
  have key := foldl_range'_inv
    (fun i (r : Bool × SortState) => r.2.2.comparisons = s.2.comparisons + ((i - start : Nat) : Int))
    bubbleStep start (e - start) (false, s) (by simp)
    (by
      intro i r h1 _ hp
      rw [bubbleStep_cmp, hp]
      have : i + 1 - start = (i - start) + 1 := by omega
      rw [this]; push_cast; ring)
  simp only at key
  rw [key]
  congr 2
  omega

theorem backwardPass_cmp (start e : Nat) (s : SortState) :
    s.2.comparisons ≤ (backwardPass start e s).2.2.comparisons := by
  unfold backwardPass
  have key := foldl_range'_rev_inv
    (fun _ (r : Bool × SortState) => s.2.comparisons ≤ r.2.2.comparisons)
    bubbleStep start (e - start) (false, s) (le_refl _)
    (by
      intro i r _ _ hp
      show s.2.comparisons ≤ (bubbleStep r i).2.2.comparisons
      rw [bubbleStep_cmp]; omega)
  exact key

theorem sortLoop_cmp :
    ∀ (fuel start e : Nat) (s r : SortState), sortLoop fuel start e s = some r →
      s.2.comparisons + ((e - start : Nat) : Int) ≤ r.2.comparisons := by
  intro fuel
  induction fuel with
  | zero => intro start e s r h; simp [sortLoop] at h
  | succ fuel ih =>
    intro start e s r h
    unfold sortLoop at h
    simp only at h
    have hf := forwardPass_cmp start e s
    by_cases c1 : (forwardPass start e s).1 = false
    · rw [if_pos c1, Option.some.injEq] at h
      rw [← h, hf]
    · rw [if_neg c1] at h
      have hb := backwardPass_cmp start (e - 1) (forwardPass start e s).2
      by_cases c2 : (backwardPass start (e - 1) (forwardPass start e s).2).1 = true
      · rw [if_pos c2] at h
        have := ih _ _ _ _ h
        have h0 : (0 : Int) ≤ ((e - 1 - (start + 1) : Nat) : Int) := Int.natCast_nonneg _
        omega
      · rw [if_neg c2, Option.some.injEq] at h
        rw [← h]
        omega

/-- On a range that is already in order the forward pass exchanges nothing: it reports
`swapped = false` and only counts its `e - start` comparisons. -/
theorem forwardPass_sorted (start e : Nat) (s : SortState)
    (hs : ∀ t, start ≤ t → t < e → rd s.1 t ≤ rd s.1 (t + 1)) :
    forwardPass start e s
      = (false, s.1, ⟨s.2.comparisons + ((e - start : Nat) : Int), s.2.assignments,
          s.2.memoryUsage⟩) := by
  unfold forwardPass
  have key := foldl_range'_inv
    (fun i (r : Bool × SortState) =>
      r = (false, s.1, ⟨s.2.comparisons + ((i - start : Nat) : Int), s.2.assignments,
          s.2.memoryUsage⟩))
    bubbleStep start (e - start) (false, s) (by simp)
    (by
      intro i r h1 h2 hp
      rw [hp]
      unfold bubbleStep
      have := hs i h1 (by omega)
      rw [if_neg (by simpa using this)]
      have e1 : i + 1 - start = (i - start) + 1 := by omega
      simp only [SortStats.addCmp, e1]
      push_cast
      simp only [add_assoc])
  simp only at key
  rw [key]
  have : start + (e - start) - start = e - start := by omega
  rw [this]

theorem cocktailSort_sorted (arr : List Int) (hn : 2 ≤ arr.length)
    (hs : arr.Sorted (fun x y => x ≤ y)) (fuel : Nat) :
    sort (fuel + 1) arr = some (arr, ⟨(arr.length : Int) - 1, 0, 0⟩) := by
  have hadj : ∀ t, 0 ≤ t → t < arr.length - 1 → rd arr t ≤ rd arr (t + 1) := by
    intro t _ ht
    have h1 : t < arr.length := by omega
    have h2 : t + 1 < arr.length := by omega
    rw [rd_of_lt arr h1, rd_of_lt arr h2]
    exact (List.pairwise_iff_getElem.1 hs) t (t + 1) h1 h2 (by omega)
  unfold sort
  simp only
  rw [if_neg (by omega)]
  unfold sortLoop
  simp only
  rw [forwardPass_sorted 0 (arr.length - 1) (arr, SortStats.zero) hadj]
  simp only [if_true, SortStats.zero, Nat.sub_zero]
  congr 3
  have : 1 ≤ arr.length := by omega
  push_cast [this]
  ring

theorem cocktailSort_cmp_ge (arr : List Int) (hn : 2 ≤ arr.length) (fuel : Nat) (r : SortState)
    (h : sort fuel arr = some r) : (arr.length : Int) - 1 ≤ r.2.comparisons := by
  unfold sort at h
  simp only at h
  rw [if_neg (by omega)] at h
  have := sortLoop_cmp _ _ _ _ _ h
  simp only [SortStats.zero, Nat.sub_zero] at this
  have h1 : 1 ≤ arr.length := by omega
  push_cast [h1] at this
  omega

end CocktailSort

/-- C19: best case of Cocktail Sort.  For every non-decreasing input of length `n ≥ 2`,
`CocktailSort::sort` stops after its first forward pass, leaves the vector unchanged and
returns `comparisons = n - 1` and `assignments = 0`; and for every input of length `n ≥ 2`
the run terminates and the returned `comparisons` is at least `n - 1`. -/
theorem cocktailSort_best_case (arr : List Int) (hn : 2 ≤ arr.length) :
    (arr.Sorted (fun x y => x ≤ y) →
      ∀ fuel, CocktailSort.sort (fuel + 1) arr = some (arr, ⟨(arr.length : Int) - 1, 0, 0⟩)) ∧
    (∃ r, CocktailSort.sort arr.length arr = some r ∧
      (arr.length : Int) - 1 ≤ r.2.comparisons) ∧
    (∀ fuel r, CocktailSort.sort fuel arr = some r →
      (arr.length : Int) - 1 ≤ r.2.comparisons) := by
  refine ⟨fun hs fuel => CocktailSort.cocktailSort_sorted arr hn hs fuel, ?_,
    fun fuel r h => CocktailSort.cocktailSort_cmp_ge arr hn fuel r h⟩
  obtain ⟨r, hr, _⟩ := CocktailSort.cocktailSort_spec arr
  exact ⟨r, hr, CocktailSort.cocktailSort_cmp_ge arr hn _ r hr⟩

/-- Instance of C19 on the sorted vector `[1, 2, 2, 5]` and on its own counts. -/
theorem cocktailSort_best_case_witness :
    2 ≤ ([1, 2, 2, 5] : List Int).length ∧
    CocktailSort.sort 1 [1, 2, 2, 5] = some ([1, 2, 2, 5], ⟨3, 0, 0⟩) ∧
    (∃ r, CocktailSort.sort 4 [1, 2, 2, 5] = some r ∧ (3 : Int) ≤ r.2.comparisons) :=
  ⟨by decide,
   (cocktailSort_best_case [1, 2, 2, 5] (by decide)).1 (by decide) 0,
   (cocktailSort_best_case [1, 2, 2, 5] (by decide)).2.1⟩


/-! ## Comparison count of introsort -/

theorem lt_pow_floorLog2Aux (n : Nat) :
    ∀ (fuel h : Nat), n < 2 ^ (h + fuel + 1) → n < 2 ^ (floorLog2Aux n fuel h + 1) := by
  intro fuel
  induction fuel with
  | zero => intro h hn; simpa [floorLog2Aux] using hn
  | succ fuel ih =>
    intro h hn
    unfold floorLog2Aux
    by_cases hc : 2 ^ (h + 1) ≤ n
    · rw [if_pos hc]
      apply ih
      have : h + 1 + fuel + 1 = h + (fuel + 1) + 1 := by omega
      rw [this]; exact hn
    · rw [if_neg hc]; omega

theorem lt_pow_floorLog2 (n : Nat) : n < 2 ^ (floorLog2 n + 1) := by
  unfold floorLog2
  apply lt_pow_floorLog2Aux
  have h1 := Nat.lt_two_pow n
  have h2 : 2 ^ n ≤ 2 ^ (0 + n + 1) := Nat.pow_le_pow_right (by omega) (by omega)
  omega

theorem pow_floorLog2Aux_le (n : Nat) :
    ∀ (fuel h : Nat), 2 ^ h ≤ n → 2 ^ floorLog2Aux n fuel h ≤ n := by
  intro fuel
  induction fuel with
  | zero => intro h hn; simpa [floorLog2Aux] using hn
  | succ fuel ih =>
    intro h hn
    unfold floorLog2Aux
    by_cases hc : 2 ^ (h + 1) ≤ n
    · rw [if_pos hc]; exact ih _ hc
    · rw [if_neg hc]; exact hn

theorem pow_floorLog2_le (n : Nat) (hn : 1 ≤ n) : 2 ^ floorLog2 n ≤ n := by
  unfold floorLog2
  exact pow_floorLog2Aux_le n n 0 (by simpa using hn)

/-- A loop whose body adds at most `K` to a counter adds at most `K` times the number of
iterations. -/
theorem foldl_counter_le {σ : Type} (g : σ → Int) (f : σ → Nat → σ) (K : Int) :
    ∀ (l : List Nat) (s0 : σ), (∀ s i, i ∈ l → g (f s i) ≤ g s + K) →
      g (l.foldl f s0) ≤ g s0 + K * (l.length : Int) := by
  intro l
  induction l with
  | nil => intro s0 _; simp
  | cons a l ih =>
    intro s0 h
    rw [List.foldl_cons]
    have h1 := ih (f s0 a) (fun s i hi => h s i (List.mem_cons_of_mem _ hi))
    have h2 := h s0 a (List.mem_cons_self _ _)
    rw [List.length_cons]
    push_cast
    linarith

namespace IntroSort

theorem insertionShift_cmp (begin : Nat) (key : Int) :
    ∀ (j : Nat) (arr : List Int) (stats : SortStats),
      (insertionShift begin key j arr stats).2.2.comparisons
        ≤ stats.comparisons + ((j - begin : Nat) : Int) := by
  intro j
  induction j with
  | zero => intro arr stats; simp [insertionShift]
  | succ j ih =>
    intro arr stats
    unfold insertionShift
    by_cases h1 : begin ≤ j
    · rw [if_pos h1]
      have e1 : j + 1 - begin = (j - begin) + 1 := by omega
      by_cases h2 : rd arr j > key
      · rw [if_pos h2]
        have := ih (arr.set (j + 1) (rd arr j)) ((stats.addCmp 1).addAsg 1)
        simp only [SortStats.addCmp, SortStats.addAsg] at this ⊢
        rw [e1]; push_cast; omega
      · rw [if_neg h2]
        simp only [SortStats.addCmp]
        rw [e1]; push_cast; omega
    · rw [if_neg h1]
      have : (0 : Int) ≤ ((j + 1 - begin : Nat) : Int) := Int.natCast_nonneg _
      show stats.comparisons ≤ _
      omega

theorem insertionStep_cmp (begin : Nat) (s : SortState) (i : Nat) :
    (insertionStep begin s i).2.comparisons ≤ s.2.comparisons + ((i - begin : Nat) : Int) := by
  unfold insertionStep
  simp only [SortStats.addAsg]
  exact insertionShift_cmp begin (rd s.1 i) i s.1 _

theorem insertionSort_cmp (arr : List Int) (b e : Nat) (stats : SortStats)
    (hs : e + 1 - b < 16) :
    (insertionSort arr b e stats).2.comparisons
      ≤ stats.comparisons + 14 * ((e + 1 - b : Nat) : Int) := by
  unfold insertionSort
  have key := foldl_counter_le (fun s : SortState => s.2.comparisons) (insertionStep b) 14
    (List.range' (b + 1) (e - b)) (arr, stats)
    (by
      intro s i hi
      rw [List.mem_range'_1] at hi
      have := insertionStep_cmp b s i
      have h2 : ((i - b : Nat) : Int) ≤ 14 := by
        have : i - b ≤ 14 := by omega
        exact_mod_cast this
      simp only
      omega)
  simp only [List.length_range'] at key
  have h3 : ((e - b : Nat) : Int) ≤ ((e + 1 - b : Nat) : Int) := by
    have : e - b ≤ e + 1 - b := by omega
    exact_mod_cast this
  omega

/-- One call of `heapify` at heap position `i - begin + 1` costs at most two comparisons for
each level below that position. -/
theorem heapifyFuel_cmp (b e : Nat) :
    ∀ (fuel t : Nat) (arr : List Int) (i : Nat) (stats : SortStats), b ≤ i →
      e + 1 - b < (i - b + 1) * 2 ^ t →
      (heapifyFuel fuel arr b e i stats).2.comparisons ≤ stats.comparisons + 2 * (t : Int) := by
  intro fuel
  induction fuel with
  | zero => intro t arr i stats _ _; simp [heapifyFuel]
  | succ fuel ih =>
    intro t arr i stats hbi hsz
    unfold heapifyFuel
    simp only
    cases t with
    | zero =>
      simp only [pow_zero, Nat.mul_one] at hsz
      have hl : ¬ (2 * (i - b) + 1 + b ≤ e) := by omega
      have hr : ¬ (2 * (i - b) + 2 + b ≤ e) := by omega
      simp [hl, hr]
    | succ t =>
      have hP : 0 < 2 ^ t := Nat.two_pow_pos t
      have hsz2 : e + 1 - b < (2 * (i - b + 1)) * 2 ^ t := by
        have : (i - b + 1) * 2 ^ (t + 1) = (2 * (i - b + 1)) * 2 ^ t := by
          rw [pow_succ]; ring
        rw [this] at hsz; exact hsz
      generalize hl1 : (if 2 * (i - b) + 1 + b ≤ e ∧ rd arr (2 * (i - b) + 1 + b) > rd arr i
        then 2 * (i - b) + 1 + b else i) = l1
      generalize hl2 : (if 2 * (i - b) + 2 + b ≤ e ∧ rd arr (2 * (i - b) + 2 + b) > rd arr l1
        then 2 * (i - b) + 2 + b else l1) = l2
      generalize hs2 : (if 2 * (i - b) + 2 + b ≤ e
        then (if 2 * (i - b) + 1 + b ≤ e then stats.addCmp 1 else stats).addCmp 1
        else (if 2 * (i - b) + 1 + b ≤ e then stats.addCmp 1 else stats)) = s2
      have hs2c : s2.comparisons ≤ stats.comparisons + 2 := by
        rw [← hs2]
        split <;> split <;> (try simp only [SortStats.addCmp]) <;> omega
      have hl1c : l1 = i ∨ l1 = 2 * (i - b) + 1 + b := by
        rw [← hl1]; split
        · right; rfl
        · left; rfl
      have hl2c : l2 = l1 ∨ l2 = 2 * (i - b) + 2 + b := by
        rw [← hl2]; split
        · right; rfl
        · left; rfl
      by_cases hne : l2 = i
      · simp only [ne_eq, hne, not_true_eq_false, if_false]
        push_cast; omega
      · simp only [ne_eq, hne, not_false_eq_true, if_true]
        have hge : 2 * (i - b + 1) ≤ l2 - b + 1 := by
          rcases hl2c with h | h
          · rcases hl1c with h' | h'
            · exact absurd (h.trans h') hne
            · rw [h, h']; omega
          · rw [h]; omega
        have hbl : b ≤ l2 := by omega
        have hmul : (2 * (i - b + 1)) * 2 ^ t ≤ (l2 - b + 1) * 2 ^ t :=
          Nat.mul_le_mul_right _ hge
        have := ih t (swapAt arr i l2) l2 (s2.addAsg 3) hbl (by omega)
        simp only [SortStats.addAsg] at this ⊢
        push_cast; omega

theorem heapify_cmp (arr : List Int) (b e i L : Nat) (stats : SortStats) (hbi : b ≤ i)
    (hL : e + 1 - b < 2 ^ L) :
    (heapify arr b e i stats).2.comparisons ≤ stats.comparisons + 2 * (L : Int) := by
  unfold heapify
  apply heapifyFuel_cmp b e _ L arr i stats hbi
  have : 2 ^ L ≤ (i - b + 1) * 2 ^ L := Nat.le_mul_of_pos_left _ (by omega)
  omega

theorem heapSort_cmp (arr : List Int) (b e L : Nat) (stats : SortStats) (hbe : b ≤ e)
    (hL : e + 1 - b < 2 ^ L) :
    (heapSort arr b e stats).2.comparisons
      ≤ stats.comparisons + 3 * ((e + 1 - b : Nat) : Int) * (L : Int) := by
  unfold heapSort
  simp only
  have k1 := foldl_counter_le (fun s : SortState => s.2.comparisons)
    (fun s i => heapify s.1 b e i s.2) (2 * (L : Int))
    (List.range' b ((e - b + 1) / 2)).reverse (arr, stats)
    (by
      intro s i hi
      rw [List.mem_reverse, List.mem_range'_1] at hi
      exact heapify_cmp s.1 b e i L s.2 hi.1 hL)
  generalize (List.range' b ((e - b + 1) / 2)).reverse.foldl
    (fun s i => heapify s.1 b e i s.2) (arr, stats) = built at k1 ⊢
  have k2 := foldl_counter_le (fun s : SortState => s.2.comparisons)
    (heapExtract b) (2 * (L : Int))
    (List.range' (b + 1) (e - b)).reverse built
    (by
      intro s i hi
      rw [List.mem_reverse, List.mem_range'_1] at hi
      unfold heapExtract
      have := heapify_cmp (swapAt s.1 b i) b (i - 1) b L (s.2.addAsg 3) (le_refl _) (by omega)
      simpa [SortStats.addAsg] using this)
  simp only [List.length_reverse, List.length_range'] at k1 k2
  have hm : e + 1 - b = e - b + 1 := by omega
  rw [hm]
  have h1 : (((e - b + 1) / 2 : Nat) : Int) * 2 ≤ ((e - b + 1 : Nat) : Int) := by
    have : (e - b + 1) / 2 * 2 ≤ e - b + 1 := Nat.div_mul_le_self _ _
    exact_mod_cast this
  have h2 : ((e - b : Nat) : Int) + 1 = ((e - b + 1 : Nat) : Int) := by push_cast; ring
  have hL0 : (0 : Int) ≤ (L : Int) := Int.natCast_nonneg _
  nlinarith [mul_le_mul_of_nonneg_right h1 hL0]

theorem partition_cmp (arr : List Int) (b e : Nat) (stats : SortStats) (hbe : b ≤ e) :
    b ≤ (partition arr b e stats).1 ∧ (partition arr b e stats).1 ≤ e ∧
    (partition arr b e stats).2.2.comparisons
      = stats.comparisons + 3 + ((e - b : Nat) : Int) := by
  unfold partition
  simp only
  generalize medianOfThree arr b (b + (e - b) / 2) e = pi
  have key := foldl_range'_inv
    (fun i (r : Nat × SortState) => b ≤ r.1 ∧ r.1 ≤ i ∧
      r.2.2.comparisons = stats.comparisons + 3 + ((i - b : Nat) : Int))
    (partitionStep (rd arr pi)) b (e - b)
    (b, swapAt arr pi e, (stats.addCmp 3).addAsg 3)
    ⟨le_refl _, le_refl _, by simp [SortStats.addCmp, SortStats.addAsg]⟩
    (by
      intro i r h1 h2 ⟨p1, p2, p3⟩
      have e1 : i + 1 - b = (i - b) + 1 := by omega
      unfold partitionStep
      split
      · refine ⟨by simp only; omega, by simp only; omega, ?_⟩
        simp only [SortStats.addCmp, SortStats.addAsg]
        rw [p3, e1]; push_cast; ring
      · refine ⟨p1, by omega, ?_⟩
        simp only [SortStats.addCmp]
        rw [p3, e1]; push_cast; ring)
  simp only at key
  obtain ⟨k1, k2, k3⟩ := key
  refine ⟨k1, by omega, ?_⟩
  refine k3.trans ?_
  rw [show b + (e - b) - b = e - b by omega]

/-- The comparisons of `introSortUtil` on a range of `m` elements, with depth limit `d` and
`m < 2 ^ L`, number at most `m * (2 * d + 14 + 3 * L)`: each quicksort level costs at most
`2 * m`, insertion sort at most `14 * m`, heap sort at most `3 * m * L`. -/
theorem introSortUtil_cmp (L : Nat) :
    ∀ (d : Nat) (a : List Int) (b e : Nat) (st : SortStats), e + 1 - b < 2 ^ L →
      (introSortUtil d a b e st).2.comparisons
        ≤ st.comparisons + ((e + 1 - b : Nat) : Int) * (2 * (d : Int) + 14 + 3 * (L : Int)) := by
  intro d
  induction d with
  | zero =>
    intro a b e st hL
    have hm0 : (0 : Int) ≤ ((e + 1 - b : Nat) : Int) := Int.natCast_nonneg _
    have hL0 : (0 : Int) ≤ (L : Int) := Int.natCast_nonneg _
    unfold introSortUtil
    by_cases hs : e + 1 - b < 16
    · rw [if_pos hs]
      have := insertionSort_cmp a b e st hs
      nlinarith [mul_nonneg hm0 hL0]
    · rw [if_neg hs]
      have := heapSort_cmp a b e L st (by omega) hL
      push_cast
      nlinarith [mul_nonneg hm0 hL0]
  | succ d ih =>
    intro a b e st hL
    have hm0 : (0 : Int) ≤ ((e + 1 - b : Nat) : Int) := Int.natCast_nonneg _
    have hL0 : (0 : Int) ≤ (L : Int) := Int.natCast_nonneg _
    have hd0 : (0 : Int) ≤ (d : Int) := Int.natCast_nonneg _
    unfold introSortUtil
    by_cases hs : e + 1 - b < 16
    · rw [if_pos hs]
      have := insertionSort_cmp a b e st hs
      push_cast
      nlinarith [mul_nonneg hm0 hL0, mul_nonneg hm0 hd0]
    · rw [if_neg hs]
      simp only
      obtain ⟨P1, P2, P3⟩ := partition_cmp a b e st (by omega)
      generalize partition a b e st = p at P1 P2 P3
      have hLc : ∀ s1 : SortState,
          s1 = (if p.1 > b then introSortUtil d p.2.1 b (p.1 - 1) p.2.2 else p.2) →
          s1.2.comparisons ≤ p.2.2.comparisons
            + ((p.1 - b : Nat) : Int) * (2 * (d : Int) + 14 + 3 * (L : Int)) := by
        intro s1 hs1
        by_cases hc : p.1 > b
        · rw [if_pos hc] at hs1
          have := ih p.2.1 b (p.1 - 1) p.2.2 (by omega)
          rw [← hs1] at this
          have e1 : p.1 - 1 + 1 - b = p.1 - b := by omega
          rw [e1] at this
          exact this
        · rw [if_neg hc] at hs1
          rw [hs1]
          have : (0 : Int) ≤ ((p.1 - b : Nat) : Int) := Int.natCast_nonneg _
          nlinarith [mul_nonneg this hL0, mul_nonneg this hd0]
      have L1 := hLc _ rfl
      generalize (if p.1 > b then introSortUtil d p.2.1 b (p.1 - 1) p.2.2 else p.2) = s1
        at L1 ⊢
      have hRc : ∀ s2 : SortState,
          s2 = (if p.1 < e then introSortUtil d s1.1 (p.1 + 1) e s1.2 else s1) →
          s2.2.comparisons ≤ s1.2.comparisons
            + ((e - p.1 : Nat) : Int) * (2 * (d : Int) + 14 + 3 * (L : Int)) := by
        intro s2 hs2
        by_cases hc : p.1 < e
        · rw [if_pos hc] at hs2
          have := ih s1.1 (p.1 + 1) e s1.2 (by omega)
          rw [← hs2] at this
          have e1 : e + 1 - (p.1 + 1) = e - p.1 := by omega
          rw [e1] at this
          exact this
        · rw [if_neg hc] at hs2
          rw [hs2]
          have : (0 : Int) ≤ ((e - p.1 : Nat) : Int) := Int.natCast_nonneg _
          nlinarith [mul_nonneg this hL0, mul_nonneg this hd0]
      have R1 := hRc _ rfl
      generalize (if p.1 < e then introSortUtil d s1.1 (p.1 + 1) e s1.2 else s1) = s2
        at R1 ⊢
      have hsplit : ((e + 1 - b : Nat) : Int)
          = ((p.1 - b : Nat) : Int) + ((e - p.1 : Nat) : Int) + 1 := by
        have : e + 1 - b = (p.1 - b) + (e - p.1) + 1 := by omega
        rw [this]; push_cast; ring
      have hm16 : (16 : Int) ≤ ((e + 1 - b : Nat) : Int) := by
        have : 16 ≤ e + 1 - b := by omega
        exact_mod_cast this
      have heb : ((e - b : Nat) : Int) + 1 = ((e + 1 - b : Nat) : Int) := by
        have : e + 1 - b = (e - b) + 1 := by omega
        rw [this]; push_cast; ring
      have hx : (0 : Int) ≤ ((p.1 - b : Nat) : Int) := Int.natCast_nonneg _
      have hy : (0 : Int) ≤ ((e - p.1 : Nat) : Int) := Int.natCast_nonneg _
      push_cast
      generalize ((p.1 - b : Nat) : Int) = x at *
      generalize ((e - p.1 : Nat) : Int) = y at *
      generalize ((e + 1 - b : Nat) : Int) = m at *
      generalize ((e - b : Nat) : Int) = w at *
      subst hsplit
      nlinarith [mul_nonneg hx hL0, mul_nonneg hy hL0, mul_nonneg hx hd0, mul_nonneg hy hd0]

theorem introSort_cmp (arr : List Int) :
    (sort arr).2.comparisons
      ≤ 20 * (arr.length : Int) * ((floorLog2 arr.length : Int) + 1) := by
  have hn0 : (0 : Int) ≤ (arr.length : Int) := Int.natCast_nonneg _
  have hL0 : (0 : Int) ≤ (floorLog2 arr.length : Int) := Int.natCast_nonneg _
  unfold sort
  simp only
  by_cases hn : arr.length ≤ 1
  · rw [if_pos hn]
    simp only [SortStats.zero]
    nlinarith [mul_nonneg hn0 hL0]
  · rw [if_neg hn]
    have hlt := lt_pow_floorLog2 arr.length
    have := introSortUtil_cmp (floorLog2 arr.length + 1) (2 * floorLog2 arr.length) arr 0
      (arr.length - 1) SortStats.zero (by
        have : arr.length - 1 + 1 - 0 = arr.length := by omega
        rw [this]; exact hlt)
    have e1 : arr.length - 1 + 1 - 0 = arr.length := by omega
    rw [e1] at this
    simp only [SortStats.zero] at this ⊢
    push_cast at this
    nlinarith [mul_nonneg hn0 hL0]

end IntroSort

/-- C20: Introsort's comparison count is never quadratic.  For every input of length
`n ≥ 2` the `comparisons` field returned by `IntroSort::sort` is at most
`20 * n * (floor(log2 n) + 1)`, where `floorLog2 n` is the integer with
`2 ^ floorLog2 n ≤ n < 2 ^ (floorLog2 n + 1)`; in particular every input of 1,000,000
integers (the strictly descending one included) costs at most `400,000,000` comparisons. -/
theorem introSort_comparisons_bound (arr : List Int) (hn : 2 ≤ arr.length) :
    (IntroSort.sort arr).2.comparisons
      ≤ 20 * (arr.length : Int) * ((floorLog2 arr.length : Int) + 1) ∧
    2 ^ floorLog2 arr.length ≤ arr.length ∧ arr.length < 2 ^ (floorLog2 arr.length + 1) ∧
    (arr.length = 1000000 → (IntroSort.sort arr).2.comparisons ≤ 400000000) := by
  refine ⟨IntroSort.introSort_cmp arr, pow_floorLog2_le _ (by omega), lt_pow_floorLog2 _, ?_⟩
  intro h
  have h1 := IntroSort.introSort_cmp arr
  have h2 := pow_floorLog2_le arr.length (by omega)
  have h3 : floorLog2 arr.length < 20 := by
    by_contra hc
    have : 2 ^ 20 ≤ 2 ^ floorLog2 arr.length := Nat.pow_le_pow_right (by omega) (by omega)
    omega
  have h4 : (floorLog2 arr.length : Int) ≤ 19 := by exact_mod_cast Nat.lt_succ_iff.1 h3
  rw [h] at h1 h4
  push_cast at h1
  omega

set_option maxRecDepth 100000 in
/-- Instance of C20 on the strictly descending vector `20, 19, ..., 1`, whose run partitions
once and then uses insertion sort. -/
theorem introSort_comparisons_bound_witness :
    2 ≤ ([20, 19, 18, 17, 16, 15, 14, 13, 12, 11, 10, 9, 8, 7, 6, 5, 4, 3, 2, 1] : List Int).length ∧
    (IntroSort.sort [20, 19, 18, 17, 16, 15, 14, 13, 12, 11, 10, 9, 8, 7, 6, 5, 4, 3, 2, 1]).2.comparisons
      ≤ 20 * 20 * (4 + 1) :=
  ⟨by decide, by
    have h := (introSort_comparisons_bound
      [20, 19, 18, 17, 16, 15, 14, 13, 12, 11, 10, 9, 8, 7, 6, 5, 4, 3, 2, 1] (by decide)).1
    have e : floorLog2 ([20, 19, 18, 17, 16, 15, 14, 13, 12, 11, 10, 9, 8, 7, 6, 5, 4, 3, 2, 1]
      : List Int).length = 4 := by decide
    rw [e] at h
    simpa using h⟩


/-! ## Comparison count of Tim sort on sorted input -/

/-- Two runs of the same loop keep a relation between their states when every iteration
does. -/
theorem foldl_rel {σ : Type} (R : σ → σ → Prop) (f : σ → Nat → σ) :
    ∀ (l : List Nat) (s x : σ), (∀ s x i, i ∈ l → R s x → R (f s i) (f x i)) → R s x →
      R (l.foldl f s) (l.foldl f x) := by
  intro l
  induction l with
  | nil => intro s x _ h; exact h
  | cons a l ih =>
    intro s x hstep h
    rw [List.foldl_cons, List.foldl_cons]
    exact ih _ _ (fun s x i hi => hstep s x i (List.mem_cons_of_mem _ hi))
      (hstep s x a (List.mem_cons_self _ _) h)

theorem rd_le_of_sorted (a : List Int) (h : a.Sorted (fun x y => x ≤ y)) (i j : Nat)
    (hij : i < j) (hj : j < a.length) : rd a i ≤ rd a j := by
  rw [rd_of_lt a (show i < a.length by omega), rd_of_lt a hj]
  exact (List.pairwise_iff_getElem.1 h) i j (by omega) hj hij

theorem sorted_seg (a : List Int) (b e : Nat) (he : e ≤ a.length)
    (h : ∀ i j, b ≤ i → i < j → j < e → rd a i ≤ rd a j) :
    (seg a b e).Sorted (fun x y => x ≤ y) := by
  apply List.pairwise_iff_getElem.2
  intro i j hi hj hij
  rw [length_seg a b e he] at hi hj
  have h1 := rd_seg a b e i he (by omega)
  have h2 := rd_seg a b e j he (by omega)
  rw [rd_of_lt (seg a b e) (by rw [length_seg a b e he]; exact hi)] at h1
  rw [rd_of_lt (seg a b e) (by rw [length_seg a b e he]; exact hj)] at h2
  rw [h1, h2]
  exact h _ _ (by omega) (by omega) (by omega)

/-- A range that is in order has only one ordered rearrangement: a vector that permutes
`a` inside `a[l..r]`, agrees with it outside and is in order on the range is `a`. -/
theorem eq_of_sorted_range (a a' : List Int) (l r : Nat) (hlr : l ≤ r) (hr : r < a.length)
    (hp : a'.Perm a) (ho : SameOutside a a' l r) (h1 : SortedOn a l r) (h2 : SortedOn a' l r) :
    a' = a := by
  have hseg := seg_perm_of_sameOutside a a' l r (by omega) hp ho
  have hl : a'.length = a.length := ho.1
  have s1 := sorted_seg a l (r + 1) (by omega)
    (fun i j hi hij hj => h1 i j hi hij (by omega))
  have s2 := sorted_seg a' l (r + 1) (by omega)
    (fun i j hi hij hj => h2 i j hi hij (by omega))
  have e1 : seg a' l (r + 1) = seg a l (r + 1) := List.eq_of_perm_of_sorted hseg s2 s1
  have e2 := take_eq_of_rd a a' l hl (fun i hi => ho.2 i (Or.inl hi))
  have e3 := drop_eq_of_rd a a' (r + 1) hl (fun i hi => ho.2 i (Or.inr (by omega)))
  rw [split_seg a' l (r + 1) (by omega), e1, e2, e3]
  exact (split_seg a l (r + 1) (by omega)).symm

namespace TimSort

theorem insertionShift_cmp_ge (left : Nat) (key : Int) :
    ∀ (j : Nat) (arr : List Int) (stats : SortStats),
      stats.comparisons + (if left < j then 1 else 0)
        ≤ (insertionShift left key j arr stats).2.2.comparisons := by
  intro j
  induction j with
  | zero => intro arr stats; simp [insertionShift]
  | succ j ih =>
    intro arr stats
    unfold insertionShift
    by_cases h1 : left ≤ j
    · rw [if_pos h1, if_pos (by omega)]
      by_cases h2 : rd arr j > key
      · rw [if_pos h2]
        have := ih (arr.set (j + 1) (rd arr j)) ((stats.addCmp 1).addAsg 1)
        simp only [SortStats.addCmp, SortStats.addAsg] at this ⊢
        split at this <;> omega
      · rw [if_neg h2]
        simp only [SortStats.addCmp]
        omega
    · rw [if_neg h1, if_neg (by omega)]
      show stats.comparisons + 0 ≤ stats.comparisons
      omega

theorem insertionSort_cmp_ge (arr : List Int) (left right : Nat) (stats : SortStats) :
    stats.comparisons + ((right - left : Nat) : Int)
      ≤ (insertionSort arr left right stats).2.comparisons := by
  unfold insertionSort
  have key := foldl_range'_inv
    (fun i (r : SortState) => stats.comparisons + ((i - (left + 1) : Nat) : Int)
      ≤ r.2.comparisons)
    (insertionStep left) (left + 1) (right - left) (arr, stats) (by simp)
    (by
      intro i r h1 _ hp
      unfold insertionStep
      have := insertionShift_cmp_ge left (rd r.1 i) i r.1 (r.2.addAsg 1)
      rw [if_pos (by omega)] at this
      simp only [SortStats.addAsg] at this ⊢
      have e1 : i + 1 - (left + 1) = (i - (left + 1)) + 1 := by omega
      rw [e1]; push_cast; omega)
  simp only at key
  rw [show left + 1 + (right - left) - (left + 1) = right - left by omega] at key
  exact key

/-- On a range that is already in order `insertionSort` moves nothing and makes one
comparison for each element after the first. -/
theorem insertionSort_sorted (arr : List Int) (left right : Nat) (stats : SortStats)
    (hs : ∀ t, left ≤ t → t < right → rd arr t ≤ rd arr (t + 1)) :
    (insertionSort arr left right stats).1 = arr ∧
    (insertionSort arr left right stats).2.comparisons
      = stats.comparisons + ((right - left : Nat) : Int) := by
  unfold insertionSort
  have key := foldl_range'_inv
    (fun i (r : SortState) => r.1 = arr ∧
      r.2.comparisons = stats.comparisons + ((i - (left + 1) : Nat) : Int))
    (insertionStep left) (left + 1) (right - left) (arr, stats) (by simp)
    (by
      intro i r h1 h2 ⟨p1, p2⟩
      obtain ⟨j, rfl⟩ : ∃ j, i = j + 1 := ⟨i - 1, by omega⟩
      have hle := hs j (by omega) (by omega)
      unfold insertionStep
      simp only
      rw [p1]
      unfold insertionShift
      rw [if_pos (by omega), if_neg (by simpa using hle)]
      simp only [SortStats.addCmp, SortStats.addAsg]
      refine ⟨set_rd_self _ _, ?_⟩
      rw [p2]
      have e1 : j + 1 + 1 - (left + 1) = (j + 1 - (left + 1)) + 1 := by omega
      rw [e1]; push_cast; ring)
  simp only at key
  rw [show left + 1 + (right - left) - (left + 1) = right - left by omega] at key
  exact key

theorem mergeLoop_cmp_ge (L R : List Int) :
    ∀ (fuel i j k : Nat) (a : List Int) (st : SortStats),
      (L.length - i) + (R.length - j) ≤ fuel →
      st.comparisons + ((min (L.length - i) (R.length - j) : Nat) : Int)
        ≤ (mergeLoop L R fuel i j k a st).2.2.2.2.comparisons := by
  intro fuel
  induction fuel with
  | zero =>
    intro i j k a st h
    have : min (L.length - i) (R.length - j) = 0 := by omega
    rw [this]; simp [mergeLoop]
  | succ fuel ih =>
    intro i j k a st h
    unfold mergeLoop
    by_cases hc : i < L.length ∧ j < R.length
    · rw [if_pos hc]
      by_cases h2 : rd L i ≤ rd R j
      · rw [if_pos h2]
        have := ih (i + 1) j (k + 1) (a.set k (rd L i)) ((st.addCmp 1).addAsg 1) (by omega)
        simp only [SortStats.addCmp, SortStats.addAsg] at this ⊢
        have e : (min (L.length - i) (R.length - j) : Nat)
            ≤ min (L.length - (i + 1)) (R.length - j) + 1 := by omega
        have e' : ((min (L.length - i) (R.length - j) : Nat) : Int)
            ≤ ((min (L.length - (i + 1)) (R.length - j) : Nat) : Int) + 1 := by exact_mod_cast e
        omega
      · rw [if_neg h2]
        have := ih i (j + 1) (k + 1) (a.set k (rd R j)) ((st.addCmp 1).addAsg 1) (by omega)
        simp only [SortStats.addCmp, SortStats.addAsg] at this ⊢
        have e : (min (L.length - i) (R.length - j) : Nat)
            ≤ min (L.length - i) (R.length - (j + 1)) + 1 := by omega
        have e' : ((min (L.length - i) (R.length - j) : Nat) : Int)
            ≤ ((min (L.length - i) (R.length - (j + 1)) : Nat) : Int) + 1 := by exact_mod_cast e
        omega
    · rw [if_neg hc]
      have : min (L.length - i) (R.length - j) = 0 := by omega
      rw [this]
      show st.comparisons + 0 ≤ st.comparisons
      omega

/-- When no element of the right run is smaller than an element of the left run, the merge
loop takes the left run first and makes one comparison for each of its elements. -/
theorem mergeLoop_cmp_left (L R : List Int)
    (hLR : ∀ i j, i < L.length → j < R.length → rd L i ≤ rd R j) (hR : 0 < R.length) :
    ∀ (fuel i k : Nat) (a : List Int) (st : SortStats), L.length - i ≤ fuel →
      (mergeLoop L R fuel i 0 k a st).2.2.2.2.comparisons
        = st.comparisons + ((L.length - i : Nat) : Int) := by
  intro fuel
  induction fuel with
  | zero =>
    intro i k a st h
    have : L.length - i = 0 := by omega
    rw [this]; simp [mergeLoop]
  | succ fuel ih =>
    intro i k a st h
    unfold mergeLoop
    by_cases hc : i < L.length
    · rw [if_pos ⟨hc, hR⟩, if_pos (hLR i 0 hc hR)]
      rw [ih (i + 1) (k + 1) _ _ (by omega)]
      simp only [SortStats.addCmp, SortStats.addAsg]
      have e1 : L.length - i = (L.length - (i + 1)) + 1 := by omega
      rw [e1]; push_cast; ring
    · rw [if_neg (by intro h'; exact hc h'.1)]
      have : L.length - i = 0 := by omega
      rw [this]
      show st.comparisons = st.comparisons + 0
      omega

theorem drain_cmp (src : List Int) (i k : Nat) (a : List Int) (st : SortStats) :
    (drain src i k a st).2.comparisons = st.comparisons := by
  unfold drain
  have key := foldl_range'_inv
    (fun _ (r : SortState) => r.2.comparisons = st.comparisons)
    (fun (s : SortState) t => (s.1.set (k + t) (rd src (i + t)), s.2.addAsg 1))
    0 (src.length - i) (a, st) rfl
    (by intro t r _ _ hp; exact hp)
  exact key

theorem merge_cmp_ge (arr : List Int) (l m r : Nat) (st : SortStats) :
    st.comparisons + ((min (m + 1 - l) (r - m) : Nat) : Int)
      ≤ (merge arr l m r st).2.comparisons := by
  unfold merge
  simp only
  rw [drain_cmp, drain_cmp]
  have := mergeLoop_cmp_ge (copyRun arr l (m + 1 - l)) (copyRun arr (m + 1) (r - m))
    (m + 1 - l + (r - m)) 0 0 l arr
    (((st.addMem ((m + 1 - l + (r - m)) * sizeofInt)).addAsg ((m + 1 - l : Nat) : Int)).addAsg
      ((r - m : Nat) : Int))
    (by rw [(copyRun_spec _ _ _).1, (copyRun_spec _ _ _).1]; omega)
  rw [(copyRun_spec _ _ _).1, (copyRun_spec _ _ _).1] at this
  simpa [SortStats.addMem, SortStats.addAsg] using this

theorem merge_sorted (arr : List Int) (l m r : Nat) (st : SortStats)
    (hs : arr.Sorted (fun x y => x ≤ y)) (hlm : l ≤ m) (hmr : m < r) (hr : r < arr.length) :
    (merge arr l m r st).1 = arr ∧
    (merge arr l m r st).2.comparisons = st.comparisons + ((m + 1 - l : Nat) : Int) := by
  have hso : ∀ b e, e < arr.length → SortedOn arr b e := by
    intro b e he i j _ hij hj
    exact rd_le_of_sorted arr hs i j hij (by omega)
  obtain ⟨q1, q2, q3⟩ := merge_spec arr l m r st hlm hmr hr (hso _ _ (by omega)) (hso _ _ hr)
  refine ⟨eq_of_sorted_range arr _ l r (by omega) hr q1 q2 (hso _ _ hr) q3, ?_⟩
  unfold merge
  simp only
  rw [drain_cmp, drain_cmp]
  have c1 := copyRun_spec arr l (m + 1 - l)
  have c2 := copyRun_spec arr (m + 1) (r - m)
  have := mergeLoop_cmp_left (copyRun arr l (m + 1 - l)) (copyRun arr (m + 1) (r - m))
    (by
      intro i j hi hj
      rw [c1.1] at hi
      rw [c2.1] at hj
      rw [c1.2 i hi, c2.2 j hj]
      exact rd_le_of_sorted arr hs _ _ (by omega) (by omega))
    (by rw [c2.1]; omega)
    (m + 1 - l + (r - m)) 0 l arr
    (((st.addMem ((m + 1 - l + (r - m)) * sizeofInt)).addAsg ((m + 1 - l : Nat) : Int)).addAsg
      ((r - m : Nat) : Int))
    (by rw [c1.1]; omega)
  rw [c1.1] at this
  simpa [SortStats.addMem, SortStats.addAsg] using this

theorem runs_bestCase (arr : List Int) (hs : arr.Sorted (fun x y => x ≤ y)) (minRun : Nat)
    (s x : SortState) (h : s.1 = arr ∧ s.2.comparisons ≤ x.2.comparisons) :
    ((List.range' 0 (strideCount arr.length minRun) minRun).foldl
        (fun (s : SortState) i =>
          insertionSort s.1 i (min (i + minRun - 1) (arr.length - 1)) s.2) s).1 = arr ∧
    ((List.range' 0 (strideCount arr.length minRun) minRun).foldl
        (fun (s : SortState) i =>
          insertionSort s.1 i (min (i + minRun - 1) (arr.length - 1)) s.2) s).2.comparisons
      ≤ ((List.range' 0 (strideCount arr.length minRun) minRun).foldl
        (fun (s : SortState) i =>
          insertionSort s.1 i (min (i + minRun - 1) (arr.length - 1)) s.2) x).2.comparisons := by
  apply foldl_rel (fun (s x : SortState) => s.1 = arr ∧ s.2.comparisons ≤ x.2.comparisons)
    _ _ s x _ h
  intro s x i _ ⟨p1, p2⟩
  have hadj : ∀ t, i ≤ t → t < min (i + minRun - 1) (arr.length - 1) →
      rd arr t ≤ rd arr (t + 1) := by
    intro t _ ht
    exact rd_le_of_sorted arr hs t (t + 1) (by omega) (by omega)
  obtain ⟨q1, q2⟩ := insertionSort_sorted arr i (min (i + minRun - 1) (arr.length - 1)) s.2 hadj
  have q3 := insertionSort_cmp_ge x.1 i (min (i + minRun - 1) (arr.length - 1)) x.2
  rw [p1]
  exact ⟨q1, by omega⟩

theorem mergePass_bestCase (arr : List Int) (hs : arr.Sorted (fun x y => x ≤ y)) (size : Nat)
    (hsz : 1 ≤ size) (hdvd : 2 * size ∣ arr.length)
    (s x : SortState) (h : s.1 = arr ∧ s.2.comparisons ≤ x.2.comparisons) :
    ((List.range' 0 (strideCount arr.length (2 * size)) (2 * size)).foldl
        (mergePassStep arr.length size) s).1 = arr ∧
    ((List.range' 0 (strideCount arr.length (2 * size)) (2 * size)).foldl
        (mergePassStep arr.length size) s).2.comparisons
      ≤ ((List.range' 0 (strideCount arr.length (2 * size)) (2 * size)).foldl
        (mergePassStep arr.length size) x).2.comparisons := by
  apply foldl_rel (fun (s x : SortState) => s.1 = arr ∧ s.2.comparisons ≤ x.2.comparisons)
    _ _ s x _ h
  intro s x i hi ⟨p1, p2⟩
  rw [List.mem_range'] at hi
  obtain ⟨t, ht, hit⟩ := hi
  have hlt := strideCount_lt arr.length (2 * size) t (by omega) ht
  obtain ⟨c, hc⟩ := hdvd
  have hfull : i + 2 * size ≤ arr.length := by
    have h1 : t < c := by
      by_contra hcon
      have h3 : 2 * size * c ≤ 2 * size * t := Nat.mul_le_mul_left _ (by omega)
      omega
    have h2 : 2 * size * (t + 1) ≤ 2 * size * c := Nat.mul_le_mul_left _ h1
    rw [Nat.mul_succ] at h2
    omega
  unfold mergePassStep
  simp only
  have hr : min (i + 2 * size - 1) (arr.length - 1) = i + 2 * size - 1 := by omega
  rw [hr, if_pos (by omega), if_pos (by omega), p1]
  obtain ⟨q1, q2⟩ := merge_sorted arr i (i + size - 1) (i + 2 * size - 1) s.2 hs (by omega)
    (by omega) (by omega)
  have q3 := merge_cmp_ge x.1 i (i + size - 1) (i + 2 * size - 1) x.2
  have e1 : i + size - 1 + 1 - i = size := by omega
  have e2 : i + 2 * size - 1 - (i + size - 1) = size := by omega
  rw [e1] at q2 q3
  rw [e2, Nat.min_self] at q3
  exact ⟨q1, by omega⟩

theorem mergePasses_bestCase (arr : List Int) (hs : arr.Sorted (fun x y => x ≤ y)) :
    ∀ (fuel size k : Nat) (s x : SortState), 1 ≤ size → arr.length = size * 2 ^ k →
      s.1 = arr ∧ s.2.comparisons ≤ x.2.comparisons →
      (mergePasses arr.length fuel size s).1 = arr ∧
      (mergePasses arr.length fuel size s).2.comparisons
        ≤ (mergePasses arr.length fuel size x).2.comparisons := by
  intro fuel
  induction fuel with
  | zero => intro size k s x _ _ h; exact h
  | succ fuel ih =>
    intro size k s x hsz hk h
    unfold mergePasses
    by_cases hc : size < arr.length
    · rw [if_pos hc, if_pos hc]
      cases k with
      | zero => simp at hk; omega
      | succ k =>
        have hk2 : arr.length = 2 * size * 2 ^ k := by rw [hk, pow_succ]; ring
        exact ih (2 * size) k _ _ (by omega) hk2
          (mergePass_bestCase arr hs size hsz ⟨2 ^ k, hk2⟩ s x h)
    · rw [if_neg hc, if_neg hc]; exact h

theorem timSort_bestCase (s x : List Int) (k : Nat) (hs : s.Sorted (fun a b => a ≤ b))
    (hx : x.length = s.length) (hk : s.length = calcMinRun s.length * 2 ^ k) :
    (sort s).2.comparisons ≤ (sort x).2.comparisons := by
  unfold sort
  simp only
  rw [hx]
  by_cases hn : s.length ≤ 1
  · rw [if_pos hn, if_pos hn]
  · rw [if_neg hn, if_neg hn]
    have hm := calcMinRun_pos s.length (by omega)
    have h0 := runs_bestCase s hs (calcMinRun s.length) (s, SortStats.zero) (x, SortStats.zero)
      ⟨rfl, le_refl _⟩
    exact (mergePasses_bestCase s hs s.length (calcMinRun s.length) k _ _ hm hk h0).2

end TimSort

set_option maxRecDepth 1000000 in
/-- C18 (as stated, refuted): for `n = 33` the sorted vector `0, 1, ..., 32` costs `48`
comparisons, while the vector `100, ..., 116, 0, ..., 15` of the same length costs `47`: the
two runs have lengths `17` and `16`, and a merge in which the shorter right run is exhausted
first is cheaper than the merge of the sorted vector, which exhausts the longer left run. -/
theorem timSort_sorted_not_cheapest :
    ((List.range 33).map (fun i => (i : Int))).Sorted (fun a b => a ≤ b) ∧
    ((List.range 17).map (fun i => (i : Int) + 100) ++ (List.range 16).map (fun i => (i : Int))).length
      = ((List.range 33).map (fun i => (i : Int))).length ∧
    TimSort.calcMinRun 33 = 17 ∧
    (TimSort.sort ((List.range 33).map (fun i => (i : Int)))).2.comparisons = 48 ∧
    (TimSort.sort ((List.range 17).map (fun i => (i : Int) + 100)
      ++ (List.range 16).map (fun i => (i : Int)))).2.comparisons = 47 := by
  decide

/-- C18 (amended): best-case comparison count of Tim Sort when every run is full.  For every
`n` of the form `calcMinRun(n) * 2 ^ k` (every `n < 32`, and every `n` whose binary digits
below the leading five are zero, such as the powers of two), every non-decreasing input `s`
of length `n` and every other input `x` of length `n`, the comparisons returned by
`TimSort::sort` on `s` are at most the comparisons returned on `x`. -/
theorem timSort_best_case_full_runs (s x : List Int) (k : Nat)
    (hs : s.Sorted (fun a b => a ≤ b)) (hx : x.length = s.length)
    (hk : s.length = TimSort.calcMinRun s.length * 2 ^ k) :
    (TimSort.sort s).2.comparisons ≤ (TimSort.sort x).2.comparisons :=
  TimSort.timSort_bestCase s x k hs hx hk

set_option maxRecDepth 1000000 in
/-- Instance of the amended C18 for `n = 32 = 16 * 2`: the sorted vector `0, ..., 31`
against the vector `16, ..., 31, 0, ..., 15`. -/
theorem timSort_best_case_full_runs_witness :
    ((List.range 32).map (fun i => (i : Int))).Sorted (fun a b => a ≤ b) ∧
    ((List.range 32).map (fun i => (i : Int))).length
      = TimSort.calcMinRun ((List.range 32).map (fun i => (i : Int))).length * 2 ^ 1 ∧
    (TimSort.sort ((List.range 32).map (fun i => (i : Int)))).2.comparisons
      ≤ (TimSort.sort ((List.range 16).map (fun i => (i : Int) + 16)
          ++ (List.range 16).map (fun i => (i : Int)))).2.comparisons :=
  ⟨by decide, by decide,
   timSort_best_case_full_runs ((List.range 32).map (fun i => (i : Int)))
     ((List.range 16).map (fun i => (i : Int) + 16) ++ (List.range 16).map (fun i => (i : Int)))
     1 (by decide) (by decide) (by decide)⟩


/-! ## Stability of the Tim sort routine of the harness -/

/-- Loop rule for two runs of an ascending `for` loop with stride `step` that keep a relation
between their states. -/
theorem foldl_range'_step_sim {σ τ : Type} (R : Nat → σ → τ → Prop) (f : σ → Nat → σ)
    (g : τ → Nat → τ) (start step : Nat) :
    ∀ (n : Nat) (s0 : σ) (t0 : τ), R 0 s0 t0 →
      (∀ k s t, k < n → R k s t → R (k + 1) (f s (start + step * k)) (g t (start + step * k))) →
      R n ((List.range' start n step).foldl f s0) ((List.range' start n step).foldl g t0) := by
  intro n
  induction n with
  | zero => intro s0 t0 h0 _; simpa using h0
  | succ n ih =>
    intro s0 t0 h0 hstep
    rw [List.range'_concat, List.foldl_append, List.foldl_append]
    simp only [List.foldl_cons, List.foldl_nil]
    apply hstep n _ _ (Nat.lt_succ_self n)
    exact ih s0 t0 h0 (fun k s t hk hp => hstep k s t (Nat.lt_succ_of_lt hk) hp)

/-- Loop rule for two runs of `for (i = start; i < start + n; i++)`. -/
theorem foldl_range'_sim {σ τ : Type} (R : Nat → σ → τ → Prop) (f : σ → Nat → σ)
    (g : τ → Nat → τ) (start n : Nat) (s0 : σ) (t0 : τ) (h0 : R start s0 t0)
    (hstep : ∀ i s t, start ≤ i → i < start + n → R i s t → R (i + 1) (f s i) (g t i)) :
    R (start + n) ((List.range' start n).foldl f s0) ((List.range' start n).foldl g t0) := by
  have := foldl_range'_step_sim (fun k s t => R (start + k) s t) f g start 1 n s0 t0
    (by simpa using h0)
    (by
      intro k s t hk hp
      have := hstep (start + k) s t (by omega) (by omega) hp
      simpa [Nat.add_assoc] using this)
  simpa using this

namespace TimSortWrapper

theorem rdItem_of_lt (a : List StabilityTestItem) {i : Nat} (h : i < a.length) :
    rdItem a i = a[i] := by
  simp [rdItem, List.getD_eq_getElem, h]

theorem rdItem_of_ge (a : List StabilityTestItem) {i : Nat} (h : a.length ≤ i) :
    rdItem a i = blank := by
  simp [rdItem, List.getD_eq_getElem?_getD, List.getElem?_eq_none h]

theorem rdItem_set_eq (a : List StabilityTestItem) (i : Nat) (v : StabilityTestItem)
    (h : i < a.length) : rdItem (a.set i v) i = v := by
  simp [rdItem, List.getD_eq_getElem, h]

theorem rdItem_set_ne (a : List StabilityTestItem) (i j : Nat) (v : StabilityTestItem)
    (h : i ≠ j) : rdItem (a.set i v) j = rdItem a j := by
  simp [rdItem, List.getD_eq_getElem?_getD, List.getElem?_set_ne h]

theorem code_blank (N : Nat) : code N blank = 0 := by
  simp [code, blank]

theorem rd_map_code (N : Nat) (a : List StabilityTestItem) (i : Nat) :
    rd (a.map (code N)) i = code N (rdItem a i) := by
  by_cases h : i < a.length
  · rw [rd_of_lt _ (by simpa using h), rdItem_of_lt a h]
    simp
  · rw [rd_of_ge _ (by simpa using not_lt.1 h), rdItem_of_ge a (not_lt.1 h), code_blank]

theorem validItem_blank (N : Nat) (hN : 1 ≤ N) : ValidItem N blank := by
  refine ⟨by simp [blank], ?_⟩
  simp only [blank]
  exact_mod_cast hN

/-- A record with the smaller key has the smaller code. -/
theorem code_lt_of_key_lt (N : Nat) (x y : StabilityTestItem) (hx : ValidItem N x)
    (hy : ValidItem N y) (h : x.key < y.key) : code N x < code N y := by
  unfold code
  have h1 : (x.key + 1) * (N : Int) ≤ y.key * (N : Int) :=
    mul_le_mul_of_nonneg_right (by omega) (Int.natCast_nonneg _)
  have h2 : (x.key + 1) * (N : Int) = x.key * (N : Int) + (N : Int) := by ring
  have := hx.2
  have := hy.1
  omega

/-- The key comparison of the harness agrees with the comparison of codes when, for equal
keys, the first record is the one that stood earlier. -/
theorem key_gt_iff (N : Nat) (x y : StabilityTestItem) (hx : ValidItem N x)
    (hy : ValidItem N y) (h : x.key = y.key → x.originalPos ≤ y.originalPos) :
    x.key > y.key ↔ code N x > code N y := by
  constructor
  · intro hk
    exact code_lt_of_key_lt N y x hy hx hk
  · intro hc
    by_contra hk
    rcases lt_or_eq_of_le (not_lt.1 hk) with h1 | h1
    · have := code_lt_of_key_lt N x y hx hy h1
      omega
    · have := h h1
      unfold code at hc
      rw [h1] at hc
      omega

theorem key_le_iff (N : Nat) (x y : StabilityTestItem) (hx : ValidItem N x)
    (hy : ValidItem N y) (h : x.key = y.key → x.originalPos ≤ y.originalPos) :
    x.key ≤ y.key ↔ code N x ≤ code N y := by
  have := key_gt_iff N x y hx hy h
  constructor
  · intro h1
    by_contra h2
    exact absurd (this.2 (not_le.1 h2)) (not_lt.2 h1)
  · intro h1
    by_contra h2
    exact absurd (this.1 (not_le.1 h2)) (not_lt.2 h1)

/-- Records in code order are in key order, and in order of original position when the keys
are equal. -/
theorem lex_of_code_le (N : Nat) (x y : StabilityTestItem) (hx : ValidItem N x)
    (hy : ValidItem N y) (h : code N x ≤ code N y) :
    x.key ≤ y.key ∧ (x.key = y.key → x.originalPos ≤ y.originalPos) := by
  constructor
  · by_contra hk
    have := code_lt_of_key_lt N y x hy hx (not_le.1 hk)
    omega
  · intro hk
    unfold code at h
    rw [hk] at h
    omega

theorem eq_of_code_eq (N : Nat) (x y : StabilityTestItem) (hx : ValidItem N x)
    (hy : ValidItem N y) (h : code N x = code N y) : x = y := by
  have h1 := lex_of_code_le N x y hx hy (le_of_eq h)
  have h2 := lex_of_code_le N y x hy hx (le_of_eq h.symm)
  have hk : x.key = y.key := le_antisymm h1.1 h2.1
  have hp : x.originalPos = y.originalPos := le_antisymm (h1.2 hk) (h2.2 hk.symm)
  cases x; cases y; simp only at hk hp; subst hk; subst hp; rfl

theorem calcMinRunLoop_eq :
    ∀ (fuel n r : Nat), calcMinRunLoop fuel n r = TimSort.calcMinRunLoop fuel n r := by
  intro fuel
  induction fuel with
  | zero => intro n r; rfl
  | succ fuel ih =>
    intro n r
    unfold calcMinRunLoop TimSort.calcMinRunLoop
    rw [ih]
    rfl

theorem calcMinRun_eq (n : Nat) : calcMinRun n = TimSort.calcMinRun n := by
  unfold calcMinRun TimSort.calcMinRun
  rw [calcMinRunLoop_eq]

end TimSortWrapper

namespace TimSortWrapper

theorem valid_set (N : Nat) (a : List StabilityTestItem) (i : Nat) (v : StabilityTestItem)
    (ha : ∀ x, ValidItem N (rdItem a x)) (hv : ValidItem N v) :
    ∀ x, ValidItem N (rdItem (a.set i v) x) := by
  intro x
  by_cases e : i = x
  · subst e
    by_cases hi : i < a.length
    · rw [rdItem_set_eq a i v hi]; exact hv
    · have := ha i
      rw [rdItem_of_ge a (not_lt.1 hi)] at this
      rw [rdItem_of_ge _ (by simpa using not_lt.1 hi)]
      exact this
  · rw [rdItem_set_ne a i x v e]; exact ha x

/-- Effect of the shifting loop on the vector: the records of `items[p..k-1]` move one slot
to the right, where `p` is the returned index, and nothing else changes. -/
theorem shift_struct (left : Nat) (key : StabilityTestItem) :
    ∀ (k : Nat) (a : List StabilityTestItem), left ≤ k → k < a.length →
      left ≤ (insertionShift left key k a).1 ∧
      (insertionShift left key k a).1 ≤ k ∧
      (insertionShift left key k a).2.length = a.length ∧
      (∀ t, (t ≤ (insertionShift left key k a).1 ∨ k < t) →
        rdItem (insertionShift left key k a).2 t = rdItem a t) ∧
      (∀ t, (insertionShift left key k a).1 < t → t ≤ k →
        rdItem (insertionShift left key k a).2 t = rdItem a (t - 1)) := by
  intro k
  induction k with
  | zero =>
    intro a hb hk
    have hb0 : left = 0 := by omega
    subst hb0
    simp [insertionShift]
    intro t h1 h2
    omega
  | succ j ih =>
    intro a hb hk
    unfold insertionShift
    by_cases h1 : left ≤ j ∧ (rdItem a j).key > key.key
    · rw [if_pos h1]
      obtain ⟨i1, i2, i3, i4, i5⟩ := ih (a.set (j + 1) (rdItem a j)) h1.1 (by simp; omega)
      generalize insertionShift left key j (a.set (j + 1) (rdItem a j)) = r
        at i1 i2 i3 i4 i5
      refine ⟨i1, by omega, by simpa using i3, ?_, ?_⟩
      · intro t ht
        rw [i4 t (by omega), rdItem_set_ne]
        omega
      · intro t ht1 ht2
        by_cases h3 : t = j + 1
        · subst h3
          rw [i4 (j + 1) (by omega), rdItem_set_eq _ _ _ hk]
          rfl
        · have e1 := i5 t ht1 (by omega)
          rw [rdItem_set_ne _ _ _ _ (by omega)] at e1
          exact e1
    · rw [if_neg h1]
      refine ⟨by omega, le_refl _, rfl, fun _ _ => rfl, ?_⟩
      intro t ht1 ht2; omega

/-- The shifting loop over records does what the shifting loop of the engine does on the
codes, as long as every key comparison it makes agrees with the comparison of codes. -/
theorem shift_sim (N left : Nat) (key : StabilityTestItem) :
    ∀ (k : Nat) (a : List StabilityTestItem) (st : SortStats),
      (∀ t, left ≤ t → t < k →
        ((rdItem a t).key > key.key ↔ code N (rdItem a t) > code N key)) →
      (TimSort.insertionShift left (code N key) k (a.map (code N)) st).1
        = (insertionShift left key k a).1 ∧
      (TimSort.insertionShift left (code N key) k (a.map (code N)) st).2.1
        = (insertionShift left key k a).2.map (code N) := by
  intro k
  induction k with
  | zero => intro a st _; simp [insertionShift, TimSort.insertionShift]
  | succ j ih =>
    intro a st hag
    unfold insertionShift TimSort.insertionShift
    by_cases h1 : left ≤ j
    · rw [if_pos h1]
      have hj := hag j h1 (by omega)
      rw [rd_map_code]
      by_cases h2 : (rdItem a j).key > key.key
      · rw [if_pos (hj.1 h2), if_pos ⟨h1, h2⟩]
        have := ih (a.set (j + 1) (rdItem a j)) ((st.addCmp 1).addAsg 1) (by
          intro t ht1 ht2
          rw [rdItem_set_ne _ _ _ _ (by omega)]
          exact hag t ht1 (by omega))
        rw [List.map_set] at this
        exact this
      · rw [if_neg (fun h => h2 (hj.2 h)), if_neg (fun h => h2 h.2)]
        exact ⟨rfl, rfl⟩
    · rw [if_neg h1, if_neg (fun h => h1 h.1)]
      exact ⟨rfl, rfl⟩

/-- Insertion sort of a run of the input: the harness routine does on the records what the
engine does on their codes, and the records of the run stay in the run. -/
theorem insertionSort_sim (N : Nat) (a : List StabilityTestItem) (w e : Nat) (st : SortStats)
    (he : e < a.length) (hv : ∀ x, ValidItem N (rdItem a x))
    (hfresh : ∀ x, w ≤ x → x ≤ e → (rdItem a x).originalPos = (x : Int)) :
    (TimSort.insertionSort (a.map (code N)) w e st).1 = (insertionSort a w e).map (code N) ∧
    (insertionSort a w e).length = a.length ∧
    (∀ x, ValidItem N (rdItem (insertionSort a w e) x)) ∧
    (∀ x, w ≤ x → x ≤ e → (w : Int) ≤ (rdItem (insertionSort a w e) x).originalPos ∧
      (rdItem (insertionSort a w e) x).originalPos ≤ (e : Int)) ∧
    (∀ x, (x < w ∨ e < x) → rdItem (insertionSort a w e) x = rdItem a x) := by
  unfold insertionSort TimSort.insertionSort
  by_cases hwe : w ≤ e
  swap
  · have : e - w = 0 := by omega
    rw [this]
    exact ⟨rfl, rfl, hv, fun x h1 h2 => by omega, fun _ _ => rfl⟩
  have key := foldl_range'_sim
    (fun i (b : List StabilityTestItem) (s : SortState) =>
      s.1 = b.map (code N) ∧ b.length = a.length ∧ (∀ x, ValidItem N (rdItem b x)) ∧
      (∀ x, w ≤ x → x < i → (w : Int) ≤ (rdItem b x).originalPos ∧
        (rdItem b x).originalPos < (i : Int)) ∧
      (∀ x, (x < w ∨ i ≤ x) → rdItem b x = rdItem a x))
    (insertionStep w) (TimSort.insertionStep w) (w + 1) (e - w) a (a.map (code N), st)
    ⟨rfl, rfl, hv, by
      intro x h1 h2
      have : x = w := by omega
      subst this
      rw [hfresh x (le_refl _) hwe]
      constructor
      · exact le_refl _
      · push_cast; omega, fun _ _ => rfl⟩
    (by
      intro i b s h1 h2 ⟨p1, p2, p3, p4, p5⟩
      have hib : i < b.length := by omega
      have hkey : rdItem b i = rdItem a i := p5 i (Or.inr (le_refl _))
      have hpos : (rdItem b i).originalPos = (i : Int) := by
        rw [hkey]; exact hfresh i (by omega) (by omega)
      obtain ⟨s1, s2, s3, s4, s5⟩ := shift_struct w (rdItem b i) i b (by omega) hib
      obtain ⟨m1, m2⟩ := shift_sim N w (rdItem b i) i b (s.2.addAsg 1) (by
        intro t ht1 ht2
        apply key_gt_iff N _ _ (p3 t) (p3 i)
        intro _
        have := (p4 t ht1 ht2).2
        omega)
      unfold insertionStep TimSort.insertionStep
      simp only
      rw [p1, rd_map_code, m1, m2, ← List.map_set]
      generalize insertionShift w (rdItem b i) i b = r at s1 s2 s3 s4 s5
      have hval := valid_set N r.2 r.1 (rdItem b i) (by
        intro x
        by_cases c1 : x ≤ r.1 ∨ i < x
        · rw [s4 x c1]; exact p3 x
        · rw [s5 x (by omega) (by omega)]; exact p3 _) (p3 i)
      refine ⟨rfl, by simpa using s3.trans p2, hval, ?_, ?_⟩
      · intro x hx1 hx2
        by_cases c0 : x = r.1
        · subst c0
          rw [rdItem_set_eq _ _ _ (by omega), hpos]
          constructor
          · exact_mod_cast (show w ≤ i by omega)
          · push_cast; omega
        · rw [rdItem_set_ne _ _ _ _ (fun h => c0 h.symm)]
          by_cases c1 : x < r.1
          · rw [s4 x (Or.inl (by omega))]
            have := p4 x hx1 (by omega)
            constructor
            · exact this.1
            · push_cast; omega
          · rw [s5 x (by omega) (by omega)]
            have := p4 (x - 1) (by omega) (by omega)
            constructor
            · exact this.1
            · push_cast; omega
      · intro x hx
        rw [rdItem_set_ne _ _ _ _ (by omega), s4 x (by omega)]
        exact p5 x (by omega))
  simp only at key
  obtain ⟨k1, k2, k3, k4, k5⟩ := key
  refine ⟨k1, k2, k3, ?_, ?_⟩
  · intro x hx1 hx2
    have := k4 x hx1 (by omega)
    constructor
    · exact this.1
    · have h3 := this.2
      have e1 : w + 1 + (e - w) = e + 1 := by omega
      rw [e1] at h3
      push_cast at h3
      omega
  · intro x hx
    exact k5 x (by omega)

end TimSortWrapper

namespace TimSortWrapper

theorem inv_set (Q : Nat → StabilityTestItem → Prop) (b : List StabilityTestItem) (k : Nat)
    (v : StabilityTestItem) (hb : ∀ x, Q x (rdItem b x)) (hv : k < b.length → Q k v) :
    ∀ x, Q x (rdItem (b.set k v) x) := by
  intro x
  by_cases e : k = x
  · subst e
    by_cases hk : k < b.length
    · rw [rdItem_set_eq b k v hk]; exact hv hk
    · have := hb k
      rw [rdItem_of_ge b (not_lt.1 hk)] at this
      rw [rdItem_of_ge _ (by simpa using not_lt.1 hk)]
      exact this
  · rw [rdItem_set_ne b k x v e]; exact hb x

theorem copyRun_struct (a : List StabilityTestItem) (off len : Nat) :
    (copyRun a off len).length = len ∧
    ∀ t, t < len → rdItem (copyRun a off len) t = rdItem a (off + t) := by
  unfold copyRun
  have key := foldl_range'_inv
    (fun i (tmp : List StabilityTestItem) =>
      tmp.length = len ∧ ∀ t, t < i → rdItem tmp t = rdItem a (off + t))
    (fun tmp i => tmp.set i (rdItem a (off + i))) 0 len (List.replicate len blank)
    ⟨by simp, fun t ht => by omega⟩
    (by
      intro i tmp h1 h2 ⟨p1, p2⟩
      refine ⟨by simpa using p1, ?_⟩
      intro t ht
      by_cases e1 : t = i
      · subst e1; rw [rdItem_set_eq _ _ _ (by omega)]
      · rw [rdItem_set_ne _ _ _ _ (fun h => e1 h.symm)]
        exact p2 t (by omega))
  simpa using key

theorem copyRun_sim (N : Nat) (a : List StabilityTestItem) (off len : Nat) :
    TimSort.copyRun (a.map (code N)) off len = (copyRun a off len).map (code N) := by
  unfold copyRun TimSort.copyRun
  have key := foldl_range'_sim
    (fun _ (b : List StabilityTestItem) (c : List Int) => c = b.map (code N))
    (fun tmp i => tmp.set i (rdItem a (off + i)))
    (fun tmp i => tmp.set i (rd (a.map (code N)) (off + i))) 0 len
    (List.replicate len blank) (List.replicate len 0)
    (by simp [code_blank])
    (by
      intro i b c _ _ hp
      rw [hp]
      dsimp only
      rw [rd_map_code, List.map_set])
  exact key

theorem drain_sim (N : Nat) (src : List StabilityTestItem) (i k : Nat)
    (b : List StabilityTestItem) (st : SortStats) :
    (TimSort.drain (src.map (code N)) i k (b.map (code N)) st).1
      = (drain src i k b).map (code N) := by
  unfold drain TimSort.drain
  rw [List.length_map]
  have key := foldl_range'_sim
    (fun _ (b : List StabilityTestItem) (s : SortState) => s.1 = b.map (code N))
    (fun s t => s.set (k + t) (rdItem src (i + t)))
    (fun (s : SortState) t => (s.1.set (k + t) (rd (src.map (code N)) (i + t)), s.2.addAsg 1))
    0 (src.length - i) b (b.map (code N), st) rfl
    (by
      intro t b s _ _ hp
      simp only
      rw [hp, rd_map_code, List.map_set])
  exact key

theorem drain_inv (Q : Nat → StabilityTestItem → Prop) (src : List StabilityTestItem)
    (i k : Nat) (b : List StabilityTestItem)
    (hw : ∀ t, i + t < src.length → k + t < b.length → Q (k + t) (rdItem src (i + t)))
    (hb : ∀ x, Q x (rdItem b x)) :
    (drain src i k b).length = b.length ∧ ∀ x, Q x (rdItem (drain src i k b) x) := by
  unfold drain
  have key := foldl_range'_inv
    (fun _ (s : List StabilityTestItem) => s.length = b.length ∧ ∀ x, Q x (rdItem s x))
    (fun s t => s.set (k + t) (rdItem src (i + t))) 0 (src.length - i) b ⟨rfl, hb⟩
    (by
      intro t s _ h2 ⟨p1, p2⟩
      refine ⟨by simpa using p1, ?_⟩
      apply inv_set Q _ _ _ p2
      intro hk
      exact hw t (by omega) (by omega))
  exact key

theorem mergeLoop_sim (N : Nat) (L R : List StabilityTestItem)
    (hag : ∀ i j, i < L.length → j < R.length →
      ((rdItem L i).key ≤ (rdItem R j).key ↔ code N (rdItem L i) ≤ code N (rdItem R j))) :
    ∀ (fuel i j k : Nat) (b : List StabilityTestItem) (st : SortStats),
      (TimSort.mergeLoop (L.map (code N)) (R.map (code N)) fuel i j k (b.map (code N)) st).1
        = (mergeLoop L R fuel i j k b).1 ∧
      (TimSort.mergeLoop (L.map (code N)) (R.map (code N)) fuel i j k (b.map (code N)) st).2.1
        = (mergeLoop L R fuel i j k b).2.1 ∧
      (TimSort.mergeLoop (L.map (code N)) (R.map (code N)) fuel i j k (b.map (code N)) st).2.2.1
        = (mergeLoop L R fuel i j k b).2.2.1 ∧
      (TimSort.mergeLoop (L.map (code N)) (R.map (code N)) fuel i j k (b.map (code N)) st).2.2.2.1
        = (mergeLoop L R fuel i j k b).2.2.2.map (code N) := by
  intro fuel
  induction fuel with
  | zero => intro i j k b st; exact ⟨rfl, rfl, rfl, rfl⟩
  | succ fuel ih =>
    intro i j k b st
    unfold mergeLoop TimSort.mergeLoop
    rw [List.length_map, List.length_map]
    by_cases hc : i < L.length ∧ j < R.length
    · rw [if_pos hc, if_pos hc, rd_map_code, rd_map_code]
      have := hag i j hc.1 hc.2
      by_cases h2 : (rdItem L i).key ≤ (rdItem R j).key
      · rw [if_pos h2, if_pos (this.1 h2), ← List.map_set]
        exact ih _ _ _ _ _
      · rw [if_neg h2, if_neg (fun h => h2 (this.2 h)), ← List.map_set]
        exact ih _ _ _ _ _
    · rw [if_neg hc, if_neg hc]
      exact ⟨rfl, rfl, rfl, rfl⟩

theorem mergeLoop_inv (Q : Nat → StabilityTestItem → Prop) (L R : List StabilityTestItem)
    (l : Nat)
    (hL : ∀ i x, i < L.length → l ≤ x → x < l + L.length + R.length → Q x (rdItem L i))
    (hR : ∀ j x, j < R.length → l ≤ x → x < l + L.length + R.length → Q x (rdItem R j)) :
    ∀ (fuel i j k : Nat) (b : List StabilityTestItem), k = l + i + j → i ≤ L.length →
      j ≤ R.length → (∀ x, Q x (rdItem b x)) →
      (mergeLoop L R fuel i j k b).2.2.1
        = l + (mergeLoop L R fuel i j k b).1 + (mergeLoop L R fuel i j k b).2.1 ∧
      (mergeLoop L R fuel i j k b).1 ≤ L.length ∧
      (mergeLoop L R fuel i j k b).2.1 ≤ R.length ∧
      (mergeLoop L R fuel i j k b).2.2.2.length = b.length ∧
      ∀ x, Q x (rdItem (mergeLoop L R fuel i j k b).2.2.2 x) := by
  intro fuel
  induction fuel with
  | zero => intro i j k b hk hi hj hb; exact ⟨hk, hi, hj, rfl, hb⟩
  | succ fuel ih =>
    intro i j k b hk hi hj hb
    unfold mergeLoop
    by_cases hc : i < L.length ∧ j < R.length
    · rw [if_pos hc]
      by_cases h2 : (rdItem L i).key ≤ (rdItem R j).key
      · rw [if_pos h2]
        obtain ⟨q1, q2, q3, q4, q5⟩ := ih (i + 1) j (k + 1) (b.set k (rdItem L i)) (by omega)
          (by omega) hj (inv_set Q b k _ hb (fun _ => hL i k hc.1 (by omega) (by omega)))
        exact ⟨q1, q2, q3, by simpa using q4, q5⟩
      · rw [if_neg h2]
        obtain ⟨q1, q2, q3, q4, q5⟩ := ih i (j + 1) (k + 1) (b.set k (rdItem R j)) (by omega)
          hi (by omega) (inv_set Q b k _ hb (fun _ => hR j k hc.2 (by omega) (by omega)))
        exact ⟨q1, q2, q3, by simpa using q4, q5⟩
    · rw [if_neg hc]
      exact ⟨hk, hi, hj, rfl, hb⟩

/-- The merge writes only into `items[l..r]`, and only records that it read there: a
condition on the slots that every record of the range meets at every slot of the range
still holds after the merge. -/
theorem merge_inv (Q : Nat → StabilityTestItem → Prop) (a : List StabilityTestItem)
    (l m r : Nat) (hlm : l ≤ m) (hmr : m < r)
    (hQ : ∀ x y, l ≤ x → x ≤ r → l ≤ y → y ≤ r → Q x (rdItem a y))
    (ha : ∀ x, Q x (rdItem a x)) :
    (merge a l m r).length = a.length ∧ ∀ x, Q x (rdItem (merge a l m r) x) := by
  unfold merge
  simp only
  obtain ⟨c1, c2⟩ := copyRun_struct a l (m + 1 - l)
  obtain ⟨c3, c4⟩ := copyRun_struct a (m + 1) (r - m)
  generalize copyRun a l (m + 1 - l) = L at c1 c2
  generalize copyRun a (m + 1) (r - m) = R at c3 c4
  have hL : ∀ i x, i < L.length → l ≤ x → x < l + L.length + R.length → Q x (rdItem L i) := by
    intro i x hi hx1 hx2
    rw [c2 i (by omega)]
    exact hQ x (l + i) hx1 (by omega) (by omega) (by omega)
  have hR : ∀ j x, j < R.length → l ≤ x → x < l + L.length + R.length → Q x (rdItem R j) := by
    intro j x hj hx1 hx2
    rw [c4 j (by omega)]
    exact hQ x (m + 1 + j) hx1 (by omega) (by omega) (by omega)
  obtain ⟨q1, q2, q3, q4, q5⟩ := mergeLoop_inv Q L R l hL hR (m + 1 - l + (r - m)) 0 0 l a rfl
    (Nat.zero_le _) (Nat.zero_le _) ha
  generalize mergeLoop L R (m + 1 - l + (r - m)) 0 0 l a = s at q1 q2 q3 q4 q5
  obtain ⟨d1, d2⟩ := drain_inv Q L s.1 s.2.2.1 s.2.2.2 (by
    intro t ht _
    exact hL _ _ ht (by omega) (by omega)) q5
  obtain ⟨d3, d4⟩ := drain_inv Q R s.2.1 (s.2.2.1 + (L.length - s.1)) (drain L s.1 s.2.2.1 s.2.2.2)
    (by
      intro t ht _
      exact hR _ _ ht (by omega) (by omega)) d2
  exact ⟨by omega, d4⟩

/-- The merge over records does what the merge of the engine does on the codes, as long as
a record of the left run and a record of the right run with the same key stand in the order
of their original positions. -/
theorem merge_sim (N : Nat) (a : List StabilityTestItem) (l m r : Nat) (st : SortStats)
    (hv : ∀ x, ValidItem N (rdItem a x))
    (hag : ∀ i j, l ≤ i → i ≤ m → m < j → j ≤ r →
      (rdItem a i).key = (rdItem a j).key → (rdItem a i).originalPos ≤ (rdItem a j).originalPos) :
    (TimSort.merge (a.map (code N)) l m r st).1 = (merge a l m r).map (code N) := by
  unfold merge TimSort.merge
  simp only
  rw [copyRun_sim, copyRun_sim]
  obtain ⟨c1, c2⟩ := copyRun_struct a l (m + 1 - l)
  obtain ⟨c3, c4⟩ := copyRun_struct a (m + 1) (r - m)
  generalize copyRun a l (m + 1 - l) = L at c1 c2
  generalize copyRun a (m + 1) (r - m) = R at c3 c4
  obtain ⟨q1, q2, q3, q4⟩ := mergeLoop_sim N L R (by
    intro i j hi hj
    rw [c2 i (by omega), c4 j (by omega)]
    exact key_le_iff N _ _ (hv _) (hv _) (hag _ _ (by omega) (by omega) (by omega) (by omega)))
    (m + 1 - l + (r - m)) 0 0 l a
    (((st.addMem ((m + 1 - l + (r - m)) * sizeofInt)).addAsg ((m + 1 - l : Nat) : Int)).addAsg
      ((r - m : Nat) : Int))
  rw [q1, q2, q3, q4, List.length_map, drain_sim, drain_sim]

end TimSortWrapper

namespace TimSortWrapper

/-- First phase of `timSortWrapper`: the harness does on the records what the engine does on
the codes, and every record stays in its block of `minRun` slots. -/
theorem runs_sim (items : List StabilityTestItem) (minRun : Nat) (hm : 1 ≤ minRun)
    (hv : ∀ x, ValidItem items.length (rdItem items x))
    (hpos : ∀ x, x < items.length → (rdItem items x).originalPos = (x : Int)) :
    ((List.range' 0 (TimSort.strideCount items.length minRun) minRun).foldl
      (fun (s : SortState) i =>
        TimSort.insertionSort s.1 i (min (i + minRun - 1) (items.length - 1)) s.2)
      (items.map (code items.length), SortStats.zero)).1
      = ((List.range' 0 (TimSort.strideCount items.length minRun) minRun).foldl
          (fun s i => insertionSort s i (min (i + minRun - 1) (items.length - 1)))
          items).map (code items.length) ∧
    ((List.range' 0 (TimSort.strideCount items.length minRun) minRun).foldl
      (fun s i => insertionSort s i (min (i + minRun - 1) (items.length - 1)))
      items).length = items.length ∧
    (∀ x, ValidItem items.length (rdItem
      ((List.range' 0 (TimSort.strideCount items.length minRun) minRun).foldl
        (fun s i => insertionSort s i (min (i + minRun - 1) (items.length - 1))) items) x)) ∧
    RunsLocal ((List.range' 0 (TimSort.strideCount items.length minRun) minRun).foldl
      (fun s i => insertionSort s i (min (i + minRun - 1) (items.length - 1))) items)
      minRun := by
  have key := foldl_range'_step_sim
    (fun t (b : List StabilityTestItem) (s : SortState) =>
      s.1 = b.map (code items.length) ∧ b.length = items.length ∧
      (∀ x, ValidItem items.length (rdItem b x)) ∧
      (∀ c x, c < t → c * minRun ≤ x → x < c * minRun + minRun → x < items.length →
        ((c * minRun : Nat) : Int) ≤ (rdItem b x).originalPos ∧
        (rdItem b x).originalPos < ((c * minRun + minRun : Nat) : Int)) ∧
      (∀ x, minRun * t ≤ x → x < items.length → (rdItem b x).originalPos = (x : Int)))
    (fun s i => insertionSort s i (min (i + minRun - 1) (items.length - 1)))
    (fun (s : SortState) i =>
        TimSort.insertionSort s.1 i (min (i + minRun - 1) (items.length - 1)) s.2)
    0 minRun (TimSort.strideCount items.length minRun) items
    (items.map (code items.length), SortStats.zero)
    ⟨rfl, rfl, hv, fun c x hc => by omega, fun x _ hx => hpos x hx⟩
    (by
      intro t b s ht ⟨p1, p2, p3, p4, p5⟩
      have hlt := TimSort.strideCount_lt items.length minRun t hm ht
      dsimp only
      rw [p1]
      generalize hw : 0 + minRun * t = w
      have hw' : minRun * t = w := by omega
      rw [hw'] at hlt p5
      obtain ⟨q1, q2, q3, q4, q5⟩ := insertionSort_sim items.length b w
        (min (w + minRun - 1) (items.length - 1)) s.2 (by omega) p3
        (fun x hx1 hx2 => p5 x hx1 (by omega))
      refine ⟨q1, q2.trans p2, q3, ?_, ?_⟩
      · intro c x hc hx1 hx2 hx3
        by_cases e1 : c = t
        · subst e1
          have e2 : c * minRun = w := by rw [← hw']; ring
          rw [e2] at hx1 hx2 ⊢
          have := q4 x hx1 (by omega)
          constructor
          · exact this.1
          · have h3 := this.2
            have h4 : ((min (w + minRun - 1) (items.length - 1) : Nat) : Int)
                < ((w + minRun : Nat) : Int) := by
              have : min (w + minRun - 1) (items.length - 1) < w + minRun := by omega
              exact_mod_cast this
            omega
        · have h3 : c * minRun + minRun ≤ w := by
            have : (c + 1) * minRun ≤ t * minRun := Nat.mul_le_mul_right _ (by omega)
            have e3 : (c + 1) * minRun = c * minRun + minRun := by ring
            have e4 : t * minRun = minRun * t := by ring
            omega
          rw [q5 x (Or.inl (by omega))]
          exact p4 c x (by omega) hx1 hx2 hx3
      · intro x hx1 hx2
        have e5 : minRun * (t + 1) = w + minRun := by rw [← hw']; ring
        rw [e5] at hx1
        rw [q5 x (Or.inr (by omega))]
        exact p5 x (by omega) hx2)
  obtain ⟨k1, k2, k3, k4, _⟩ := key
  refine ⟨k1, k2, k3, ?_⟩
  intro c x hx1 hx2 hx3
  rw [k2] at hx3
  by_cases hc : c < TimSort.strideCount items.length minRun
  · exact k4 c x hc hx1 hx2 hx3
  · have := TimSort.strideCount_ge items.length minRun c hm (by omega)
    omega

/-- One pass of merges: the harness does on the records what the engine does on the codes,
and every record stays in its block of `2 * size` slots. -/
theorem mergePass_sim (N n size : Nat) (hs : 1 ≤ size) (b : List StabilityTestItem)
    (s : SortState) (h1 : s.1 = b.map (code N)) (h2 : b.length = n)
    (h3 : ∀ x, ValidItem N (rdItem b x)) (h4 : RunsLocal b size) :
    ((List.range' 0 (TimSort.strideCount n (2 * size)) (2 * size)).foldl
      (TimSort.mergePassStep n size) s).1
      = ((List.range' 0 (TimSort.strideCount n (2 * size)) (2 * size)).foldl
          (mergePassStep n size) b).map (code N) ∧
    ((List.range' 0 (TimSort.strideCount n (2 * size)) (2 * size)).foldl
      (mergePassStep n size) b).length = n ∧
    (∀ x, ValidItem N (rdItem ((List.range' 0 (TimSort.strideCount n (2 * size))
      (2 * size)).foldl (mergePassStep n size) b) x)) ∧
    RunsLocal ((List.range' 0 (TimSort.strideCount n (2 * size)) (2 * size)).foldl
      (mergePassStep n size) b) (2 * size) := by
  have key := foldl_range'_step_sim
    (fun t (q : List StabilityTestItem) (u : SortState) =>
      u.1 = q.map (code N) ∧ q.length = n ∧ (∀ x, ValidItem N (rdItem q x)) ∧
      (∀ c x, c < t → c * (2 * size) ≤ x → x < c * (2 * size) + 2 * size → x < n →
        ((c * (2 * size) : Nat) : Int) ≤ (rdItem q x).originalPos ∧
        (rdItem q x).originalPos < ((c * (2 * size) + 2 * size : Nat) : Int)) ∧
      (∀ c x, 2 * t ≤ c → c * size ≤ x → x < c * size + size → x < n →
        ((c * size : Nat) : Int) ≤ (rdItem q x).originalPos ∧
        (rdItem q x).originalPos < ((c * size + size : Nat) : Int)))
    (mergePassStep n size) (TimSort.mergePassStep n size) 0 (2 * size)
    (TimSort.strideCount n (2 * size)) b s
    ⟨h1, h2, h3, fun c x hc => by omega, fun c x _ hx1 hx2 hx3 => h4 c x hx1 hx2 (by omega)⟩
    (by
      intro t q u ht ⟨p1, p2, p3, p4, p5⟩
      have hlt := TimSort.strideCount_lt n (2 * size) t (by omega) ht
      have eA : (2 * t) * size = 2 * size * t := by ring
      have eB : (2 * t + 1) * size = 2 * size * t + size := by ring
      have hA := fun x => p5 (2 * t) x (le_refl _)
      have hB := fun x => p5 (2 * t + 1) x (by omega)
      rw [eA] at hA
      rw [eB] at hB
      have hprev : ∀ c, c < t → c * (2 * size) + 2 * size ≤ 2 * size * t := by
        intro c hc
        have : (c + 1) * (2 * size) ≤ t * (2 * size) := Nat.mul_le_mul_right _ (by omega)
        have e3 : (c + 1) * (2 * size) = c * (2 * size) + 2 * size := by ring
        have e4 : t * (2 * size) = 2 * size * t := by ring
        omega
      have hnext : ∀ c, 2 * (t + 1) ≤ c → 2 * size * t + 2 * size ≤ c * size := by
        intro c hc
        have : (2 * (t + 1)) * size ≤ c * size := Nat.mul_le_mul_right _ hc
        have e3 : (2 * (t + 1)) * size = 2 * size * t + 2 * size := by ring
        omega
      have hcur : t * (2 * size) = 2 * size * t := by ring
      unfold mergePassStep TimSort.mergePassStep
      dsimp only
      generalize hw : 2 * size * t = w at hlt hA hB hprev hnext hcur ⊢
      simp only [Nat.zero_add]
      -- positions of the two runs
      have hLeft : ∀ x, w ≤ x → x < w + size → x < n →
          (w : Int) ≤ (rdItem q x).originalPos ∧
          (rdItem q x).originalPos < ((w + size : Nat) : Int) := by
        intro x a1 a2 a3
        exact hA x a1 a2 a3
      have hRight : ∀ x, w + size ≤ x → x < w + 2 * size → x < n →
          ((w + size : Nat) : Int) ≤ (rdItem q x).originalPos ∧
          (rdItem q x).originalPos < ((w + 2 * size : Nat) : Int) := by
        intro x a1 a2 a3
        have := hB x a1 (by omega) a3
        have e : w + size + size = w + 2 * size := by omega
        rw [e] at this
        exact this
      have hBoth : ∀ x, w ≤ x → x < w + 2 * size → x < n →
          (w : Int) ≤ (rdItem q x).originalPos ∧
          (rdItem q x).originalPos < ((w + 2 * size : Nat) : Int) := by
        intro x a1 a2 a3
        by_cases c1 : x < w + size
        · have := hLeft x a1 c1 a3
          push_cast at this ⊢
          omega
        · have := hRight x (by omega) a2 a3
          push_cast at this ⊢
          omega
      by_cases hc : w + size - 1 < min (w + 2 * size - 1) (n - 1)
      · rw [if_pos hc, if_pos hc, p1]
        have hsim := merge_sim N q w (w + size - 1) (min (w + 2 * size - 1) (n - 1)) u.2 p3
          (by
            intro i j a1 a2 a3 a4 _
            have := hLeft i a1 (by omega) (by omega)
            have := hRight j (by omega) (by omega) (by omega)
            omega)
        obtain ⟨g1, g2⟩ := merge_inv
          (fun x v => ValidItem N v ∧
            ((w ≤ x ∧ x ≤ min (w + 2 * size - 1) (n - 1)) →
              (w : Int) ≤ v.originalPos ∧ v.originalPos < ((w + 2 * size : Nat) : Int)) ∧
            (¬ (w ≤ x ∧ x ≤ min (w + 2 * size - 1) (n - 1)) → v = rdItem q x))
          q w (w + size - 1) (min (w + 2 * size - 1) (n - 1)) (by omega) hc
          (by
            intro x y a1 a2 a3 a4
            exact ⟨p3 y, fun _ => hBoth y a3 (by omega) (by omega), fun h => absurd ⟨a1, a2⟩ h⟩)
          (by
            intro x
            exact ⟨p3 x, fun h => hBoth x h.1 (by omega) (by omega), fun _ => rfl⟩)
        refine ⟨hsim, g1.trans p2, fun x => (g2 x).1, ?_, ?_⟩
        · intro c x hc2 hx1 hx2 hx3
          by_cases e1 : c = t
          · subst e1
            rw [hcur] at hx1 hx2 ⊢
            exact (g2 x).2.1 ⟨hx1, by omega⟩
          · have := hprev c (by omega)
            rw [(g2 x).2.2 (by omega)]
            exact p4 c x (by omega) hx1 hx2 hx3
        · intro c x hc2 hx1 hx2 hx3
          have := hnext c hc2
          rw [(g2 x).2.2 (by omega)]
          exact p5 c x (by omega) hx1 hx2 hx3
      · rw [if_neg hc, if_neg hc]
        refine ⟨p1, p2, p3, ?_, fun c x hc2 => p5 c x (by omega)⟩
        intro c x hc2 hx1 hx2 hx3
        by_cases e1 : c = t
        · subst e1
          rw [hcur] at hx1 hx2 ⊢
          exact hBoth x hx1 hx2 hx3
        · exact p4 c x (by omega) hx1 hx2 hx3)
  obtain ⟨k1, k2, k3, k4, _⟩ := key
  refine ⟨k1, k2, k3, ?_⟩
  intro c x hx1 hx2 hx3
  rw [k2] at hx3
  by_cases hc : c < TimSort.strideCount n (2 * size)
  · exact k4 c x hc hx1 hx2 hx3
  · have := TimSort.strideCount_ge n (2 * size) c (by omega) (by omega)
    omega

theorem mergePasses_sim (N n : Nat) :
    ∀ (fuel size : Nat) (b : List StabilityTestItem) (s : SortState), 1 ≤ size →
      s.1 = b.map (code N) → b.length = n → (∀ x, ValidItem N (rdItem b x)) →
      RunsLocal b size →
      (TimSort.mergePasses n fuel size s).1 = (mergePasses n fuel size b).map (code N) ∧
      (mergePasses n fuel size b).length = n ∧
      (∀ x, ValidItem N (rdItem (mergePasses n fuel size b) x)) := by
  intro fuel
  induction fuel with
  | zero => intro size b s _ h1 h2 h3 _; exact ⟨h1, h2, h3⟩
  | succ fuel ih =>
    intro size b s hs h1 h2 h3 h4
    unfold mergePasses TimSort.mergePasses
    by_cases hc : size < n
    · rw [if_pos hc, if_pos hc]
      obtain ⟨q1, q2, q3, q4⟩ := mergePass_sim N n size hs b s h1 h2 h3 h4
      exact ih (2 * size) _ _ (by omega) q1 q2 q3 q4
    · rw [if_neg hc, if_neg hc]
      exact ⟨h1, h2, h3⟩

/-- Once `size + fuel` reaches `n`, one more unit of fuel does not change the merge passes of
the harness routine. -/
theorem wrapperPasses_stable (n : Nat) :
    ∀ (fuel size : Nat) (s : List StabilityTestItem), 1 ≤ size → n ≤ size + fuel →
      mergePasses n (fuel + 1) size s = mergePasses n fuel size s := by
  intro fuel
  induction fuel with
  | zero =>
    intro size s hs hf
    have hc : ¬ size < n := by omega
    simp [mergePasses, hc]
  | succ fuel ih =>
    intro size s hs hf
    rw [mergePasses]
    conv => rhs; rw [mergePasses]
    split
    · apply ih <;> omega
    · rfl

end TimSortWrapper

namespace TimSortWrapper

theorem valid_of_mem (N : Nat) (a : List StabilityTestItem)
    (h : ∀ x, ValidItem N (rdItem a x)) : ∀ r, r ∈ a → ValidItem N r := by
  intro r hr
  obtain ⟨i, hi, rfl⟩ := List.getElem_of_mem hr
  have := h i
  rwa [rdItem_of_lt a hi] at this

/-- A record of original position below `N` is recovered from its code. -/
theorem decode_code (N : Nat) (r : StabilityTestItem) (h : ValidItem N r) :
    (⟨code N r / (N : Int), code N r % (N : Int)⟩ : StabilityTestItem) = r := by
  have hN : (N : Int) ≠ 0 := by
    have := h.1
    have := h.2
    omega
  have h1 : code N r / (N : Int) = r.key := by
    unfold code
    rw [add_comm, Int.add_mul_ediv_right _ _ hN, Int.ediv_eq_zero_of_lt h.1 h.2]
    simp
  have h2 : code N r % (N : Int) = r.originalPos := by
    unfold code
    rw [add_comm, Int.add_mul_emod_self, Int.emod_eq_of_lt h.1 h.2]
  rw [h1, h2]

theorem perm_of_codes_perm (N : Nat) (a b : List StabilityTestItem)
    (ha : ∀ x, ValidItem N (rdItem a x)) (hb : ∀ x, ValidItem N (rdItem b x))
    (h : (a.map (code N)).Perm (b.map (code N))) : a.Perm b := by
  have key : ∀ l : List StabilityTestItem, (∀ x, ValidItem N (rdItem l x)) →
      (l.map (code N)).map
        (fun c : Int => (⟨c / (N : Int), c % (N : Int)⟩ : StabilityTestItem)) = l := by
    intro l hl
    rw [List.map_map]
    conv => rhs; rw [← List.map_id l]
    apply List.map_congr_left
    intro r hr
    exact decode_code N r (valid_of_mem N l hl r hr)
  have := h.map (fun c : Int => (⟨c / (N : Int), c % (N : Int)⟩ : StabilityTestItem))
  rwa [key a ha, key b hb] at this

/-- The harness routine does on the records what the merges and insertion sorts of the
engine do on the codes `key * n + originalPos`; the codes it returns are therefore in order
and a rearrangement of the codes of the input. -/
theorem wrapper_sim (items : List StabilityTestItem) (hn : 1 ≤ items.length)
    (hpos : ∀ i, i < items.length → (rdItem items i).originalPos = (i : Int)) :
    ((timSortWrapper items).map (code items.length)).Perm (items.map (code items.length)) ∧
    SortedOn ((timSortWrapper items).map (code items.length)) 0 (items.length - 1) ∧
    (timSortWrapper items).length = items.length ∧
    (∀ x, ValidItem items.length (rdItem (timSortWrapper items) x)) ∧
    (∀ x, ValidItem items.length (rdItem items x)) := by
  have hv : ∀ x, ValidItem items.length (rdItem items x) := by
    intro x
    by_cases hx : x < items.length
    · refine ⟨?_, ?_⟩
      · rw [hpos x hx]; exact Int.natCast_nonneg _
      · rw [hpos x hx]; exact_mod_cast hx
    · rw [rdItem_of_ge items (not_lt.1 hx)]
      exact validItem_blank _ hn
  unfold timSortWrapper
  dsimp only
  rw [calcMinRun_eq]
  have hm := TimSort.calcMinRun_pos items.length hn
  obtain ⟨r1, r2, r3, r4⟩ := runs_sim items (TimSort.calcMinRun items.length) hm hv hpos
  have hl : (items.map (code items.length)).length = items.length := List.length_map _ _
  have hspec := TimSort.runs_spec (items.map (code items.length))
    (TimSort.calcMinRun items.length) hm (by rw [hl]; exact hn)
  rw [hl] at hspec
  obtain ⟨s1, s2⟩ := hspec
  obtain ⟨m1, m2, m3⟩ := mergePasses_sim items.length items.length items.length
    (TimSort.calcMinRun items.length) _ _ hm r1 r2 r3 r4
  have hpass := TimSort.mergePasses_spec (items.map (code items.length)) (by rw [hl]; exact hn)
    items.length (TimSort.calcMinRun items.length) _ hm (by rw [hl]; omega) s1 s2
  rw [hl, m1] at hpass
  exact ⟨hpass.1, hpass.2, m2, m3, hv⟩

theorem wrapper_stable (items : List StabilityTestItem)
    (hpos : ∀ i, i < items.length → (rdItem items i).originalPos = (i : Int)) :
    (timSortWrapper items).Perm items ∧
    ∀ i j, i < j → j < (timSortWrapper items).length →
      (rdItem (timSortWrapper items) i).key ≤ (rdItem (timSortWrapper items) j).key ∧
      ((rdItem (timSortWrapper items) i).key = (rdItem (timSortWrapper items) j).key →
        (rdItem (timSortWrapper items) i).originalPos
          < (rdItem (timSortWrapper items) j).originalPos) := by
  by_cases hn : 1 ≤ items.length
  swap
  · have : items = [] := List.eq_nil_of_length_eq_zero (by omega)
    subst this
    refine ⟨by decide, ?_⟩
    intro i j _ hj
    have : (timSortWrapper ([] : List StabilityTestItem)).length = 0 := by decide
    omega
  obtain ⟨w1, w2, w3, w4, w5⟩ := wrapper_sim items hn hpos
  refine ⟨perm_of_codes_perm _ _ _ w4 w5 w1, ?_⟩
  intro i j hij hj
  rw [w3] at hj
  have hle := w2 i j (Nat.zero_le _) hij (by omega)
  rw [rd_map_code, rd_map_code] at hle
  obtain ⟨l1, l2⟩ := lex_of_code_le _ _ _ (w4 i) (w4 j) hle
  refine ⟨l1, ?_⟩
  intro hk
  have hne : rdItem (timSortWrapper items) i ≠ rdItem (timSortWrapper items) j := by
    have hnd : (items.map (code items.length)).Nodup := by
      apply List.pairwise_iff_getElem.2
      intro a b ha hb hab h
      rw [List.length_map] at ha hb
      have e1 := rd_map_code items.length items a
      have e2 := rd_map_code items.length items b
      rw [rd_of_lt _ (by rw [List.length_map]; exact ha)] at e1
      rw [rd_of_lt _ (by rw [List.length_map]; exact hb)] at e2
      rw [e1, e2] at h
      have := eq_of_code_eq _ _ _ (w5 a) (w5 b) h
      have h3 := hpos a ha
      have h4 := hpos b hb
      rw [this] at h3
      omega
    have hnd2 : ((timSortWrapper items).map (code items.length)).Nodup := w1.nodup_iff.2 hnd
    intro h
    have hlen : ((timSortWrapper items).map (code items.length)).length = items.length := by
      rw [List.length_map, w3]
    have := (List.pairwise_iff_getElem.1 hnd2) i j (by omega) (by omega) hij
    apply this
    have e1 := rd_map_code items.length (timSortWrapper items) i
    have e2 := rd_map_code items.length (timSortWrapper items) j
    rw [rd_of_lt _ (by omega)] at e1
    rw [rd_of_lt _ (by omega)] at e2
    rw [e1, e2, h]
  have hle2 := l2 hk
  rcases lt_or_eq_of_le hle2 with h | h
  · exact h
  · exfalso
    apply hne
    cases hx : rdItem (timSortWrapper items) i
    cases hy : rdItem (timSortWrapper items) j
    rw [hx, hy] at hk h
    simp only at hk h
    rw [hk, h]

end TimSortWrapper

/-- C15: the Tim Sort routine of the stability harness (`timSortWrapper`: block insertion
sort and `<=` merge over `(key, originalPos)` records, comparing keys only) is stable.  For
every vector of records whose `originalPos` is its input index, the result is a
rearrangement of the input that is sorted by key, and any two records with equal keys
appear in increasing `originalPos` order. -/
theorem timSortWrapper_stable (items : List StabilityTestItem)
    (hpos : ∀ i, i < items.length →
      (TimSortWrapper.rdItem items i).originalPos = (i : Int)) :
    (TimSortWrapper.timSortWrapper items).Perm items ∧
    ∀ i j, i < j → j < (TimSortWrapper.timSortWrapper items).length →
      (TimSortWrapper.rdItem (TimSortWrapper.timSortWrapper items) i).key
        ≤ (TimSortWrapper.rdItem (TimSortWrapper.timSortWrapper items) j).key ∧
      ((TimSortWrapper.rdItem (TimSortWrapper.timSortWrapper items) i).key
          = (TimSortWrapper.rdItem (TimSortWrapper.timSortWrapper items) j).key →
        (TimSortWrapper.rdItem (TimSortWrapper.timSortWrapper items) i).originalPos
          < (TimSortWrapper.rdItem (TimSortWrapper.timSortWrapper items) j).originalPos) :=
  TimSortWrapper.wrapper_stable items hpos

set_option maxRecDepth 1000000 in
/-- Instance of C15 on forty records, record `i` with key `7 * i mod 5`: two runs of twenty
records and one merge.  The original positions come out as the multiples of five, then the
positions `3, 8, ...` of key `1`, and so on, each group in increasing order. -/
theorem timSortWrapper_stable_witness :
    (∀ i, i < ((List.range 40).map
        (fun i => (⟨((i * 7 % 5 : Nat) : Int), (i : Int)⟩ : StabilityTestItem))).length →
      (TimSortWrapper.rdItem ((List.range 40).map
        (fun i => (⟨((i * 7 % 5 : Nat) : Int), (i : Int)⟩ : StabilityTestItem))) i).originalPos
        = (i : Int)) ∧
    (TimSortWrapper.timSortWrapper ((List.range 40).map
        (fun i => (⟨((i * 7 % 5 : Nat) : Int), (i : Int)⟩ : StabilityTestItem)))).map
        (fun r => r.originalPos)
      = [0, 5, 10, 15, 20, 25, 30, 35, 3, 8, 13, 18, 23, 28, 33, 38, 1, 6, 11, 16, 21, 26, 31, 36,
         4, 9, 14, 19, 24, 29, 34, 39, 2, 7, 12, 17, 22, 27, 32, 37] ∧
    (TimSortWrapper.timSortWrapper ((List.range 40).map
        (fun i => (⟨((i * 7 % 5 : Nat) : Int), (i : Int)⟩ : StabilityTestItem)))).Perm
      ((List.range 40).map
        (fun i => (⟨((i * 7 % 5 : Nat) : Int), (i : Int)⟩ : StabilityTestItem))) :=
  ⟨by decide, by decide,
   (timSortWrapper_stable ((List.range 40).map
     (fun i => (⟨((i * 7 % 5 : Nat) : Int), (i : Int)⟩ : StabilityTestItem))) (by decide)).1⟩


/-! ## Run length, pivot choice and the range sorts of introsort -/

namespace TimSort

theorem or_and_one_le (r n : Nat) (hr : r ≤ 1) : r ||| (n &&& 1) ≤ 1 := by
  have h1 : n &&& 1 = n % 2 := Nat.and_one_is_mod n
  rw [h1]
  have h2 : n % 2 < 2 := Nat.mod_lt _ (by omega)
  interval_cases r <;> interval_cases (n % 2) <;> decide

/-- The loop of `calcMinRun`, entered with `n ≥ 16` and `r ≤ 1`, leaves with
`16 ≤ n < 32` and `r ≤ 1`. -/
theorem calcMinRunLoop_range :
    ∀ (fuel n r : Nat), 16 ≤ n → n ≤ fuel → r ≤ 1 →
      16 ≤ (calcMinRunLoop fuel n r).1 ∧ (calcMinRunLoop fuel n r).1 < 32 ∧
      (calcMinRunLoop fuel n r).2 ≤ 1 := by
  intro fuel
  induction fuel with
  | zero => intro n r h1 h2 _; omega
  | succ fuel ih =>
    intro n r h1 h2 h3
    unfold calcMinRunLoop
    by_cases hc : MIN_RUN ≤ n
    · rw [if_pos hc]
      have h32 : 32 ≤ n := hc
      apply ih
      · rw [Nat.shiftRight_eq_div_pow]; omega
      · rw [Nat.shiftRight_eq_div_pow]; omega
      · exact or_and_one_le r n h3
    · rw [if_neg hc]
      have h32 : ¬ 32 ≤ n := hc
      exact ⟨h1, by omega, h3⟩

theorem calcMinRun_range (n : Nat) (hn : 32 ≤ n) : 16 ≤ calcMinRun n ∧ calcMinRun n ≤ 32 := by
  unfold calcMinRun
  dsimp only
  have := calcMinRunLoop_range n n 0 (by omega) (le_refl _) (by omega)
  omega

end TimSort

/-- C21 (as stated, refuted): `calcMinRun(63)` is `32` (the loop leaves with `n = 31` and
`r = 1`), which is not below `32`. -/
theorem calcMinRun_reaches_32 :
    32 ≤ 63 ∧ TimSort.MIN_RUN = 32 ∧ TimSort.calcMinRun 63 = 32 ∧ ¬ TimSort.calcMinRun 63 < 32 := by
  decide

/-- C21 (amended): for every `n ≥ 32` (with `MIN_RUN = 32`), `TimSort::calcMinRun(n)` returns
a run length `r` with `16 ≤ r ≤ 32`. -/
theorem calcMinRun_between_16_and_32 (n : Nat) (hn : 32 ≤ n) :
    16 ≤ TimSort.calcMinRun n ∧ TimSort.calcMinRun n ≤ 32 :=
  TimSort.calcMinRun_range n hn

/-- Instance of the amended C21 at `n = 1000`, where the run length is `32`. -/
theorem calcMinRun_between_16_and_32_witness :
    32 ≤ 1000 ∧ 16 ≤ TimSort.calcMinRun 1000 ∧ TimSort.calcMinRun 1000 ≤ 32 :=
  ⟨by decide, calcMinRun_between_16_and_32 1000 (by decide)⟩

namespace IntroSort

theorem medianOfThree_median (a : List Int) (b m e : Nat) :
    (medianOfThree a b m e = b ∧
      ((rd a m ≤ rd a b ∧ rd a b ≤ rd a e) ∨ (rd a e ≤ rd a b ∧ rd a b ≤ rd a m))) ∨
    (medianOfThree a b m e = m ∧
      ((rd a b ≤ rd a m ∧ rd a m ≤ rd a e) ∨ (rd a e ≤ rd a m ∧ rd a m ≤ rd a b))) ∨
    (medianOfThree a b m e = e ∧
      ((rd a b ≤ rd a e ∧ rd a e ≤ rd a m) ∨ (rd a m ≤ rd a e ∧ rd a e ≤ rd a b))) := by
  unfold medianOfThree
  split_ifs <;> simp <;> omega

theorem medianOfThree_congr (a a' : List Int) (b m e b' m' e' : Nat)
    (hb : rd a b = rd a' b') (hm : rd a m = rd a' m') (he : rd a e = rd a' e') :
    (medianOfThree a b m e = b ∧ medianOfThree a' b' m' e' = b') ∨
    (medianOfThree a b m e = m ∧ medianOfThree a' b' m' e' = m') ∨
    (medianOfThree a b m e = e ∧ medianOfThree a' b' m' e' = e') := by
  unfold medianOfThree
  rw [hb, hm, he]
  split_ifs <;> simp

end IntroSort

/-- C23: `IntroSort::medianOfThree(arr, begin, mid, end)` returns one of the three indices,
and the value at the returned index is a median of `arr[begin]`, `arr[mid]`, `arr[end]` (one
of the other two values is `≤` it and the other is `≥` it), ties included; the choice among
`begin`, `mid`, `end` depends on the three values only. -/
theorem medianOfThree_is_median (arr : List Int) (begin mid end_ : Nat) :
    ((IntroSort.medianOfThree arr begin mid end_ = begin ∧
        ((rd arr mid ≤ rd arr begin ∧ rd arr begin ≤ rd arr end_) ∨
         (rd arr end_ ≤ rd arr begin ∧ rd arr begin ≤ rd arr mid))) ∨
     (IntroSort.medianOfThree arr begin mid end_ = mid ∧
        ((rd arr begin ≤ rd arr mid ∧ rd arr mid ≤ rd arr end_) ∨
         (rd arr end_ ≤ rd arr mid ∧ rd arr mid ≤ rd arr begin))) ∨
     (IntroSort.medianOfThree arr begin mid end_ = end_ ∧
        ((rd arr begin ≤ rd arr end_ ∧ rd arr end_ ≤ rd arr mid) ∨
         (rd arr mid ≤ rd arr end_ ∧ rd arr end_ ≤ rd arr begin)))) ∧
    (∀ (arr' : List Int) (begin' mid' end' : Nat),
      rd arr begin = rd arr' begin' → rd arr mid = rd arr' mid' → rd arr end_ = rd arr' end' →
      (IntroSort.medianOfThree arr begin mid end_ = begin ∧
        IntroSort.medianOfThree arr' begin' mid' end' = begin') ∨
      (IntroSort.medianOfThree arr begin mid end_ = mid ∧
        IntroSort.medianOfThree arr' begin' mid' end' = mid') ∨
      (IntroSort.medianOfThree arr begin mid end_ = end_ ∧
        IntroSort.medianOfThree arr' begin' mid' end' = end')) :=
  ⟨IntroSort.medianOfThree_median arr begin mid end_,
   fun arr' b' m' e' hb hm he =>
     IntroSort.medianOfThree_congr arr arr' begin mid end_ b' m' e' hb hm he⟩

/-- C24: `IntroSort::partition(arr, begin, end)` with `begin < end < arr.size()` returns an
index `p` with `begin ≤ p ≤ end` such that afterwards every element of `arr[begin..p-1]` is
`≤ arr[p]`, every element of `arr[p+1..end]` is `> arr[p]`, `arr[p]` is the median-of-three
pivot value, the vector is a permutation of its former contents (so is `arr[begin..end]`)
and the elements outside `[begin, end]` are unchanged. -/
theorem partition_contract (arr : List Int) (begin end_ : Nat) (stats : SortStats)
    (hbe : begin < end_) (he : end_ < arr.length) :
    begin ≤ (IntroSort.partition arr begin end_ stats).1 ∧
    (IntroSort.partition arr begin end_ stats).1 ≤ end_ ∧
    (∀ t, begin ≤ t → t < (IntroSort.partition arr begin end_ stats).1 →
      rd (IntroSort.partition arr begin end_ stats).2.1 t
        ≤ rd (IntroSort.partition arr begin end_ stats).2.1
            (IntroSort.partition arr begin end_ stats).1) ∧
    (∀ t, (IntroSort.partition arr begin end_ stats).1 < t → t ≤ end_ →
      rd (IntroSort.partition arr begin end_ stats).2.1
          (IntroSort.partition arr begin end_ stats).1
        < rd (IntroSort.partition arr begin end_ stats).2.1 t) ∧
    rd (IntroSort.partition arr begin end_ stats).2.1
        (IntroSort.partition arr begin end_ stats).1
      = rd arr (IntroSort.medianOfThree arr begin (begin + (end_ - begin) / 2) end_) ∧
    (IntroSort.partition arr begin end_ stats).2.1.Perm arr ∧
    (seg (IntroSort.partition arr begin end_ stats).2.1 begin (end_ + 1)).Perm
      (seg arr begin (end_ + 1)) ∧
    SameOutside arr (IntroSort.partition arr begin end_ stats).2.1 begin end_ := by
  obtain ⟨p1, p2, p3, p4, p5, p6, p7⟩ :=
    IntroSort.partition_spec arr begin end_ stats (by omega) he
  exact ⟨p1, p2, p6, p7, p5, p3, seg_perm_of_sameOutside arr _ begin end_ (by omega) p3 p4, p4⟩

/-- Instance of C24 on `[9, 4, 7, 1, 8, 2, 6]` with the range `[1, 5]`: the pivot is `2`
(the median of the values `4`, `1`, `2` at the positions `1`, `3`, `5`) and ends at
index `2`. -/
theorem partition_contract_witness :
    1 < 5 ∧ 5 < ([9, 4, 7, 1, 8, 2, 6] : List Int).length ∧
    (IntroSort.partition [9, 4, 7, 1, 8, 2, 6] 1 5 SortStats.zero).1 = 2 ∧
    (IntroSort.partition [9, 4, 7, 1, 8, 2, 6] 1 5 SortStats.zero).2.1 = [9, 1, 2, 4, 8, 7, 6] ∧
    SameOutside [9, 4, 7, 1, 8, 2, 6]
      (IntroSort.partition [9, 4, 7, 1, 8, 2, 6] 1 5 SortStats.zero).2.1 1 5 :=
  ⟨by decide, by decide, by decide, by decide,
   (partition_contract [9, 4, 7, 1, 8, 2, 6] 1 5 SortStats.zero (by decide) (by decide)).2.2.2.2.2.2.2⟩

/-- C26: `IntroSort::heapSort(arr, begin, end)` (the fallback of `introSortUtil` at depth
limit `0`, with the heap children of `i` at `2*(i-begin)+1+begin` and `2*(i-begin)+2+begin`)
sorts only its range: for `begin ≤ end < arr.size()`, afterwards `arr[begin..end]` is
non-decreasing and a permutation of its former contents, and every element outside
`[begin, end]` is unchanged. -/
theorem heapSort_sorts_range (arr : List Int) (begin end_ : Nat) (stats : SortStats)
    (hbe : begin ≤ end_) (he : end_ < arr.length) :
    SortedOn (IntroSort.heapSort arr begin end_ stats).1 begin end_ ∧
    (seg (IntroSort.heapSort arr begin end_ stats).1 begin (end_ + 1)).Perm
      (seg arr begin (end_ + 1)) ∧
    (IntroSort.heapSort arr begin end_ stats).1.Perm arr ∧
    SameOutside arr (IntroSort.heapSort arr begin end_ stats).1 begin end_ := by
  obtain ⟨p1, p2, p3⟩ := IntroSort.heapSort_spec arr begin end_ stats hbe he
  exact ⟨p3, seg_perm_of_sameOutside arr _ begin end_ (by omega) p1 p2, p1, p2⟩

/-- Instance of C26 on `[9, 8, 5, 1, 4, 2, 7]` with the range `[2, 5]`, a heap that does not
start at index `0`. -/
theorem heapSort_sorts_range_witness :
    2 ≤ 5 ∧ 5 < ([9, 8, 5, 1, 4, 2, 7] : List Int).length ∧
    (IntroSort.heapSort [9, 8, 5, 1, 4, 2, 7] 2 5 SortStats.zero).1 = [9, 8, 1, 2, 4, 5, 7] ∧
    SortedOn (IntroSort.heapSort [9, 8, 5, 1, 4, 2, 7] 2 5 SortStats.zero).1 2 5 :=
  ⟨by decide, by decide, by decide,
   (heapSort_sorts_range [9, 8, 5, 1, 4, 2, 7] 2 5 SortStats.zero (by decide) (by decide)).1⟩


/-! ## The winner tree of tournament sort: invariant and comparison count -/

theorem ceilLog2Aux_lower (n : Nat) :
    ∀ (fuel h : Nat), (h = 0 ∨ 2 ^ (h - 1) < n) →
      (ceilLog2Aux n fuel h = 0 ∨ 2 ^ (ceilLog2Aux n fuel h - 1) < n) := by
  intro fuel
  induction fuel with
  | zero => intro h hh; simpa [ceilLog2Aux] using hh
  | succ fuel ih =>
    intro h hh
    unfold ceilLog2Aux
    by_cases hc : 2 ^ h < n
    · rw [if_pos hc]
      apply ih
      right
      simpa using hc
    · rw [if_neg hc]; exact hh

/-- For `n ≥ 2` the height `ceilLog2 n` is the least `h` with `n ≤ 2 ^ h`. -/
theorem pow_ceilLog2_lt (n : Nat) (hn : 2 ≤ n) : 2 ^ (ceilLog2 n - 1) < n := by
  have h1 := le_pow_ceilLog2 n
  have h2 : ceilLog2Aux n n 0 = 0 ∨ 2 ^ (ceilLog2Aux n n 0 - 1) < n :=
    ceilLog2Aux_lower n n 0 (Or.inl rfl)
  unfold ceilLog2 at h1 ⊢
  rcases h2 with h | h
  · rw [h] at h1
    simp at h1
    omega
  · exact h

/-- A loop whose body adds exactly `K` to a counter adds `K` times the number of
iterations. -/
theorem foldl_counter_eq {σ : Type} (g : σ → Int) (f : σ → Nat → σ) (K : Int) :
    ∀ (l : List Nat) (s0 : σ), (∀ s i, i ∈ l → g (f s i) = g s + K) →
      g (l.foldl f s0) = g s0 + K * (l.length : Int) := by
  intro l
  induction l with
  | nil => intro s0 _; simp
  | cons a l ih =>
    intro s0 h
    rw [List.foldl_cons]
    have h1 := ih (f s0 a) (fun s i hi => h s i (List.mem_cons_of_mem _ hi))
    have h2 := h s0 a (List.mem_cons_self _ _)
    rw [List.length_cons]
    push_cast
    linarith

namespace TournamentSort

/-- One extraction keeps the winner tree: after the root's leaf is invalidated and the path
to the root rebuilt, the tree invariant holds again and the root names a real leaf. -/
theorem extractStep_tree (n ls k : Nat) (s : List Int × List Node × SortStats)
    (hn : n ≤ ls + 1) (h2 : TreeInv n ls s.2.1 (fun _ => False))
    (hidx : ∃ j, j < n ∧ (nd s.2.1 0).index = (j : Int)) :
    TreeInv n ls (extractStep ls s k).2.1 (fun _ => False) ∧
    (∃ j, j < n ∧ (nd (extractStep ls s k).2.1 0).index = (j : Int)) ∧
    (∃ j, j < n ∧ (extractStep ls s k).2.2
      = (rebuildTree (invalidate s.2.1 (ls + j)) (ls + j) (s.2.2.addAsg 3)).2) := by
  obtain ⟨j, hj, hidx⟩ := hidx
  have hq : ((ls : Int) + (nd s.2.1 0).index).toNat = ls + j := by
    rw [hidx]; omega
  obtain ⟨i1, i2⟩ := invalidate_inv n ls s.2.1 h2 hn j hj
  obtain ⟨r1, r2, _⟩ := rebuildTreeFuel_spec n ls (ls + j)
    (invalidate s.2.1 (ls + j)) (ls + j) (s.2.2.addAsg 3) (le_refl _) (by omega) i1 i2
  unfold extractStep
  dsimp only
  rw [hq]
  exact ⟨r1, r2, j, hj, rfl⟩

/-- A call of `rebuildTree` from a node of depth `d` makes exactly `d` comparisons. -/
theorem rebuildTreeFuel_cmp :
    ∀ (d fuel : Nat) (T : List Node) (x : Nat) (st : SortStats), 2 ^ d ≤ x + 1 →
      x + 1 < 2 ^ (d + 1) → d ≤ fuel →
      (rebuildTreeFuel fuel T x st).2.comparisons = st.comparisons + (d : Int) := by
  intro d
  induction d with
  | zero =>
    intro fuel T x st h1 h2 _
    have hx : x = 0 := by simp at h2; omega
    subst hx
    cases fuel with
    | zero => simp [rebuildTreeFuel]
    | succ f => simp [rebuildTreeFuel]
  | succ d ih =>
    intro fuel T x st h1 h2 hf
    have e1 : 2 ^ (d + 1) = 2 * 2 ^ d := by rw [pow_succ]; ring
    have e2 : 2 ^ (d + 1 + 1) = 2 * 2 ^ (d + 1) := by rw [pow_succ]; ring
    have hpos : 1 ≤ 2 ^ d := Nat.one_le_two_pow
    cases fuel with
    | zero => omega
    | succ f =>
      unfold rebuildTreeFuel
      rw [if_neg (by omega)]
      dsimp only
      rw [ih f _ ((x - 1) / 2) _ (by omega) (by omega) (by omega)]
      simp only [SortStats.addCmp, SortStats.addAsg]
      push_cast
      ring

theorem rebuildTree_cmp (h : Nat) (T : List Node) (j : Nat) (st : SortStats)
    (hj : j < 2 ^ h) :
    (rebuildTree T (2 ^ h - 1 + j) st).2.comparisons = st.comparisons + (h : Int) := by
  unfold rebuildTree
  have hpos : 1 ≤ 2 ^ h := Nat.one_le_two_pow
  have e1 : 2 ^ (h + 1) = 2 * 2 ^ h := by rw [pow_succ]; ring
  have hlt : h < 2 ^ h := Nat.lt_two_pow h
  exact rebuildTreeFuel_cmp h _ T _ st (by omega) (by omega) (by omega)

/-- Building the tree makes one comparison for each of the `2 ^ h - 1` internal nodes. -/
theorem build_cmp (arr : List Int) (h : Nat) (st : SortStats) :
    (buildTournamentTree arr (List.replicate (2 ^ (h + 1) - 1) Node.default) st).2.comparisons
      = st.comparisons + ((2 ^ h - 1 : Nat) : Int) := by
  have hpos : 1 ≤ 2 ^ h := Nat.one_le_two_pow
  have e0 : 2 ^ (h + 1) = 2 * 2 ^ h := by rw [pow_succ]; ring
  have e1 : 2 ^ (h + 1) - 1 + 1 = 2 ^ (h + 1) := by omega
  unfold buildTournamentTree
  dsimp only
  rw [List.length_replicate, e1, floorLog2_pow, Nat.add_sub_cancel]
  have k1 := foldl_counter_eq (fun s : List Node × SortStats => s.2.comparisons)
    (fun (s : List Node × SortStats) i =>
      (s.1.set (2 ^ h - 1 + i) (Node.mk2 (rd arr i) i), s.2.addAsg 1)) 0
    (List.range' 0 arr.length) (List.replicate (2 ^ (h + 1) - 1) Node.default, st)
    (by intro s i _; simp [SortStats.addAsg])
  generalize (List.range' 0 arr.length).foldl
    (fun (s : List Node × SortStats) i =>
      (s.1.set (2 ^ h - 1 + i) (Node.mk2 (rd arr i) i), s.2.addAsg 1))
    (List.replicate (2 ^ (h + 1) - 1) Node.default, st) = s1 at k1 ⊢
  have k2 := foldl_counter_eq (fun s : List Node × SortStats => s.2.comparisons)
    (fun (s : List Node × SortStats) i => (invalidate s.1 i, s.2.addAsg 2)) 0
    (List.range' (2 ^ h - 1 + arr.length) (2 ^ (h + 1) - 1 - (2 ^ h - 1 + arr.length))) s1
    (by intro s i _; simp [SortStats.addAsg])
  generalize (List.range' (2 ^ h - 1 + arr.length)
    (2 ^ (h + 1) - 1 - (2 ^ h - 1 + arr.length))).foldl
    (fun (s : List Node × SortStats) i => (invalidate s.1 i, s.2.addAsg 2)) s1 = s2 at k2 ⊢
  have k3 := foldl_counter_eq (fun s : List Node × SortStats => s.2.comparisons)
    (fun (s : List Node × SortStats) i =>
      (s.1.set i (if (nd s.1 (2 * i + 1)).value ≤ (nd s.1 (2 * i + 2)).value
          then nd s.1 (2 * i + 1) else nd s.1 (2 * i + 2)),
        (s.2.addCmp 1).addAsg 1)) 1
    (List.range' 0 (2 ^ h - 1)).reverse s2
    (by intro s i _; simp [SortStats.addAsg, SortStats.addCmp])
  simp only [List.length_reverse, List.length_range'] at k1 k2 k3
  rw [k3, k2, k1]
  simp

/-- State of `sort` after the tree is built and `k` extractions are done. -/
theorem extract_states (arr : List Int) (h : Nat) (st : SortStats) (hn1 : 1 ≤ arr.length)
    (hle : arr.length ≤ 2 ^ h) (hbnd : ∀ x ∈ arr, x ≤ INT_MAX) (k : Nat) :
    TreeInv arr.length (2 ^ h - 1)
      ((List.range' 0 k).foldl (extractStep (2 ^ h - 1))
        (List.replicate arr.length 0,
          buildTournamentTree arr (List.replicate (2 ^ (h + 1) - 1) Node.default) st)).2.1
      (fun _ => False) ∧
    (∃ j, j < arr.length ∧
      (nd ((List.range' 0 k).foldl (extractStep (2 ^ h - 1))
        (List.replicate arr.length 0,
          buildTournamentTree arr (List.replicate (2 ^ (h + 1) - 1) Node.default) st)).2.1
        0).index = (j : Int)) ∧
    ((List.range' 0 k).foldl (extractStep (2 ^ h - 1))
        (List.replicate arr.length 0,
          buildTournamentTree arr (List.replicate (2 ^ (h + 1) - 1) Node.default)
            st)).2.2.comparisons
      = st.comparisons + ((2 ^ h - 1 : Nat) : Int) + (k : Int) * (h : Int) := by
  have hpos : 1 ≤ 2 ^ h := Nat.one_le_two_pow
  obtain ⟨b1, b2, _⟩ := build_spec arr h st hn1 hle hbnd
  have b4 := build_cmp arr h st
  generalize buildTournamentTree arr (List.replicate (2 ^ (h + 1) - 1) Node.default) st
    = built at b1 b2 b4 ⊢
  have key := foldl_range'_inv
    (fun i (s : List Int × List Node × SortStats) =>
      TreeInv arr.length (2 ^ h - 1) s.2.1 (fun _ => False) ∧
      (∃ j, j < arr.length ∧ (nd s.2.1 0).index = (j : Int)) ∧
      s.2.2.comparisons = st.comparisons + ((2 ^ h - 1 : Nat) : Int) + (i : Int) * (h : Int))
    (extractStep (2 ^ h - 1)) 0 k (List.replicate arr.length 0, built)
    ⟨b1, b2, by rw [b4]; simp⟩
    (by
      intro i s _ _ ⟨p1, p2, p3⟩
      obtain ⟨q1, q2, j, hj, q3⟩ := extractStep_tree arr.length (2 ^ h - 1) i s (by omega) p1 p2
      refine ⟨q1, q2, ?_⟩
      rw [q3, rebuildTree_cmp h _ j _ (by omega)]
      simp only [SortStats.addAsg]
      rw [p3]
      push_cast
      ring)
  simpa using key

theorem sort_eq_extract (arr : List Int) (hn : ¬ arr.length ≤ 1) :
    (sort arr).2.comparisons
      = ((List.range' 0 arr.length).foldl (extractStep (2 ^ ceilLog2 arr.length - 1))
        (List.replicate arr.length 0,
          buildTournamentTree arr
            (List.replicate (2 ^ (ceilLog2 arr.length + 1) - 1) Node.default)
            ((SortStats.zero.addMem ((2 ^ (ceilLog2 arr.length + 1) - 1) * sizeofNode)).addMem
              (arr.length * sizeofInt)))).2.2.comparisons := by
  unfold sort
  dsimp only
  rw [if_neg hn]
  have k := foldl_counter_eq (fun s : SortState => s.2.comparisons)
    (fun (s : SortState) i =>
      (s.1.set i (rd ((List.range' 0 arr.length).foldl
        (extractStep (2 ^ ceilLog2 arr.length - 1))
        (List.replicate arr.length 0,
          buildTournamentTree arr
            (List.replicate (2 ^ (ceilLog2 arr.length + 1) - 1) Node.default)
            ((SortStats.zero.addMem ((2 ^ (ceilLog2 arr.length + 1) - 1) * sizeofNode)).addMem
              (arr.length * sizeofInt)))).1 i), s.2.addAsg 1)) 0
    (List.range' 0 arr.length)
    (arr, ((List.range' 0 arr.length).foldl
        (extractStep (2 ^ ceilLog2 arr.length - 1))
        (List.replicate arr.length 0,
          buildTournamentTree arr
            (List.replicate (2 ^ (ceilLog2 arr.length + 1) - 1) Node.default)
            ((SortStats.zero.addMem ((2 ^ (ceilLog2 arr.length + 1) - 1) * sizeofNode)).addMem
              (arr.length * sizeofInt)))).2.2)
    (by intro s i _; simp [SortStats.addAsg])
  simpa using k

theorem winner_min (t : List Node) (i : Nat) (h : WinnerAt t i) :
    (nd t i = nd t (2 * i + 1) ∨ nd t i = nd t (2 * i + 2)) ∧
    (nd t i).value = min (nd t (2 * i + 1)).value (nd t (2 * i + 2)).value := by
  obtain ⟨h1, h2, h3⟩ := h
  refine ⟨h1, ?_⟩
  rcases h1 with e | e
  · rw [e] at h3 ⊢
    exact (min_eq_left h3).symm
  · rw [e] at h2 ⊢
    exact (min_eq_right h2).symm

end TournamentSort


namespace TournamentSort

theorem extractState_eq (arr : List Int) (k : Nat) :
    extractState arr k
      = (List.range' 0 k).foldl (extractStep (2 ^ ceilLog2 arr.length - 1))
        (List.replicate arr.length 0,
          buildTournamentTree arr
            (List.replicate (2 ^ (ceilLog2 arr.length + 1) - 1) Node.default)
            ((SortStats.zero.addMem ((2 ^ (ceilLog2 arr.length + 1) - 1) * sizeofNode)).addMem
              (arr.length * sizeofInt))) := rfl

theorem extractState_succ (arr : List Int) (k : Nat) :
    extractState arr (k + 1)
      = extractStep (2 ^ ceilLog2 arr.length - 1) (extractState arr k) k := by
  rw [extractState_eq, extractState_eq, List.range'_1_concat, List.foldl_append]
  simp

theorem extractState_length (arr : List Int) (k : Nat) :
    (extractState arr k).1.length = arr.length := by
  induction k with
  | zero => simp [extractState_eq]
  | succ k ih =>
    rw [extractState_succ]
    unfold extractStep
    simpa using ih

theorem sort_eq_extractState (arr : List Int) (hn : 2 ≤ arr.length) :
    (sort arr).1 = (extractState arr arr.length).1 ∧
    (sort arr).2.comparisons = (extractState arr arr.length).2.2.comparisons := by
  refine ⟨?_, ?_⟩
  · have hl := extractState_length arr arr.length
    rw [extractState_eq] at hl ⊢
    unfold sort
    dsimp only
    rw [if_neg (by omega)]
    exact copyBack_eq arr _ _ hl
  · rw [extractState_eq]
    exact sort_eq_extract arr (by omega)

theorem extractState_inv (arr : List Int) (hn : 2 ≤ arr.length)
    (hbnd : ∀ x ∈ arr, x ≤ INT_MAX) (k : Nat) :
    TreeInv arr.length (2 ^ ceilLog2 arr.length - 1) (extractState arr k).2.1 (fun _ => False) ∧
    (∃ j, j < arr.length ∧ (nd (extractState arr k).2.1 0).index = (j : Int)) ∧
    (extractState arr k).2.2.comparisons
      = ((2 ^ ceilLog2 arr.length - 1 : Nat) : Int) + (k : Int) * (ceilLog2 arr.length : Int) := by
  have := extract_states arr (ceilLog2 arr.length)
    ((SortStats.zero.addMem ((2 ^ (ceilLog2 arr.length + 1) - 1) * sizeofNode)).addMem
      (arr.length * sizeofInt)) (by omega) (le_pow_ceilLog2 _) hbnd k
  rw [extractState_eq]
  obtain ⟨h1, h2, h3⟩ := this
  refine ⟨h1, h2, ?_⟩
  rw [h3]
  simp [SortStats.zero, SortStats.addMem]

end TournamentSort

/-- C28: winner-tree invariant of Tournament Sort.  For every vector of `n ≥ 2` machine
integers, after `buildTournamentTree` (`k = 0`) and after each extract / invalidate /
`rebuildTree` step of `sort` (`k = 1, 2, ...`), every internal node `i` of the tree is a copy
of one of its two children `2i+1`, `2i+2` and its value is the minimum of the two children's
values; consequently the root's value is the minimum over all leaf values: it is at most the
value of every leaf and it is the value of a leaf.  The vector that `sort` returns is the
result vector after `n` steps. -/
theorem winner_tree_invariant (arr : List Int) (hn : 2 ≤ arr.length)
    (hbnd : ∀ x ∈ arr, x ≤ TournamentSort.INT_MAX) (k : Nat) :
    (∀ i, i < 2 ^ ceilLog2 arr.length - 1 →
      (TournamentSort.nd (TournamentSort.extractState arr k).2.1 i
          = TournamentSort.nd (TournamentSort.extractState arr k).2.1 (2 * i + 1) ∨
        TournamentSort.nd (TournamentSort.extractState arr k).2.1 i
          = TournamentSort.nd (TournamentSort.extractState arr k).2.1 (2 * i + 2)) ∧
      (TournamentSort.nd (TournamentSort.extractState arr k).2.1 i).value
        = min (TournamentSort.nd (TournamentSort.extractState arr k).2.1 (2 * i + 1)).value
            (TournamentSort.nd (TournamentSort.extractState arr k).2.1 (2 * i + 2)).value) ∧
    (∀ p, 2 ^ ceilLog2 arr.length - 1 ≤ p → p < 2 ^ (ceilLog2 arr.length + 1) - 1 →
      (TournamentSort.nd (TournamentSort.extractState arr k).2.1 0).value
        ≤ (TournamentSort.nd (TournamentSort.extractState arr k).2.1 p).value) ∧
    (∃ p, 2 ^ ceilLog2 arr.length - 1 ≤ p ∧ p < 2 ^ (ceilLog2 arr.length + 1) - 1 ∧
      (TournamentSort.nd (TournamentSort.extractState arr k).2.1 p).value
        = (TournamentSort.nd (TournamentSort.extractState arr k).2.1 0).value) ∧
    (TournamentSort.extractState arr k).2.1.length = 2 ^ (ceilLog2 arr.length + 1) - 1 ∧
    (TournamentSort.sort arr).1 = (TournamentSort.extractState arr arr.length).1 := by
  obtain ⟨h1, ⟨j, hj, hidx⟩, _⟩ := TournamentSort.extractState_inv arr hn hbnd k
  have hle := le_pow_ceilLog2 arr.length
  have hpos : 1 ≤ 2 ^ ceilLog2 arr.length := Nat.one_le_two_pow
  have e0 : 2 ^ (ceilLog2 arr.length + 1) = 2 * 2 ^ ceilLog2 arr.length := by
    rw [pow_succ]; ring
  refine ⟨fun i hi => TournamentSort.winner_min _ i (h1.win i hi (fun h => h)), ?_, ?_, ?_,
    (TournamentSort.sort_eq_extractState arr hn).1⟩
  · intro p _ hp
    exact TournamentSort.root_le arr.length _ _ h1 p (by omega)
  · refine ⟨2 ^ ceilLog2 arr.length - 1 + j, by omega, by omega, ?_⟩
    exact TournamentSort.root_leaf_value arr.length _ _ h1 (by omega) j hj hidx
  · rw [h1.len]; omega

/-- Instance of C28 on `[5, 3, 8, 1]` after two extractions: the root holds `5`, the smallest
value still in the tree, and the invariant holds at the three internal nodes. -/
theorem winner_tree_invariant_witness :
    2 ≤ ([5, 3, 8, 1] : List Int).length ∧
    (∀ x ∈ ([5, 3, 8, 1] : List Int), x ≤ TournamentSort.INT_MAX) ∧
    (TournamentSort.nd (TournamentSort.extractState [5, 3, 8, 1] 2).2.1 0).value = 5 ∧
    (TournamentSort.extractState [5, 3, 8, 1] 2).2.1.length
      = 2 ^ (ceilLog2 ([5, 3, 8, 1] : List Int).length + 1) - 1 :=
  ⟨by decide, by decide, by decide,
   (winner_tree_invariant [5, 3, 8, 1] (by decide) (by decide) 2).2.2.2.1⟩

/-- C29: Tournament Sort makes exactly `height = ceil(log2 n)` comparisons per extraction.
For every vector of `n ≥ 2` machine integers, each `rebuildTree` call from a leaf adds
exactly `height` to `comparisons`, so does each extraction step, and the `comparisons`
returned by `TournamentSort::sort` is `(2 ^ height - 1) + n * height`; `height` is the
least `h` with `n ≤ 2 ^ h`. -/
theorem tournamentSort_comparison_count (arr : List Int) (hn : 2 ≤ arr.length)
    (hbnd : ∀ x ∈ arr, x ≤ TournamentSort.INT_MAX) :
    (TournamentSort.sort arr).2.comparisons
      = ((2 ^ ceilLog2 arr.length - 1 : Nat) : Int)
        + (arr.length : Int) * (ceilLog2 arr.length : Int) ∧
    (∀ k, (TournamentSort.extractState arr (k + 1)).2.2.comparisons
      = (TournamentSort.extractState arr k).2.2.comparisons + (ceilLog2 arr.length : Int)) ∧
    (∀ (tree : List TournamentSort.Node) (j : Nat) (stats : SortStats),
      j < 2 ^ ceilLog2 arr.length →
      (TournamentSort.rebuildTree tree (2 ^ ceilLog2 arr.length - 1 + j) stats).2.comparisons
        = stats.comparisons + (ceilLog2 arr.length : Int)) ∧
    arr.length ≤ 2 ^ ceilLog2 arr.length ∧ 2 ^ (ceilLog2 arr.length - 1) < arr.length := by
  refine ⟨?_, ?_, ?_, le_pow_ceilLog2 _, pow_ceilLog2_lt _ hn⟩
  · rw [(TournamentSort.sort_eq_extractState arr hn).2]
    exact (TournamentSort.extractState_inv arr hn hbnd arr.length).2.2
  · intro k
    rw [(TournamentSort.extractState_inv arr hn hbnd (k + 1)).2.2,
      (TournamentSort.extractState_inv arr hn hbnd k).2.2]
    push_cast
    ring
  · intro tree j stats hj
    exact TournamentSort.rebuildTree_cmp _ tree j stats hj

/-- Instance of C29 on `[5, 3, 8, 1]`: height `2`, `3 + 4 * 2 = 11` comparisons. -/
theorem tournamentSort_comparison_count_witness :
    2 ≤ ([5, 3, 8, 1] : List Int).length ∧
    (∀ x ∈ ([5, 3, 8, 1] : List Int), x ≤ TournamentSort.INT_MAX) ∧
    ceilLog2 ([5, 3, 8, 1] : List Int).length = 2 ∧
    (TournamentSort.sort [5, 3, 8, 1]).2.comparisons = 11 ∧
    (TournamentSort.sort [5, 3, 8, 1]).2.comparisons
      = ((2 ^ ceilLog2 ([5, 3, 8, 1] : List Int).length - 1 : Nat) : Int)
        + (([5, 3, 8, 1] : List Int).length : Int)
          * (ceilLog2 ([5, 3, 8, 1] : List Int).length : Int) :=
  ⟨by decide, by decide, by decide, by decide,
   (tournamentSort_comparison_count [5, 3, 8, 1] (by decide) (by decide)).1⟩


/-! ## Termination of the introsort recursion -/

namespace IntroSort

/-- With a depth limit `d ≥ 0` the recursion of `introSortUtil` nests at most `d + 1` calls
and computes what the recursion on the natural number `d` computes. -/
theorem introSortUtilFuel_eq :
    ∀ (d fuel : Nat) (arr : List Int) (b e : Nat) (st : SortStats), d < fuel →
      introSortUtilFuel fuel arr b e (d : Int) st = some (introSortUtil d arr b e st) := by
  intro d
  induction d with
  | zero =>
    intro fuel arr b e st hf
    obtain ⟨f, rfl⟩ : ∃ f, fuel = f + 1 := ⟨fuel - 1, by omega⟩
    unfold introSortUtilFuel introSortUtil
    by_cases hs : e + 1 - b < 16
    · rw [if_pos hs, if_pos hs]
    · rw [if_neg hs, if_neg hs]
      simp
  | succ d ih =>
    intro fuel arr b e st hf
    obtain ⟨f, rfl⟩ : ∃ f, fuel = f + 1 := ⟨fuel - 1, by omega⟩
    unfold introSortUtilFuel introSortUtil
    by_cases hs : e + 1 - b < 16
    · rw [if_pos hs, if_pos hs]
    · rw [if_neg hs, if_neg hs]
      have hd : ¬ (((d + 1 : Nat) : Int) = 0) := by omega
      have hd1 : ((d + 1 : Nat) : Int) - 1 = (d : Int) := by push_cast; ring
      rw [if_neg hd]
      simp only [hd1]
      by_cases c1 : (partition arr b e st).1 > b
      · rw [if_pos c1, if_pos c1, ih f _ _ _ _ (by omega)]
        simp only [Option.some_bind]
        by_cases c2 : (partition arr b e st).1 < e
        · rw [if_pos c2, if_pos c2, ih f _ _ _ _ (by omega)]
        · rw [if_neg c2, if_neg c2]
      · rw [if_neg c1, if_neg c1]
        simp only [Option.some_bind]
        by_cases c2 : (partition arr b e st).1 < e
        · rw [if_pos c2, if_pos c2, ih f _ _ _ _ (by omega)]
        · rw [if_neg c2, if_neg c2]

/-- Whatever the depth limit, negative values included, the recursion of `introSortUtil`
stops: every recursive call is on a strictly smaller range, so it nests at most as many
calls as the range has elements, plus one. -/
theorem introSortUtilFuel_total :
    ∀ (fuel : Nat) (z : Int) (arr : List Int) (b e : Nat) (st : SortStats), e + 1 - b < fuel →
      ∃ r, introSortUtilFuel fuel arr b e z st = some r := by
  intro fuel
  induction fuel with
  | zero => intro z arr b e st h; omega
  | succ f ih =>
    intro z arr b e st hf
    unfold introSortUtilFuel
    by_cases hs : e + 1 - b < 16
    · rw [if_pos hs]; exact ⟨_, rfl⟩
    · rw [if_neg hs]
      by_cases hz : z = 0
      · rw [if_pos hz]; exact ⟨_, rfl⟩
      · rw [if_neg hz]
        obtain ⟨P1, P2, _⟩ := partition_cmp arr b e st (by omega)
        dsimp only
        generalize partition arr b e st = p at P1 P2
        have hL : ∃ s1, (if p.1 > b then introSortUtilFuel f p.2.1 b (p.1 - 1) (z - 1) p.2.2
            else some p.2) = some s1 := by
          by_cases c1 : p.1 > b
          · rw [if_pos c1]; exact ih _ _ _ _ _ (by omega)
          · rw [if_neg c1]; exact ⟨_, rfl⟩
        obtain ⟨s1, hs1⟩ := hL
        rw [hs1]
        simp only [Option.some_bind]
        by_cases c2 : p.1 < e
        · rw [if_pos c2]; exact ih _ _ _ _ _ (by omega)
        · rw [if_neg c2]; exact ⟨_, rfl⟩

end IntroSort

/-- C27: `IntroSort::introSortUtil` terminates on every range and depth limit.  With the
depth limit an `int` that is only tested by `== 0`: (1) for every depth limit, negative ones
included, the recursion returns, nesting at most (range size + 1) calls, because (2) the
pivot index `p` lies in `[begin, end]`, so both recursive ranges `[begin, p-1]` and
`[p+1, end]` are strictly smaller; (3) from a depth limit `d ≥ 0` each nested call gets the
limit decreased by exactly one, the limit never becomes negative, and `d + 1` nested calls
(at most `d` partition levels) suffice, the result being that of the recursion on the natural
number `d`; (4) `sort` starts from `d = 2 * floor(log2 n)`. -/
theorem introSortUtil_terminates (arr : List Int) (begin end_ : Nat) (stats : SortStats) :
    (∀ z : Int, ∃ r,
      IntroSort.introSortUtilFuel (end_ + 1 - begin + 1) arr begin end_ z stats = some r) ∧
    (16 ≤ end_ + 1 - begin →
      begin ≤ (IntroSort.partition arr begin end_ stats).1 ∧
      (IntroSort.partition arr begin end_ stats).1 ≤ end_ ∧
      ((IntroSort.partition arr begin end_ stats).1 - 1) + 1 - begin < end_ + 1 - begin ∧
      end_ + 1 - ((IntroSort.partition arr begin end_ stats).1 + 1) < end_ + 1 - begin) ∧
    (∀ d : Nat, IntroSort.introSortUtilFuel (d + 1) arr begin end_ (d : Int) stats
      = some (IntroSort.introSortUtil d arr begin end_ stats)) ∧
    (2 ≤ arr.length →
      IntroSort.introSortUtilFuel (2 * floorLog2 arr.length + 1) arr 0 (arr.length - 1)
        ((2 * floorLog2 arr.length : Nat) : Int) SortStats.zero = some (IntroSort.sort arr)) := by
  refine ⟨fun z => IntroSort.introSortUtilFuel_total _ z arr begin end_ stats (by omega), ?_,
    fun d => IntroSort.introSortUtilFuel_eq d (d + 1) arr begin end_ stats (by omega), ?_⟩
  · intro h
    obtain ⟨P1, P2, _⟩ := IntroSort.partition_cmp arr begin end_ stats (by omega)
    exact ⟨P1, P2, by omega, by omega⟩
  · intro hn
    rw [IntroSort.introSortUtilFuel_eq _ _ arr 0 (arr.length - 1) SortStats.zero (by omega)]
    unfold IntroSort.sort
    simp only
    rw [if_neg (by omega)]

set_option maxRecDepth 100000 in
/-- Instance of C27 on the descending vector `20, ..., 1`: depth limit `2 * floor(log2 20) = 8`,
and the run with the `int` depth limit returns the sorted vector, also from the depth limit
`-1`, which never meets the test `depthLimit == 0`. -/
theorem introSortUtil_terminates_witness :
    2 ≤ ([20, 19, 18, 17, 16, 15, 14, 13, 12, 11, 10, 9, 8, 7, 6, 5, 4, 3, 2, 1] : List Int).length ∧
    (IntroSort.introSortUtilFuel 9
        [20, 19, 18, 17, 16, 15, 14, 13, 12, 11, 10, 9, 8, 7, 6, 5, 4, 3, 2, 1] 0 19 8
        SortStats.zero).map Prod.fst
      = some [1, 2, 3, 4, 5, 6, 7, 8, 9, 10, 11, 12, 13, 14, 15, 16, 17, 18, 19, 20] ∧
    (IntroSort.introSortUtilFuel 21
        [20, 19, 18, 17, 16, 15, 14, 13, 12, 11, 10, 9, 8, 7, 6, 5, 4, 3, 2, 1] 0 19 (-1)
        SortStats.zero).map Prod.fst
      = some [1, 2, 3, 4, 5, 6, 7, 8, 9, 10, 11, 12, 13, 14, 15, 16, 17, 18, 19, 20] ∧
    IntroSort.introSortUtilFuel (2 * floorLog2
        ([20, 19, 18, 17, 16, 15, 14, 13, 12, 11, 10, 9, 8, 7, 6, 5, 4, 3, 2, 1] : List Int).length + 1)
        [20, 19, 18, 17, 16, 15, 14, 13, 12, 11, 10, 9, 8, 7, 6, 5, 4, 3, 2, 1] 0
        (([20, 19, 18, 17, 16, 15, 14, 13, 12, 11, 10, 9, 8, 7, 6, 5, 4, 3, 2, 1] : List Int).length - 1)
        ((2 * floorLog2
          ([20, 19, 18, 17, 16, 15, 14, 13, 12, 11, 10, 9, 8, 7, 6, 5, 4, 3, 2, 1] : List Int).length
            : Nat) : Int) SortStats.zero
      = some (IntroSort.sort
          [20, 19, 18, 17, 16, 15, 14, 13, 12, 11, 10, 9, 8, 7, 6, 5, 4, 3, 2, 1]) :=
  ⟨by decide, by decide, by decide,
   (introSortUtil_terminates
     [20, 19, 18, 17, 16, 15, 14, 13, 12, 11, 10, 9, 8, 7, 6, 5, 4, 3, 2, 1] 0 19
     SortStats.zero).2.2.2 (by decide)⟩


/-! ## The merge and the insertion sort of the harness on tagged records

The record-level routines of the stability harness compare the keys only: on the records
`(arr[i], i)` their keys are the vector that the engine computes, and records with equal keys
stay in the order of their tags.  The routines of the engines themselves, taken over elements
with a key, are compared with them further down. -/

namespace TimSortWrapper

theorem rd_map_key (a : List StabilityTestItem) (i : Nat) :
    rd (a.map (fun r => r.key)) i = (rdItem a i).key := by
  by_cases h : i < a.length
  · rw [rd_of_lt _ (by simpa using h), rdItem_of_lt a h]
    simp
  · rw [rd_of_ge _ (by simpa using not_lt.1 h), rdItem_of_ge a (not_lt.1 h)]
    rfl

theorem length_tagged (a : List Int) : (tagged a).length = a.length := by
  simp [tagged]

theorem rdItem_tagged (a : List Int) (i : Nat) (h : i < a.length) :
    rdItem (tagged a) i = ⟨rd a i, (i : Int)⟩ := by
  rw [rdItem_of_lt _ (by rw [length_tagged]; exact h)]
  simp [tagged]

theorem map_key_tagged (a : List Int) : (tagged a).map (fun r => r.key) = a := by
  apply ext_rd
  · simp [length_tagged]
  · intro t ht
    rw [List.length_map, length_tagged] at ht
    rw [rd_map_key, rdItem_tagged a t ht]

theorem valid_tagged (a : List Int) (hn : 1 ≤ a.length) :
    ∀ x, ValidItem a.length (rdItem (tagged a) x) := by
  intro x
  by_cases hx : x < a.length
  · rw [rdItem_tagged a x hx]
    refine ⟨Int.natCast_nonneg _, ?_⟩
    show (x : Int) < (a.length : Int)
    exact_mod_cast hx
  · rw [rdItem_of_ge _ (by rw [length_tagged]; omega)]
    exact validItem_blank _ hn

/-- Records in key order, and in order of original position when the keys are equal, are in
code order. -/
theorem code_le_of_lex (N : Nat) (x y : StabilityTestItem) (hx : ValidItem N x)
    (hy : ValidItem N y) (hk : x.key ≤ y.key)
    (hp : x.key = y.key → x.originalPos ≤ y.originalPos) : code N x ≤ code N y := by
  rcases lt_or_eq_of_le hk with h | h
  · exact le_of_lt (code_lt_of_key_lt N x y hx hy h)
  · have := hp h
    unfold code
    rw [h]
    omega

theorem shift_erase (left : Nat) (key : StabilityTestItem) :
    ∀ (k : Nat) (a : List StabilityTestItem) (st : SortStats),
      (IntroSort.insertionShift left key.key k (a.map (fun r => r.key)) st).1
        = (insertionShift left key k a).1 ∧
      (IntroSort.insertionShift left key.key k (a.map (fun r => r.key)) st).2.1
        = (insertionShift left key k a).2.map (fun r => r.key) := by
  intro k
  induction k with
  | zero => intro a st; simp [insertionShift, IntroSort.insertionShift]
  | succ j ih =>
    intro a st
    unfold insertionShift IntroSort.insertionShift
    by_cases h1 : left ≤ j
    · rw [if_pos h1, rd_map_key]
      by_cases h2 : (rdItem a j).key > key.key
      · rw [if_pos h2, if_pos ⟨h1, h2⟩]
        have := ih (a.set (j + 1) (rdItem a j)) ((st.addCmp 1).addAsg 1)
        rw [List.map_set] at this
        exact this
      · rw [if_neg h2, if_neg (fun h => h2 h.2)]
        exact ⟨rfl, rfl⟩
    · rw [if_neg h1, if_neg (fun h => h1 h.1)]
      exact ⟨rfl, rfl⟩

/-- The insertion sort of the harness moves the records as `IntroSort::insertionSort` moves
their keys. -/
theorem insertionSort_erase (a : List StabilityTestItem) (w e : Nat) (st : SortStats) :
    (IntroSort.insertionSort (a.map (fun r => r.key)) w e st).1
      = (insertionSort a w e).map (fun r => r.key) := by
  unfold insertionSort IntroSort.insertionSort
  have key := foldl_range'_sim
    (fun _ (b : List StabilityTestItem) (s : SortState) => s.1 = b.map (fun r => r.key))
    (insertionStep w) (IntroSort.insertionStep w) (w + 1) (e - w) a
    (a.map (fun r => r.key), st) rfl
    (by
      intro i b s _ _ hp
      unfold insertionStep IntroSort.insertionStep
      simp only
      obtain ⟨m1, m2⟩ := shift_erase w (rdItem b i) i b (s.2.addAsg 1)
      rw [hp, rd_map_key, m1, m2, ← List.map_set])
  exact key

theorem copyRun_erase (a : List StabilityTestItem) (off len : Nat) :
    TimSort.copyRun (a.map (fun r => r.key)) off len
      = (copyRun a off len).map (fun r => r.key) := by
  unfold copyRun TimSort.copyRun
  have key := foldl_range'_sim
    (fun _ (b : List StabilityTestItem) (c : List Int) => c = b.map (fun r => r.key))
    (fun tmp i => tmp.set i (rdItem a (off + i)))
    (fun tmp i => tmp.set i (rd (a.map (fun r => r.key)) (off + i))) 0 len
    (List.replicate len blank) (List.replicate len 0)
    (by simp [blank])
    (by
      intro i b c _ _ hp
      rw [hp]
      dsimp only
      rw [rd_map_key, List.map_set])
  exact key

theorem drain_erase (src : List StabilityTestItem) (i k : Nat)
    (b : List StabilityTestItem) (st : SortStats) :
    (TimSort.drain (src.map (fun r => r.key)) i k (b.map (fun r => r.key)) st).1
      = (drain src i k b).map (fun r => r.key) := by
  unfold drain TimSort.drain
  rw [List.length_map]
  have key := foldl_range'_sim
    (fun _ (b : List StabilityTestItem) (s : SortState) => s.1 = b.map (fun r => r.key))
    (fun s t => s.set (k + t) (rdItem src (i + t)))
    (fun (s : SortState) t =>
      (s.1.set (k + t) (rd (src.map (fun r => r.key)) (i + t)), s.2.addAsg 1))
    0 (src.length - i) b (b.map (fun r => r.key), st) rfl
    (by
      intro t b s _ _ hp
      simp only
      rw [hp, rd_map_key, List.map_set])
  exact key

theorem mergeLoop_erase (L R : List StabilityTestItem) :
    ∀ (fuel i j k : Nat) (b : List StabilityTestItem) (st : SortStats),
      (TimSort.mergeLoop (L.map (fun r => r.key)) (R.map (fun r => r.key)) fuel i j k
          (b.map (fun r => r.key)) st).1 = (mergeLoop L R fuel i j k b).1 ∧
      (TimSort.mergeLoop (L.map (fun r => r.key)) (R.map (fun r => r.key)) fuel i j k
          (b.map (fun r => r.key)) st).2.1 = (mergeLoop L R fuel i j k b).2.1 ∧
      (TimSort.mergeLoop (L.map (fun r => r.key)) (R.map (fun r => r.key)) fuel i j k
          (b.map (fun r => r.key)) st).2.2.1 = (mergeLoop L R fuel i j k b).2.2.1 ∧
      (TimSort.mergeLoop (L.map (fun r => r.key)) (R.map (fun r => r.key)) fuel i j k
          (b.map (fun r => r.key)) st).2.2.2.1
        = (mergeLoop L R fuel i j k b).2.2.2.map (fun r => r.key) := by
  intro fuel
  induction fuel with
  | zero => intro i j k b st; exact ⟨rfl, rfl, rfl, rfl⟩
  | succ fuel ih =>
    intro i j k b st
    unfold mergeLoop TimSort.mergeLoop
    rw [List.length_map, List.length_map]
    by_cases hc : i < L.length ∧ j < R.length
    · rw [if_pos hc, if_pos hc, rd_map_key, rd_map_key]
      by_cases h2 : (rdItem L i).key ≤ (rdItem R j).key
      · rw [if_pos h2, if_pos h2, ← List.map_set]
        exact ih _ _ _ _ _
      · rw [if_neg h2, if_neg h2, ← List.map_set]
        exact ih _ _ _ _ _
    · rw [if_neg hc, if_neg hc]
      exact ⟨rfl, rfl, rfl, rfl⟩

/-- The merge of the harness moves the records as `TimSort::merge` moves their keys. -/
theorem merge_erase (a : List StabilityTestItem) (l m r : Nat) (st : SortStats) :
    (TimSort.merge (a.map (fun r => r.key)) l m r st).1
      = (merge a l m r).map (fun r => r.key) := by
  unfold merge TimSort.merge
  simp only
  rw [copyRun_erase, copyRun_erase]
  obtain ⟨q1, q2, q3, q4⟩ := mergeLoop_erase (copyRun a l (m + 1 - l))
    (copyRun a (m + 1) (r - m)) (m + 1 - l + (r - m)) 0 0 l a
    (((st.addMem ((m + 1 - l + (r - m)) * sizeofInt)).addAsg ((m + 1 - l : Nat) : Int)).addAsg
      ((r - m : Nat) : Int))
  rw [q1, q2, q3, q4, List.length_map, drain_erase, drain_erase]

theorem nodup_codes_tagged (a : List Int) (hn : 1 ≤ a.length) :
    ((tagged a).map (code a.length)).Nodup := by
  apply List.pairwise_iff_getElem.2
  intro i j hi hj hij h
  rw [List.length_map, length_tagged] at hi hj
  have e1 := rd_map_code a.length (tagged a) i
  have e2 := rd_map_code a.length (tagged a) j
  rw [rd_of_lt _ (by rw [List.length_map, length_tagged]; exact hi)] at e1
  rw [rd_of_lt _ (by rw [List.length_map, length_tagged]; exact hj)] at e2
  rw [e1, e2] at h
  have := eq_of_code_eq _ _ _ (valid_tagged a hn i) (valid_tagged a hn j) h
  rw [rdItem_tagged a i hi, rdItem_tagged a j hj] at this
  have h3 := congrArg StabilityTestItem.originalPos this
  simp only at h3
  omega

/-- Codes of the tagged vector are in order on a range on which the vector is. -/
theorem sortedOn_codes_tagged (a : List Int) (b e : Nat) (he : e < a.length)
    (hs : SortedOn a b e) : SortedOn ((tagged a).map (code a.length)) b e := by
  intro i j hi hij hj
  rw [rd_map_code, rd_map_code]
  apply code_le_of_lex _ _ _ (valid_tagged a (by omega) i) (valid_tagged a (by omega) j)
  · rw [rdItem_tagged a i (by omega), rdItem_tagged a j (by omega)]
    exact hs i j hi hij hj
  · intro _
    rw [rdItem_tagged a i (by omega), rdItem_tagged a j (by omega)]
    simp only
    exact_mod_cast le_of_lt hij

/-- What the order of the codes says about a rearrangement `T` of the range `[b, e]` of the
tagged vector: every record of the range comes from a slot of the range, no slot is used
twice, and records with equal keys stand in the order of their original positions. -/
theorem stable_of_codes (a : List Int) (T : List StabilityTestItem) (b e : Nat)
    (hbe : b ≤ e) (he : e < a.length)
    (hval : ∀ x, ValidItem a.length (rdItem T x))
    (hperm : (T.map (code a.length)).Perm ((tagged a).map (code a.length)))
    (hout : SameOutside ((tagged a).map (code a.length)) (T.map (code a.length)) b e)
    (hsorted : SortedOn (T.map (code a.length)) b e) :
    (∀ k, b ≤ k → k ≤ e → ∃ i, b ≤ i ∧ i ≤ e ∧ (rdItem T k).originalPos = (i : Int) ∧
      (rdItem T k).key = rd a i) ∧
    (∀ k1 k2, b ≤ k1 → k1 < k2 → k2 ≤ e → (rdItem T k1).key = (rdItem T k2).key →
      (rdItem T k1).originalPos < (rdItem T k2).originalPos) ∧
    (∀ k1 k2, b ≤ k1 → k1 < k2 → k2 ≤ e →
      (rdItem T k1).originalPos ≠ (rdItem T k2).originalPos) := by
  have hn : 1 ≤ a.length := by omega
  have hlen : (T.map (code a.length)).length = a.length := by
    rw [hout.1, List.length_map, length_tagged]
  have hfrom : ∀ k, b ≤ k → k ≤ e → ∃ i, b ≤ i ∧ i ≤ e ∧ rdItem T k = ⟨rd a i, (i : Int)⟩ := by
    intro k hk1 hk2
    obtain ⟨i, hi1, hi2, hi3⟩ := range_mem_of_perm ((tagged a).map (code a.length))
      (T.map (code a.length)) b e (by rw [List.length_map, length_tagged]; exact he)
      hperm hout k hk1 hk2
    rw [rd_map_code, rd_map_code] at hi3
    have := eq_of_code_eq _ _ _ (hval k) (valid_tagged a hn i) hi3
    rw [rdItem_tagged a i (by omega)] at this
    exact ⟨i, hi1, hi2, this⟩
  have hne : ∀ k1 k2, b ≤ k1 → k1 < k2 → k2 ≤ e →
      code a.length (rdItem T k1) ≠ code a.length (rdItem T k2) := by
    intro k1 k2 h1 h12 h2 h
    have hnd : (T.map (code a.length)).Nodup := hperm.nodup_iff.2 (nodup_codes_tagged a hn)
    have := (List.pairwise_iff_getElem.1 hnd) k1 k2 (by omega) (by omega) h12
    apply this
    have e1 := rd_map_code a.length T k1
    have e2 := rd_map_code a.length T k2
    rw [rd_of_lt _ (by omega)] at e1
    rw [rd_of_lt _ (by omega)] at e2
    rw [e1, e2, h]
  refine ⟨?_, ?_, ?_⟩
  · intro k hk1 hk2
    obtain ⟨i, hi1, hi2, hi3⟩ := hfrom k hk1 hk2
    exact ⟨i, hi1, hi2, by rw [hi3], by rw [hi3]⟩
  · intro k1 k2 h1 h12 h2 hk
    have hle := hsorted k1 k2 h1 h12 h2
    rw [rd_map_code, rd_map_code] at hle
    have hp := (lex_of_code_le _ _ _ (hval k1) (hval k2) hle).2 hk
    rcases lt_or_eq_of_le hp with h | h
    · exact h
    · exfalso
      apply hne k1 k2 h1 h12 h2
      unfold code
      rw [hk, h]
  · intro k1 k2 h1 h12 h2 hp
    obtain ⟨i1, _, _, e1⟩ := hfrom k1 h1 (by omega)
    obtain ⟨i2, _, _, e2⟩ := hfrom k2 (by omega) h2
    apply hne k1 k2 h1 h12 h2
    rw [e1, e2] at hp ⊢
    simp only at hp
    have : i1 = i2 := by exact_mod_cast hp
    rw [this]

/-- Stability of `TimSort::merge`, on the merge of the tagged vector. -/
theorem merge_tagged (a : List Int) (l m r : Nat) (st : SortStats) (hlm : l ≤ m)
    (hmr : m < r) (hr : r < a.length) (h1 : SortedOn a l m) (h2 : SortedOn a (m + 1) r) :
    (merge (tagged a) l m r).map (fun x => x.key) = (TimSort.merge a l m r st).1 ∧
    (∀ k, l ≤ k → k ≤ r → ∃ i, l ≤ i ∧ i ≤ r ∧
      (rdItem (merge (tagged a) l m r) k).originalPos = (i : Int) ∧
      (rdItem (merge (tagged a) l m r) k).key = rd a i) ∧
    (∀ k1 k2, l ≤ k1 → k1 < k2 → k2 ≤ r →
      (rdItem (merge (tagged a) l m r) k1).key = (rdItem (merge (tagged a) l m r) k2).key →
      (rdItem (merge (tagged a) l m r) k1).originalPos
        < (rdItem (merge (tagged a) l m r) k2).originalPos) ∧
    (∀ k1 k2, l ≤ k1 → k1 < k2 → k2 ≤ r →
      (rdItem (merge (tagged a) l m r) k1).originalPos
        ≠ (rdItem (merge (tagged a) l m r) k2).originalPos) := by
  have hn : 1 ≤ a.length := by omega
  have hv := valid_tagged a hn
  have hsim := merge_sim a.length (tagged a) l m r st hv (by
    intro i j a1 a2 a3 a4 _
    rw [rdItem_tagged a i (by omega), rdItem_tagged a j (by omega)]
    simp only
    exact_mod_cast (show i ≤ j by omega))
  have hl : ((tagged a).map (code a.length)).length = a.length := by
    rw [List.length_map, length_tagged]
  obtain ⟨q1, q2, q3⟩ := TimSort.merge_spec ((tagged a).map (code a.length)) l m r st hlm hmr
    (by rw [hl]; exact hr) (sortedOn_codes_tagged a l m (by omega) h1)
    (sortedOn_codes_tagged a (m + 1) r hr h2)
  rw [hsim] at q1 q2 q3
  obtain ⟨_, g2⟩ := merge_inv (fun _ v => ValidItem a.length v) (tagged a) l m r hlm hmr
    (fun x y _ _ _ _ => hv y) hv
  have herase := merge_erase (tagged a) l m r st
  rw [map_key_tagged] at herase
  exact ⟨herase.symm, stable_of_codes a _ l r (by omega) hr g2 q1 q2 q3⟩

/-- Stability of `IntroSort::insertionSort`, on the insertion sort of the tagged vector. -/
theorem insertionSort_tagged (a : List Int) (b e : Nat) (st : SortStats) (hbe : b ≤ e)
    (he : e < a.length) :
    (insertionSort (tagged a) b e).map (fun x => x.key)
      = (IntroSort.insertionSort a b e st).1 ∧
    (∀ k, b ≤ k → k ≤ e → ∃ i, b ≤ i ∧ i ≤ e ∧
      (rdItem (insertionSort (tagged a) b e) k).originalPos = (i : Int) ∧
      (rdItem (insertionSort (tagged a) b e) k).key = rd a i) ∧
    (∀ k1 k2, b ≤ k1 → k1 < k2 → k2 ≤ e →
      (rdItem (insertionSort (tagged a) b e) k1).key
        = (rdItem (insertionSort (tagged a) b e) k2).key →
      (rdItem (insertionSort (tagged a) b e) k1).originalPos
        < (rdItem (insertionSort (tagged a) b e) k2).originalPos) ∧
    (∀ k1 k2, b ≤ k1 → k1 < k2 → k2 ≤ e →
      (rdItem (insertionSort (tagged a) b e) k1).originalPos
        ≠ (rdItem (insertionSort (tagged a) b e) k2).originalPos) := by
  have hn : 1 ≤ a.length := by omega
  have hv := valid_tagged a hn
  obtain ⟨s1, _, s3, _, _⟩ := insertionSort_sim a.length (tagged a) b e st
    (by rw [length_tagged]; exact he) hv (by
      intro x _ hx2
      rw [rdItem_tagged a x (by omega)])
  have hl : ((tagged a).map (code a.length)).length = a.length := by
    rw [List.length_map, length_tagged]
  obtain ⟨q1, q2, q3⟩ := IntroSort.insertionSort_spec ((tagged a).map (code a.length)) b e st
    hbe (by rw [hl]; exact he)
  rw [← TimSort.insertionSort_eq, s1] at q1 q2 q3
  have herase := insertionSort_erase (tagged a) b e st
  rw [map_key_tagged] at herase
  exact ⟨herase.symm, stable_of_codes a _ b e hbe he s3 q1 q2 q3⟩

end TimSortWrapper


/-! ## The gapped array of library sort stays in order -/

namespace LibrarySort

theorem skipUp_spec (g : List Int) (high : Int) :
    ∀ (fuel : Nat) (x : Int), (high - x).toNat ≤ fuel →
      x ≤ skipUp g high fuel x ∧ (skipUp g high fuel x ≤ high ∨ skipUp g high fuel x = x) ∧
      (∀ y, x ≤ y → y < skipUp g high fuel x → rd g y.toNat = -1) ∧
      (skipUp g high fuel x < high → rd g (skipUp g high fuel x).toNat ≠ -1) := by
  intro fuel
  induction fuel with
  | zero =>
    intro x hf
    unfold skipUp
    exact ⟨le_refl _, Or.inr rfl, fun y h1 h2 => by omega, fun h => by omega⟩
  | succ fuel ih =>
    intro x hf
    unfold skipUp
    by_cases hc : x < high ∧ rd g x.toNat = -1
    · rw [if_pos hc]
      obtain ⟨i1, i2, i3, i4⟩ := ih (x + 1) (by omega)
      refine ⟨by omega, ?_, ?_, i4⟩
      · rcases i2 with h | h
        · exact Or.inl h
        · left; rw [h]; omega
      · intro y h1 h2
        by_cases e : y = x
        · rw [e]; exact hc.2
        · exact i3 y (by omega) h2
    · rw [if_neg hc]
      refine ⟨le_refl _, Or.inr rfl, fun y h1 h2 => by omega, ?_⟩
      intro h hr
      exact hc ⟨h, hr⟩

theorem skipDown_spec (g : List Int) (low : Int) :
    ∀ (fuel : Nat) (x : Int), (x - low).toNat ≤ fuel →
      skipDown g low fuel x ≤ x ∧ (low ≤ skipDown g low fuel x ∨ skipDown g low fuel x = x) ∧
      (∀ y, skipDown g low fuel x < y → y ≤ x → rd g y.toNat = -1) ∧
      (low < skipDown g low fuel x → rd g (skipDown g low fuel x).toNat ≠ -1) := by
  intro fuel
  induction fuel with
  | zero =>
    intro x hf
    unfold skipDown
    exact ⟨le_refl _, Or.inr rfl, fun y h1 h2 => by omega, fun h => by omega⟩
  | succ fuel ih =>
    intro x hf
    unfold skipDown
    by_cases hc : x > low ∧ rd g x.toNat = -1
    · rw [if_pos hc]
      obtain ⟨i1, i2, i3, i4⟩ := ih (x - 1) (by omega)
      refine ⟨by omega, ?_, ?_, i4⟩
      · rcases i2 with h | h
        · exact Or.inl h
        · left; rw [h]; omega
      · intro y h1 h2
        by_cases e : y = x
        · rw [e]; exact hc.2
        · exact i3 y h1 (by omega)
    · rw [if_neg hc]
      refine ⟨le_refl _, Or.inr rfl, fun y h1 h2 => by omega, ?_⟩
      intro h hr
      exact hc ⟨h, hr⟩

theorem gapSorted_int (g : List Int) (hg : GapSorted g) (y1 y2 : Int) (h0 : 0 ≤ y1)
    (h12 : y1 < y2) (h2 : y2 < (g.length : Int)) (r1 : rd g y1.toNat ≠ -1)
    (r2 : rd g y2.toNat ≠ -1) : rd g y1.toNat ≤ rd g y2.toNat :=
  hg y1.toNat y2.toNat (by omega) (by omega) r1 r2

theorem search_mid (low high mid0 mid1 mid : Int)
    (h0 : low ≤ mid0 ∧ mid0 ≤ high) (u1 : mid0 ≤ mid1) (u2 : mid1 ≤ high ∨ mid1 = mid0)
    (d1 : mid ≤ mid1) (d2 : low ≤ mid ∨ mid = mid1) :
    mid1 ≤ high ∧ low ≤ mid ∧ mid ≤ high := by
  omega

theorem search_up (low high mid low2 : Int) (fuel : Nat) (h0 : 0 ≤ low)
    (hlm : low ≤ mid) (hmh : mid ≤ high) (v1 : mid + 1 ≤ low2)
    (v2 : low2 ≤ high ∨ low2 = mid + 1) (hf : (high - low + 1).toNat ≤ fuel + 1) :
    0 ≤ low2 ∧ low2 ≤ high + 1 ∧ (high - low2 + 1).toNat ≤ fuel := by
  omega

theorem search_down (low high mid high2 : Int) (fuel n : Nat) (hh : high < (n : Int))
    (hlm : low ≤ mid) (hmh : mid ≤ high) (w1 : high2 ≤ mid - 1)
    (w2 : low ≤ high2 ∨ high2 = mid - 1) (hf : (high - low + 1).toNat ≤ fuel + 1) :
    high2 < (n : Int) ∧ low ≤ high2 + 1 ∧ (high2 - low + 1).toNat ≤ fuel := by
  omega

/-- Binary search of `findPosition`: every stored element left of the returned `low` is
smaller than the key and every stored element from `low` on is at least the key. -/
theorem searchLoop_spec (g : List Int) (key : Int) (hg : GapSorted g) :
    ∀ (fuel : Nat) (low high : Int) (st : SortStats), 0 ≤ low → high < (g.length : Int) →
      low ≤ high + 1 → (high - low + 1).toNat ≤ fuel →
      (∀ y : Int, 0 ≤ y → y < low → rd g y.toNat ≠ -1 → rd g y.toNat < key) →
      (∀ y : Int, high < y → y < (g.length : Int) → rd g y.toNat ≠ -1 → key ≤ rd g y.toNat) →
      0 ≤ (searchLoop g key fuel low high st).2.1 ∧
      (searchLoop g key fuel low high st).2.1 ≤ (g.length : Int) ∧
      (∀ y : Int, 0 ≤ y → y < (searchLoop g key fuel low high st).2.1 →
        rd g y.toNat ≠ -1 → rd g y.toNat < key) ∧
      (∀ y : Int, (searchLoop g key fuel low high st).2.1 ≤ y → y < (g.length : Int) →
        rd g y.toNat ≠ -1 → key ≤ rd g y.toNat) := by
  intro fuel
  induction fuel with
  | zero =>
    intro low high st h0 hh hlh hf hA hB
    have e : high < low := by omega
    have e2 : low ≤ (g.length : Int) := by omega
    exact ⟨h0, e2, hA, fun y h1 h2 => hB y (lt_of_lt_of_le e h1) h2⟩
  | succ fuel ih =>
    intro low high st h0 hh hlh hf hA hB
    rw [searchLoop]
    by_cases hc : low ≤ high
    swap
    · have e : high < low := not_le.1 hc
      have e2 : low ≤ (g.length : Int) := by omega
      rw [if_neg hc]
      exact ⟨h0, e2, hA, fun y h1 h2 => hB y (lt_of_lt_of_le e h1) h2⟩
    rw [if_pos hc]
    dsimp only
    have hmid0 : low ≤ low + (high - low) / 2 ∧ low + (high - low) / 2 ≤ high := by omega
    have hf1 : (high - (low + (high - low) / 2)).toNat ≤ g.length := by omega
    have hlen : low ≤ (g.length : Int) := by omega
    obtain ⟨u1, u2, u3, u4⟩ := skipUp_spec g high g.length (low + (high - low) / 2) hf1
    generalize low + (high - low) / 2 = mid0 at u1 u2 u3 u4 hmid0 hf1 ⊢
    generalize skipUp g high g.length mid0 = mid1 at u1 u2 u3 u4 ⊢
    have hf2 : (mid1 - low).toNat ≤ g.length := by
      rcases u2 with h | h <;> omega
    obtain ⟨d1, d2, d3, d4⟩ := skipDown_spec g low g.length mid1 hf2
    generalize skipDown g low g.length mid1 = mid at d1 d2 d3 d4 ⊢
    obtain ⟨hm1, hm2, hm3⟩ := search_mid low high mid0 mid1 mid hmid0 u1 u2 d1 d2
    have hmlen : mid < (g.length : Int) := lt_of_le_of_lt hm3 hh
    have hm0 : 0 ≤ mid := le_trans h0 hm2
    by_cases hs : rd g mid.toNat = -1
    · rw [if_pos hs]
      dsimp only
      have hmid1 : mid1 = high := by
        by_contra hne
        have h1 : rd g mid1.toNat ≠ -1 := u4 (lt_of_le_of_ne hm1 hne)
        by_cases e : mid = mid1
        · rw [e] at hs; exact h1 hs
        · exact h1 (d3 mid1 (lt_of_le_of_ne d1 e) (le_refl _))
      have hmid : mid = low := by
        by_contra hne
        exact d4 (lt_of_le_of_ne hm2 (fun h => hne h.symm)) hs
      refine ⟨h0, hlen, hA, ?_⟩
      intro y h1 h2 hr
      by_cases e : y ≤ high
      · exfalso
        apply hr
        by_cases e2 : y = mid
        · rw [e2]; exact hs
        · have e3 : mid < y := by
            rw [hmid]; exact lt_of_le_of_ne h1 (fun h => e2 (by rw [hmid]; exact h.symm))
          exact d3 y e3 (by rw [hmid1]; exact e)
      · exact hB y (not_le.1 e) h2 hr
    · rw [if_neg hs]
      by_cases hlt : rd g mid.toNat < key
      · rw [if_pos hlt]
        have hf3 : (high - (mid + 1)).toNat ≤ g.length := by
          clear hA hB u3 u4 d3 d4 ih hg
          omega
        obtain ⟨v1, v2, v3, v4⟩ := skipUp_spec g high g.length (mid + 1) hf3
        generalize skipUp g high g.length (mid + 1) = low2 at v1 v2 v3 v4 ⊢
        obtain ⟨a1, a2, a3⟩ := search_up low high mid low2 fuel h0 hm2 hm3 v1 v2 hf
        have hA2 : ∀ y : Int, 0 ≤ y → y < low2 → rd g y.toNat ≠ -1 → rd g y.toNat < key := by
          intro y h1 h2 hr
          by_cases e1 : y < mid
          · exact lt_of_le_of_lt (gapSorted_int g hg y mid h1 e1 hmlen hr hs) hlt
          · by_cases e2 : y = mid
            · rw [e2]; exact hlt
            · have e3 : mid + 1 ≤ y :=
                Int.add_one_le_of_lt (lt_of_le_of_ne (not_lt.1 e1) (fun h => e2 h.symm))
              exact absurd (v3 y e3 h2) hr
        exact ih low2 high _ a1 hh a2 a3 hA2 hB
      · rw [if_neg hlt]
        have hf4 : (mid - 1 - low).toNat ≤ g.length := by
          clear hA hB u3 u4 d3 d4 ih hg
          omega
        obtain ⟨w1, w2, w3, w4⟩ := skipDown_spec g low g.length (mid - 1) hf4
        generalize skipDown g low g.length (mid - 1) = high2 at w1 w2 w3 w4 ⊢
        obtain ⟨a1, a2, a3⟩ := search_down low high mid high2 fuel g.length hh hm2 hm3 w1 w2 hf
        have hB2 : ∀ y : Int, high2 < y → y < (g.length : Int) → rd g y.toNat ≠ -1 →
            key ≤ rd g y.toNat := by
          intro y h1 h2 hr
          by_cases e1 : mid < y
          · exact le_trans (not_lt.1 hlt) (gapSorted_int g hg mid y hm0 e1 h2 hs hr)
          · by_cases e2 : y = mid
            · rw [e2]; exact not_lt.1 hlt
            · have e3 : y ≤ mid - 1 :=
                Int.le_sub_one_of_lt (lt_of_le_of_ne (not_lt.1 e1) e2)
              exact absurd (w3 y h1 e3) hr
        exact ih low high2 _ h0 a1 a2 a3 hA hB2

theorem scanPos_stay (g : List Int) (key : Int) :
    ∀ (fuel pos : Nat) (st : SortStats),
      (pos < g.length → rd g pos ≠ -1 → key ≤ rd g pos) →
      (scanPos g key fuel pos st).1 = pos := by
  intro fuel pos st h
  cases fuel with
  | zero => rfl
  | succ f =>
    unfold scanPos
    rw [if_neg]
    intro hc
    have := h hc.1 hc.2.1
    omega

theorem findPosition_spec (g : List Int) (key : Int) (st : SortStats) (hg : GapSorted g) :
    (findPosition g key st).1 ≤ g.length ∧
    (∀ x, x < (findPosition g key st).1 → rd g x ≠ -1 → rd g x < key) ∧
    (∀ x, (findPosition g key st).1 ≤ x → x < g.length → rd g x ≠ -1 → key ≤ rd g x) := by
  obtain ⟨s1, s2, s3, s4⟩ := searchLoop_spec g key hg (g.length + 1) 0 ((g.length : Int) - 1) st
    (le_refl _) (by omega) (by omega) (by omega) (fun y h1 h2 => by omega)
    (fun y h1 h2 => by omega)
  have hpos : (findPosition g key st).1
      = (searchLoop g key (g.length + 1) 0 ((g.length : Int) - 1) st).2.1.toNat := by
    unfold findPosition
    dsimp only
    split
    · rfl
    · apply scanPos_stay
      intro h1 h2
      have := s4 ((searchLoop g key (g.length + 1) 0 ((g.length : Int) - 1) st).2.1.toNat : Int)
        (by omega) (by omega)
      simp only [Int.toNat_ofNat] at this
      exact this h2
  rw [hpos]
  generalize (searchLoop g key (g.length + 1) 0 ((g.length : Int) - 1) st).2.1 = low
    at s1 s2 s3 s4
  refine ⟨by omega, ?_, ?_⟩
  · intro x hx hr
    have := s3 (x : Int) (by omega) (by omega)
    simp only [Int.toNat_ofNat] at this
    exact this hr
  · intro x hx1 hx2 hr
    have := s4 (x : Int) (by omega) (by omega)
    simp only [Int.toNat_ofNat] at this
    exact this hr

end LibrarySort


namespace LibrarySort

theorem nextEmptyFrom_ge (g : List Int) :
    ∀ (fuel x : Nat), x ≤ nextEmptyFrom g fuel x := by
  intro fuel
  induction fuel with
  | zero => intro x; exact le_refl _
  | succ fuel ih =>
    intro x
    unfold nextEmptyFrom
    split
    · have := ih (x + 1); omega
    · exact le_refl _

/-- The shifting loop of `makeRoom` moves the slots `pos .. ne - 1` one place to the right
and changes nothing else. -/
theorem shift_spec (g : List Int) (pos ne : Nat) (st : SortStats) (hne : ne < g.length) :
    ((List.range' (pos + 1) (ne - pos)).reverse.foldl
      (fun (s : SortState) i => (s.1.set i (rd s.1 (i - 1)), s.2.addAsg 1)) (g, st)).1.length
      = g.length ∧
    (∀ x, pos < x → x ≤ ne →
      rd ((List.range' (pos + 1) (ne - pos)).reverse.foldl
        (fun (s : SortState) i => (s.1.set i (rd s.1 (i - 1)), s.2.addAsg 1)) (g, st)).1 x
        = rd g (x - 1)) ∧
    (∀ x, (x ≤ pos ∨ ne < x) →
      rd ((List.range' (pos + 1) (ne - pos)).reverse.foldl
        (fun (s : SortState) i => (s.1.set i (rd s.1 (i - 1)), s.2.addAsg 1)) (g, st)).1 x
        = rd g x) := by
  have key := foldl_range'_rev_inv
    (fun i (s : SortState) => s.1.length = g.length ∧
      (∀ x, i ≤ x → pos < x → x ≤ ne → rd s.1 x = rd g (x - 1)) ∧
      (∀ x, (x < i ∨ ne < x) → rd s.1 x = rd g x))
    (fun (s : SortState) i => (s.1.set i (rd s.1 (i - 1)), s.2.addAsg 1))
    (pos + 1) (ne - pos) (g, st)
    ⟨rfl, fun x h1 h2 h3 => by omega, fun _ _ => rfl⟩
    (by
      intro i s h1 h2 ⟨p1, p2, p3⟩
      refine ⟨by simpa using p1, ?_, ?_⟩
      · intro x hx1 hx2 hx3
        by_cases e : x = i
        · subst e
          rw [rd_set_eq _ _ (by omega)]
          exact p3 (x - 1) (Or.inl (by omega))
        · rw [rd_set_ne _ _ (fun h => e h.symm)]
          exact p2 x (by omega) hx2 hx3
      · intro x hx
        rw [rd_set_ne _ _ (by omega)]
        exact p3 x (by omega))
  obtain ⟨k1, k2, k3⟩ := key
  exact ⟨k1, fun x h1 h2 => k2 x (by omega) h1 h2, fun x hx => k3 x (by omega)⟩

/-- Effect of `makeRoom` followed by the write of the key: the key stands at `pos`, a block
of slots right of `pos` has moved one place to the right, and nothing else has changed. -/
theorem makeRoom_spec (g : List Int) (pos : Nat) (st : SortStats) (m : SortState)
    (h : makeRoom g pos st = some m) :
    pos < g.length ∧ m.1.length = g.length ∧
    ∃ ne, pos ≤ ne ∧ ne < g.length ∧
      (∀ x, pos < x → x ≤ ne → rd m.1 x = rd g (x - 1)) ∧
      (∀ x, (x < pos ∨ ne < x) → rd m.1 x = rd g x) := by
  unfold makeRoom at h
  by_cases hc : pos < g.length ∧ rd g pos = -1
  · rw [if_pos hc] at h
    rw [Option.some.injEq] at h
    subst h
    exact ⟨hc.1, rfl, pos, le_refl _, hc.1, fun x h1 h2 => by omega, fun _ _ => rfl⟩
  · rw [if_neg hc] at h
    dsimp only at h
    by_cases hp : pos < g.length
    swap
    · rw [if_neg hp] at h; exact absurd h (by simp)
    rw [if_pos hp] at h
    rw [Option.some.injEq] at h
    have hge := nextEmptyFrom_ge g g.length pos
    generalize nextEmptyFrom g g.length pos = found at h hge
    generalize hne : (if found ≥ g.length then g.length - 1 else found) = ne at h
    have hne1 : pos ≤ ne := by rw [← hne]; split <;> omega
    have hne2 : ne < g.length := by rw [← hne]; split <;> omega
    obtain ⟨s1, s2, s3⟩ := shift_spec g pos ne st hne2
    generalize (List.range' (pos + 1) (ne - pos)).reverse.foldl
      (fun (s : SortState) i => (s.1.set i (rd s.1 (i - 1)), s.2.addAsg 1)) (g, st) = s
      at h s1 s2 s3
    subst h
    refine ⟨hp, by simpa using s1, ne, hne1, hne2, ?_, ?_⟩
    · intro x h1 h2
      rw [rd_set_ne _ _ (by omega)]
      exact s2 x h1 h2
    · intro x hx
      rw [rd_set_ne _ _ (by omega)]
      exact s3 x (by omega)

/-- Writing the key at the position found, after `makeRoom`, keeps the stored elements in
order. -/
theorem insert_sorted (g : List Int) (key : Int) (pos : Nat) (m : List Int)
    (hg : GapSorted g) (hp : pos < g.length) (hl : m.length = g.length)
    (hA : ∀ x, x < pos → rd g x ≠ -1 → rd g x < key)
    (hB : ∀ x, pos ≤ x → x < g.length → rd g x ≠ -1 → key ≤ rd g x)
    (ne : Nat) (h1 : pos ≤ ne) (h2 : ne < g.length)
    (hs : ∀ x, pos < x → x ≤ ne → rd m x = rd g (x - 1))
    (ho : ∀ x, (x < pos ∨ ne < x) → rd m x = rd g x) :
    GapSorted (m.set pos key) := by
  have hval : ∀ x, x < g.length → x ≠ pos →
      ∃ y, y < g.length ∧ rd (m.set pos key) x = rd g y ∧
        (x < pos → y = x) ∧ (pos < x → pos ≤ y ∧ (x ≤ ne → y = x - 1) ∧ (ne < x → y = x)) := by
    intro x hx hxp
    rw [rd_set_ne _ _ (fun h => hxp h.symm)]
    by_cases c1 : x < pos
    · exact ⟨x, hx, ho x (Or.inl c1), fun _ => rfl, fun h => by omega⟩
    · by_cases c2 : x ≤ ne
      · exact ⟨x - 1, by omega, hs x (by omega) c2, fun h => by omega,
          fun _ => ⟨by omega, fun _ => rfl, fun h => by omega⟩⟩
      · exact ⟨x, hx, ho x (Or.inr (by omega)), fun h => by omega,
          fun _ => ⟨by omega, fun h => by omega, fun _ => rfl⟩⟩
  intro i j hij hj ri rj
  rw [List.length_set, hl] at hj
  by_cases ei : i = pos
  · subst ei
    rw [rd_set_eq _ _ (by omega)]
    obtain ⟨y, hy, e, _, q⟩ := hval j hj (by omega)
    rw [e] at rj ⊢
    exact hB y (q hij).1 hy rj
  · by_cases ej : j = pos
    · subst ej
      rw [rd_set_eq _ _ (by omega)]
      obtain ⟨y, hy, e, q, _⟩ := hval i (by omega) ei
      rw [e] at ri ⊢
      have := q hij
      subst this
      exact le_of_lt (hA y hij ri)
    · obtain ⟨y1, hy1, e1, q1, q1'⟩ := hval i (by omega) ei
      obtain ⟨y2, hy2, e2, q2, q2'⟩ := hval j hj ej
      rw [e1] at ri ⊢
      rw [e2] at rj ⊢
      apply hg y1 y2 _ hy2 ri rj
      by_cases c1 : i < pos
      · have := q1 c1
        by_cases c2 : j < pos
        · have := q2 c2; omega
        · have := q2' (by omega); omega
      · have a := q1' (by omega)
        have b := q2' (by omega)
        by_cases c3 : i ≤ ne
        · have := a.2.1 c3
          by_cases c4 : j ≤ ne
          · have := b.2.1 c4; omega
          · have := b.2.2 (by omega); omega
        · have := a.2.2 (by omega)
          have := b.2.2 (by omega)
          omega

theorem sorted_filter (g : List Int) (hg : GapSorted g) :
    (g.filter (fun x => decide (x ≠ -1))).Sorted (fun x y => x ≤ y) := by
  have h1 : g.Pairwise (fun x y => x ≠ -1 → y ≠ -1 → x ≤ y) := by
    apply List.pairwise_iff_getElem.2
    intro i j hi hj hij
    have := hg i j hij hj
    rw [rd_of_lt g hi, rd_of_lt g hj] at this
    exact this
  have h2 := h1.filter (fun x => decide (x ≠ -1))
  refine List.Pairwise.imp_of_mem ?_ h2
  intro x y hx hy hxy
  rw [List.mem_filter] at hx hy
  exact hxy (by simpa using hx.2) (by simpa using hy.2)

/-- The redistribution done by `rebalance` keeps the stored elements in order. -/
theorem rebalance_sorted (g : List Int) (elements : Nat) (st : SortStats) (r : SortState)
    (hg : GapSorted g) (h : rebalance g elements st = some r) : GapSorted r.1 := by
  unfold rebalance at h
  dsimp only at h
  by_cases hc : 0 < elements ∧ elements ≤ (g.filter (fun x => decide (x ≠ -1))).length
  swap
  · rw [if_neg hc] at h; exact absurd h (by simp)
  rw [if_pos hc, Option.some.injEq] at h
  have hs := sorted_filter g hg
  generalize g.filter (fun x => decide (x ≠ -1)) = temp at h hc hs
  have key := foldl_range'_inv
    (fun k (s : SortState) => s.1.length = elements * 2 * 2 ∧
      ∀ x, x < elements * 2 * 2 → rd s.1 x ≠ -1 →
        ∃ i, i < k ∧ x = i * (elements * 2 * 2 / elements) ∧ rd s.1 x = rd temp i)
    (fun (s : SortState) i =>
      (s.1.set (i * (elements * 2 * 2 / elements)) (rd temp i), s.2.addAsg 1))
    0 elements (List.replicate (elements * 2 * 2) (-1), st.setMem (elements * 2 * 2 * sizeofInt))
    ⟨by simp, by
      intro x hx hr
      exfalso; apply hr
      rw [rd_of_lt _ (by simpa using hx)]
      simp⟩
    (by
      intro k s _ hk ⟨p1, p2⟩
      refine ⟨by simpa using p1, ?_⟩
      intro x hx hr
      by_cases e : x = k * (elements * 2 * 2 / elements)
      · refine ⟨k, by omega, e, ?_⟩
        rw [e, rd_set_eq _ _ (by rw [p1, ← e]; exact hx)]
      · rw [rd_set_ne _ _ (fun h => e h.symm)] at hr ⊢
        obtain ⟨i, hi1, hi2, hi3⟩ := p2 x hx hr
        exact ⟨i, by omega, hi2, hi3⟩)
  rw [h] at key
  obtain ⟨k1, k2⟩ := key
  intro x y hxy hy rx ry
  rw [k1] at hy
  obtain ⟨i, hi1, hi2, hi3⟩ := k2 x (by omega) rx
  obtain ⟨j, hj1, hj2, hj3⟩ := k2 y hy ry
  rw [hi3, hj3]
  have hij : i < j := by
    by_contra hcon
    have : j * (elements * 2 * 2 / elements) ≤ i * (elements * 2 * 2 / elements) :=
      Nat.mul_le_mul_right _ (by omega)
    omega
  have hi' : i < temp.length := by omega
  have hj' : j < temp.length := by omega
  rw [rd_of_lt temp hi', rd_of_lt temp hj']
  exact (List.pairwise_iff_getElem.1 hs) i j hi' hj' hij

/-- One insertion step that stays in range keeps the stored elements in order. -/
theorem insertStep_sorted (arr : List Int) (s s' : InsertState) (i : Nat)
    (hg : GapSorted s.1) (h : insertStep arr s i = some s') : GapSorted s'.1 := by
  have hb : ∀ (g : List Int) (cap el : Nat) (st : SortStats), GapSorted g →
      ((makeRoom g (findPosition g (rd arr i) st).1
          (findPosition g (rd arr i) st).2).bind (fun m =>
        if (findPosition g (rd arr i) st).1 < m.1.length then
          some ((m.1.set (findPosition g (rd arr i) st).1 (rd arr i), cap,
            el + 1, m.2.addAsg 1) : InsertState)
        else none)) = some s' → GapSorted s'.1 := by
    intro g cap el st hbg hb
    obtain ⟨f1, f2, f3⟩ := findPosition_spec g (rd arr i) st hbg
    generalize findPosition g (rd arr i) st = f at hb f1 f2 f3
    cases hm : makeRoom g f.1 f.2 with
    | none => rw [hm] at hb; exact absurd hb (by simp)
    | some m =>
      rw [hm] at hb
      simp only [Option.some_bind] at hb
      obtain ⟨m1, m2, ne, m3, m4, m5, m6⟩ := makeRoom_spec g f.1 f.2 m hm
      rw [if_pos (by omega), Option.some.injEq] at hb
      rw [← hb]
      exact insert_sorted g (rd arr i) f.1 m.1 hbg m1 m2 f2 f3 ne m3 m4 m5 m6
  unfold insertStep at h
  dsimp only at h
  by_cases hc : s.2.2.1 ≥ s.2.1 / 2
  · rw [if_pos hc] at h
    cases hr : rebalance s.1 s.2.2.1 s.2.2.2 with
    | none => rw [hr] at h; exact absurd h (by simp)
    | some r =>
      rw [hr] at h
      simp only [Option.map_some', Option.some_bind] at h
      exact hb r.1 r.1.length s.2.2.1 r.2 (rebalance_sorted s.1 s.2.2.1 s.2.2.2 r hg hr) h
  · rw [if_neg hc] at h
    simp only [Option.some_bind] at h
    exact hb s.1 s.2.1 s.2.2.1 s.2.2.2 hg h

theorem foldlM_inv {σ : Type} (P : σ → Prop) (f : σ → Nat → Option σ)
    (hstep : ∀ s a s', P s → f s a = some s' → P s') :
    ∀ (l : List Nat) (s s' : σ), P s → l.foldlM f s = some s' → P s' := by
  intro l
  induction l with
  | nil =>
    intro s s' hp h
    simp only [List.foldlM, pure, Option.some.injEq] at h
    rw [← h]; exact hp
  | cons a l ih =>
    intro s s' hp h
    rw [List.foldlM_cons] at h
    cases hf : f s a with
    | none => rw [hf] at h; exact absurd h (by simp)
    | some s1 =>
      rw [hf] at h
      exact ih s1 s' (hstep s a s1 hp hf) h

/-- Every state that the insertion loop of `sort` reaches without an out-of-range write has
its stored elements in order. -/
theorem gapped_sorted (arr : List Int) (k : Nat) (s : InsertState)
    (h : (List.range' 1 k).foldlM (insertStep arr)
      ((List.replicate (arr.length * 2) (-1 : Int)).set 0 (rd arr 0), arr.length * 2, 1,
        (SortStats.zero.addMem ((List.replicate (arr.length * 2) (-1 : Int)).length
          * sizeofInt)).addAsg 1) = some s) :
    GapSorted s.1 := by
  refine foldlM_inv (fun s : InsertState => GapSorted s.1) (insertStep arr)
    (fun s a s' hp hf => insertStep_sorted arr s s' a hp hf) _ _ s ?_ h
  intro i j hij hj ri rj
  rw [List.length_set] at hj
  exfalso
  apply rj
  rw [rd_set_ne _ _ (by omega), rd_of_lt _ (by simpa using hj)]
  simp

end LibrarySort


theorem stateAfter_sorted (arr : List Int) (k : Nat) (s : LibrarySort.InsertState)
    (h : LibrarySort.stateAfter arr k = some s) :
    (s.1.filter (fun x => decide (x ≠ -1))).Sorted (fun x y => x ≤ y) :=
  LibrarySort.sorted_filter s.1 (LibrarySort.gapped_sorted arr k s h)

theorem sort_eq_stateAfter (arr : List Int) (h : arr ≠ []) :
    LibrarySort.sort arr = (LibrarySort.stateAfter arr (arr.length - 1)).map (fun s =>
      ((LibrarySort.compact s.1 arr s.2.2.2).1, (LibrarySort.compact s.1 arr s.2.2.2).2.2)) := by
  unfold LibrarySort.sort LibrarySort.stateAfter
  rw [if_neg (by simpa using h)]

/-! ## The counter as a commutative monoid -/

theorem SortStats.wrapLongLong_add_left (x y : Int) :
    SortStats.wrapLongLong (SortStats.wrapLongLong x + y) = SortStats.wrapLongLong (x + y) := by
  unfold SortStats.wrapLongLong
  omega

theorem SortStats.wrapLongLong_add_right (x y : Int) :
    SortStats.wrapLongLong (x + SortStats.wrapLongLong y) = SortStats.wrapLongLong (x + y) := by
  unfold SortStats.wrapLongLong
  omega

theorem SortStats.merge_assoc (a b c : SortStats) :
    (a.merge b).merge c = a.merge (b.merge c) := by
  obtain ⟨a1, a2, a3⟩ := a
  obtain ⟨b1, b2, b3⟩ := b
  obtain ⟨c1, c2, c3⟩ := c
  simp only [SortStats.merge, SortStats.mk.injEq]
  refine ⟨?_, ?_, ?_⟩
  · rw [SortStats.wrapLongLong_add_left, SortStats.wrapLongLong_add_right, add_assoc]
  · rw [SortStats.wrapLongLong_add_left, SortStats.wrapLongLong_add_right, add_assoc]
  · split_ifs <;> omega

theorem SortStats.merge_comm (a b : SortStats) : a.merge b = b.merge a := by
  obtain ⟨a1, a2, a3⟩ := a
  obtain ⟨b1, b2, b3⟩ := b
  simp only [SortStats.merge, SortStats.mk.injEq]
  refine ⟨by rw [add_comm], by rw [add_comm], ?_⟩
  split_ifs <;> omega

theorem SortStats.merge_zero (a : SortStats) (ha : a.InRange) :
    a.merge SortStats.zero = a ∧ SortStats.zero.merge a = a := by
  obtain ⟨a1, a2, a3⟩ := a
  obtain ⟨h1, h2, h3, h4, _⟩ := ha
  simp only [SortStats.merge, SortStats.zero, SortStats.mk.injEq, add_zero, zero_add]
  refine ⟨⟨SortStats.wrapLongLong_of_inRange _ h1 h2, SortStats.wrapLongLong_of_inRange _ h3 h4,
    ?_⟩, SortStats.wrapLongLong_of_inRange _ h1 h2, SortStats.wrapLongLong_of_inRange _ h3 h4,
    ?_⟩
  · split_ifs <;> omega
  · split_ifs <;> omega

/-- C38: `SortStats::merge` is a commutative-monoid operation on counters.  On the values of
the counter type (`long long` counts, 64-bit `size_t` memory figure) merging gives a value
of the type again, is associative, gives the same counter in either order, and merging with
the zero counter (the default-constructed counter, or any counter after `reset()`) in either
position returns the other counter unchanged.  The counts are added in 64-bit arithmetic, so
the laws hold whether or not a sum leaves the `long long` range; when no sum does, every
count is the exact sum. -/
theorem sortStats_merge_commutative_monoid :
    (∀ a b : SortStats, a.InRange → b.InRange → (a.merge b).InRange) ∧
    (∀ a b c : SortStats, a.InRange → b.InRange → c.InRange →
      (a.merge b).merge c = a.merge (b.merge c)) ∧
    (∀ a b : SortStats, a.InRange → b.InRange → a.merge b = b.merge a) ∧
    (∀ a : SortStats, a.InRange → a.merge SortStats.zero = a ∧ SortStats.zero.merge a = a) ∧
    (∀ a s : SortStats, a.InRange → a.merge s.reset = a ∧ s.reset.merge a = a) ∧
    SortStats.zero.InRange ∧
    (∀ a b : SortStats,
      SortStats.LLONG_MIN ≤ a.comparisons + b.comparisons →
      a.comparisons + b.comparisons ≤ SortStats.LLONG_MAX →
      SortStats.LLONG_MIN ≤ a.assignments + b.assignments →
      a.assignments + b.assignments ≤ SortStats.LLONG_MAX →
      a.merge b = ⟨a.comparisons + b.comparisons, a.assignments + b.assignments,
        max a.memoryUsage b.memoryUsage⟩) := by
  refine ⟨SortStats.merge_inRange, fun a b c _ _ _ => SortStats.merge_assoc a b c,
    fun a b _ _ => SortStats.merge_comm a b, SortStats.merge_zero,
    fun a s ha => SortStats.merge_zero a ha, ?_, ?_⟩
  · unfold SortStats.InRange SortStats.zero SortStats.LLONG_MIN SortStats.LLONG_MAX
    decide
  · intro a b h1 h2 h3 h4
    have hm := SortStats.merge_memory a b
    obtain ⟨a1, a2, a3⟩ := a
    obtain ⟨b1, b2, b3⟩ := b
    simp only [SortStats.merge, SortStats.mk.injEq] at hm ⊢
    exact ⟨SortStats.wrapLongLong_of_inRange _ h1 h2,
      SortStats.wrapLongLong_of_inRange _ h3 h4, hm⟩

/-- Instance of C38 at the edge of the range: with `a = (LLONG_MAX, 3, 8)`, `b = (1, 4, 16)`
and `c = (-1, 5, 4)` the sum `a + b` leaves the range and `b + c` does not; both groupings
give `(LLONG_MAX, 12, 16)`. -/
theorem sortStats_merge_commutative_monoid_witness :
    (SortStats.merge (SortStats.merge ⟨SortStats.LLONG_MAX, 3, 8⟩ ⟨1, 4, 16⟩) ⟨-1, 5, 4⟩)
      = ⟨SortStats.LLONG_MAX, 12, 16⟩ ∧
    (SortStats.merge ⟨SortStats.LLONG_MAX, 3, 8⟩ (SortStats.merge ⟨1, 4, 16⟩ ⟨-1, 5, 4⟩))
      = ⟨SortStats.LLONG_MAX, 12, 16⟩ ∧
    (SortStats.merge (SortStats.merge ⟨SortStats.LLONG_MAX, 3, 8⟩ ⟨1, 4, 16⟩) ⟨-1, 5, 4⟩)
      = SortStats.merge ⟨SortStats.LLONG_MAX, 3, 8⟩ (SortStats.merge ⟨1, 4, 16⟩ ⟨-1, 5, 4⟩) :=
  ⟨by decide, by decide,
   sortStats_merge_commutative_monoid.2.1 ⟨SortStats.LLONG_MAX, 3, 8⟩ ⟨1, 4, 16⟩ ⟨-1, 5, 4⟩
     (by unfold SortStats.InRange; decide) (by unfold SortStats.InRange; decide)
     (by unfold SortStats.InRange; decide)⟩

/-! ## The run length of `calcMinRun` and the number of runs -/

namespace TimSort

theorem or_and_one_zero (r n : Nat) (hr : r ≤ 1) :
    (r ||| (n &&& 1) = 0 ↔ r = 0 ∧ n % 2 = 0) := by
  have h1 : n &&& 1 = n % 2 := Nat.and_one_is_mod n
  rw [h1]
  have h2 : n % 2 < 2 := Nat.mod_lt _ (by omega)
  interval_cases r <;> interval_cases (n % 2) <;> decide

theorem mod_two_pow_succ (n k : Nat) :
    (n % 2 ^ (k + 1) = 0 ↔ n % 2 = 0 ∧ (n / 2) % 2 ^ k = 0) := by
  have e : 2 ^ (k + 1) = 2 * 2 ^ k := by rw [pow_succ]; ring
  rw [e, Nat.mod_mul]
  have h2 : n % 2 < 2 := Nat.mod_lt _ (by omega)
  constructor
  · intro h
    have h3 : n % 2 = 0 := by omega
    refine ⟨h3, ?_⟩
    rw [h3] at h
    omega
  · rintro ⟨h3, h4⟩
    rw [h3, h4]

/-- The loop of `calcMinRun` after its `k` shifts: `n` is the original `n` divided by `2 ^ k`,
and `r` is `0` exactly when it was `0` before and no `1` bit was shifted out. -/
theorem calcMinRunLoop_shifts :
    ∀ (fuel n r : Nat), n ≤ fuel → r ≤ 1 →
      (calcMinRunLoop fuel n r).1 = n / 2 ^ calcMinRunShifts fuel n ∧
      (calcMinRunLoop fuel n r).1 < 32 ∧
      (calcMinRunLoop fuel n r).2 ≤ 1 ∧
      ((calcMinRunLoop fuel n r).2 = 0 ↔ r = 0 ∧ n % 2 ^ calcMinRunShifts fuel n = 0) ∧
      (32 ≤ n → 1 ≤ calcMinRunShifts fuel n ∧ 16 ≤ (calcMinRunLoop fuel n r).1) := by
  intro fuel
  induction fuel with
  | zero =>
    intro n r h1 h2
    have hn : n = 0 := by omega
    subst hn
    simp [calcMinRunLoop, calcMinRunShifts, h2]
  | succ fuel ih =>
    intro n r h1 h2
    unfold calcMinRunLoop calcMinRunShifts
    by_cases hc : MIN_RUN ≤ n
    · rw [if_pos hc, if_pos hc]
      have h32 : 32 ≤ n := hc
      have hd : n >>> 1 = n / 2 := by simp [Nat.shiftRight_eq_div_pow]
      rw [hd]
      obtain ⟨i1, i2, i3, i4, i5⟩ := ih (n / 2) (r ||| (n &&& 1)) (by omega)
        (or_and_one_le r n h2)
      have hr := calcMinRunLoop_range fuel (n / 2) (r ||| (n &&& 1)) (by omega) (by omega)
        (or_and_one_le r n h2)
      refine ⟨?_, i2, i3, ?_, fun _ => ⟨by omega, hr.1⟩⟩
      · rw [i1, Nat.div_div_eq_div_mul, pow_succ]
        congr 1
        exact Nat.mul_comm _ _
      · rw [i4, or_and_one_zero r n h2, mod_two_pow_succ]
        tauto
    · rw [if_neg hc, if_neg hc]
      have h32 : ¬ 32 ≤ n := hc
      refine ⟨by simp, by omega, h2, ?_, fun h => absurd h h32⟩
      simp [Nat.mod_one]

theorem strideCount_le_of_le_mul (n r P : Nat) (hr : 0 < r) (h : n ≤ r * P) :
    strideCount n r ≤ P := by
  unfold strideCount
  have : (n + r - 1) / r < P + 1 := by
    rw [Nat.div_lt_iff_lt_mul hr]
    have e : (P + 1) * r = r * P + r := by ring
    rw [e]
    omega
  omega

theorem lt_strideCount_of_mul_lt (n r H : Nat) (hr : 0 < r) (h : r * H < n) :
    H < strideCount n r := by
  unfold strideCount
  have : H + 1 ≤ (n + r - 1) / r := by
    rw [Nat.le_div_iff_mul_le hr]
    have e : (H + 1) * r = r * H + r := by ring
    rw [e]
    omega
  omega

/-- The run length `r = calcMinRun n` and the shift count `k` of an `n ≥ 32`. -/
theorem calcMinRun_shifts (n : Nat) (hn : 32 ≤ n) :
    (calcMinRunLoop n n 0).1 = n / 2 ^ calcMinRunShifts n n ∧
    1 ≤ calcMinRunShifts n n ∧
    n ≤ calcMinRun n * 2 ^ calcMinRunShifts n n ∧
    (calcMinRun n - 1) * 2 ^ calcMinRunShifts n n < n ∧
    strideCount n (calcMinRun n) ≤ 2 ^ calcMinRunShifts n n ∧
    2 ^ (calcMinRunShifts n n - 1) < strideCount n (calcMinRun n) := by
  obtain ⟨i1, i2, i3, i4, i5⟩ := calcMinRunLoop_shifts n n 0 (le_refl _) (by omega)
  obtain ⟨i5, i6⟩ := i5 hn
  have hcm : calcMinRun n = (calcMinRunLoop n n 0).1 + (calcMinRunLoop n n 0).2 := rfl
  generalize calcMinRunShifts n n = k at i1 i4 i5 ⊢
  generalize calcMinRun n = r at hcm ⊢
  generalize (calcMinRunLoop n n 0).1 = m at i1 i2 i6 hcm
  generalize (calcMinRunLoop n n 0).2 = b at i3 i4 hcm
  have hP : 0 < 2 ^ k := Nat.two_pow_pos k
  have hdm : 2 ^ k * (n / 2 ^ k) + n % 2 ^ k = n := Nat.div_add_mod n (2 ^ k)
  have hlow : n % 2 ^ k < 2 ^ k := Nat.mod_lt _ hP
  rw [← i1] at hdm
  have hk : 2 ^ k = 2 * 2 ^ (k - 1) := by
    have : k = (k - 1) + 1 := by omega
    nth_rewrite 1 [this]
    rw [pow_succ]; ring
  generalize n % 2 ^ k = low at hdm hlow i4
  generalize 2 ^ (k - 1) = H at hk
  generalize 2 ^ k = P at *
  subst hk
  have hH : 0 < H := by omega
  have A : n ≤ r * (2 * H) ∧ (r - 1) * (2 * H) < n ∧ r * H < n := by
    by_cases hb : b = 0
    · have hl : low = 0 := (i4.1 hb).2
      subst hb hl
      have hr : r = m := by omega
      subst hr
      have e1 : (r - 1) * (2 * H) + 2 * H = r * (2 * H) := by
        have : r = (r - 1) + 1 := by omega
        nth_rewrite 2 [this]
        ring
      have e2 : r * (2 * H) = 2 * H * r := by ring
      have e3 : 2 * H * r = r * H + r * H := by ring
      have e4 : H ≤ r * H := Nat.le_mul_of_pos_left H (by omega)
      omega
    · have hb1 : b = 1 := by omega
      subst hb1
      have hl : low ≠ 0 := fun h => hb (i4.2 ⟨rfl, h⟩)
      have hr : r = m + 1 := by omega
      subst hr
      have e1 : (m + 1) * (2 * H) = 2 * H * m + 2 * H := by ring
      have e2 : (m + 1 - 1) * (2 * H) = 2 * H * m := by
        rw [Nat.add_sub_cancel]; ring
      have e3 : (m + 1) * H = m * H + H := by ring
      have e4 : 2 * H * m = m * H + m * H := by ring
      have e5 : H ≤ m * H := Nat.le_mul_of_pos_left H (by omega)
      omega
  obtain ⟨a1, a2, a3⟩ := A
  exact ⟨i1, i5, a1, a2, strideCount_le_of_le_mul n r (2 * H) (by omega) a1,
    lt_strideCount_of_mul_lt n r H (by omega) a3⟩

theorem calcMinRun_small (n : Nat) (hn : n < 32) : calcMinRun n = n := by
  unfold calcMinRun
  dsimp only
  cases n with
  | zero => simp [calcMinRunLoop]
  | succ n =>
    unfold calcMinRunLoop
    have : ¬ MIN_RUN ≤ n + 1 := by
      show ¬ 32 ≤ n + 1
      omega
    rw [if_neg this]
    rfl

end TimSort

/-- C39: `TimSort::calcMinRun(n)` returns `n` itself for `0 ≤ n < 32`.  For `n ≥ 32`, with
`k` the number of right-shifts the loop performs (`k ≥ 1`, and the loop leaves with
`n >> k`), the returned run length `r` satisfies `r * 2^k ≥ n > (r - 1) * 2^k`, so the number
of blocks `ceil(n / r)` (the number of runs that `sort` cuts the array into) is at most
`2^k` and greater than `2^(k-1)`. -/
theorem calcMinRun_blocks (n : Nat) :
    (n < 32 → TimSort.calcMinRun n = n) ∧
    (32 ≤ n →
      (TimSort.calcMinRunLoop n n 0).1 = n / 2 ^ TimSort.calcMinRunShifts n n ∧
      1 ≤ TimSort.calcMinRunShifts n n ∧
      n ≤ TimSort.calcMinRun n * 2 ^ TimSort.calcMinRunShifts n n ∧
      (TimSort.calcMinRun n - 1) * 2 ^ TimSort.calcMinRunShifts n n < n ∧
      TimSort.strideCount n (TimSort.calcMinRun n) ≤ 2 ^ TimSort.calcMinRunShifts n n ∧
      2 ^ (TimSort.calcMinRunShifts n n - 1) < TimSort.strideCount n (TimSort.calcMinRun n) ∧
      TimSort.strideCount n (TimSort.calcMinRun n)
        = (n + TimSort.calcMinRun n - 1) / TimSort.calcMinRun n) := by
  refine ⟨TimSort.calcMinRun_small n, fun hn => ?_⟩
  obtain ⟨h1, h2, h3, h4, h5, h6⟩ := TimSort.calcMinRun_shifts n hn
  exact ⟨h1, h2, h3, h4, h5, h6, rfl⟩

/-- Instance of C39 at `n = 1000`: five shifts, run length `32`, and `ceil(1000 / 32) = 32`
blocks, which is at most `2^5` and more than `2^4`; at `n = 20` the result is `20`. -/
theorem calcMinRun_blocks_witness :
    TimSort.calcMinRun 20 = 20 ∧
    TimSort.calcMinRunShifts 1000 1000 = 5 ∧ TimSort.calcMinRun 1000 = 32 ∧
    TimSort.strideCount 1000 (TimSort.calcMinRun 1000) = 32 ∧
    1000 ≤ TimSort.calcMinRun 1000 * 2 ^ TimSort.calcMinRunShifts 1000 1000 ∧
    (TimSort.calcMinRun 1000 - 1) * 2 ^ TimSort.calcMinRunShifts 1000 1000 < 1000 :=
  ⟨(calcMinRun_blocks 20).1 (by decide), by decide, by decide, by decide,
   ((calcMinRun_blocks 1000).2 (by decide)).2.2.1,
   ((calcMinRun_blocks 1000).2 (by decide)).2.2.2.1⟩

/-! ## The redistribution done by `rebalance` -/

namespace LibrarySort

/-- A vector that holds the elements of `temp` at the multiples of four and the sentinel
everywhere else has `temp` as its sequence of stored elements. -/
theorem filter_spread :
    ∀ (temp r : List Int), r.length = 4 * temp.length →
      (∀ i, i < temp.length → rd r (4 * i) = rd temp i) →
      (∀ j, j < 4 * temp.length → j % 4 ≠ 0 → rd r j = -1) →
      (∀ x ∈ temp, x ≠ -1) →
      r.filter (fun x => decide (x ≠ -1)) = temp := by
  intro temp
  induction temp with
  | nil =>
    intro r hl _ _ _
    have : r = [] := List.length_eq_zero.1 (by simpa using hl)
    subst this
    rfl
  | cons x t ih =>
    intro r hl h1 h2 h3
    match r, hl, h1, h2 with
    | [], hl, _, _ => simp only [List.length_cons, List.length_nil] at hl; omega
    | [_], hl, _, _ => simp only [List.length_cons, List.length_nil] at hl; omega
    | [_, _], hl, _, _ => simp only [List.length_cons, List.length_nil] at hl; omega
    | [_, _, _], hl, _, _ => simp only [List.length_cons, List.length_nil] at hl; omega
    | a :: b :: c :: d :: r', hl, h1, h2 =>
      have ha : a = x := by
        have := h1 0 (by simp)
        simpa [rd] using this
      have hb : b = -1 := by
        have := h2 1 (by simp; omega) (by decide)
        simpa [rd] using this
      have hc : c = -1 := by
        have := h2 2 (by simp; omega) (by decide)
        simpa [rd] using this
      have hd : d = -1 := by
        have := h2 3 (by simp; omega) (by decide)
        simpa [rd] using this
      have hx : x ≠ -1 := h3 x (List.mem_cons_self _ _)
      have hr' : r'.filter (fun x => decide (x ≠ -1)) = t := by
        apply ih
        · simp only [List.length_cons] at hl
          omega
        · intro i hi
          have := h1 (i + 1) (by simp; omega)
          have e : 4 * (i + 1) = 4 * i + 1 + 1 + 1 + 1 := by ring
          rw [e] at this
          simpa [rd] using this
        · intro j hj hm
          have := h2 (j + 4) (by simp only [List.length_cons]; omega) (by omega)
          simpa [rd] using this
        · intro y hy
          exact h3 y (List.mem_cons_of_mem _ hy)
      subst ha hb hc hd
      have e1 : decide (a ≠ -1) = true := by simpa using hx
      have e2 : decide ((-1 : Int) ≠ -1) = false := by decide
      simp only [List.filter_cons, e1, e2, if_true, Bool.false_eq_true, if_false, hr']

/-- Loop of `rebalance` that writes `temp[i]` to slot `4 * i` of a vector of sentinels. -/
theorem rebalance_loop (temp : List Int) (e : Nat) (st : SortStats) :
    ((List.range' 0 e).foldl
        (fun (s : SortState) i => (s.1.set (i * 4) (rd temp i), s.2.addAsg 1))
        (List.replicate (4 * e) (-1), st)).1.length = 4 * e ∧
    (∀ i, i < e → rd ((List.range' 0 e).foldl
        (fun (s : SortState) i => (s.1.set (i * 4) (rd temp i), s.2.addAsg 1))
        (List.replicate (4 * e) (-1), st)).1 (4 * i) = rd temp i) ∧
    (∀ j, j < 4 * e → j % 4 ≠ 0 → rd ((List.range' 0 e).foldl
        (fun (s : SortState) i => (s.1.set (i * 4) (rd temp i), s.2.addAsg 1))
        (List.replicate (4 * e) (-1), st)).1 j = -1) ∧
    ((List.range' 0 e).foldl
        (fun (s : SortState) i => (s.1.set (i * 4) (rd temp i), s.2.addAsg 1))
        (List.replicate (4 * e) (-1), st)).2 = st.addAsg (e : Int) := by
  have key := foldl_range'_inv
    (fun k (s : SortState) => s.1.length = 4 * e ∧
      (∀ i, i < k → rd s.1 (4 * i) = rd temp i) ∧
      (∀ j, j < 4 * e → j % 4 ≠ 0 → rd s.1 j = -1) ∧
      s.2 = st.addAsg (k : Int))
    (fun (s : SortState) i => (s.1.set (i * 4) (rd temp i), s.2.addAsg 1))
    0 e (List.replicate (4 * e) (-1), st)
    ⟨by simp, fun i hi => by omega, by
      intro j hj _
      rw [rd_of_lt _ (by simpa using hj)]
      simp, by simp [SortStats.addAsg]⟩
    (by
      intro k s _ hk ⟨p1, p2, p3, p4⟩
      refine ⟨by simpa using p1, ?_, ?_, ?_⟩
      · intro i hi
        by_cases c : i = k
        · subst c
          rw [Nat.mul_comm 4 i]
          exact rd_set_eq _ _ (by omega)
        · rw [rd_set_ne _ _ (by omega)]
          exact p2 i (by omega)
      · intro j hj hm
        rw [rd_set_ne _ _ (by omega)]
        exact p3 j hj hm
      · show s.2.addAsg 1 = _
        rw [p4]
        simp only [SortStats.addAsg, SortStats.mk.injEq]
        refine ⟨trivial, ?_, trivial⟩
        push_cast
        ring)
  simpa using key

end LibrarySort

/-- C31: `LibrarySort::rebalance(gapped, elements, 1.0)` on a gapped array that holds exactly
`elements ≥ 1` non-sentinel entries returns an array of capacity `4 * elements` (the stride
`capacity / elements` is `4`) in which the `i`-th stored element, in the original
left-to-right order, sits at index `4 * i` and every other slot is the sentinel `-1`; so the
left-to-right sequence of stored elements is unchanged.  The counter gets
`memoryUsage = 4 * elements * sizeof(int)` and `elements` more assignments. -/
theorem rebalance_uniform_stride (gapped : List Int) (elements : Nat) (stats : SortStats)
    (h1 : 1 ≤ elements)
    (hcount : (gapped.filter (fun x => decide (x ≠ -1))).length = elements) :
    ∃ r, LibrarySort.rebalance gapped elements stats = some r ∧
      r.1.length = 4 * elements ∧ r.1.length / elements = 4 ∧
      (∀ i, i < elements →
        rd r.1 (i * (r.1.length / elements)) = rd (gapped.filter (fun x => decide (x ≠ -1))) i) ∧
      (∀ j, j < 4 * elements → j % 4 ≠ 0 → rd r.1 j = -1) ∧
      r.1.filter (fun x => decide (x ≠ -1)) = gapped.filter (fun x => decide (x ≠ -1)) ∧
      r.2 = (stats.setMem (4 * elements * sizeofInt)).addAsg (elements : Int) := by
  have hg : elements * 2 * 2 / elements = 4 := by
    have : elements * 2 * 2 = 4 * elements := by ring
    rw [this]
    exact Nat.mul_div_cancel 4 (by omega)
  have hcap : elements * 2 * 2 = 4 * elements := by ring
  obtain ⟨k1, k2, k3, k4⟩ := LibrarySort.rebalance_loop
    (gapped.filter (fun x => decide (x ≠ -1))) elements (stats.setMem (4 * elements * sizeofInt))
  refine ⟨_, ?_, k1, ?_, ?_, k3, ?_, k4⟩
  · unfold LibrarySort.rebalance
    dsimp only
    rw [if_pos ⟨by omega, by omega⟩, hg, hcap]
  · rw [k1]
    exact Nat.mul_div_cancel 4 (by omega)
  · intro i hi
    rw [k1, Nat.mul_div_cancel 4 (by omega : 0 < elements), Nat.mul_comm i 4]
    exact k2 i hi
  · apply LibrarySort.filter_spread
    · rw [k1, hcount]
    · intro i hi
      exact k2 i (by omega)
    · intro j hj hm
      exact k3 j (by omega) hm
    · intro x hx
      rw [List.mem_filter] at hx
      simpa using hx.2

/-- Instance of C31: the three stored elements of `[7, -1, 2, 9]` are spread over twelve
slots at the indices `0`, `4` and `8`. -/
theorem rebalance_uniform_stride_witness :
    1 ≤ 3 ∧ (([7, -1, 2, 9] : List Int).filter (fun x => decide (x ≠ -1))).length = 3 ∧
    (LibrarySort.rebalance [7, -1, 2, 9] 3 SortStats.zero).map (fun r => r.1)
      = some [7, -1, -1, -1, 2, -1, -1, -1, 9, -1, -1, -1] ∧
    ∃ r, LibrarySort.rebalance [7, -1, 2, 9] 3 SortStats.zero = some r ∧
      r.1.length = 4 * 3 ∧ r.1.length / 3 = 4 :=
  ⟨by decide, by decide, by decide,
   (rebalance_uniform_stride [7, -1, 2, 9] 3 SortStats.zero (by decide) (by decide)).imp
     (fun _ h => ⟨h.1, h.2.1, h.2.2.1⟩)⟩

/-! ## The rebalance branch of library sort -/

namespace LibrarySort

theorem stateAfter_succ (arr : List Int) (k : Nat) :
    stateAfter arr (k + 1) = (stateAfter arr k).bind (fun s => insertStep arr s (k + 1)) := by
  unfold stateAfter
  dsimp only
  rw [List.range'_1_concat, List.foldlM_append]
  simp only [List.foldlM_cons, List.foldlM_nil, bind_pure]
  rw [Nat.add_comm 1 k]
  rfl

/-- The body of the insertion loop when the test `elements >= capacity / 2` fails. -/
theorem insertStep_direct (arr : List Int) (s : InsertState) (i : Nat)
    (h : ¬ s.2.2.1 ≥ s.2.1 / 2) :
    insertStep arr s i
      = (makeRoom s.1 (findPosition s.1 (rd arr i) s.2.2.2).1
          (findPosition s.1 (rd arr i) s.2.2.2).2).bind (fun m =>
        if (findPosition s.1 (rd arr i) s.2.2.2).1 < m.1.length then
          some ((m.1.set (findPosition s.1 (rd arr i) s.2.2.2).1 (rd arr i), s.2.1,
            s.2.2.1 + 1, m.2.addAsg 1) : InsertState)
        else none) := by
  unfold insertStep
  dsimp only
  rw [if_neg h]
  rfl

/-- Such a step leaves the size of the gapped array and `capacity` alone and adds one to
`elements`. -/
theorem insertStep_direct_shape (arr : List Int) (s s' : InsertState) (i : Nat)
    (h : ¬ s.2.2.1 ≥ s.2.1 / 2) (hs : insertStep arr s i = some s') :
    s'.1.length = s.1.length ∧ s'.2.1 = s.2.1 ∧ s'.2.2.1 = s.2.2.1 + 1 := by
  rw [insertStep_direct arr s i h] at hs
  generalize findPosition s.1 (rd arr i) s.2.2.2 = f at hs
  cases hm : makeRoom s.1 f.1 f.2 with
  | none => rw [hm] at hs; exact absurd hs (by simp)
  | some m =>
    rw [hm] at hs
    simp only [Option.some_bind] at hs
    obtain ⟨_, m2, _⟩ := makeRoom_spec s.1 f.1 f.2 m hm
    by_cases hc : f.1 < m.1.length
    · rw [if_pos hc, Option.some.injEq] at hs
      rw [← hs]
      exact ⟨by simpa using m2, rfl, rfl⟩
    · rw [if_neg hc] at hs
      exact absurd hs (by simp)

/-- State at the start of iteration `k + 1`: the gapped array still has `2n` slots,
`capacity` is `2n` and `elements` is `k + 1`. -/
theorem stateAfter_shape (arr : List Int) :
    ∀ (k : Nat) (s : InsertState), k < arr.length → stateAfter arr k = some s →
      s.1.length = arr.length * 2 ∧ s.2.1 = arr.length * 2 ∧ s.2.2.1 = k + 1 := by
  intro k
  induction k with
  | zero =>
    intro s _ h
    unfold stateAfter at h
    simp only [List.range'_zero, List.foldlM_nil, pure, Option.some.injEq] at h
    rw [← h]
    simp
  | succ k ih =>
    intro s hk h
    rw [stateAfter_succ] at h
    cases hp : stateAfter arr k with
    | none => rw [hp] at h; exact absurd h (by simp)
    | some p =>
      rw [hp] at h
      simp only [Option.some_bind] at h
      obtain ⟨p1, p2, p3⟩ := ih p (by omega) hp
      have hno : ¬ p.2.2.1 ≥ p.2.1 / 2 := by rw [p2, p3]; omega
      obtain ⟨q1, q2, q3⟩ := insertStep_direct_shape arr p s (k + 1) hno h
      exact ⟨by rw [q1, p1], by rw [q2, p2], by rw [q3, p3]⟩

theorem stateAfter_zero (arr : List Int) :
    stateAfter arr 0
      = some ((List.replicate (arr.length * 2) (-1 : Int)).set 0 (rd arr 0), arr.length * 2, 1,
          (SortStats.zero.addMem ((List.replicate (arr.length * 2) (-1 : Int)).length
            * sizeofInt)).addAsg 1) := by
  unfold stateAfter
  simp

end LibrarySort

/-- C34: in `LibrarySort::sort` the rebalance branch is never taken.  For a non-empty input
of length `n` the loop starts from a gapped array of `2n` slots with `capacity = 2n` and
`elements = 1`.  In every state with `capacity = 2n` and `elements = i < n`, whatever the
gapped array holds, the test `elements >= capacity / 2` is false, the iteration is the plain
`findPosition` / `makeRoom` / write step, and the state it leaves has the same number of
slots, the same `capacity` and `elements = i + 1`.  So at the start of every iteration `i`
(`1 ≤ i < n`) that the run reaches (`stateAfter arr (i - 1)` is the state there) the gapped
array has `2n` slots, `capacity = 2n` and `elements = i < n = capacity / 2`, and the state
from which `sort` copies back still has its `2n` slots. -/
theorem librarySort_never_rebalances (arr : List Int) (hne : arr ≠ []) :
    (∃ s, LibrarySort.stateAfter arr 0 = some s ∧ s.1.length = arr.length * 2 ∧
      s.2.1 = arr.length * 2 ∧ s.2.2.1 = 1) ∧
    (∀ (s : LibrarySort.InsertState) (i : Nat), s.2.1 = arr.length * 2 → s.2.2.1 = i →
      i < arr.length →
      s.2.1 / 2 = arr.length ∧ ¬ s.2.2.1 ≥ s.2.1 / 2 ∧
      LibrarySort.insertStep arr s i
        = (LibrarySort.makeRoom s.1 (LibrarySort.findPosition s.1 (rd arr i) s.2.2.2).1
            (LibrarySort.findPosition s.1 (rd arr i) s.2.2.2).2).bind (fun m =>
          if (LibrarySort.findPosition s.1 (rd arr i) s.2.2.2).1 < m.1.length then
            some ((m.1.set (LibrarySort.findPosition s.1 (rd arr i) s.2.2.2).1 (rd arr i),
              s.2.1, s.2.2.1 + 1, m.2.addAsg 1) : LibrarySort.InsertState)
          else none) ∧
      ∀ s', LibrarySort.insertStep arr s i = some s' →
        s'.1.length = s.1.length ∧ s'.2.1 = s.2.1 ∧ s'.2.2.1 = i + 1) ∧
    (∀ (i : Nat) (s : LibrarySort.InsertState), 1 ≤ i → i < arr.length →
      LibrarySort.stateAfter arr (i - 1) = some s →
      s.1.length = arr.length * 2 ∧ s.2.1 = arr.length * 2 ∧ s.2.2.1 = i ∧
      LibrarySort.stateAfter arr i = LibrarySort.insertStep arr s i) ∧
    (∀ s : LibrarySort.InsertState, LibrarySort.stateAfter arr (arr.length - 1) = some s →
      s.1.length = arr.length * 2 ∧ s.2.1 = arr.length * 2 ∧ s.2.2.1 = arr.length) ∧
    LibrarySort.sort arr = (LibrarySort.stateAfter arr (arr.length - 1)).map (fun s =>
      ((LibrarySort.compact s.1 arr s.2.2.2).1, (LibrarySort.compact s.1 arr s.2.2.2).2.2)) := by
  have hpos : 0 < arr.length := List.length_pos.2 hne
  refine ⟨?_, ?_, ?_, ?_, sort_eq_stateAfter arr hne⟩
  · rw [LibrarySort.stateAfter_zero]
    exact ⟨_, rfl, by simp, rfl, rfl⟩
  · intro s i hc he hi
    have hno : ¬ s.2.2.1 ≥ s.2.1 / 2 := by rw [hc, he]; omega
    refine ⟨by rw [hc]; omega, hno, LibrarySort.insertStep_direct arr s i hno, ?_⟩
    intro s' hs'
    obtain ⟨q1, q2, q3⟩ := LibrarySort.insertStep_direct_shape arr s s' i hno hs'
    exact ⟨q1, q2, by rw [q3, he]⟩
  · intro i s h1 h2 hs
    obtain ⟨p1, p2, p3⟩ := LibrarySort.stateAfter_shape arr (i - 1) s (by omega) hs
    refine ⟨p1, p2, by omega, ?_⟩
    have e : i = (i - 1) + 1 := by omega
    nth_rewrite 1 [e]
    rw [LibrarySort.stateAfter_succ, hs, Option.some_bind, ← e]
  · intro s hs
    obtain ⟨p1, p2, p3⟩ := LibrarySort.stateAfter_shape arr (arr.length - 1) s (by omega) hs
    exact ⟨p1, p2, by omega⟩

/-- Instance of C34 on `[3, 1, 2]`: the run reaches both iterations, at the start of
iteration `2` the gapped array is `[1, 3, -1, -1, -1, -1]` with `capacity = 6` and
`elements = 2 < 3`, and the final state still has six slots. -/
theorem librarySort_never_rebalances_witness :
    ([3, 1, 2] : List Int) ≠ [] ∧
    (LibrarySort.stateAfter [3, 1, 2] 1).map (fun s => (s.1, s.2.1, s.2.2.1))
      = some ([1, 3, -1, -1, -1, -1], 6, 2) ∧
    (LibrarySort.stateAfter [3, 1, 2] 2).map (fun s => (s.1, s.2.1, s.2.2.1))
      = some ([1, 2, 3, -1, -1, -1], 6, 3) ∧
    LibrarySort.sort [3, 1, 2]
      = (LibrarySort.stateAfter [3, 1, 2] (([3, 1, 2] : List Int).length - 1)).map (fun s =>
        ((LibrarySort.compact s.1 [3, 1, 2] s.2.2.2).1,
          (LibrarySort.compact s.1 [3, 1, 2] s.2.2.2).2.2)) :=
  ⟨by decide, by decide, by decide,
   (librarySort_never_rebalances [3, 1, 2] (by decide)).2.2.2.2⟩

/-! ## Natural runs of Tim sort: `findNextRun` and `reverseRun` -/

namespace TimSort

/-- The ascending scan of `findNextRun` from `i`: it stops at an index below `n`, the
elements it passes are in non-decreasing order, it stops only at the last index or in front
of a descent, and it counts one comparison for each step. -/
theorem scanAscending_spec (arr : List Int) (n : Nat) :
    ∀ (fuel i : Nat), i < n →
      i ≤ (scanAscending arr n fuel i).1 ∧ (scanAscending arr n fuel i).1 < n ∧
      (∀ t, i ≤ t → t < (scanAscending arr n fuel i).1 → rd arr t ≤ rd arr (t + 1)) ∧
      (n - 1 - i ≤ fuel → (scanAscending arr n fuel i).1 + 1 < n →
        ¬ rd arr (scanAscending arr n fuel i).1 ≤ rd arr ((scanAscending arr n fuel i).1 + 1)) ∧
      (scanAscending arr n fuel i).2 = (scanAscending arr n fuel i).1 - i := by
  intro fuel
  induction fuel with
  | zero =>
    intro i hi
    unfold scanAscending
    exact ⟨le_refl _, hi, fun t h1 h2 => by omega, fun h1 h2 => by omega, by simp⟩
  | succ fuel ih =>
    intro i hi
    unfold scanAscending
    by_cases hc : i + 1 < n ∧ rd arr i ≤ rd arr (i + 1)
    · rw [if_pos hc]
      dsimp only
      obtain ⟨p1, p2, p3, p4, p5⟩ := ih (i + 1) hc.1
      refine ⟨by omega, p2, ?_, fun h1 h2 => p4 (by omega) h2, by omega⟩
      intro t h1 h2
      by_cases e : t = i
      · subst e; exact hc.2
      · exact p3 t (by omega) h2
    · rw [if_neg hc]
      refine ⟨le_refl _, hi, fun t h1 h2 => by omega, fun _ h2 h3 => hc ⟨h2, h3⟩, by simp⟩

/-- The descending scan of `findNextRun` from `i`, as `scanAscending_spec` with `>`. -/
theorem scanDescending_spec (arr : List Int) (n : Nat) :
    ∀ (fuel i : Nat), i < n →
      i ≤ (scanDescending arr n fuel i).1 ∧ (scanDescending arr n fuel i).1 < n ∧
      (∀ t, i ≤ t → t < (scanDescending arr n fuel i).1 → rd arr t > rd arr (t + 1)) ∧
      (n - 1 - i ≤ fuel → (scanDescending arr n fuel i).1 + 1 < n →
        ¬ rd arr (scanDescending arr n fuel i).1
          > rd arr ((scanDescending arr n fuel i).1 + 1)) ∧
      (scanDescending arr n fuel i).2 = (scanDescending arr n fuel i).1 - i := by
  intro fuel
  induction fuel with
  | zero =>
    intro i hi
    unfold scanDescending
    exact ⟨le_refl _, hi, fun t h1 h2 => by omega, fun h1 h2 => by omega, by simp⟩
  | succ fuel ih =>
    intro i hi
    unfold scanDescending
    by_cases hc : i + 1 < n ∧ rd arr i > rd arr (i + 1)
    · rw [if_pos hc]
      dsimp only
      obtain ⟨p1, p2, p3, p4, p5⟩ := ih (i + 1) hc.1
      refine ⟨by omega, p2, ?_, fun h1 h2 => p4 (by omega) h2, by omega⟩
      intro t h1 h2
      by_cases e : t = i
      · subst e; exact hc.2
      · exact p3 t (by omega) h2
    · rw [if_neg hc]
      refine ⟨le_refl _, hi, fun t h1 h2 => by omega, fun _ h2 h3 => hc ⟨h2, h3⟩, by simp⟩

/-- Function `reverseRun` reverses `arr[s..e]`: slot `k` of the range receives the old
`arr[s + e - k]`, the rest of the vector is untouched, and every exchange is counted as
three assignments. -/
theorem reverseRun_spec :
    ∀ (fuel : Nat) (arr : List Int) (s e : Nat) (stats : SortStats), e < arr.length →
      (e + 1 - s) / 2 ≤ fuel →
      (reverseRun fuel arr s e stats).1.length = arr.length ∧
      (∀ k, s ≤ k → k ≤ e → rd (reverseRun fuel arr s e stats).1 k = rd arr (s + e - k)) ∧
      (∀ k, (k < s ∨ e < k) → rd (reverseRun fuel arr s e stats).1 k = rd arr k) ∧
      (reverseRun fuel arr s e stats).1.Perm arr ∧
      (reverseRun fuel arr s e stats).2
        = stats.addAsg (3 * (((e + 1 - s) / 2 : Nat) : Int)) := by
  intro fuel
  induction fuel with
  | zero =>
    intro arr s e stats he hf
    unfold reverseRun
    refine ⟨rfl, ?_, fun _ _ => rfl, List.Perm.refl _, ?_⟩
    · intro k h1 h2
      have : s + e - k = k := by omega
      rw [this]
    · have : (e + 1 - s) / 2 = 0 := by omega
      rw [this]
      simp [SortStats.addAsg]
  | succ fuel ih =>
    intro arr s e stats he hf
    unfold reverseRun
    by_cases hc : s < e
    · rw [if_pos hc]
      have hs : s < arr.length := by omega
      obtain ⟨p1, p2, p3, p4, p5⟩ := ih (swapAt arr s e) (s + 1) (e - 1) (stats.addAsg 3)
        (by rw [length_swapAt]; omega) (by omega)
      refine ⟨by rw [p1, length_swapAt], ?_, ?_, p4.trans (swapAt_perm arr hs he), ?_⟩
      · intro k h1 h2
        by_cases e1 : k = s
        · subst e1
          rw [p3 k (Or.inl (by omega)), rd_swapAt arr k hs he, if_neg (by omega), if_pos rfl]
          congr 1
          omega
        · by_cases e2 : k = e
          · subst e2
            rw [p3 k (Or.inr (by omega)), rd_swapAt arr k hs he, if_pos rfl]
            congr 1
            omega
          · rw [p2 k (by omega) (by omega), rd_swapAt arr _ hs he, if_neg (by omega),
              if_neg (by omega)]
            congr 1
            omega
      · intro k hk
        rw [p3 k (by omega), rd_swapAt arr k hs he, if_neg (by omega), if_neg (by omega)]
      · rw [p5]
        have e3 : (e + 1 - s) / 2 = (e - 1 + 1 - (s + 1)) / 2 + 1 := by omega
        rw [e3]
        simp only [SortStats.addAsg, SortStats.mk.injEq]
        refine ⟨trivial, ?_, trivial⟩
        push_cast
        ring
    · rw [if_neg hc]
      refine ⟨rfl, ?_, fun _ _ => rfl, List.Perm.refl _, ?_⟩
      · intro k h1 h2
        have : s + e - k = k := by omega
        rw [this]
      · have : (e + 1 - s) / 2 = 0 := by omega
        rw [this]
        simp [SortStats.addAsg]

/-- A range whose adjacent elements all descend is strictly descending. -/
theorem descending_of_adjacent (a : List Int) (b e : Nat)
    (h : ∀ t, b ≤ t → t < e → rd a t > rd a (t + 1)) :
    ∀ x y, b ≤ x → x < y → y ≤ e → rd a x > rd a y := by
  intro x y hx hxy hy
  obtain ⟨d, rfl⟩ : ∃ d, y = x + 1 + d := ⟨y - x - 1, by omega⟩
  induction d with
  | zero => exact h x hx (by omega)
  | succ d ih =>
    have h1 := ih (by omega) (by omega)
    have h2 := h (x + 1 + d) (by omega) (by omega)
    have e1 : x + 1 + (d + 1) = x + 1 + d + 1 := by omega
    rw [e1]
    omega

/-- The run that `findNextRun` returns. -/
theorem findNextRun_spec (arr : List Int) (start : Nat) (stats : SortStats)
    (hs : start < arr.length) :
    start ≤ (findNextRun arr start arr.length stats).1 ∧
    (findNextRun arr start arr.length stats).1 < arr.length ∧
    SortedOn (findNextRun arr start arr.length stats).2.1 start
      (findNextRun arr start arr.length stats).1 ∧
    (findNextRun arr start arr.length stats).2.1.Perm arr ∧
    SameOutside arr (findNextRun arr start arr.length stats).2.1 start
      (findNextRun arr start arr.length stats).1 := by
  unfold findNextRun
  by_cases c1 : arr.length ≤ start + 1
  · rw [if_pos c1]
    exact ⟨le_refl _, hs, fun i j h1 h2 h3 => by omega, List.Perm.refl _,
      SameOutside.refl _ _ _⟩
  · rw [if_neg c1]
    by_cases c2 : rd arr start ≤ rd arr (start + 1)
    · rw [if_pos c2]
      dsimp only
      obtain ⟨p1, p2, p3, _, _⟩ := scanAscending_spec arr arr.length arr.length (start + 1)
        (by omega)
      refine ⟨by omega, p2, ?_, List.Perm.refl _, SameOutside.refl _ _ _⟩
      apply sortedOn_of_adjacent
      intro t h1 h2
      by_cases e : t = start
      · subst e; exact c2
      · exact p3 t (by omega) h2
    · rw [if_neg c2]
      dsimp only
      obtain ⟨p1, p2, p3, _, _⟩ := scanDescending_spec arr arr.length arr.length (start + 1)
        (by omega)
      generalize (scanDescending arr arr.length arr.length (start + 1)).1 = e at p1 p2 p3
      generalize (scanDescending arr arr.length arr.length (start + 1)).2 = c
      obtain ⟨q1, q2, q3, q4, _⟩ := reverseRun_spec arr.length arr start e
        (stats.addCmp (1 + (c : Int))) p2 (by omega)
      refine ⟨by omega, p2, ?_, q4, q1, q3⟩
      have hd := descending_of_adjacent arr start e (by
        intro t h1 h2
        by_cases e1 : t = start
        · subst e1; omega
        · exact p3 t (by omega) h2)
      intro i j h1 h2 h3
      rw [q2 i h1 (by omega), q2 j (by omega) h3]
      have := hd (start + e - j) (start + e - i) (by omega) (by omega) (by omega)
      omega

end TimSort

/-! ## The gap sequence of comb sort and the double-precision quotient -/

theorem roundNearestEven_bounds (num den : Nat) (hd : 0 < den) :
    2 * num ≤ 2 * (roundNearestEven num den * den) + den ∧
    2 * (roundNearestEven num den * den) ≤ 2 * num + den := by
  unfold roundNearestEven
  dsimp only
  have hdm : den * (num / den) + num % den = num := Nat.div_add_mod num den
  have hr : num % den < den := Nat.mod_lt _ hd
  rw [Nat.mul_comm den] at hdm
  generalize num / den = q at hdm ⊢
  generalize num % den = r at hdm hr ⊢
  have e : (q + 1) * den = q * den + den := by ring
  split_ifs <;> (try rw [e]) <;> omega

theorem excessBits_spec :
    ∀ (fuel m : Nat), m < 2 ^ (53 + fuel) →
      m / 2 ^ excessBits fuel m < 2 ^ 53 ∧
      (2 ^ 52 ≤ m → 2 ^ 52 ≤ m / 2 ^ excessBits fuel m) := by
  intro fuel
  induction fuel with
  | zero =>
    intro m hm
    unfold excessBits
    simpa using hm
  | succ fuel ih =>
    intro m hm
    unfold excessBits
    by_cases hc : m < 2 ^ 53
    · rw [if_pos hc]
      simpa using hc
    · rw [if_neg hc]
      have e1 : 2 ^ (53 + (fuel + 1)) = 2 * 2 ^ (53 + fuel) := by
        rw [← Nat.add_assoc, pow_succ]; ring
      obtain ⟨i1, i2⟩ := ih (m / 2) (by omega)
      have e2 : m / 2 ^ (excessBits fuel (m / 2) + 1) = m / 2 / 2 ^ excessBits fuel (m / 2) := by
        rw [Nat.div_div_eq_div_mul, pow_succ]
        congr 1
        exact Nat.mul_comm _ _
      rw [e2]
      have e3 : (2 : Nat) ^ 53 = 2 * 2 ^ 52 := by norm_num
      exact ⟨i1, fun _ => i2 (by omega)⟩

namespace CombSort

/-- The double-precision quotient agrees with the exact one after the cast: for every
positive `int` value `gap`, `static_cast<int>(gap / 1.3)` is the floor of `10 * gap / 13`. -/
theorem divShrink_eq (gap : Nat) (h1 : 1 ≤ gap) (h2 : gap < 2 ^ 31) :
    divShrink gap = gap * 10 / 13 := by
  unfold divShrink
  dsimp only
  have c105 : (2 : Nat) ^ 105 = 40564819207303340847894502572032 := by norm_num
  have c53 : (2 : Nat) ^ 53 = 9007199254740992 := by norm_num
  have c52 : (2 : Nat) ^ 52 = 4503599627370496 := by norm_num
  have c31 : (2 : Nat) ^ 31 = 2147483648 := by norm_num
  have c32 : (2 : Nat) ^ 32 = 4294967296 := by norm_num
  have hS : shrinkSig = 5854679515581645 := rfl
  -- the integer part of the scaled quotient and its excess digits
  have hm1 : gap * 2 ^ 105 / shrinkSig < 2 ^ (53 + 64) := by
    rw [Nat.div_lt_iff_lt_mul (by rw [hS]; omega)]
    have e : (2 : Nat) ^ (53 + 64) = 166153499473114484112975882535043072 := by norm_num
    rw [e, hS, c105]
    omega
  have hm2 : 2 ^ 52 ≤ gap * 2 ^ 105 / shrinkSig := by
    rw [Nat.le_div_iff_mul_le (by rw [hS]; omega), hS, c105, c52]
    omega
  obtain ⟨b1, b2⟩ := excessBits_spec 64 (gap * 2 ^ 105 / shrinkSig) hm1
  have b2 := b2 hm2
  generalize excessBits 64 (gap * 2 ^ 105 / shrinkSig) = s at b1 b2 ⊢
  have hP : 0 < 2 ^ s := Nat.two_pow_pos s
  rw [Nat.div_lt_iff_lt_mul hP] at b1
  rw [Nat.le_div_iff_mul_le hP] at b2
  have hm3 : shrinkSig * (gap * 2 ^ 105 / shrinkSig) ≤ gap * 2 ^ 105 := Nat.mul_div_le _ _
  have hm4 : gap * 2 ^ 105 < shrinkSig * (gap * 2 ^ 105 / shrinkSig + 1) :=
    Nat.lt_mul_div_succ _ (by rw [hS]; omega)
  generalize gap * 2 ^ 105 / shrinkSig = m at b1 b2 hm3 hm4
  have hs : s < 32 := by
    have : 2 ^ s < 2 ^ 32 := by
      rw [c32]
      rw [c52] at b2
      rw [hS, c105] at hm3
      generalize 2 ^ s = P at *
      omega
    exact (Nat.pow_lt_pow_iff_right (by omega)).1 this
  have hQ : 2 ^ s * 2 ^ (53 - s) = 2 ^ 53 := by
    rw [← pow_add]
    congr 1
    omega
  obtain ⟨r1, r2⟩ := roundNearestEven_bounds (gap * 2 ^ 105) (shrinkSig * 2 ^ s)
    (Nat.mul_pos (by rw [hS]; omega) hP)
  generalize roundNearestEven (gap * 2 ^ 105) (shrinkSig * 2 ^ s) = R at r1 r2 ⊢
  have e1 : R * (shrinkSig * 2 ^ s) = shrinkSig * (R * 2 ^ s) := by ring
  rw [e1] at r1 r2
  have hdiv : 13 * (gap * 10 / 13) ≤ gap * 10 ∧ gap * 10 < 13 * (gap * 10 / 13) + 13 := by
    omega
  generalize gap * 10 / 13 = t at hdiv ⊢
  have lo : t * 2 ^ 53 ≤ R * 2 ^ s := by
    by_contra hcon
    have h3 : R + 1 ≤ t * 2 ^ (53 - s) := by
      by_contra h4
      apply hcon
      have : t * 2 ^ (53 - s) * 2 ^ s ≤ R * 2 ^ s := Nat.mul_le_mul_right _ (by omega)
      calc t * 2 ^ 53 = t * 2 ^ (53 - s) * 2 ^ s := by rw [← hQ]; ring
        _ ≤ R * 2 ^ s := this
    have h5 : (R + 1) * 2 ^ s ≤ t * 2 ^ (53 - s) * 2 ^ s := Nat.mul_le_mul_right _ h3
    have e2 : t * 2 ^ (53 - s) * 2 ^ s = t * 2 ^ 53 := by rw [← hQ]; ring
    have e3 : (R + 1) * 2 ^ s = R * 2 ^ s + 2 ^ s := by ring
    rw [e2, e3] at h5
    rw [hS, c105] at r1 hm4
    rw [c53] at h5 b1
    generalize R * 2 ^ s = X at *
    generalize 2 ^ s = P at *
    omega
  have hi : R * 2 ^ s < (t + 1) * 2 ^ 53 := by
    by_contra hcon
    have h3 : (t + 1) * 2 ^ (53 - s) ≤ R := by
      by_contra h4
      apply hcon
      have : (R + 1) * 2 ^ s ≤ (t + 1) * 2 ^ (53 - s) * 2 ^ s :=
        Nat.mul_le_mul_right _ (by omega)
      have e3 : (R + 1) * 2 ^ s = R * 2 ^ s + 2 ^ s := by ring
      rw [e3] at this
      calc R * 2 ^ s < R * 2 ^ s + 2 ^ s := by omega
        _ ≤ (t + 1) * 2 ^ (53 - s) * 2 ^ s := this
        _ = (t + 1) * 2 ^ 53 := by rw [← hQ]; ring
    have h5 : (t + 1) * 2 ^ (53 - s) * 2 ^ s ≤ R * 2 ^ s := Nat.mul_le_mul_right _ h3
    have e2 : (t + 1) * 2 ^ (53 - s) * 2 ^ s = (t + 1) * 2 ^ 53 := by rw [← hQ]; ring
    rw [e2] at h5
    rw [hS, c105] at r2 hm3
    rw [c53] at h5
    rw [c52] at b2
    rw [c31] at h2
    generalize R * 2 ^ s = X at *
    generalize 2 ^ s = P at *
    omega
  rw [c53] at lo hi ⊢
  generalize R * 2 ^ s = X at lo hi ⊢
  omega

theorem getNextGapDouble_eq (gap : Nat) (h1 : 1 ≤ gap) (h2 : gap < 2 ^ 31) :
    getNextGapDouble gap = getNextGap gap := by
  unfold getNextGapDouble getNextGap
  dsimp only
  rw [divShrink_eq gap h1 h2]

theorem getNextGap_eq_max (gap : Nat) : getNextGap gap = max 1 (10 * gap / 13) := by
  unfold getNextGap
  dsimp only
  rw [Nat.mul_comm gap 10]
  split_ifs <;> omega

theorem nextGapSpec_eq (gap : Nat) : nextGapSpec gap = max 1 (10 * gap / 13) := by
  unfold nextGapSpec
  have e : (gap : ℚ) / 1.3 = ((10 * gap : ℕ) : ℚ) / ((13 : ℕ) : ℚ) := by
    push_cast
    norm_num
    ring
  rw [e, Nat.floor_div_eq_div]

theorem iterate_one : ∀ j : Nat, getNextGap^[j] 1 = 1 := by
  intro j
  induction j with
  | zero => rfl
  | succ j ih => rw [Function.iterate_succ_apply, getNextGap_one, ih]

/-- The gap sequence from any `gap ≥ 1` reaches `1` after fewer than `gap` steps and stays
there. -/
theorem gap_sequence_reaches_one :
    ∀ (gap : Nat), 1 ≤ gap → ∃ k, k < gap ∧ ∀ j, k ≤ j → getNextGap^[j] gap = 1 := by
  intro gap
  induction gap using Nat.strong_induction_on with
  | _ gap ih =>
    intro h
    by_cases h1 : gap = 1
    · subst h1
      exact ⟨0, by omega, fun j _ => iterate_one j⟩
    · obtain ⟨k, hk, hstay⟩ := ih (getNextGap gap) (getNextGap_lt gap (by omega))
        (getNextGap_pos gap)
      have := getNextGap_lt gap (by omega)
      refine ⟨k + 1, by omega, ?_⟩
      intro j hj
      obtain ⟨j', rfl⟩ : ∃ j', j = j' + 1 := ⟨j - 1, by omega⟩
      rw [Function.iterate_succ_apply]
      exact hstay j' (by omega)

end CombSort

/-- C32: `CombSort::getNextGap(gap)` returns `max(1, floor(gap / 1.3))`, equivalently
`max(1, floor(10 * gap / 13))`, for every `gap ≥ 1`.  The result is at least `1`, strictly
smaller than `gap` when `gap ≥ 2`, and `1` when `gap = 1`, so the gap sequence from `gap`
reaches `1` (after fewer than `gap` steps) and stays there.  The quotient computed in double
precision with the constant `1.3` rounded to a `double` gives the same value for every `int`
value of `gap`. -/
theorem getNextGap_floor_shrinks (gap : Nat) (h : 1 ≤ gap) :
    CombSort.getNextGap gap = CombSort.nextGapSpec gap ∧
    CombSort.getNextGap gap = max 1 (10 * gap / 13) ∧
    1 ≤ CombSort.getNextGap gap ∧
    (2 ≤ gap → CombSort.getNextGap gap < gap) ∧
    (gap = 1 → CombSort.getNextGap gap = 1) ∧
    (∃ k, k < gap ∧ ∀ j, k ≤ j → CombSort.getNextGap^[j] gap = 1) ∧
    (gap < 2 ^ 31 → CombSort.getNextGapDouble gap = CombSort.getNextGap gap) :=
  ⟨by rw [CombSort.nextGapSpec_eq, CombSort.getNextGap_eq_max],
   CombSort.getNextGap_eq_max gap, CombSort.getNextGap_pos gap,
   CombSort.getNextGap_lt gap, fun h1 => by rw [h1]; exact CombSort.getNextGap_one,
   CombSort.gap_sequence_reaches_one gap h,
   CombSort.getNextGapDouble_eq gap h⟩

/-- Instance of C32 at `gap = 13`, where `gap / 1.3` is the integer `10` in exact
arithmetic (the double-precision quotient rounds to `10.0`), and at `gap = 1`. -/
theorem getNextGap_floor_shrinks_witness :
    1 ≤ 13 ∧ CombSort.getNextGap 13 = 10 ∧ CombSort.getNextGapDouble 13 = 10 ∧
    CombSort.nextGapSpec 13 = CombSort.getNextGap 13 ∧
    CombSort.getNextGap^[7] 13 = 1 ∧ CombSort.getNextGap 1 = 1 ∧
    CombSort.getNextGapDouble 2147483647 = CombSort.getNextGap 2147483647 :=
  ⟨by decide, by decide, by decide, (getNextGap_floor_shrinks 13 (by decide)).1.symm,
   by decide, by decide,
   (getNextGap_floor_shrinks 2147483647 (by decide)).2.2.2.2.2.2 (by decide)⟩

/-! ## The counter of tournament sort as a function of the length -/

theorem SortStats.eq_of_fields (a b : SortStats) (h1 : a.comparisons = b.comparisons)
    (h2 : a.assignments = b.assignments) (h3 : a.memoryUsage = b.memoryUsage) : a = b := by
  cases a
  cases b
  simp only [SortStats.mk.injEq]
  exact ⟨h1, h2, h3⟩

/-- A loop whose body adds `c` comparisons and `a` assignments adds them once for each
iteration and leaves the memory figure alone. -/
theorem foldl_stats_eq {σ : Type} (g : σ → SortStats) (f : σ → Nat → σ) (c a : Int) :
    ∀ (l : List Nat) (s0 : σ), (∀ s i, i ∈ l → g (f s i) = ((g s).addCmp c).addAsg a) →
      g (l.foldl f s0)
        = ((g s0).addCmp (c * (l.length : Int))).addAsg (a * (l.length : Int)) := by
  intro l
  induction l with
  | nil =>
    intro s0 _
    apply SortStats.eq_of_fields <;> simp [SortStats.addCmp, SortStats.addAsg]
  | cons x l ih =>
    intro s0 h
    rw [List.foldl_cons, ih (f s0 x) (fun s i hi => h s i (List.mem_cons_of_mem _ hi)),
      h s0 x (List.mem_cons_self _ _), List.length_cons]
    apply SortStats.eq_of_fields <;> dsimp only [SortStats.addCmp, SortStats.addAsg] <;>
      (try push_cast) <;> (try ring)

namespace TournamentSort

/-- A call of `rebuildTree` from a node of depth `d` adds `d` comparisons and `d`
assignments. -/
theorem rebuildTreeFuel_stats :
    ∀ (d fuel : Nat) (T : List Node) (x : Nat) (st : SortStats), 2 ^ d ≤ x + 1 →
      x + 1 < 2 ^ (d + 1) → d ≤ fuel →
      (rebuildTreeFuel fuel T x st).2 = (st.addCmp (d : Int)).addAsg (d : Int) := by
  intro d
  induction d with
  | zero =>
    intro fuel T x st h1 h2 _
    have hx : x = 0 := by simp at h2; omega
    subst hx
    cases fuel with
    | zero =>
      apply SortStats.eq_of_fields <;> simp [rebuildTreeFuel, SortStats.addCmp, SortStats.addAsg]
    | succ f =>
      apply SortStats.eq_of_fields <;> simp [rebuildTreeFuel, SortStats.addCmp, SortStats.addAsg]
  | succ d ih =>
    intro fuel T x st h1 h2 hf
    have e1 : 2 ^ (d + 1) = 2 * 2 ^ d := by rw [pow_succ]; ring
    have e2 : 2 ^ (d + 1 + 1) = 2 * 2 ^ (d + 1) := by rw [pow_succ]; ring
    have hpos : 1 ≤ 2 ^ d := Nat.one_le_two_pow
    cases fuel with
    | zero => omega
    | succ f =>
      unfold rebuildTreeFuel
      rw [if_neg (by omega)]
      dsimp only
      rw [ih f _ ((x - 1) / 2) _ (by omega) (by omega) (by omega)]
      apply SortStats.eq_of_fields <;> dsimp only [SortStats.addCmp, SortStats.addAsg] <;>
        (try push_cast) <;> (try ring)

theorem rebuildTree_stats (h : Nat) (T : List Node) (j : Nat) (st : SortStats)
    (hj : j < 2 ^ h) :
    (rebuildTree T (2 ^ h - 1 + j) st).2 = (st.addCmp (h : Int)).addAsg (h : Int) := by
  unfold rebuildTree
  have hpos : 1 ≤ 2 ^ h := Nat.one_le_two_pow
  have e1 : 2 ^ (h + 1) = 2 * 2 ^ h := by rw [pow_succ]; ring
  have hlt : h < 2 ^ h := Nat.lt_two_pow h
  exact rebuildTreeFuel_stats h _ T _ st (by omega) (by omega) (by omega)

/-- Counter after `buildTournamentTree` on a fresh tree of `2 ^ (h + 1) - 1` nodes. -/
theorem build_stats (arr : List Int) (h : Nat) (st : SortStats) (hn : arr.length ≤ 2 ^ h) :
    (buildTournamentTree arr (List.replicate (2 ^ (h + 1) - 1) Node.default) st).2
      = (st.addCmp ((2 ^ h - 1 : Nat) : Int)).addAsg
          ((arr.length : Int) + 2 * ((2 ^ h - arr.length : Nat) : Int)
            + ((2 ^ h - 1 : Nat) : Int)) := by
  have hpos : 1 ≤ 2 ^ h := Nat.one_le_two_pow
  have e0 : 2 ^ (h + 1) = 2 * 2 ^ h := by rw [pow_succ]; ring
  have e1 : 2 ^ (h + 1) - 1 + 1 = 2 ^ (h + 1) := by omega
  unfold buildTournamentTree
  dsimp only
  rw [List.length_replicate, e1, floorLog2_pow, Nat.add_sub_cancel]
  have k1 := foldl_stats_eq (fun s : List Node × SortStats => s.2)
    (fun (s : List Node × SortStats) i =>
      (s.1.set (2 ^ h - 1 + i) (Node.mk2 (rd arr i) i), s.2.addAsg 1)) 0 1
    (List.range' 0 arr.length) (List.replicate (2 ^ (h + 1) - 1) Node.default, st)
    (by
      intro s i _
      apply SortStats.eq_of_fields <;> simp [SortStats.addAsg, SortStats.addCmp])
  generalize (List.range' 0 arr.length).foldl
    (fun (s : List Node × SortStats) i =>
      (s.1.set (2 ^ h - 1 + i) (Node.mk2 (rd arr i) i), s.2.addAsg 1))
    (List.replicate (2 ^ (h + 1) - 1) Node.default, st) = s1 at k1 ⊢
  have k2 := foldl_stats_eq (fun s : List Node × SortStats => s.2)
    (fun (s : List Node × SortStats) i => (invalidate s.1 i, s.2.addAsg 2)) 0 2
    (List.range' (2 ^ h - 1 + arr.length) (2 ^ (h + 1) - 1 - (2 ^ h - 1 + arr.length))) s1
    (by
      intro s i _
      apply SortStats.eq_of_fields <;> simp [SortStats.addAsg, SortStats.addCmp])
  generalize (List.range' (2 ^ h - 1 + arr.length)
    (2 ^ (h + 1) - 1 - (2 ^ h - 1 + arr.length))).foldl
    (fun (s : List Node × SortStats) i => (invalidate s.1 i, s.2.addAsg 2)) s1 = s2 at k2 ⊢
  have k3 := foldl_stats_eq (fun s : List Node × SortStats => s.2)
    (fun (s : List Node × SortStats) i =>
      (s.1.set i (if (nd s.1 (2 * i + 1)).value ≤ (nd s.1 (2 * i + 2)).value
          then nd s.1 (2 * i + 1) else nd s.1 (2 * i + 2)),
        (s.2.addCmp 1).addAsg 1)) 1 1
    (List.range' 0 (2 ^ h - 1)).reverse s2
    (by intro s i _; rfl)
  simp only [List.length_reverse, List.length_range'] at k1 k2 k3
  rw [k3, k2, k1]
  have e2 : 2 ^ (h + 1) - 1 - (2 ^ h - 1 + arr.length) = 2 ^ h - arr.length := by omega
  rw [e2]
  apply SortStats.eq_of_fields <;> dsimp only [SortStats.addCmp, SortStats.addAsg] <;>
    (try ring)

/-- Counter after the tree is built and `k` extractions are done. -/
theorem extractState_stats (arr : List Int) (hn : 2 ≤ arr.length)
    (hbnd : ∀ x ∈ arr, x ≤ INT_MAX) (k : Nat) :
    (extractState arr k).2.2
      = (((((SortStats.zero.addMem ((2 ^ (ceilLog2 arr.length + 1) - 1) * sizeofNode)).addMem
            (arr.length * sizeofInt)).addCmp ((2 ^ ceilLog2 arr.length - 1 : Nat) : Int)).addAsg
          ((arr.length : Int) + 2 * ((2 ^ ceilLog2 arr.length - arr.length : Nat) : Int)
            + ((2 ^ ceilLog2 arr.length - 1 : Nat) : Int))).addCmp
          ((k : Int) * (ceilLog2 arr.length : Int))).addAsg
          ((k : Int) * (3 + (ceilLog2 arr.length : Int))) := by
  have hle := le_pow_ceilLog2 arr.length
  induction k with
  | zero =>
    rw [extractState_eq]
    simp only [List.range'_zero, List.foldl_nil]
    rw [build_stats arr _ _ hle]
    apply SortStats.eq_of_fields <;> simp [SortStats.addCmp, SortStats.addAsg]
  | succ k ih =>
    obtain ⟨i1, i2, _⟩ := extractState_inv arr hn hbnd k
    obtain ⟨_, _, j, hj, q3⟩ := extractStep_tree arr.length (2 ^ ceilLog2 arr.length - 1) k
      (extractState arr k) (by omega) i1 i2
    rw [extractState_succ, q3, rebuildTree_stats _ _ j _ (by omega), ih]
    apply SortStats.eq_of_fields <;> dsimp only [SortStats.addCmp, SortStats.addAsg] <;>
      (try push_cast) <;> (try ring)

theorem sort_stats_eq_extractState (arr : List Int) (hn : 2 ≤ arr.length) :
    (sort arr).2 = (extractState arr arr.length).2.2.addAsg (arr.length : Int) := by
  rw [extractState_eq]
  unfold sort
  dsimp only
  rw [if_neg (by omega)]
  have k := foldl_stats_eq (fun s : SortState => s.2)
    (fun (s : SortState) i =>
      (s.1.set i (rd ((List.range' 0 arr.length).foldl
        (extractStep (2 ^ ceilLog2 arr.length - 1))
        (List.replicate arr.length 0,
          buildTournamentTree arr
            (List.replicate (2 ^ (ceilLog2 arr.length + 1) - 1) Node.default)
            ((SortStats.zero.addMem ((2 ^ (ceilLog2 arr.length + 1) - 1) * sizeofNode)).addMem
              (arr.length * sizeofInt)))).1 i), s.2.addAsg 1)) 0 1
    (List.range' 0 arr.length)
    (arr, ((List.range' 0 arr.length).foldl
        (extractStep (2 ^ ceilLog2 arr.length - 1))
        (List.replicate arr.length 0,
          buildTournamentTree arr
            (List.replicate (2 ^ (ceilLog2 arr.length + 1) - 1) Node.default)
            ((SortStats.zero.addMem ((2 ^ (ceilLog2 arr.length + 1) - 1) * sizeofNode)).addMem
              (arr.length * sizeofInt)))).2.2)
    (by
      intro s i _
      apply SortStats.eq_of_fields <;> simp [SortStats.addAsg, SortStats.addCmp])
  dsimp only at k
  rw [k]
  apply SortStats.eq_of_fields <;> simp [SortStats.addCmp, SortStats.addAsg]

/-- The counter that `sort` returns is the closed form in the length. -/
theorem sort_stats (arr : List Int) (hbnd : ∀ x ∈ arr, x ≤ INT_MAX) :
    (sort arr).2 = counterOfLength arr.length := by
  by_cases hn : arr.length ≤ 1
  · unfold sort counterOfLength
    dsimp only
    rw [if_pos hn, if_pos hn]
  · rw [sort_stats_eq_extractState arr (by omega), extractState_stats arr (by omega) hbnd]
    unfold counterOfLength
    rw [if_neg hn]
    apply SortStats.eq_of_fields <;>
      simp only [SortStats.addCmp, SortStats.addAsg, SortStats.addMem, SortStats.zero] <;>
      ring

end TournamentSort

/-- C35: the counter returned by `TournamentSort::sort` depends only on the input length.
For any two vectors `x` and `y` of machine integers of the same length, the two calls return
identical `comparisons`, `assignments` and `memoryUsage`; each is the closed form
`counterOfLength` of the length. -/
theorem tournamentSort_counter_depends_on_length (x y : List Int) (hlen : x.length = y.length)
    (hx : ∀ v ∈ x, v ≤ TournamentSort.INT_MAX) (hy : ∀ v ∈ y, v ≤ TournamentSort.INT_MAX) :
    (TournamentSort.sort x).2 = (TournamentSort.sort y).2 ∧
    (TournamentSort.sort x).2.comparisons = (TournamentSort.sort y).2.comparisons ∧
    (TournamentSort.sort x).2.assignments = (TournamentSort.sort y).2.assignments ∧
    (TournamentSort.sort x).2.memoryUsage = (TournamentSort.sort y).2.memoryUsage ∧
    (TournamentSort.sort x).2 = TournamentSort.counterOfLength x.length := by
  have h1 := TournamentSort.sort_stats x hx
  have h2 := TournamentSort.sort_stats y hy
  rw [← hlen] at h2
  have e : (TournamentSort.sort x).2 = (TournamentSort.sort y).2 := by rw [h1, h2]
  exact ⟨e, by rw [e], by rw [e], by rw [e], h1⟩

/-- Instance of C35: the sorted-apart vectors `[5, 3, 8, 1, 9, 2, 7]` and
`[1, 1, 1, 1, 1, 1, 1]` both cost 28 comparisons, 65 assignments and 208 bytes. -/
theorem tournamentSort_counter_depends_on_length_witness :
    ([5, 3, 8, 1, 9, 2, 7] : List Int).length = ([1, 1, 1, 1, 1, 1, 1] : List Int).length ∧
    (∀ v ∈ ([5, 3, 8, 1, 9, 2, 7] : List Int), v ≤ TournamentSort.INT_MAX) ∧
    (∀ v ∈ ([1, 1, 1, 1, 1, 1, 1] : List Int), v ≤ TournamentSort.INT_MAX) ∧
    (TournamentSort.sort [5, 3, 8, 1, 9, 2, 7]).2 = ⟨28, 65, 208⟩ ∧
    (TournamentSort.sort [5, 3, 8, 1, 9, 2, 7]).2 = (TournamentSort.sort [1, 1, 1, 1, 1, 1, 1]).2 :=
  ⟨by decide, by decide, by decide, by decide,
   (tournamentSort_counter_depends_on_length [5, 3, 8, 1, 9, 2, 7] [1, 1, 1, 1, 1, 1, 1]
     (by decide) (by decide) (by decide)).1⟩

/-! ## Index safety of tournament sort -/

/-- A checked loop whose checks succeed in every state that satisfies the invariant `P`
computes the result of the unchecked loop. -/
theorem foldlM_eq_foldl {σ : Type} (P : σ → Prop) (f : σ → Nat → σ) (fM : σ → Nat → Option σ) :
    ∀ (l : List Nat) (s0 : σ), P s0 →
      (∀ s i, i ∈ l → P s → fM s i = some (f s i) ∧ P (f s i)) →
      l.foldlM fM s0 = some (l.foldl f s0) ∧ P (l.foldl f s0) := by
  intro l
  induction l with
  | nil =>
    intro s0 h0 _
    exact ⟨rfl, h0⟩
  | cons a l ih =>
    intro s0 h0 h
    obtain ⟨h1, h2⟩ := h s0 a (List.mem_cons_self _ _) h0
    rw [List.foldlM_cons, h1, List.foldl_cons]
    exact ih (f s0 a) h2 (fun s i hi hp => h s i (List.mem_cons_of_mem _ hi) hp)

namespace TournamentSort

/-- In a tree of `2 * ls + 1` nodes every access of `rebuildTree` is in range. -/
theorem rebuildTreeChecked_eq (ls : Nat) :
    ∀ (fuel : Nat) (T : List Node) (x : Nat) (st : SortStats), T.length = 2 * ls + 1 →
      x < 2 * ls + 1 →
      rebuildTreeChecked fuel T x st = some (rebuildTreeFuel fuel T x st) := by
  intro fuel
  induction fuel with
  | zero =>
    intro T x st _ _
    rfl
  | succ fuel ih =>
    intro T x st hT hx
    unfold rebuildTreeChecked rebuildTreeFuel
    by_cases h0 : x = 0
    · rw [if_pos h0, if_pos h0]
    · rw [if_neg h0, if_neg h0]
      dsimp only
      have hs : (if x % 2 = 0 then x - 1 else x + 1) < T.length := by
        rw [hT]
        split_ifs <;> omega
      rw [if_pos ⟨by omega, hs, by omega⟩]
      exact ih _ _ _ (by rw [List.length_set]; exact hT) (by omega)

/-- On a fresh tree of `2 ^ (h + 1) - 1` nodes with `n ≤ 2 ^ h` every access of
`buildTournamentTree` is in range. -/
theorem buildChecked_eq (arr : List Int) (h : Nat) (st : SortStats) (hn : arr.length ≤ 2 ^ h) :
    buildTournamentTreeChecked arr (List.replicate (2 ^ (h + 1) - 1) Node.default) st
      = some (buildTournamentTree arr (List.replicate (2 ^ (h + 1) - 1) Node.default) st) := by
  have hpos : 1 ≤ 2 ^ h := Nat.one_le_two_pow
  have e0 : 2 ^ (h + 1) = 2 * 2 ^ h := by rw [pow_succ]; ring
  have e1 : 2 ^ (h + 1) - 1 + 1 = 2 ^ (h + 1) := by omega
  unfold buildTournamentTreeChecked buildTournamentTree
  dsimp only
  rw [List.length_replicate, e1, floorLog2_pow, Nat.add_sub_cancel]
  obtain ⟨k1, p1⟩ := foldlM_eq_foldl
    (fun s : List Node × SortStats => s.1.length = 2 ^ (h + 1) - 1)
    (fun (s : List Node × SortStats) i =>
      (s.1.set (2 ^ h - 1 + i) (Node.mk2 (rd arr i) i), s.2.addAsg 1))
    (fun (s : List Node × SortStats) i =>
      if i < arr.length ∧ 2 ^ h - 1 + i < s.1.length then
        some (s.1.set (2 ^ h - 1 + i) (Node.mk2 (rd arr i) i), s.2.addAsg 1)
      else none)
    (List.range' 0 arr.length) (List.replicate (2 ^ (h + 1) - 1) Node.default, st)
    (by simp)
    (by
      intro s i hi hp
      rw [List.mem_range'_1] at hi
      dsimp only at hp ⊢
      rw [if_pos ⟨by omega, by omega⟩]
      exact ⟨rfl, by rw [List.length_set]; exact hp⟩)
  rw [k1, Option.some_bind]
  generalize (List.range' 0 arr.length).foldl
    (fun (s : List Node × SortStats) i =>
      (s.1.set (2 ^ h - 1 + i) (Node.mk2 (rd arr i) i), s.2.addAsg 1))
    (List.replicate (2 ^ (h + 1) - 1) Node.default, st) = s1 at p1 ⊢
  obtain ⟨k2, p2⟩ := foldlM_eq_foldl
    (fun s : List Node × SortStats => s.1.length = 2 ^ (h + 1) - 1)
    (fun (s : List Node × SortStats) i => (invalidate s.1 i, s.2.addAsg 2))
    (fun (s : List Node × SortStats) i =>
      if i < s.1.length then some (invalidate s.1 i, s.2.addAsg 2) else none)
    (List.range' (2 ^ h - 1 + arr.length) (2 ^ (h + 1) - 1 - (2 ^ h - 1 + arr.length))) s1 p1
    (by
      intro s i hi hp
      rw [List.mem_range'_1] at hi
      dsimp only at hp ⊢
      rw [if_pos (by omega)]
      exact ⟨rfl, by rw [length_invalidate]; exact hp⟩)
  rw [k2, Option.some_bind]
  generalize (List.range' (2 ^ h - 1 + arr.length)
    (2 ^ (h + 1) - 1 - (2 ^ h - 1 + arr.length))).foldl
    (fun (s : List Node × SortStats) i => (invalidate s.1 i, s.2.addAsg 2)) s1 = s2 at p2 ⊢
  obtain ⟨k3, _⟩ := foldlM_eq_foldl
    (fun s : List Node × SortStats => s.1.length = 2 ^ (h + 1) - 1)
    (fun (s : List Node × SortStats) i =>
      (s.1.set i (if (nd s.1 (2 * i + 1)).value ≤ (nd s.1 (2 * i + 2)).value
          then nd s.1 (2 * i + 1) else nd s.1 (2 * i + 2)),
        (s.2.addCmp 1).addAsg 1))
    (fun (s : List Node × SortStats) i =>
      if i < s.1.length ∧ 2 * i + 1 < s.1.length ∧ 2 * i + 2 < s.1.length then
        some (s.1.set i (if (nd s.1 (2 * i + 1)).value ≤ (nd s.1 (2 * i + 2)).value
            then nd s.1 (2 * i + 1) else nd s.1 (2 * i + 2)),
          (s.2.addCmp 1).addAsg 1)
      else none)
    (List.range' 0 (2 ^ h - 1)).reverse s2 p2
    (by
      intro s i hi hp
      rw [List.mem_reverse, List.mem_range'_1] at hi
      dsimp only at hp ⊢
      rw [if_pos ⟨by omega, by omega, by omega⟩]
      exact ⟨rfl, by rw [List.length_set]; exact hp⟩)
  exact k3

/-- In a state that satisfies the tree invariant and whose root names a real leaf, every
access of an extraction step is in range. -/
theorem extractStepChecked_eq (n ls i : Nat) (s : List Int × List Node × SortStats)
    (hn : n ≤ ls + 1) (hi : i < s.1.length) (h2 : TreeInv n ls s.2.1 (fun _ => False))
    (hidx : ∃ j, j < n ∧ (nd s.2.1 0).index = (j : Int)) :
    extractStepChecked ls s i = some (extractStep ls s i) := by
  obtain ⟨j, hj, hidx⟩ := hidx
  have hlen := h2.len
  have hq : ((ls : Int) + (nd s.2.1 0).index).toNat = ls + j := by
    rw [hidx]; omega
  unfold extractStepChecked extractStep
  rw [if_pos ⟨hi, by omega, by rw [hidx]; omega, by rw [hidx, hlen]; omega⟩]
  dsimp only
  rw [hq]
  unfold rebuildTree
  rw [rebuildTreeChecked_eq ls _ _ _ _ (by rw [length_invalidate]; exact hlen) (by omega)]
  rfl

/-- Every vector access of `sort` is in range: the checked run returns the result of
`sort`. -/
theorem sortChecked_eq (arr : List Int) (hbnd : ∀ x ∈ arr, x ≤ INT_MAX) :
    sortChecked arr = some (sort arr) := by
  unfold sortChecked sort
  dsimp only
  by_cases hn : arr.length ≤ 1
  · rw [if_pos hn, if_pos hn]
  · rw [if_neg hn, if_neg hn]
    have hle := le_pow_ceilLog2 arr.length
    have hpos : 1 ≤ 2 ^ ceilLog2 arr.length := Nat.one_le_two_pow
    rw [buildChecked_eq arr _ _ hle, Option.some_bind]
    obtain ⟨b1, b2, _⟩ := build_spec arr (ceilLog2 arr.length)
      ((SortStats.zero.addMem ((2 ^ (ceilLog2 arr.length + 1) - 1) * sizeofNode)).addMem
        (arr.length * sizeofInt)) (by omega) hle hbnd
    generalize buildTournamentTree arr
      (List.replicate (2 ^ (ceilLog2 arr.length + 1) - 1) Node.default)
      ((SortStats.zero.addMem ((2 ^ (ceilLog2 arr.length + 1) - 1) * sizeofNode)).addMem
        (arr.length * sizeofInt)) = built at b1 b2 ⊢
    obtain ⟨k1, p1, _⟩ := foldlM_eq_foldl
      (fun s : List Int × List Node × SortStats => s.1.length = arr.length ∧
        TreeInv arr.length (2 ^ ceilLog2 arr.length - 1) s.2.1 (fun _ => False) ∧
        ∃ j, j < arr.length ∧ (nd s.2.1 0).index = (j : Int))
      (extractStep (2 ^ ceilLog2 arr.length - 1))
      (extractStepChecked (2 ^ ceilLog2 arr.length - 1))
      (List.range' 0 arr.length) (List.replicate arr.length 0, built.1, built.2)
      ⟨by simp, b1, b2⟩
      (by
        intro s i hi ⟨q1, q2, q3⟩
        rw [List.mem_range'_1] at hi
        obtain ⟨r1, r2, _⟩ := extractStep_tree arr.length (2 ^ ceilLog2 arr.length - 1) i s
          (by omega) q2 q3
        refine ⟨extractStepChecked_eq arr.length _ i s (by omega) (by omega) q2 q3, ?_, r1, r2⟩
        unfold extractStep
        simpa using q1)
    rw [k1, Option.some_bind]
    generalize (List.range' 0 arr.length).foldl (extractStep (2 ^ ceilLog2 arr.length - 1))
      (List.replicate arr.length 0, built.1, built.2) = ex at p1 ⊢
    obtain ⟨k2, _⟩ := foldlM_eq_foldl
      (fun s : SortState => s.1.length = arr.length)
      (fun (s : SortState) i => (s.1.set i (rd ex.1 i), s.2.addAsg 1))
      (fun (s : SortState) i =>
        if i < s.1.length ∧ i < ex.1.length then some (s.1.set i (rd ex.1 i), s.2.addAsg 1)
        else none)
      (List.range' 0 arr.length) (arr, ex.2.2) rfl
      (by
        intro s i hi hp
        rw [List.mem_range'_1] at hi
        dsimp only at hp ⊢
        rw [if_pos ⟨by omega, by omega⟩]
        exact ⟨rfl, by rw [List.length_set]; exact hp⟩)
    exact k2

end TournamentSort

/-- C37: index safety of Tournament Sort.  For every vector of `n ≥ 2` machine integers the
tree has `2 ^ height ≥ n` leaves; at each of the `n` extractions (`extractState arr k` is the
state before extraction `k`) the tree has its `2 ^ (height + 1) - 1` nodes, the result
vector its `n` slots, the root's stored index satisfies `0 ≤ tree[0].index < n`, and
`leafIndex = leafStart + tree[0].index` is the slot of a real leaf, inside the tree; and the
run of `sort` in which every access to `arr`, `tree` and `result` made by `sort`,
`buildTournamentTree` and `rebuildTree` is checked never fails and returns what `sort`
returns. -/
theorem tournamentSort_index_safety (arr : List Int) (hn : 2 ≤ arr.length)
    (hbnd : ∀ x ∈ arr, x ≤ TournamentSort.INT_MAX) :
    arr.length ≤ 2 ^ ceilLog2 arr.length ∧
    (∀ k, k < arr.length →
      (TournamentSort.extractState arr k).2.1.length = 2 ^ (ceilLog2 arr.length + 1) - 1 ∧
      (TournamentSort.extractState arr k).1.length = arr.length ∧
      0 ≤ (TournamentSort.nd (TournamentSort.extractState arr k).2.1 0).index ∧
      (TournamentSort.nd (TournamentSort.extractState arr k).2.1 0).index < (arr.length : Int) ∧
      ((2 ^ ceilLog2 arr.length - 1 : Nat) : Int)
        ≤ ((2 ^ ceilLog2 arr.length - 1 : Nat) : Int)
          + (TournamentSort.nd (TournamentSort.extractState arr k).2.1 0).index ∧
      ((2 ^ ceilLog2 arr.length - 1 : Nat) : Int)
          + (TournamentSort.nd (TournamentSort.extractState arr k).2.1 0).index
        < ((2 ^ ceilLog2 arr.length - 1 + arr.length : Nat) : Int) ∧
      2 ^ ceilLog2 arr.length - 1 + arr.length ≤ 2 ^ (ceilLog2 arr.length + 1) - 1 ∧
      TournamentSort.extractStepChecked (2 ^ ceilLog2 arr.length - 1)
          (TournamentSort.extractState arr k) k
        = some (TournamentSort.extractState arr (k + 1))) ∧
    TournamentSort.sortChecked arr = some (TournamentSort.sort arr) := by
  have hle := le_pow_ceilLog2 arr.length
  have hpos : 1 ≤ 2 ^ ceilLog2 arr.length := Nat.one_le_two_pow
  have e0 : 2 ^ (ceilLog2 arr.length + 1) = 2 * 2 ^ ceilLog2 arr.length := by
    rw [pow_succ]; ring
  refine ⟨hle, ?_, TournamentSort.sortChecked_eq arr hbnd⟩
  intro k hk
  obtain ⟨h1, ⟨j, hj, hidx⟩, _⟩ := TournamentSort.extractState_inv arr hn hbnd k
  have hl := TournamentSort.extractState_length arr k
  refine ⟨by rw [h1.len]; omega, hl, by rw [hidx]; omega, by rw [hidx]; omega,
    by rw [hidx]; omega, by rw [hidx]; omega, by omega, ?_⟩
  rw [TournamentSort.extractState_succ]
  exact TournamentSort.extractStepChecked_eq arr.length _ k _ (by omega) (by omega) h1
    ⟨j, hj, hidx⟩

/-- Instance of C37 on `[5, 3, 8, 1, 9]`: eight leaves for five elements, the root names leaf
`3` before the first extraction, and the checked run returns the sorted vector. -/
theorem tournamentSort_index_safety_witness :
    2 ≤ ([5, 3, 8, 1, 9] : List Int).length ∧
    (∀ x ∈ ([5, 3, 8, 1, 9] : List Int), x ≤ TournamentSort.INT_MAX) ∧
    2 ^ ceilLog2 ([5, 3, 8, 1, 9] : List Int).length = 8 ∧
    (TournamentSort.nd (TournamentSort.extractState [5, 3, 8, 1, 9] 0).2.1 0).index = 3 ∧
    (TournamentSort.sortChecked [5, 3, 8, 1, 9]).map (fun r => r.1) = some [1, 3, 5, 8, 9] ∧
    TournamentSort.sortChecked [5, 3, 8, 1, 9] = some (TournamentSort.sort [5, 3, 8, 1, 9]) :=
  ⟨by decide, by decide, by decide, by decide, by decide,
   (tournamentSort_index_safety [5, 3, 8, 1, 9] (by decide) (by decide)).2.2⟩

/-! ## Assignments of cocktail sort and inversions -/

theorem swapAt_cons_succ (z : Int) (t : List Int) (i j : Nat) :
    swapAt (z :: t) (i + 1) (j + 1) = z :: swapAt t i j := by
  simp [swapAt, rd]

theorem swapAt_zero_one (x y : Int) (r : List Int) : swapAt (x :: y :: r) 0 1 = y :: x :: r := by
  simp [swapAt, rd]

/-- Exchanging an adjacent pair that is out of order removes exactly one inversion. -/
theorem inversions_swap_adjacent :
    ∀ (a : List Int) (i : Nat), i + 1 < a.length → rd a i > rd a (i + 1) →
      inversions (swapAt a i (i + 1)) + 1 = inversions a := by
  intro a
  induction a with
  | nil => intro i hi _; simp at hi
  | cons z t ih =>
    intro i hi hgt
    cases i with
    | zero =>
      match t, hi, hgt with
      | [], hi, _ => simp at hi
      | y :: r, _, hgt =>
        have hyz : y < z := by simpa [rd] using hgt
        rw [swapAt_zero_one]
        simp only [inversions, List.countP_cons]
        have e1 : decide (y < z) = true := by simpa using hyz
        have e2 : decide (z < y) = false := by simpa using le_of_lt hyz
        rw [e1, e2]
        simp only [if_true, Bool.false_eq_true, if_false]
        omega
    | succ i =>
      have hi' : i + 1 < t.length := by simpa using hi
      have hgt' : rd t i > rd t (i + 1) := by simpa [rd] using hgt
      rw [swapAt_cons_succ]
      simp only [inversions]
      have hp : (swapAt t i (i + 1)).Perm t := swapAt_perm t (by omega) hi'
      rw [hp.countP_eq]
      have := ih i hi' hgt'
      omega

/-- A non-decreasing vector has no inversion. -/
theorem inversions_sorted (a : List Int) (h : a.Sorted (fun x y => x ≤ y)) :
    inversions a = 0 := by
  induction a with
  | nil => rfl
  | cons x xs ih =>
    rw [List.sorted_cons] at h
    simp only [inversions]
    rw [ih h.2, List.countP_eq_zero.2]
    intro y hy
    have := h.1 y hy
    simpa using this

namespace CocktailSort

/-- One compare-and-exchange step keeps `assignments + 3 * inversions`: it either leaves the
vector and the count alone, or exchanges an adjacent out-of-order pair, which removes one
inversion and is counted as three assignments. -/
theorem bubbleStep_potential (s : Bool × SortState) (i : Nat) (hi : i + 1 < s.2.1.length) :
    (bubbleStep s i).2.1.length = s.2.1.length ∧
    (bubbleStep s i).2.2.assignments + 3 * (inversions (bubbleStep s i).2.1 : Int)
      = s.2.2.assignments + 3 * (inversions s.2.1 : Int) := by
  unfold bubbleStep
  by_cases hc : rd s.2.1 i > rd s.2.1 (i + 1)
  · rw [if_pos hc]
    dsimp only
    have := inversions_swap_adjacent s.2.1 i hi hc
    refine ⟨length_swapAt _ _ _, ?_⟩
    simp only [SortStats.addCmp, SortStats.addAsg]
    omega
  · rw [if_neg hc]
    dsimp only
    exact ⟨rfl, by simp only [SortStats.addCmp]⟩

theorem bubbleFold_potential :
    ∀ (l : List Nat) (s : Bool × SortState), (∀ i ∈ l, i + 1 < s.2.1.length) →
      (l.foldl bubbleStep s).2.1.length = s.2.1.length ∧
      (l.foldl bubbleStep s).2.2.assignments + 3 * (inversions (l.foldl bubbleStep s).2.1 : Int)
        = s.2.2.assignments + 3 * (inversions s.2.1 : Int) := by
  intro l
  induction l with
  | nil => intro s _; exact ⟨rfl, rfl⟩
  | cons a l ih =>
    intro s h
    rw [List.foldl_cons]
    obtain ⟨b1, b2⟩ := bubbleStep_potential s a (h a (List.mem_cons_self _ _))
    obtain ⟨i1, i2⟩ := ih (bubbleStep s a) (by
      intro i hi
      rw [b1]
      exact h i (List.mem_cons_of_mem _ hi))
    exact ⟨by rw [i1, b1], by rw [i2, b2]⟩

theorem forwardPass_potential (start e : Nat) (s : SortState) (he : e < s.1.length) :
    (forwardPass start e s).2.1.length = s.1.length ∧
    (forwardPass start e s).2.2.assignments + 3 * (inversions (forwardPass start e s).2.1 : Int)
      = s.2.assignments + 3 * (inversions s.1 : Int) := by
  unfold forwardPass
  exact bubbleFold_potential _ (false, s) (by
    intro i hi
    rw [List.mem_range'_1] at hi
    show i + 1 < s.1.length
    omega)

theorem backwardPass_potential (start e : Nat) (s : SortState) (he : e < s.1.length) :
    (backwardPass start e s).2.1.length = s.1.length ∧
    (backwardPass start e s).2.2.assignments
        + 3 * (inversions (backwardPass start e s).2.1 : Int)
      = s.2.assignments + 3 * (inversions s.1 : Int) := by
  unfold backwardPass
  exact bubbleFold_potential _ (false, s) (by
    intro i hi
    rw [List.mem_reverse, List.mem_range'_1] at hi
    show i + 1 < s.1.length
    omega)

theorem sortLoop_potential :
    ∀ (fuel start e : Nat) (s r : SortState), e < s.1.length →
      sortLoop fuel start e s = some r →
      r.2.assignments + 3 * (inversions r.1 : Int)
        = s.2.assignments + 3 * (inversions s.1 : Int) := by
  intro fuel
  induction fuel with
  | zero => intro start e s r _ h; simp [sortLoop] at h
  | succ fuel ih =>
    intro start e s r he h
    unfold sortLoop at h
    simp only at h
    obtain ⟨f1, f2⟩ := forwardPass_potential start e s he
    by_cases c1 : (forwardPass start e s).1 = false
    · rw [if_pos c1, Option.some.injEq] at h
      rw [← h]
      exact f2
    · rw [if_neg c1] at h
      obtain ⟨b1, b2⟩ := backwardPass_potential start (e - 1) (forwardPass start e s).2
        (by omega)
      by_cases c2 : (backwardPass start (e - 1) (forwardPass start e s).2).1 = true
      · rw [if_pos c2] at h
        have := ih _ _ _ _ (by omega) h
        rw [this, b2, f2]
      · rw [if_neg c2, Option.some.injEq] at h
        rw [← h, b2, f2]

theorem sort_potential (arr : List Int) (fuel : Nat) (r : SortState)
    (h : sort fuel arr = some r) :
    r.2.assignments + 3 * (inversions r.1 : Int) = 3 * (inversions arr : Int) := by
  unfold sort at h
  dsimp only at h
  by_cases hn : arr.length ≤ 1
  · rw [if_pos hn, Option.some.injEq] at h
    rw [← h]
    simp [SortStats.zero]
  · rw [if_neg hn] at h
    have := sortLoop_potential fuel 0 (arr.length - 1) (arr, SortStats.zero) r
      (by show arr.length - 1 < arr.length; omega) h
    rw [this]
    simp [SortStats.zero]

end CocktailSort

/-- C36: for every input, the `assignments` returned by `CocktailSort::sort` is exactly three
times the number of inversions of the input (the pairs `i < j` with `arr[i] > arr[j]`).  The
run stops within `n` iterations of its loop, every run that stops returns this count, and
every compare-and-exchange step keeps `assignments + 3 * inversions`: a swap exchanges an
adjacent out-of-order pair, which removes one inversion, and is counted as three
assignments. -/
theorem cocktailSort_assignments_inversions (arr : List Int) :
    (∃ r, CocktailSort.sort arr.length arr = some r ∧
      r.2.assignments = 3 * (inversions arr : Int)) ∧
    (∀ fuel r, CocktailSort.sort fuel arr = some r →
      r.2.assignments = 3 * (inversions arr : Int)) ∧
    (∀ (s : Bool × SortState) (i : Nat), i + 1 < s.2.1.length →
      (CocktailSort.bubbleStep s i).2.2.assignments
          + 3 * (inversions (CocktailSort.bubbleStep s i).2.1 : Int)
        = s.2.2.assignments + 3 * (inversions s.2.1 : Int)) := by
  obtain ⟨r, h1, h2, h3, _⟩ := CocktailSort.cocktailSort_spec arr
  have key : r.2.assignments = 3 * (inversions arr : Int) := by
    have := CocktailSort.sort_potential arr _ r h1
    rw [inversions_sorted r.1 h3] at this
    simpa using this
  refine ⟨⟨r, h1, key⟩, ?_, fun s i hi => (CocktailSort.bubbleStep_potential s i hi).2⟩
  intro fuel r' h
  rw [h2 fuel r' h]
  exact key

/-- Instance of C36 on `[3, 1, 2, 0]`: five inversions, fifteen assignments. -/
theorem cocktailSort_assignments_inversions_witness :
    inversions [3, 1, 2, 0] = 5 ∧
    (CocktailSort.sort 4 [3, 1, 2, 0]).map (fun r => r.2.assignments) = some 15 ∧
    ∃ r, CocktailSort.sort ([3, 1, 2, 0] : List Int).length [3, 1, 2, 0] = some r ∧
      r.2.assignments = 3 * (inversions [3, 1, 2, 0] : Int) :=
  ⟨by decide, by decide, (cocktailSort_assignments_inversions [3, 1, 2, 0]).1⟩

/-! ## The natural run found by `findNextRun` -/

namespace TimSort

/-- What `findNextRun` does in each of its three cases: a one-element tail is returned as it
is; a start that does not descend opens a non-decreasing run, which is followed to its end
(the last index, or the index in front of the first descent) and left in place; a start that
descends opens a strictly descending run, which is followed to its end (the last index, or
the index in front of the first element that is not smaller) and reversed. -/
theorem findNextRun_cases (arr : List Int) (start : Nat) (stats : SortStats)
    (hs : start < arr.length) :
    (arr.length ≤ start + 1 →
      findNextRun arr start arr.length stats = (start, arr, stats)) ∧
    (start + 1 < arr.length → rd arr start ≤ rd arr (start + 1) →
      start < (findNextRun arr start arr.length stats).1 ∧
      (findNextRun arr start arr.length stats).2.1 = arr ∧
      (∀ t, start ≤ t → t < (findNextRun arr start arr.length stats).1 →
        rd arr t ≤ rd arr (t + 1)) ∧
      ((findNextRun arr start arr.length stats).1 + 1 < arr.length →
        rd arr (findNextRun arr start arr.length stats).1
          > rd arr ((findNextRun arr start arr.length stats).1 + 1)) ∧
      (findNextRun arr start arr.length stats).2.2
        = stats.addCmp (((findNextRun arr start arr.length stats).1 - start : Nat) : Int)) ∧
    (start + 1 < arr.length → rd arr start > rd arr (start + 1) →
      start < (findNextRun arr start arr.length stats).1 ∧
      (∀ t, start ≤ t → t < (findNextRun arr start arr.length stats).1 →
        rd arr t > rd arr (t + 1)) ∧
      ((findNextRun arr start arr.length stats).1 + 1 < arr.length →
        rd arr (findNextRun arr start arr.length stats).1
          ≤ rd arr ((findNextRun arr start arr.length stats).1 + 1)) ∧
      (∀ k, start ≤ k → k ≤ (findNextRun arr start arr.length stats).1 →
        rd (findNextRun arr start arr.length stats).2.1 k
          = rd arr (start + (findNextRun arr start arr.length stats).1 - k)) ∧
      (findNextRun arr start arr.length stats).2.2
        = (stats.addCmp (((findNextRun arr start arr.length stats).1 - start : Nat) : Int)).addAsg
            (3 * ((((findNextRun arr start arr.length stats).1 + 1 - start) / 2 : Nat) : Int))) := by
  refine ⟨?_, ?_, ?_⟩
  · intro c1
    unfold findNextRun
    rw [if_pos c1]
  · intro c1 c2
    unfold findNextRun
    rw [if_neg (by omega), if_pos c2]
    dsimp only
    obtain ⟨p1, p2, p3, p4, p5⟩ := scanAscending_spec arr arr.length arr.length (start + 1)
      (by omega)
    refine ⟨by omega, rfl, ?_, ?_, ?_⟩
    · intro t h1 h2
      by_cases e : t = start
      · subst e; exact c2
      · exact p3 t (by omega) h2
    · intro h
      exact not_le.1 (p4 (by omega) h)
    · rw [p5]
      congr 1
      omega
  · intro c1 c2
    unfold findNextRun
    rw [if_neg (by omega), if_neg (not_le.2 c2)]
    dsimp only
    obtain ⟨p1, p2, p3, p4, p5⟩ := scanDescending_spec arr arr.length arr.length (start + 1)
      (by omega)
    rw [p5]
    generalize (scanDescending arr arr.length arr.length (start + 1)).1 = e at p1 p2 p3 p4
    obtain ⟨_, q2, _, _, q5⟩ := reverseRun_spec arr.length arr start e
      (stats.addCmp (1 + ((e - (start + 1) : Nat) : Int))) p2 (by omega)
    refine ⟨by omega, ?_, ?_, q2, ?_⟩
    · intro t h1 h2
      by_cases e1 : t = start
      · subst e1; exact c2
      · exact p3 t (by omega) h2
    · intro h
      exact not_lt.1 (p4 (by omega) h)
    · rw [q5]
      congr 2
      omega

end TimSort

/-- C33: natural-run utility of Tim Sort.  For every array of size `n` and every `start < n`,
`TimSort::findNextRun(arr, start, n)` returns an index `e` with `start ≤ e < n` such that
afterwards `arr[start..e]` is non-decreasing, the array is a permutation of its former
contents and the elements outside `[start, e]` are unchanged.  The index `e` is the end of
the natural run that starts at `start`: when `start` is the last index, `e = start` and
nothing changes; when `arr[start] ≤ arr[start+1]`, the array is left as it is, `arr[start..e]`
was already non-decreasing, and `e` is the last index or `arr[e] > arr[e+1]`; when
`arr[start] > arr[start+1]`, `arr[start..e]` was strictly descending, `e` is the last index
or `arr[e] ≤ arr[e+1]`, and the range is reversed in place.  In the last two cases
`e > start` and `e - start` comparisons are counted.  `reverseRun(arr, s, e)` reverses
`arr[s..e]` exactly: for `e < n`, slot `k` of the range receives the former `arr[s + e - k]`,
the other slots keep their values, and `⌊(e + 1 - s) / 2⌋` exchanges are counted as three
assignments each (any fuel of at least that many iterations gives this result). -/
theorem findNextRun_reverseRun_contract (arr : List Int) (stats : SortStats) :
    (∀ start, start < arr.length →
      start ≤ (TimSort.findNextRun arr start arr.length stats).1 ∧
      (TimSort.findNextRun arr start arr.length stats).1 < arr.length ∧
      SortedOn (TimSort.findNextRun arr start arr.length stats).2.1 start
        (TimSort.findNextRun arr start arr.length stats).1 ∧
      (TimSort.findNextRun arr start arr.length stats).2.1.Perm arr ∧
      SameOutside arr (TimSort.findNextRun arr start arr.length stats).2.1 start
        (TimSort.findNextRun arr start arr.length stats).1) ∧
    (∀ start, start < arr.length →
      (arr.length ≤ start + 1 →
        TimSort.findNextRun arr start arr.length stats = (start, arr, stats)) ∧
      (start + 1 < arr.length → rd arr start ≤ rd arr (start + 1) →
        start < (TimSort.findNextRun arr start arr.length stats).1 ∧
        (TimSort.findNextRun arr start arr.length stats).2.1 = arr ∧
        (∀ t, start ≤ t → t < (TimSort.findNextRun arr start arr.length stats).1 →
          rd arr t ≤ rd arr (t + 1)) ∧
        ((TimSort.findNextRun arr start arr.length stats).1 + 1 < arr.length →
          rd arr (TimSort.findNextRun arr start arr.length stats).1
            > rd arr ((TimSort.findNextRun arr start arr.length stats).1 + 1)) ∧
        (TimSort.findNextRun arr start arr.length stats).2.2
          = stats.addCmp
              (((TimSort.findNextRun arr start arr.length stats).1 - start : Nat) : Int)) ∧
      (start + 1 < arr.length → rd arr start > rd arr (start + 1) →
        start < (TimSort.findNextRun arr start arr.length stats).1 ∧
        (∀ t, start ≤ t → t < (TimSort.findNextRun arr start arr.length stats).1 →
          rd arr t > rd arr (t + 1)) ∧
        ((TimSort.findNextRun arr start arr.length stats).1 + 1 < arr.length →
          rd arr (TimSort.findNextRun arr start arr.length stats).1
            ≤ rd arr ((TimSort.findNextRun arr start arr.length stats).1 + 1)) ∧
        (∀ k, start ≤ k → k ≤ (TimSort.findNextRun arr start arr.length stats).1 →
          rd (TimSort.findNextRun arr start arr.length stats).2.1 k
            = rd arr (start + (TimSort.findNextRun arr start arr.length stats).1 - k)) ∧
        (TimSort.findNextRun arr start arr.length stats).2.2
          = (stats.addCmp
              (((TimSort.findNextRun arr start arr.length stats).1 - start : Nat) : Int)).addAsg
              (3 * ((((TimSort.findNextRun arr start arr.length stats).1 + 1 - start) / 2 : Nat)
                : Int)))) ∧
    (∀ s e fuel, e < arr.length → (e + 1 - s) / 2 ≤ fuel →
      (TimSort.reverseRun fuel arr s e stats).1.length = arr.length ∧
      (∀ k, s ≤ k → k ≤ e →
        rd (TimSort.reverseRun fuel arr s e stats).1 k = rd arr (s + e - k)) ∧
      (∀ k, (k < s ∨ e < k) → rd (TimSort.reverseRun fuel arr s e stats).1 k = rd arr k) ∧
      (TimSort.reverseRun fuel arr s e stats).2
        = stats.addAsg (3 * (((e + 1 - s) / 2 : Nat) : Int))) :=
  ⟨fun start hs => TimSort.findNextRun_spec arr start stats hs,
   fun start hs => TimSort.findNextRun_cases arr start stats hs,
   fun s e fuel he hf =>
    ⟨(TimSort.reverseRun_spec fuel arr s e stats he hf).1,
     (TimSort.reverseRun_spec fuel arr s e stats he hf).2.1,
     (TimSort.reverseRun_spec fuel arr s e stats he hf).2.2.1,
     (TimSort.reverseRun_spec fuel arr s e stats he hf).2.2.2.2⟩⟩

/-- Instances of C33 on `[4, 9, 7, 5, 2, 6, 1]`.  From `start = 1` the descending run
`9, 7, 5, 2` ends at index `4` (the next element `6` is not smaller) and is reversed in
place, with three comparisons and two exchanges.  From `start = 4` the non-decreasing run
`2, 6` ends at index `5` (the next element `1` is smaller) and stays in place.  From
`start = 6`, the last index, the run is the single element. -/
theorem findNextRun_reverseRun_contract_witness :
    1 < ([4, 9, 7, 5, 2, 6, 1] : List Int).length ∧
    TimSort.findNextRun [4, 9, 7, 5, 2, 6, 1] 1 7 SortStats.zero
      = (4, [4, 2, 5, 7, 9, 6, 1], ⟨3, 6, 0⟩) ∧
    TimSort.findNextRun [4, 9, 7, 5, 2, 6, 1] 4 7 SortStats.zero
      = (5, [4, 9, 7, 5, 2, 6, 1], ⟨1, 0, 0⟩) ∧
    TimSort.findNextRun [4, 9, 7, 5, 2, 6, 1] 6 7 SortStats.zero
      = (6, [4, 9, 7, 5, 2, 6, 1], ⟨0, 0, 0⟩) ∧
    TimSort.findNextRun [1, 2, 2, 3] 0 4 SortStats.zero = (3, [1, 2, 2, 3], ⟨3, 0, 0⟩) ∧
    (TimSort.reverseRun 7 [4, 9, 7, 5, 2, 6, 1] 1 4 SortStats.zero).1 = [4, 2, 5, 7, 9, 6, 1] ∧
    (TimSort.findNextRun [4, 9, 7, 5, 2, 6, 1] 1
      ([4, 9, 7, 5, 2, 6, 1] : List Int).length SortStats.zero).2.1.Perm
      [4, 9, 7, 5, 2, 6, 1] ∧
    (TimSort.findNextRun [4, 9, 7, 5, 2, 6, 1] 4
      ([4, 9, 7, 5, 2, 6, 1] : List Int).length SortStats.zero).2.1 = [4, 9, 7, 5, 2, 6, 1] :=
  ⟨by decide, by decide, by decide, by decide, by decide, by decide,
   ((findNextRun_reverseRun_contract [4, 9, 7, 5, 2, 6, 1] SortStats.zero).1 1
     (by decide)).2.2.2.1,
   (((findNextRun_reverseRun_contract [4, 9, 7, 5, 2, 6, 1] SortStats.zero).2.1 4
     (by decide)).2.1 (by decide) (by decide)).2.1⟩

/-! ## Order of equal elements in the insertion sort of introsort and the merge of Tim sort

Equal integers cannot be told apart in the result, so the order of equal elements is read
off the run of the same routine over the records `(value, index)`, compared by value. -/

theorem rd_map_getD {α : Type} (key : α → Int) (dflt : α) (h0 : key dflt = 0) (a : List α)
    (i : Nat) : rd (a.map key) i = key (a.getD i dflt) := by
  unfold rd
  by_cases h : i < a.length
  · simp [List.getD_eq_getElem?_getD, h]
  · have h1 : a[i]? = none := List.getElem?_eq_none (by omega)
    have h2 : (a.map key)[i]? = none := List.getElem?_eq_none (by simpa using not_lt.1 h)
    simp [List.getD_eq_getElem?_getD, h1, h2, h0]

namespace IntroSort

/-- The shift loop over elements moves the elements as the `int` loop moves their keys, and
counts the same operations. -/
theorem insertionShiftOn_erase {α : Type} (key : α → Int) (dflt : α) (h0 : key dflt = 0)
    (begin : Nat) (k : α) :
    ∀ (j : Nat) (a : List α) (st : SortStats),
      insertionShift begin (key k) j (a.map key) st
        = ((insertionShiftOn key dflt begin k j a st).1,
            (insertionShiftOn key dflt begin k j a st).2.1.map key,
            (insertionShiftOn key dflt begin k j a st).2.2) := by
  intro j
  induction j with
  | zero => intro a st; rfl
  | succ j ih =>
    intro a st
    unfold insertionShift insertionShiftOn
    by_cases h1 : begin ≤ j
    · rw [if_pos h1, if_pos h1, rd_map_getD key dflt h0]
      by_cases h2 : key (a.getD j dflt) > key k
      · rw [if_pos h2, if_pos h2, ← List.map_set]
        exact ih _ _
      · rw [if_neg h2, if_neg h2]
    · rw [if_neg h1, if_neg h1]

/-- The insertion sort over elements moves the elements as `IntroSort::insertionSort` moves
their keys, and returns the same counter. -/
theorem insertionSortOn_erase {α : Type} (key : α → Int) (dflt : α) (h0 : key dflt = 0)
    (a : List α) (b e : Nat) (st : SortStats) :
    insertionSort (a.map key) b e st
      = ((insertionSortOn key dflt a b e st).1.map key, (insertionSortOn key dflt a b e st).2) := by
  unfold insertionSort insertionSortOn
  have key' := foldl_range'_sim
    (fun _ (s : SortState) (t : List α × SortStats) => s = (t.1.map key, t.2))
    (insertionStep b) (insertionStepOn key dflt b) (b + 1) (e - b)
    (a.map key, st) (a, st) rfl
    (by
      intro i s t _ _ hp
      unfold insertionStep insertionStepOn
      dsimp only
      rw [hp]
      dsimp only
      rw [rd_map_getD key dflt h0, insertionShiftOn_erase key dflt h0, List.map_set])
  exact key'

/-- At the element type `int` with the identity key the routine over elements is
`IntroSort::insertionSort`. -/
theorem insertionSortOn_int (a : List Int) (b e : Nat) (st : SortStats) :
    insertionSortOn (fun x : Int => x) 0 a b e st = insertionSort a b e st := by
  have := insertionSortOn_erase (fun x : Int => x) 0 rfl a b e st
  simp only [List.map_id'] at this
  rw [this]

end IntroSort

namespace TimSort

theorem copyRunOn_erase {α : Type} (key : α → Int) (dflt : α) (h0 : key dflt = 0)
    (a : List α) (off len : Nat) :
    copyRun (a.map key) off len = (copyRunOn dflt a off len).map key := by
  unfold copyRun copyRunOn
  have key' := foldl_range'_sim
    (fun _ (c : List Int) (t : List α) => c = t.map key)
    (fun tmp i => tmp.set i (rd (a.map key) (off + i)))
    (fun tmp i => tmp.set i (a.getD (off + i) dflt)) 0 len
    (List.replicate len 0) (List.replicate len dflt)
    (by simp [h0])
    (by
      intro i c t _ _ hp
      rw [hp]
      dsimp only
      rw [rd_map_getD key dflt h0, List.map_set])
  exact key'

theorem drainOn_erase {α : Type} (key : α → Int) (dflt : α) (h0 : key dflt = 0)
    (src : List α) (i k : Nat) (b : List α) (st : SortStats) :
    drain (src.map key) i k (b.map key) st
      = ((drainOn dflt src i k b st).1.map key, (drainOn dflt src i k b st).2) := by
  unfold drain drainOn
  rw [List.length_map]
  have key' := foldl_range'_sim
    (fun _ (s : SortState) (t : List α × SortStats) => s = (t.1.map key, t.2))
    (fun (s : SortState) t =>
      (s.1.set (k + t) (rd (src.map key) (i + t)), s.2.addAsg 1))
    (fun (s : List α × SortStats) t => (s.1.set (k + t) (src.getD (i + t) dflt), s.2.addAsg 1))
    0 (src.length - i) (b.map key, st) (b, st) rfl
    (by
      intro t s u _ _ hp
      rw [hp]
      dsimp only
      rw [rd_map_getD key dflt h0, List.map_set])
  exact key'

theorem mergeLoopOn_erase {α : Type} (key : α → Int) (dflt : α) (h0 : key dflt = 0)
    (L R : List α) :
    ∀ (fuel i j k : Nat) (b : List α) (st : SortStats),
      mergeLoop (L.map key) (R.map key) fuel i j k (b.map key) st
        = ((mergeLoopOn key dflt L R fuel i j k b st).1,
            (mergeLoopOn key dflt L R fuel i j k b st).2.1,
            (mergeLoopOn key dflt L R fuel i j k b st).2.2.1,
            (mergeLoopOn key dflt L R fuel i j k b st).2.2.2.1.map key,
            (mergeLoopOn key dflt L R fuel i j k b st).2.2.2.2) := by
  intro fuel
  induction fuel with
  | zero => intro i j k b st; rfl
  | succ fuel ih =>
    intro i j k b st
    unfold mergeLoop mergeLoopOn
    rw [List.length_map, List.length_map]
    by_cases hc : i < L.length ∧ j < R.length
    · rw [if_pos hc, if_pos hc, rd_map_getD key dflt h0, rd_map_getD key dflt h0]
      by_cases h2 : key (L.getD i dflt) ≤ key (R.getD j dflt)
      · rw [if_pos h2, if_pos h2, ← List.map_set]
        exact ih _ _ _ _ _
      · rw [if_neg h2, if_neg h2, ← List.map_set]
        exact ih _ _ _ _ _
    · rw [if_neg hc, if_neg hc]

/-- The merge over elements moves the elements as `TimSort::merge` moves their keys, and
returns the same counter. -/
theorem mergeOn_erase {α : Type} (key : α → Int) (dflt : α) (h0 : key dflt = 0)
    (a : List α) (l m r : Nat) (st : SortStats) :
    merge (a.map key) l m r st
      = ((mergeOn key dflt a l m r st).1.map key, (mergeOn key dflt a l m r st).2) := by
  unfold merge mergeOn
  dsimp only
  rw [copyRunOn_erase key dflt h0, copyRunOn_erase key dflt h0,
    mergeLoopOn_erase key dflt h0]
  dsimp only
  rw [List.length_map, drainOn_erase key dflt h0]
  dsimp only
  rw [drainOn_erase key dflt h0]

/-- At the element type `int` with the identity key the routine over elements is
`TimSort::merge`. -/
theorem mergeOn_int (a : List Int) (l m r : Nat) (st : SortStats) :
    mergeOn (fun x : Int => x) 0 a l m r st = merge a l m r st := by
  have := mergeOn_erase (fun x : Int => x) 0 rfl a l m r st
  simp only [List.map_id'] at this
  rw [this]

end TimSort

namespace IntroSort

theorem insertionShiftOn_records (left : Nat) (k : StabilityTestItem) :
    ∀ (j : Nat) (items : List StabilityTestItem) (st : SortStats),
      (insertionShiftOn (fun x : StabilityTestItem => x.key) TimSortWrapper.blank left k j
          items st).1 = (TimSortWrapper.insertionShift left k j items).1 ∧
      (insertionShiftOn (fun x : StabilityTestItem => x.key) TimSortWrapper.blank left k j
          items st).2.1 = (TimSortWrapper.insertionShift left k j items).2 := by
  intro j
  induction j with
  | zero => intro items st; exact ⟨rfl, rfl⟩
  | succ j ih =>
    intro items st
    unfold insertionShiftOn TimSortWrapper.insertionShift
    by_cases h1 : left ≤ j
    · rw [if_pos h1]
      by_cases h2 : (items.getD j TimSortWrapper.blank).key > k.key
      · rw [if_pos h2, if_pos ⟨h1, h2⟩]
        exact ih _ _
      · rw [if_neg h2, if_neg (fun h => h2 h.2)]
        exact ⟨rfl, rfl⟩
    · rw [if_neg h1, if_neg (fun h => h1 h.1)]
      exact ⟨rfl, rfl⟩

theorem insertionSortOn_records (items : List StabilityTestItem) (b e : Nat) (st : SortStats) :
    (insertionSortOn (fun x : StabilityTestItem => x.key) TimSortWrapper.blank items b e st).1
      = TimSortWrapper.insertionSort items b e := by
  unfold insertionSortOn TimSortWrapper.insertionSort
  have key := foldl_range'_sim
    (fun _ (s : List StabilityTestItem × SortStats) (t : List StabilityTestItem) => s.1 = t)
    (insertionStepOn (fun x : StabilityTestItem => x.key) TimSortWrapper.blank b)
    (TimSortWrapper.insertionStep b) (b + 1) (e - b) (items, st) items rfl
    (by
      intro i s t _ _ hp
      unfold insertionStepOn TimSortWrapper.insertionStep
      dsimp only
      obtain ⟨m1, m2⟩ := insertionShiftOn_records b (s.1.getD i TimSortWrapper.blank) i s.1
        (s.2.addAsg 1)
      rw [m1, m2, hp]
      rfl)
  exact key

theorem rd_map_originalPos (T : List StabilityTestItem) (k : Nat) :
    rd (T.map (fun x => x.originalPos)) k = (TimSortWrapper.rdItem T k).originalPos :=
  rd_map_getD (fun x : StabilityTestItem => x.originalPos) TimSortWrapper.blank rfl T k

/-- Order of equal elements after `IntroSort::insertionSort`, read off the run over the
tagged vector. -/
theorem insertionSortOn_tagged (a : List Int) (b e : Nat) (st : SortStats) (hbe : b ≤ e)
    (he : e < a.length) :
    ((insertionSortOn (fun x : StabilityTestItem => x.key) TimSortWrapper.blank
        (TimSortWrapper.tagged a) b e st).1.map (fun x => x.key),
      (insertionSortOn (fun x : StabilityTestItem => x.key) TimSortWrapper.blank
        (TimSortWrapper.tagged a) b e st).2) = insertionSort a b e st ∧
    (∀ k, b ≤ k → k ≤ e → ∃ i, b ≤ i ∧ i ≤ e ∧
      rd ((insertionSortOn (fun x : StabilityTestItem => x.key) TimSortWrapper.blank
        (TimSortWrapper.tagged a) b e st).1.map (fun x => x.originalPos)) k = (i : Int) ∧
      rd (insertionSort a b e st).1 k = rd a i) ∧
    (∀ k1 k2, b ≤ k1 → k1 < k2 → k2 ≤ e →
      rd ((insertionSortOn (fun x : StabilityTestItem => x.key) TimSortWrapper.blank
        (TimSortWrapper.tagged a) b e st).1.map (fun x => x.originalPos)) k1
      ≠ rd ((insertionSortOn (fun x : StabilityTestItem => x.key) TimSortWrapper.blank
        (TimSortWrapper.tagged a) b e st).1.map (fun x => x.originalPos)) k2) ∧
    (∀ k1 k2, b ≤ k1 → k1 < k2 → k2 ≤ e →
      rd (insertionSort a b e st).1 k1 = rd (insertionSort a b e st).1 k2 →
      rd ((insertionSortOn (fun x : StabilityTestItem => x.key) TimSortWrapper.blank
        (TimSortWrapper.tagged a) b e st).1.map (fun x => x.originalPos)) k1
      < rd ((insertionSortOn (fun x : StabilityTestItem => x.key) TimSortWrapper.blank
        (TimSortWrapper.tagged a) b e st).1.map (fun x => x.originalPos)) k2) := by
  have hE := insertionSortOn_erase (fun x : StabilityTestItem => x.key) TimSortWrapper.blank rfl
    (TimSortWrapper.tagged a) b e st
  rw [TimSortWrapper.map_key_tagged] at hE
  obtain ⟨t1, t2, t3, t4⟩ := TimSortWrapper.insertionSort_tagged a b e st hbe he
  have hK : ∀ k, rd (insertionSort a b e st).1 k
      = (TimSortWrapper.rdItem (TimSortWrapper.insertionSort (TimSortWrapper.tagged a) b e)
          k).key := by
    intro k
    rw [← t1, TimSortWrapper.rd_map_key]
  refine ⟨hE.symm, ?_, ?_, ?_⟩
  · intro k h1 h2
    obtain ⟨i, i1, i2, i3, i4⟩ := t2 k h1 h2
    exact ⟨i, i1, i2, by rw [rd_map_originalPos, insertionSortOn_records]; exact i3,
      by rw [hK]; exact i4⟩
  · intro k1 k2 h1 h2 h3
    rw [rd_map_originalPos, rd_map_originalPos, insertionSortOn_records]
    exact t4 k1 k2 h1 h2 h3
  · intro k1 k2 h1 h2 h3 hk
    rw [rd_map_originalPos, rd_map_originalPos, insertionSortOn_records]
    rw [hK, hK] at hk
    exact t3 k1 k2 h1 h2 h3 hk

end IntroSort

namespace TimSort

theorem copyRunOn_records (items : List StabilityTestItem) (off len : Nat) :
    copyRunOn TimSortWrapper.blank items off len = TimSortWrapper.copyRun items off len := rfl

theorem mergeLoopOn_records (L R : List StabilityTestItem) :
    ∀ (fuel i j k : Nat) (b : List StabilityTestItem) (st : SortStats),
      ((mergeLoopOn (fun x : StabilityTestItem => x.key) TimSortWrapper.blank L R fuel i j k
          b st).1,
        (mergeLoopOn (fun x : StabilityTestItem => x.key) TimSortWrapper.blank L R fuel i j k
          b st).2.1,
        (mergeLoopOn (fun x : StabilityTestItem => x.key) TimSortWrapper.blank L R fuel i j k
          b st).2.2.1,
        (mergeLoopOn (fun x : StabilityTestItem => x.key) TimSortWrapper.blank L R fuel i j k
          b st).2.2.2.1) = TimSortWrapper.mergeLoop L R fuel i j k b := by
  intro fuel
  induction fuel with
  | zero => intro i j k b st; rfl
  | succ fuel ih =>
    intro i j k b st
    unfold mergeLoopOn TimSortWrapper.mergeLoop
    by_cases hc : i < L.length ∧ j < R.length
    · rw [if_pos hc, if_pos hc]
      by_cases h2 : (L.getD i TimSortWrapper.blank).key ≤ (R.getD j TimSortWrapper.blank).key
      · rw [if_pos h2]
        have h2' : (TimSortWrapper.rdItem L i).key ≤ (TimSortWrapper.rdItem R j).key := h2
        rw [if_pos h2']
        exact ih _ _ _ _ _
      · rw [if_neg h2]
        have h2' : ¬ (TimSortWrapper.rdItem L i).key ≤ (TimSortWrapper.rdItem R j).key := h2
        rw [if_neg h2']
        exact ih _ _ _ _ _
    · rw [if_neg hc, if_neg hc]

theorem drainOn_records (src : List StabilityTestItem) (i k : Nat)
    (b : List StabilityTestItem) (st : SortStats) :
    (drainOn TimSortWrapper.blank src i k b st).1 = TimSortWrapper.drain src i k b := by
  unfold drainOn TimSortWrapper.drain
  have key := foldl_range'_sim
    (fun _ (s : List StabilityTestItem × SortStats) (t : List StabilityTestItem) => s.1 = t)
    (fun (s : List StabilityTestItem × SortStats) t =>
      (s.1.set (k + t) (src.getD (i + t) TimSortWrapper.blank), s.2.addAsg 1))
    (fun s t => s.set (k + t) (TimSortWrapper.rdItem src (i + t)))
    0 (src.length - i) (b, st) b rfl
    (by
      intro t s u _ _ hp
      dsimp only
      rw [hp]
      rfl)
  exact key

theorem mergeOn_records (items : List StabilityTestItem) (l m r : Nat) (st : SortStats) :
    (mergeOn (fun x : StabilityTestItem => x.key) TimSortWrapper.blank items l m r st).1
      = TimSortWrapper.merge items l m r := by
  unfold mergeOn TimSortWrapper.merge
  dsimp only
  rw [copyRunOn_records, copyRunOn_records]
  have hq := mergeLoopOn_records (TimSortWrapper.copyRun items l (m + 1 - l))
    (TimSortWrapper.copyRun items (m + 1) (r - m)) (m + 1 - l + (r - m)) 0 0 l items
    (((st.addMem ((m + 1 - l + (r - m)) * sizeofInt)).addAsg ((m + 1 - l : Nat) : Int)).addAsg
      ((r - m : Nat) : Int))
  generalize mergeLoopOn (fun x : StabilityTestItem => x.key) TimSortWrapper.blank
    (TimSortWrapper.copyRun items l (m + 1 - l))
    (TimSortWrapper.copyRun items (m + 1) (r - m)) (m + 1 - l + (r - m)) 0 0 l items
    (((st.addMem ((m + 1 - l + (r - m)) * sizeofInt)).addAsg ((m + 1 - l : Nat) : Int)).addAsg
      ((r - m : Nat) : Int)) = G at hq ⊢
  rw [← hq]
  dsimp only
  rw [drainOn_records, drainOn_records]

/-- Order of equal elements after `TimSort::merge`, read off the run over the tagged
vector. -/
theorem mergeOn_tagged (a : List Int) (l m r : Nat) (st : SortStats) (hlm : l ≤ m)
    (hmr : m < r) (hr : r < a.length) (h1 : SortedOn a l m) (h2 : SortedOn a (m + 1) r) :
    ((mergeOn (fun x : StabilityTestItem => x.key) TimSortWrapper.blank
        (TimSortWrapper.tagged a) l m r st).1.map (fun x => x.key),
      (mergeOn (fun x : StabilityTestItem => x.key) TimSortWrapper.blank
        (TimSortWrapper.tagged a) l m r st).2) = merge a l m r st ∧
    (∀ k, l ≤ k → k ≤ r → ∃ i, l ≤ i ∧ i ≤ r ∧
      rd ((mergeOn (fun x : StabilityTestItem => x.key) TimSortWrapper.blank
        (TimSortWrapper.tagged a) l m r st).1.map (fun x => x.originalPos)) k = (i : Int) ∧
      rd (merge a l m r st).1 k = rd a i) ∧
    (∀ k1 k2, l ≤ k1 → k1 < k2 → k2 ≤ r →
      rd ((mergeOn (fun x : StabilityTestItem => x.key) TimSortWrapper.blank
        (TimSortWrapper.tagged a) l m r st).1.map (fun x => x.originalPos)) k1
      ≠ rd ((mergeOn (fun x : StabilityTestItem => x.key) TimSortWrapper.blank
        (TimSortWrapper.tagged a) l m r st).1.map (fun x => x.originalPos)) k2) ∧
    (∀ k1 k2, l ≤ k1 → k1 < k2 → k2 ≤ r →
      rd (merge a l m r st).1 k1 = rd (merge a l m r st).1 k2 →
      rd ((mergeOn (fun x : StabilityTestItem => x.key) TimSortWrapper.blank
        (TimSortWrapper.tagged a) l m r st).1.map (fun x => x.originalPos)) k1
      < rd ((mergeOn (fun x : StabilityTestItem => x.key) TimSortWrapper.blank
        (TimSortWrapper.tagged a) l m r st).1.map (fun x => x.originalPos)) k2) := by
  have hE := mergeOn_erase (fun x : StabilityTestItem => x.key) TimSortWrapper.blank rfl
    (TimSortWrapper.tagged a) l m r st
  rw [TimSortWrapper.map_key_tagged] at hE
  obtain ⟨t1, t2, t3, t4⟩ := TimSortWrapper.merge_tagged a l m r st hlm hmr hr h1 h2
  have hK : ∀ k, rd (merge a l m r st).1 k
      = (TimSortWrapper.rdItem (TimSortWrapper.merge (TimSortWrapper.tagged a) l m r) k).key := by
    intro k
    rw [← t1, TimSortWrapper.rd_map_key]
  refine ⟨hE.symm, ?_, ?_, ?_⟩
  · intro k a1 a2
    obtain ⟨i, i1, i2, i3, i4⟩ := t2 k a1 a2
    exact ⟨i, i1, i2, by rw [IntroSort.rd_map_originalPos, mergeOn_records]; exact i3,
      by rw [hK]; exact i4⟩
  · intro k1 k2 a1 a2 a3
    rw [IntroSort.rd_map_originalPos, IntroSort.rd_map_originalPos, mergeOn_records]
    exact t4 k1 k2 a1 a2 a3
  · intro k1 k2 a1 a2 a3 hk
    rw [IntroSort.rd_map_originalPos, IntroSort.rd_map_originalPos, mergeOn_records]
    rw [hK, hK] at hk
    exact t3 k1 k2 a1 a2 a3 hk

end TimSort

/-- C22: `TimSort::merge` is a stable two-pointer merge.  For `l ≤ m < r < arr.size()` with
`arr[l..m]` and `arr[m+1..r]` non-decreasing, after `merge(arr, l, m, r)` the range
`arr[l..r]` is non-decreasing and a permutation of its former contents and the elements
outside `[l, r]` are unchanged.  For the order of equal values the routine is run on the
records `(arr[i], i)`, compared by value: the routine over elements is `TimSort::merge`
itself at the element type `int` (same vector and same counter for every input), and its run
over the records has the values and the counter of the run of `TimSort::merge` on `arr`.
With `pos[k]` the index that the record in slot `k` carries: every slot `k` of the range
receives the element of a slot `pos[k]` of the range, no slot is used twice, slots that
receive equal values receive them in the order of their original positions, and so every
element that came from the left run `[l, m]` precedes every equal element that came from the
right run `[m+1, r]`. -/
theorem timSort_merge_stable (arr : List Int) (l m r : Nat) (stats : SortStats)
    (hlm : l ≤ m) (hmr : m < r) (hr : r < arr.length)
    (h1 : SortedOn arr l m) (h2 : SortedOn arr (m + 1) r) :
    SortedOn (TimSort.merge arr l m r stats).1 l r ∧
    (seg (TimSort.merge arr l m r stats).1 l (r + 1)).Perm (seg arr l (r + 1)) ∧
    SameOutside arr (TimSort.merge arr l m r stats).1 l r ∧
    TimSort.mergeOn (fun x : Int => x) 0 arr l m r stats = TimSort.merge arr l m r stats ∧
    ((TimSort.mergeOn (fun x : StabilityTestItem => x.key) TimSortWrapper.blank
        (TimSortWrapper.tagged arr) l m r stats).1.map (fun x => x.key),
      (TimSort.mergeOn (fun x : StabilityTestItem => x.key) TimSortWrapper.blank
        (TimSortWrapper.tagged arr) l m r stats).2) = TimSort.merge arr l m r stats ∧
    (∀ k, l ≤ k → k ≤ r → ∃ i, l ≤ i ∧ i ≤ r ∧
      rd ((TimSort.mergeOn (fun x : StabilityTestItem => x.key) TimSortWrapper.blank
        (TimSortWrapper.tagged arr) l m r stats).1.map (fun x => x.originalPos)) k = (i : Int) ∧
      rd (TimSort.merge arr l m r stats).1 k = rd arr i) ∧
    (∀ k1 k2, l ≤ k1 → k1 < k2 → k2 ≤ r →
      rd ((TimSort.mergeOn (fun x : StabilityTestItem => x.key) TimSortWrapper.blank
        (TimSortWrapper.tagged arr) l m r stats).1.map (fun x => x.originalPos)) k1
      ≠ rd ((TimSort.mergeOn (fun x : StabilityTestItem => x.key) TimSortWrapper.blank
        (TimSortWrapper.tagged arr) l m r stats).1.map (fun x => x.originalPos)) k2) ∧
    (∀ k1 k2, l ≤ k1 → k1 < k2 → k2 ≤ r →
      rd (TimSort.merge arr l m r stats).1 k1 = rd (TimSort.merge arr l m r stats).1 k2 →
      rd ((TimSort.mergeOn (fun x : StabilityTestItem => x.key) TimSortWrapper.blank
        (TimSortWrapper.tagged arr) l m r stats).1.map (fun x => x.originalPos)) k1
      < rd ((TimSort.mergeOn (fun x : StabilityTestItem => x.key) TimSortWrapper.blank
        (TimSortWrapper.tagged arr) l m r stats).1.map (fun x => x.originalPos)) k2) ∧
    (∀ k1 k2, l ≤ k1 → k1 ≤ r → l ≤ k2 → k2 ≤ r →
      rd (TimSort.merge arr l m r stats).1 k1 = rd (TimSort.merge arr l m r stats).1 k2 →
      rd ((TimSort.mergeOn (fun x : StabilityTestItem => x.key) TimSortWrapper.blank
        (TimSortWrapper.tagged arr) l m r stats).1.map (fun x => x.originalPos)) k1
        ≤ (m : Int) →
      (m : Int) < rd ((TimSort.mergeOn (fun x : StabilityTestItem => x.key)
        TimSortWrapper.blank (TimSortWrapper.tagged arr) l m r stats).1.map
          (fun x => x.originalPos)) k2 →
      k1 < k2) := by
  obtain ⟨q1, q2, q3⟩ := TimSort.merge_spec arr l m r stats hlm hmr hr h1 h2
  obtain ⟨t1, t2, t3, t4⟩ := TimSort.mergeOn_tagged arr l m r stats hlm hmr hr h1 h2
  refine ⟨q3, seg_perm_of_sameOutside arr _ l r (by omega) q1 q2, q2,
    TimSort.mergeOn_int arr l m r stats, t1, t2, t3, t4, ?_⟩
  intro k1 k2 a1 a2 a3 a4 hk hp1 hp2
  by_contra hcon
  rcases Nat.lt_or_ge k2 k1 with h | h
  · have := t4 k2 k1 a3 h a2 hk.symm
    omega
  · have e : k1 = k2 := by omega
    rw [e] at hp1
    omega

/-- Instance of C22: the runs `1, 3, 3, 5` and `2, 3, 3`.  The merged values are
`1, 2, 3, 3, 3, 3, 5` after six comparisons, and the four `3`s come from the slots `1, 2`
(left run) and then `5, 6` (right run). -/
theorem timSort_merge_stable_witness :
    0 ≤ 3 ∧ 3 < 6 ∧ 6 < ([1, 3, 3, 5, 2, 3, 3] : List Int).length ∧
    SortedOn [1, 3, 3, 5, 2, 3, 3] 0 3 ∧ SortedOn [1, 3, 3, 5, 2, 3, 3] (3 + 1) 6 ∧
    TimSort.merge [1, 3, 3, 5, 2, 3, 3] 0 3 6 SortStats.zero
      = ([1, 2, 3, 3, 3, 3, 5], ⟨6, 14, 28⟩) ∧
    (TimSort.mergeOn (fun x : StabilityTestItem => x.key) TimSortWrapper.blank
      (TimSortWrapper.tagged [1, 3, 3, 5, 2, 3, 3]) 0 3 6 SortStats.zero).1.map
      (fun x => x.originalPos) = [0, 4, 1, 2, 5, 6, 3] ∧
    TimSort.mergeOn (fun x : Int => x) 0 [1, 3, 3, 5, 2, 3, 3] 0 3 6 SortStats.zero
      = TimSort.merge [1, 3, 3, 5, 2, 3, 3] 0 3 6 SortStats.zero ∧
    ((TimSort.mergeOn (fun x : StabilityTestItem => x.key) TimSortWrapper.blank
        (TimSortWrapper.tagged [1, 3, 3, 5, 2, 3, 3]) 0 3 6 SortStats.zero).1.map
        (fun x => x.key),
      (TimSort.mergeOn (fun x : StabilityTestItem => x.key) TimSortWrapper.blank
        (TimSortWrapper.tagged [1, 3, 3, 5, 2, 3, 3]) 0 3 6 SortStats.zero).2)
      = TimSort.merge [1, 3, 3, 5, 2, 3, 3] 0 3 6 SortStats.zero :=
  ⟨by decide, by decide, by decide,
   sortedOn_of_adjacent _ _ _ (by decide), sortedOn_of_adjacent _ _ _ (by decide),
   by decide, by decide,
   (timSort_merge_stable [1, 3, 3, 5, 2, 3, 3] 0 3 6 SortStats.zero (by decide) (by decide)
     (by decide) (sortedOn_of_adjacent _ _ _ (by decide))
     (sortedOn_of_adjacent _ _ _ (by decide))).2.2.2.1,
   (timSort_merge_stable [1, 3, 3, 5, 2, 3, 3] 0 3 6 SortStats.zero (by decide) (by decide)
     (by decide) (sortedOn_of_adjacent _ _ _ (by decide))
     (sortedOn_of_adjacent _ _ _ (by decide))).2.2.2.2.1⟩

/-- C25: `IntroSort::insertionSort(arr, begin, end)` sorts only its range.  For
`begin ≤ end < arr.size()`, afterwards `arr[begin..end]` is non-decreasing and a permutation
of its former contents and every element outside `[begin, end]` is unchanged.  For the order
of equal elements the routine is run on the records `(arr[i], i)`, compared by value: the
routine over elements is `IntroSort::insertionSort` itself at the element type `int` (same
vector and same counter for every input), and its run over the records has the values and
the counter of the run of `IntroSort::insertionSort` on `arr`.  With `pos[k]` the index that
the record in slot `k` carries: every slot `k` of the range receives the element of a slot
`pos[k]` of the range, no slot is used twice, and slots that receive equal values receive
them in the order of their original positions. -/
theorem introSort_insertionSort_stable (arr : List Int) (begin end_ : Nat)
    (stats : SortStats) (hbe : begin ≤ end_) (he : end_ < arr.length) :
    SortedOn (IntroSort.insertionSort arr begin end_ stats).1 begin end_ ∧
    (seg (IntroSort.insertionSort arr begin end_ stats).1 begin (end_ + 1)).Perm
      (seg arr begin (end_ + 1)) ∧
    SameOutside arr (IntroSort.insertionSort arr begin end_ stats).1 begin end_ ∧
    IntroSort.insertionSortOn (fun x : Int => x) 0 arr begin end_ stats
      = IntroSort.insertionSort arr begin end_ stats ∧
    ((IntroSort.insertionSortOn (fun x : StabilityTestItem => x.key) TimSortWrapper.blank
        (TimSortWrapper.tagged arr) begin end_ stats).1.map (fun x => x.key),
      (IntroSort.insertionSortOn (fun x : StabilityTestItem => x.key) TimSortWrapper.blank
        (TimSortWrapper.tagged arr) begin end_ stats).2)
      = IntroSort.insertionSort arr begin end_ stats ∧
    (∀ k, begin ≤ k → k ≤ end_ → ∃ i, begin ≤ i ∧ i ≤ end_ ∧
      rd ((IntroSort.insertionSortOn (fun x : StabilityTestItem => x.key) TimSortWrapper.blank
        (TimSortWrapper.tagged arr) begin end_ stats).1.map (fun x => x.originalPos)) k
        = (i : Int) ∧
      rd (IntroSort.insertionSort arr begin end_ stats).1 k = rd arr i) ∧
    (∀ k1 k2, begin ≤ k1 → k1 < k2 → k2 ≤ end_ →
      rd ((IntroSort.insertionSortOn (fun x : StabilityTestItem => x.key) TimSortWrapper.blank
        (TimSortWrapper.tagged arr) begin end_ stats).1.map (fun x => x.originalPos)) k1
      ≠ rd ((IntroSort.insertionSortOn (fun x : StabilityTestItem => x.key)
        TimSortWrapper.blank (TimSortWrapper.tagged arr) begin end_ stats).1.map
          (fun x => x.originalPos)) k2) ∧
    (∀ k1 k2, begin ≤ k1 → k1 < k2 → k2 ≤ end_ →
      rd (IntroSort.insertionSort arr begin end_ stats).1 k1
        = rd (IntroSort.insertionSort arr begin end_ stats).1 k2 →
      rd ((IntroSort.insertionSortOn (fun x : StabilityTestItem => x.key) TimSortWrapper.blank
        (TimSortWrapper.tagged arr) begin end_ stats).1.map (fun x => x.originalPos)) k1
      < rd ((IntroSort.insertionSortOn (fun x : StabilityTestItem => x.key)
        TimSortWrapper.blank (TimSortWrapper.tagged arr) begin end_ stats).1.map
          (fun x => x.originalPos)) k2) := by
  obtain ⟨q1, q2, q3⟩ := IntroSort.insertionSort_spec arr begin end_ stats hbe he
  obtain ⟨t1, t2, t3, t4⟩ := IntroSort.insertionSortOn_tagged arr begin end_ stats hbe he
  exact ⟨q3, seg_perm_of_sameOutside arr _ begin end_ (by omega) q1 q2, q2,
    IntroSort.insertionSortOn_int arr begin end_ stats, t1, t2, t3, t4⟩

/-- Instance of C25 on `[7, 2, 1, 2, 1, 0]` with the range `[1, 4]`: the range becomes
`1, 1, 2, 2` after five comparisons and nine assignments, the two `1`s coming from the slots
`2, 4` and the two `2`s from the slots `1, 3`, in that order; the slots `0` and `5` are
untouched. -/
theorem introSort_insertionSort_stable_witness :
    1 ≤ 4 ∧ 4 < ([7, 2, 1, 2, 1, 0] : List Int).length ∧
    IntroSort.insertionSort [7, 2, 1, 2, 1, 0] 1 4 SortStats.zero
      = ([7, 1, 1, 2, 2, 0], ⟨5, 9, 0⟩) ∧
    (IntroSort.insertionSortOn (fun x : StabilityTestItem => x.key) TimSortWrapper.blank
      (TimSortWrapper.tagged [7, 2, 1, 2, 1, 0]) 1 4 SortStats.zero).1.map
      (fun x => x.originalPos) = [0, 2, 4, 1, 3, 5] ∧
    IntroSort.insertionSortOn (fun x : Int => x) 0 [7, 2, 1, 2, 1, 0] 1 4 SortStats.zero
      = IntroSort.insertionSort [7, 2, 1, 2, 1, 0] 1 4 SortStats.zero ∧
    ((IntroSort.insertionSortOn (fun x : StabilityTestItem => x.key) TimSortWrapper.blank
        (TimSortWrapper.tagged [7, 2, 1, 2, 1, 0]) 1 4 SortStats.zero).1.map (fun x => x.key),
      (IntroSort.insertionSortOn (fun x : StabilityTestItem => x.key) TimSortWrapper.blank
        (TimSortWrapper.tagged [7, 2, 1, 2, 1, 0]) 1 4 SortStats.zero).2)
      = IntroSort.insertionSort [7, 2, 1, 2, 1, 0] 1 4 SortStats.zero :=
  ⟨by decide, by decide, by decide, by decide,
   (introSort_insertionSort_stable [7, 2, 1, 2, 1, 0] 1 4 SortStats.zero (by decide)
     (by decide)).2.2.2.1,
   (introSort_insertionSort_stable [7, 2, 1, 2, 1, 0] 1 4 SortStats.zero (by decide)
     (by decide)).2.2.2.2.1⟩

/-! ## The gapped array of library sort: the invariant -/

theorem LibrarySort.gapSorted_start (arr : List Int) :
    LibrarySort.GapSorted ((List.replicate (arr.length * 2) (-1 : Int)).set 0 (rd arr 0)) := by
  intro i j hij hj _ rj
  rw [List.length_set] at hj
  exfalso
  apply rj
  rw [rd_set_ne _ _ (by omega), rd_of_lt _ (by simpa using hj)]
  simp

/-- C30: gapped-array invariant of Library Sort.  After the first element is placed and after
each subsequent insertion step of `LibrarySort::sort` (`findPosition`, `makeRoom`, write) the
non-sentinel entries of the gapped array, read from left to right, are in non-decreasing
order.  The state after the first element is placed has the property; an insertion step
from a state that has it leads to a state that has it (also when the step rebalances
first); so every state `stateAfter arr k` that the loop reaches has it, and `sort` copies
back from the last of them.  (A step that writes out of range leaves no state; the property
is about the states that exist.)  The input may also contain `-1`. -/
theorem librarySort_gapped_invariant :
    (∀ (arr : List Int) (k : Nat) (s : LibrarySort.InsertState),
      LibrarySort.stateAfter arr k = some s →
      (s.1.filter (fun x => decide (x ≠ -1))).Sorted (fun x y => x ≤ y)) ∧
    (∀ arr : List Int, arr ≠ [] →
      LibrarySort.sort arr = (LibrarySort.stateAfter arr (arr.length - 1)).map (fun s =>
        ((LibrarySort.compact s.1 arr s.2.2.2).1,
          (LibrarySort.compact s.1 arr s.2.2.2).2.2))) ∧
    (∀ arr : List Int, ∃ s, LibrarySort.stateAfter arr 0 = some s ∧
      s.1 = (List.replicate (arr.length * 2) (-1 : Int)).set 0 (rd arr 0) ∧
      LibrarySort.GapSorted s.1) ∧
    (∀ (arr : List Int) (s s' : LibrarySort.InsertState) (i : Nat),
      LibrarySort.GapSorted s.1 → LibrarySort.insertStep arr s i = some s' →
      LibrarySort.GapSorted s'.1) ∧
    (∀ (arr : List Int) (k : Nat) (s : LibrarySort.InsertState),
      LibrarySort.stateAfter arr k = some s → LibrarySort.GapSorted s.1) ∧
    (∀ g : List Int, LibrarySort.GapSorted g →
      (g.filter (fun x => decide (x ≠ -1))).Sorted (fun x y => x ≤ y)) := by
  refine ⟨stateAfter_sorted, sort_eq_stateAfter, ?_, ?_, ?_, LibrarySort.sorted_filter⟩
  · intro arr
    exact ⟨_, LibrarySort.stateAfter_zero arr, rfl, LibrarySort.gapSorted_start arr⟩
  · intro arr s s' i hg h
    exact LibrarySort.insertStep_sorted arr s s' i hg h
  · intro arr k s h
    exact LibrarySort.gapped_sorted arr k s h

/-- Instances of C30.  On `[3, 1, 2]` the gapped array is `[1, 3, -1, -1, -1, -1]` after one
insertion step and `[1, 2, 3, -1, -1, -1]` after two; on `[1, 2, 3]` it is
`[1, -1, -1, -1, -1, 2]` after one step.  The stored entries are in order each time. -/
theorem librarySort_gapped_invariant_witness :
    LibrarySort.stateAfter [3, 1, 2] 2 = some ([1, 2, 3, -1, -1, -1], 6, 3, ⟨3, 5, 24⟩) ∧
    (LibrarySort.stateAfter [3, 1, 2] 1).map (fun s => s.1) = some [1, 3, -1, -1, -1, -1] ∧
    LibrarySort.stateAfter [1, 2, 3] 1 = some ([1, -1, -1, -1, -1, 2], 6, 2, ⟨1, 2, 24⟩) ∧
    (([1, 2, 3, -1, -1, -1] : List Int).filter (fun x => decide (x ≠ -1))).Sorted
      (fun x y => x ≤ y) ∧
    (([1, -1, -1, -1, -1, 2] : List Int).filter (fun x => decide (x ≠ -1))).Sorted
      (fun x y => x ≤ y) :=
  ⟨by decide, by decide, by decide,
   librarySort_gapped_invariant.1 [3, 1, 2] 2 ([1, 2, 3, -1, -1, -1], 6, 3, ⟨3, 5, 24⟩)
     (by decide),
   librarySort_gapped_invariant.1 [1, 2, 3] 1 ([1, -1, -1, -1, -1, 2], 6, 2, ⟨1, 2, 24⟩)
     (by decide)⟩
